import Mathlib

/-!
Low-latency matching engine: the bitmap order book (OrderBookV6).

A shallow embedding of `src/V6/src/OrderBookV6.{h,cpp}`, `src/V4/src/ObjectPool.h`
and `src/V3/src/HP_Types.h`.

* Pointers into the order pool (`HP_Order_V6*`) are slot indices, `Option Nat`
  with `none` for `nullptr`.
* `std::vector`s indexed by price, order id or word index are total functions
  on `Nat`; their sizes are the compile-time constants of `HP_Types.h`.
* `Quantity` is `uint32_t`: additions and subtractions wrap modulo `2^32`.
* The `while` loops of `AddOrder` take a fuel argument and report
  `Error.OutOfFuel` when it runs out.
-/

namespace LLME

/-! ## HP_Types.h -/

/-- `constexpr Price MAX_PRICE = 25000;` -/
def MAX_PRICE : Nat := 25000

/-- `constexpr OrderId MAX_ORDER_ID = 3000000;` -/
def MAX_ORDER_ID : Nat := 3000000

/-- `enum class Side { BUY, SELL };` -/
inductive Side where
  | BUY
  | SELL
deriving DecidableEq, Repr

/-- Wrap-around addition on `Quantity` (`uint32_t`). -/
def add32 (a b : Nat) : Nat := (a + b) % 2 ^ 32

/-- Wrap-around subtraction on `Quantity` (`uint32_t`). -/
def sub32 (a b : Nat) : Nat := (a + 2 ^ 32 - b % 2 ^ 32) % 2 ^ 32

/-! ## OrderBookV6.h -/

/-- `struct HP_Order_V6`: an order record; `next` and `prev` are slots of the pool. -/
structure HP_Order_V6 where
  order_id : Nat
  quantity : Nat
  price : Nat
  side : Side
  next : Option Nat
  prev : Option Nat
deriving DecidableEq, Repr

/-- `struct PriceLevel_V6`. -/
structure PriceLevel_V6 where
  total_quantity : Nat
  head : Option Nat
  tail : Option Nat
deriving DecidableEq, Repr

/-- An all-zero record: what value-initialisation and `memset(obj, 0, sizeof(T))` leave. -/
def HP_Order_V6.zero : HP_Order_V6 :=
  { order_id := 0, quantity := 0, price := 0, side := Side.BUY, next := none, prev := none }

/-- A default-constructed `PriceLevel_V6`. -/
def PriceLevel_V6.empty : PriceLevel_V6 :=
  { total_quantity := 0, head := none, tail := none }

/-- What `AddOrder` can run into: the exception of `ObjectPool::NewOrder`, a
dereference of a null `tail` in `AddToList`, or a loop that did not finish
within the fuel. -/
inductive Error where
  | ObjectPoolExhausted
  | NullDeref
  | OutOfFuel
deriving DecidableEq, Repr

/-! ## ObjectPool.h -/

/-- `ObjectPool<HP_Order_V6>`: `pool_` holds the records, `free_list_` is the
stack of free slots, written top first (the vector's `back()` is the head). -/
structure ObjectPool where
  pool_ : Nat → HP_Order_V6
  free_list_ : List Nat

/-- The free list after the constructor's `push_back(&pool_[i])` for
`i = 0 .. n-1`: slot `n-1` is on top. -/
def ObjectPool.initFree : Nat → List Nat
  | 0 => []
  | n + 1 => n :: initFree n

/-- `ObjectPool(size_t initial_size)`. -/
def ObjectPool.new (initial_size : Nat) : ObjectPool :=
  { pool_ := fun _ => HP_Order_V6.zero, free_list_ := ObjectPool.initFree initial_size }

/-- `T* NewOrder()`: throws when the free list is empty, else pops its top. -/
def ObjectPool.NewOrder (pool : ObjectPool) : Except Error (Nat × ObjectPool) :=
  match pool.free_list_ with
  | [] => .error Error.ObjectPoolExhausted
  | obj :: rest => .ok (obj, { pool with free_list_ := rest })

/-- `void DeleteOrder(T* obj)`: zero the record, push the slot. -/
def ObjectPool.DeleteOrder (pool : ObjectPool) (obj : Nat) : ObjectPool :=
  { pool_ := Function.update pool.pool_ obj HP_Order_V6.zero,
    free_list_ := obj :: pool.free_list_ }

/-! ## OrderBookV6.cpp -/

/-- `constexpr size_t BITMAP_SIZE = (MAX_PRICE / 64) + 1;` -/
def BITMAP_SIZE : Nat := MAX_PRICE / 64 + 1

/-- Leading zeros of a 64-bit word, scanning down from bit `fuel - 1`. -/
def clzFrom (x : Nat) : Nat → Nat
  | 0 => 0
  | k + 1 => if x.testBit k then 0 else 1 + clzFrom x k

/-- `__builtin_clzll` (its value at 0, where the builtin is undefined, is 64). -/
def BUILTIN_CLZLL (x : Nat) : Nat := clzFrom x 64

/-- Trailing zeros of a word, scanning up from bit `i` for `fuel` bits. -/
def ctzFrom (x : Nat) : Nat → Nat → Nat
  | 0, i => i
  | fuel + 1, i => if x.testBit i then i else ctzFrom x fuel (i + 1)

/-- `__builtin_ctzll` (its value at 0, where the builtin is undefined, is 64). -/
def BUILTIN_CTZLL (x : Nat) : Nat := ctzFrom x 64 0

/-- Bitwise complement `~x` of a `uint64_t`. -/
def not64 (x : Nat) : Nat := 2 ^ 64 - 1 - x % 2 ^ 64

/-- The class `OrderBookV6`. -/
structure OrderBookV6 where
  bids_ : Nat → PriceLevel_V6
  asks_ : Nat → PriceLevel_V6
  order_pool_ : ObjectPool
  order_map_ : Nat → Option Nat
  best_bid_ : Nat
  best_ask_ : Nat
  bids_bitmap_ : Nat → Nat
  asks_bitmap_ : Nat → Nat

namespace OrderBookV6

/-- The constructor `OrderBookV6::OrderBookV6()`. -/
def new : OrderBookV6 :=
  { bids_ := fun _ => PriceLevel_V6.empty,
    asks_ := fun _ => PriceLevel_V6.empty,
    order_pool_ := ObjectPool.new MAX_ORDER_ID,
    order_map_ := fun _ => none,
    best_bid_ := 0,
    best_ask_ := MAX_PRICE,
    bids_bitmap_ := fun _ => 0,
    asks_bitmap_ := fun _ => 0 }

/-- `bitmap[p >> 6] |= (1ULL << (p & 63));` -/
def set_bit (p : Nat) (bitmap : Nat → Nat) : Nat → Nat :=
  Function.update bitmap (p >>> 6) (bitmap (p >>> 6) ||| (1 <<< (p &&& 63)))

/-- `bitmap[p >> 6] &= ~(1ULL << (p & 63));` -/
def clear_bit (p : Nat) (bitmap : Nat → Nat) : Nat → Nat :=
  Function.update bitmap (p >>> 6) (bitmap (p >>> 6) &&& not64 (1 <<< (p &&& 63)))

/-- The record a slot points to (`*order`). -/
def pool (b : OrderBookV6) (s : Nat) : HP_Order_V6 := b.order_pool_.pool_ s

/-- A write through an order pointer. -/
def setOrder (b : OrderBookV6) (s : Nat) (r : HP_Order_V6) : OrderBookV6 :=
  { b with order_pool_ :=
      { b.order_pool_ with pool_ := Function.update b.order_pool_.pool_ s r } }

/-- The level `(side == Side::BUY) ? bids_[p] : asks_[p]`. -/
def level (b : OrderBookV6) (side : Side) (p : Nat) : PriceLevel_V6 :=
  match side with
  | Side.BUY => b.bids_ p
  | Side.SELL => b.asks_ p

/-- A write through the level reference. -/
def setLevel (b : OrderBookV6) (side : Side) (p : Nat) (l : PriceLevel_V6) : OrderBookV6 :=
  match side with
  | Side.BUY => { b with bids_ := Function.update b.bids_ p l }
  | Side.SELL => { b with asks_ := Function.update b.asks_ p l }

/-- `void AddToList(Price price, HP_Order_V6* order)`. -/
def AddToList (b : OrderBookV6) (price : Nat) (order : Nat) : Except Error OrderBookV6 :=
  let side := (b.pool order).side
  match (b.level side price).head with
  | none =>
    let b1 := b.setLevel side price
      { b.level side price with head := some order, tail := some order }
    .ok (b1.setLevel side price
      { b1.level side price with
        total_quantity := add32 (b1.level side price).total_quantity (b1.pool order).quantity })
  | some _ =>
    match (b.level side price).tail with
    | none => .error Error.NullDeref
    | some t =>
      let b1 := b.setOrder t { b.pool t with next := some order }
      let b2 := b1.setOrder order { b1.pool order with prev := (b1.level side price).tail }
      let b3 := b2.setLevel side price { b2.level side price with tail := some order }
      .ok (b3.setLevel side price
        { b3.level side price with
          total_quantity := add32 (b3.level side price).total_quantity (b3.pool order).quantity })

/-- `void RemoveFromList(HP_Order_V6* order)`. -/
def RemoveFromList (b : OrderBookV6) (order : Nat) : OrderBookV6 :=
  let side := (b.pool order).side
  let price := (b.pool order).price
  let b1 := match (b.pool order).prev with
    | some p => b.setOrder p { b.pool p with next := (b.pool order).next }
    | none => b
  let b2 := match (b1.pool order).next with
    | some n => b1.setOrder n { b1.pool n with prev := (b1.pool order).prev }
    | none => b1
  let b3 := if (b2.level side price).head = some order
    then b2.setLevel side price { b2.level side price with head := (b2.pool order).next }
    else b2
  let b4 := if (b3.level side price).tail = some order
    then b3.setLevel side price { b3.level side price with tail := (b3.pool order).prev }
    else b3
  let b5 := b4.setLevel side price
    { b4.level side price with
      total_quantity := sub32 (b4.level side price).total_quantity (b4.pool order).quantity }
  b5.setOrder order { b5.pool order with next := none, prev := none }

/-- The `while (chunk == 0)` loop of `UpdateBestBid`, by recursion on `index`;
the result is the new `best_bid_`. -/
def scanDown (bitmap : Nat → Nat) : Nat → Nat → Nat
  | 0, chunk =>
    if chunk = 0 then 0 else (0 <<< 6) + (63 - BUILTIN_CLZLL chunk)
  | index + 1, chunk =>
    if chunk = 0 then scanDown bitmap index (bitmap index)
    else ((index + 1) <<< 6) + (63 - BUILTIN_CLZLL chunk)

/-- `void UpdateBestBid()`. -/
def UpdateBestBid (b : OrderBookV6) : OrderBookV6 :=
  let index := b.best_bid_ >>> 6
  let chunk := b.bids_bitmap_ index
  let mask := (1 <<< (b.best_bid_ &&& 63)) - 1
  let mask := mask ||| (1 <<< (b.best_bid_ &&& 63))
  let chunk := chunk &&& mask
  { b with best_bid_ := scanDown b.bids_bitmap_ index chunk }

/-- The `while (chunk == 0)` loop of `UpdateBestAsk`; `n` is `BITMAP_SIZE - index`,
the number of words from `index` to the end of the bitmap, so the recursion is
exact; the result is the new `best_ask_`. -/
def scanUp (bitmap : Nat → Nat) : Nat → Nat → Nat → Nat
  | 0, index, chunk =>
    if chunk = 0 then MAX_PRICE else (index <<< 6) + BUILTIN_CTZLL chunk
  | n + 1, index, chunk =>
    if chunk = 0 then
      if index + 1 ≥ BITMAP_SIZE then MAX_PRICE
      else scanUp bitmap n (index + 1) (bitmap (index + 1))
    else (index <<< 6) + BUILTIN_CTZLL chunk

/-- `void UpdateBestAsk()`. -/
def UpdateBestAsk (b : OrderBookV6) : OrderBookV6 :=
  let index := b.best_ask_ >>> 6
  let chunk := b.asks_bitmap_ index
  let mask := not64 ((1 <<< (b.best_ask_ &&& 63)) - 1)
  let chunk := chunk &&& mask
  { b with best_ask_ := scanUp b.asks_bitmap_ (BITMAP_SIZE - index) index chunk }

/-- One trade of the inner loop of `AddOrder` against the record `cur` of the
level `lside[lprice]`: the three decrements by
`trade_quantity = std::min(quantity, current_order->quantity)` of the record's
quantity and the level's total (the incoming quantity is decremented by the caller). -/
def trade (lside : Side) (lprice : Nat) (b : OrderBookV6) (cur quantity : Nat) : OrderBookV6 :=
  let trade_quantity := min quantity (b.pool cur).quantity
  let b1 := b.setOrder cur
    { b.pool cur with quantity := sub32 (b.pool cur).quantity trade_quantity }
  b1.setLevel lside lprice
    { b1.level lside lprice with
      total_quantity := sub32 (b1.level lside lprice).total_quantity trade_quantity }

/-- The body of `if (current_order->quantity == 0)` in the inner loop:
`order_map_[current_order->order_id] = nullptr; RemoveFromList(current_order);
order_pool_.DeleteOrder(current_order);`. -/
def release (b : OrderBookV6) (cur : Nat) : OrderBookV6 :=
  let b1 := { b with order_map_ := Function.update b.order_map_ (b.pool cur).order_id none }
  let b2 := b1.RemoveFromList cur
  { b2 with order_pool_ := b2.order_pool_.DeleteOrder cur }

/-- The inner loop of `AddOrder`, `while (current_order && quantity > 0)`, on the
level `level = lside[lprice]` bound before the loop; returns the book and
the remaining `quantity`. -/
def matchLevel (lside : Side) (lprice : Nat) :
    Nat → OrderBookV6 → Option Nat → Nat → Except Error (OrderBookV6 × Nat)
  | 0, _, _, _ => .error Error.OutOfFuel
  | fuel + 1, b, current_order, quantity =>
    match current_order with
    | none => .ok (b, quantity)
    | some cur =>
      if quantity > 0 then
        let trade_quantity := min quantity (b.pool cur).quantity
        let b1 := trade lside lprice b cur quantity
        let quantity1 := sub32 quantity trade_quantity
        if (b1.pool cur).quantity = 0 then
          let next_order := (b1.pool cur).next
          matchLevel lside lprice fuel (b1.release cur) next_order quantity1
        else
          matchLevel lside lprice fuel b1 (some cur) quantity1
      else .ok (b, quantity)

/-- The BUY matching loop of `AddOrder`,
`while (quantity > 0 && price >= best_ask_ && best_ask_ < MAX_PRICE)`. -/
def matchBuy (price : Nat) : Nat → OrderBookV6 → Nat → Except Error (OrderBookV6 × Nat)
  | 0, _, _ => .error Error.OutOfFuel
  | fuel + 1, b, quantity =>
    if quantity > 0 ∧ price ≥ b.best_ask_ ∧ b.best_ask_ < MAX_PRICE then
      let lprice := b.best_ask_
      if (b.asks_ lprice).head = none then
        matchBuy price fuel b.UpdateBestAsk quantity
      else
        match matchLevel Side.SELL lprice fuel b (b.asks_ lprice).head quantity with
        | .error e => .error e
        | .ok (b1, quantity1) =>
          if (b1.asks_ lprice).head = none then
            matchBuy price fuel
              ({ b1 with asks_bitmap_ := clear_bit b1.best_ask_ b1.asks_bitmap_ }).UpdateBestAsk
              quantity1
          else
            matchBuy price fuel b1 quantity1
    else .ok (b, quantity)

/-- The SELL matching loop of `AddOrder`,
`while (quantity > 0 && price <= best_bid_ && best_bid_ > 0)`. -/
def matchSell (price : Nat) : Nat → OrderBookV6 → Nat → Except Error (OrderBookV6 × Nat)
  | 0, _, _ => .error Error.OutOfFuel
  | fuel + 1, b, quantity =>
    if quantity > 0 ∧ price ≤ b.best_bid_ ∧ b.best_bid_ > 0 then
      let lprice := b.best_bid_
      if (b.bids_ lprice).head = none then
        matchSell price fuel b.UpdateBestBid quantity
      else
        match matchLevel Side.BUY lprice fuel b (b.bids_ lprice).head quantity with
        | .error e => .error e
        | .ok (b1, quantity1) =>
          if (b1.bids_ lprice).head = none then
            matchSell price fuel
              ({ b1 with bids_bitmap_ := clear_bit b1.best_bid_ b1.bids_bitmap_ }).UpdateBestBid
              quantity1
          else
            matchSell price fuel b1 quantity1
    else .ok (b, quantity)

/-- The resting phase of the BUY branch, `if (quantity > 0) { ... }`. -/
def restBuy (b : OrderBookV6) (order_id price quantity : Nat) : Except Error OrderBookV6 :=
  if quantity > 0 then
    let is_new_level := decide ((b.bids_ price).head = none)
    match b.order_pool_.NewOrder with
    | .error e => .error e
    | .ok (new_order, pool1) =>
      let b1 := { b with order_pool_ := pool1 }
      let b2 := b1.setOrder new_order
        { b1.pool new_order with
          order_id := order_id, quantity := quantity, price := price, side := Side.BUY }
      match b2.AddToList price new_order with
      | .error e => .error e
      | .ok b3 =>
        let b4 := { b3 with order_map_ := Function.update b3.order_map_ order_id (some new_order) }
        let b5 := if is_new_level
          then { b4 with bids_bitmap_ := set_bit price b4.bids_bitmap_ } else b4
        .ok (if price > b5.best_bid_ then { b5 with best_bid_ := price } else b5)
  else .ok b

/-- The resting phase of the SELL branch, `if (quantity > 0) { ... }`. -/
def restSell (b : OrderBookV6) (order_id price quantity : Nat) : Except Error OrderBookV6 :=
  if quantity > 0 then
    let is_new_level := decide ((b.asks_ price).head = none)
    match b.order_pool_.NewOrder with
    | .error e => .error e
    | .ok (new_order, pool1) =>
      let b1 := { b with order_pool_ := pool1 }
      let b2 := b1.setOrder new_order
        { b1.pool new_order with
          order_id := order_id, quantity := quantity, price := price, side := Side.SELL }
      match b2.AddToList price new_order with
      | .error e => .error e
      | .ok b3 =>
        let b4 := { b3 with order_map_ := Function.update b3.order_map_ order_id (some new_order) }
        let b5 := if is_new_level
          then { b4 with asks_bitmap_ := set_bit price b4.asks_bitmap_ } else b4
        .ok (if price < b5.best_ask_ then { b5 with best_ask_ := price } else b5)
  else .ok b

/-- `void AddOrder(OrderId order_id, Side side, Price price, Quantity quantity)`;
`fuel` bounds the iterations of the matching loops. -/
def AddOrder (fuel : Nat) (b : OrderBookV6) (order_id : Nat) (side : Side)
    (price quantity : Nat) : Except Error OrderBookV6 :=
  match side with
  | Side.BUY =>
    match matchBuy price fuel b quantity with
    | .error e => .error e
    | .ok (b1, quantity1) => restBuy b1 order_id price quantity1
  | Side.SELL =>
    match matchSell price fuel b quantity with
    | .error e => .error e
    | .ok (b1, quantity1) => restSell b1 order_id price quantity1

/-- `void CancelOrder(OrderId order_id)`; `order_map_.size()` is `MAX_ORDER_ID`. -/
def CancelOrder (b : OrderBookV6) (order_id : Nat) : OrderBookV6 :=
  if order_id ≥ MAX_ORDER_ID then b
  else
    match b.order_map_ order_id with
    | none => b
    | some order =>
      let price := (b.pool order).price
      let side := (b.pool order).side
      let b1 := b.RemoveFromList order
      let b2 := { b1 with order_map_ := Function.update b1.order_map_ order_id none }
      let b3 := { b2 with order_pool_ := b2.order_pool_.DeleteOrder order }
      if side = Side.BUY ∧ (b3.bids_ price).head = none then
        let b4 := { b3 with bids_bitmap_ := clear_bit price b3.bids_bitmap_ }
        if price = b4.best_bid_ then b4.UpdateBestBid else b4
      else if side = Side.SELL ∧ (b3.asks_ price).head = none then
        let b4 := { b3 with asks_bitmap_ := clear_bit price b3.asks_bitmap_ }
        if price = b4.best_ask_ then b4.UpdateBestAsk else b4
      else b3

end OrderBookV6

/-! ## The list view of a book, and what it means for a book to hold it -/

open OrderBookV6

/-- A resting order as seen in a level's list: its slot, its id and its quantity. -/
structure AOrder where
  slot : Nat
  id : Nat
  qty : Nat
deriving DecidableEq, Repr

/-- The list view of a book: for every side and price the resting orders in
list order, the free list, and the two cached best prices. -/
structure ABook where
  lv : Side → Nat → List AOrder
  free : List Nat
  best_bid : Nat
  best_ask : Nat

/-- Sum of the quantities of a list of resting orders. -/
def qsum (l : List AOrder) : Nat := (l.map AOrder.qty).sum

/-- The list view with the level `(side, p)` replaced by `l`. -/
def ABook.setLv (a : ABook) (side : Side) (p : Nat) (l : List AOrder) : ABook :=
  { a with lv := fun s x => if s = side ∧ x = p then l else a.lv s x }

/-- Slot of the first order of `l`, or `nxt` when `l` is empty. -/
def headSlot (l : List AOrder) (nxt : Option Nat) : Option Nat :=
  match l with
  | [] => nxt
  | o :: _ => some o.slot

/-- Slot of the last order of `l`, or `prev` when `l` is empty. -/
def lastSlot : List AOrder → Option Nat → Option Nat
  | [], prev => prev
  | o :: t, _ => lastSlot t (some o.slot)

/-- The records of the slots of `l` form a doubly linked segment of the level
`(side, p)`: each record carries its order's id and quantity, the level's price
and side, and links to its neighbours, `prev` before the first and `nxt` after
the last. -/
def RepSeg (pool : Nat → HP_Order_V6) (side : Side) (p : Nat) :
    Option Nat → List AOrder → Option Nat → Prop
  | _, [], _ => True
  | prev, o :: t, nxt =>
    pool o.slot =
      { order_id := o.id, quantity := o.qty, price := p, side := side,
        next := headSlot t nxt, prev := prev } ∧
    RepSeg pool side p (some o.slot) t nxt

/-- Slot `s` holds a resting order. -/
def ABook.InUse (a : ABook) (s : Nat) : Prop :=
  ∃ side p, ∃ o ∈ a.lv side p, o.slot = s

/-- No slot and no id occurs twice among the resting orders. -/
structure ABook.Struct (a : ABook) : Prop where
  slot_inj : ∀ {side p side' p' o o'}, o ∈ a.lv side p → o' ∈ a.lv side' p' →
    o.slot = o'.slot → side = side' ∧ p = p' ∧ o = o'
  id_inj : ∀ {side p side' p' o o'}, o ∈ a.lv side p → o' ∈ a.lv side' p' →
    o.id = o'.id → side = side' ∧ p = p' ∧ o = o'
  nodup : ∀ side p, (a.lv side p).Nodup

/-- The pool, the level arrays, the free list and the order map of `b` hold
exactly the resting orders of `a`. -/
structure RepCore (b : OrderBookV6) (a : ABook) : Prop where
  segs : ∀ side p, RepSeg b.pool side p none (a.lv side p) none
  levels : ∀ side p, b.level side p =
    { total_quantity := qsum (a.lv side p) % 2 ^ 32,
      head := headSlot (a.lv side p) none,
      tail := lastSlot (a.lv side p) none }
  unused : ∀ s, ¬ a.InUse s → b.pool s = HP_Order_V6.zero
  free : b.order_pool_.free_list_ = a.free
  omap : ∀ id s, b.order_map_ id = some s ↔
    ∃ side p, ∃ o ∈ a.lv side p, o.id = id ∧ o.slot = s

/-- Detach the record of slot `s`, clear its order-map entry and release the
slot: the three steps shared by `CancelOrder` and the fill branch of `AddOrder`. -/
def OrderBookV6.unlink (b : OrderBookV6) (s : Nat) : OrderBookV6 :=
  { b.RemoveFromList s with
    order_map_ := Function.update (b.RemoveFromList s).order_map_ (b.pool s).order_id none,
    order_pool_ := (b.RemoveFromList s).order_pool_.DeleteOrder s }

/-- The book after a slot has been popped from the free list and filled in
with a new order, before it is linked. -/
def OrderBookV6.allocated (b : OrderBookV6) (rest : List Nat) (s id : Nat) (side : Side)
    (price q : Nat) : OrderBookV6 :=
  ({ b with order_pool_ := { b.order_pool_ with free_list_ := rest } }).setOrder s
    { ({ b with order_pool_ := { b.order_pool_ with free_list_ := rest } }).pool s with
      order_id := id, quantity := q, price := price, side := side }

/-- Bit `p` of a bitmap: bit `p mod 64` of word `p div 64`. -/
def bitAt (bm : Nat → Nat) (p : Nat) : Bool := (bm (p / 64)).testBit (p % 64)

/-- The inner matching loop on the list view: the first order of the level
`(side, p)` is filled and removed while the incoming quantity lasts, or reduced. -/
def aMatchLevel (side : Side) (p : Nat) : Nat → ABook → Nat → Option (ABook × Nat)
  | 0, _, _ => none
  | fuel + 1, a, q =>
    match a.lv side p with
    | [] => some (a, q)
    | o :: t =>
      if q > 0 then
        if o.qty ≤ q then
          aMatchLevel side p fuel { a.setLv side p t with free := o.slot :: a.free } (q - o.qty)
        else
          aMatchLevel side p fuel (a.setLv side p ({ o with qty := o.qty - q } :: t)) 0
      else some (a, q)

/-- Every resting quantity fits in 32 bits. -/
def ABook.QtyLt (a : ABook) : Prop := ∀ s x, ∀ o ∈ a.lv s x, o.qty < 2 ^ 32

/-- The cached best prices and the bitmaps of two books agree. -/
def SameQuotes (b b' : OrderBookV6) : Prop :=
  b'.best_bid_ = b.best_bid_ ∧ b'.best_ask_ = b.best_ask_ ∧
  b'.bids_bitmap_ = b.bids_bitmap_ ∧ b'.asks_bitmap_ = b.asks_bitmap_

/-- The bits of a bitmap mark exactly the non-empty levels of one side. -/
def Bits (bm : Nat → Nat) (f : Nat → List AOrder) : Prop :=
  (∀ i, bm i < 2 ^ 64) ∧ ∀ p, bitAt bm p = true ↔ f p ≠ []

/-- The book `b` holds exactly the list view `a`. -/
structure Rep (b : OrderBookV6) (a : ABook) : Prop where
  core : RepCore b a
  bidBits : Bits b.bids_bitmap_ (a.lv Side.BUY)
  askBits : Bits b.asks_bitmap_ (a.lv Side.SELL)
  best_bid : b.best_bid_ = a.best_bid
  best_ask : b.best_ask_ = a.best_ask

/-- Well-formedness of the list view: no duplicates, quantities positive and
within 32 bits, prices and ids in range, and the free list and the slots in use
split the arena. -/
structure ABook.WF (a : ABook) : Prop where
  struct : a.Struct
  qty_lt : a.QtyLt
  qty_pos : ∀ s x, ∀ o ∈ a.lv s x, 0 < o.qty
  price_le : ∀ s x, a.lv s x ≠ [] → x ≤ MAX_PRICE
  id_lt : ∀ s x, ∀ o ∈ a.lv s x, o.id < MAX_ORDER_ID
  free_nodup : a.free.Nodup
  free_unused : ∀ s, s ∈ a.free → ¬ a.InUse s
  cover : ∀ s, s < MAX_ORDER_ID ↔ (s ∈ a.free ∨ a.InUse s)

/-- The cached best prices are exact. -/
structure ABook.BestOK (a : ABook) : Prop where
  bid_ub : ∀ p, a.lv Side.BUY p ≠ [] → p ≤ a.best_bid
  bid_at : a.lv Side.BUY a.best_bid ≠ [] ∨ a.best_bid = 0
  ask_lb : ∀ p, a.lv Side.SELL p ≠ [] → a.best_ask ≤ p
  ask_at : a.lv Side.SELL a.best_ask ≠ [] ∨ a.best_ask = MAX_PRICE

/-- The lowest price among `p, p+1, ..., p+n-1` with a non-empty level, or `MAX_PRICE`. -/
def firstFrom (f : Nat → List AOrder) : Nat → Nat → Nat
  | 0, _ => MAX_PRICE
  | n + 1, p =>
    match f p with
    | [] => firstFrom f n (p + 1)
    | _ :: _ => p

/-- The highest price among `p, p-1, ..., 1` with a non-empty level, or 0. -/
def lastFrom (f : Nat → List AOrder) : Nat → Nat
  | 0 => 0
  | p + 1 =>
    match f (p + 1) with
    | [] => lastFrom f p
    | _ :: _ => p + 1

/-- The list view after `UpdateBestAsk`. -/
def ABook.advanceAsk (a : ABook) : ABook :=
  { a with best_ask := firstFrom (a.lv Side.SELL) (MAX_PRICE + 1 - a.best_ask) a.best_ask }

/-- The list view after `UpdateBestBid`. -/
def ABook.retreatBid (a : ABook) : ABook :=
  { a with best_bid := lastFrom (a.lv Side.BUY) a.best_bid }

/-- The side an incoming order trades against. -/
def Side.opp : Side → Side
  | Side.BUY => Side.SELL
  | Side.SELL => Side.BUY

/-- The cached best price an incoming order of side `side` trades against. -/
def ABook.oppBest (a : ABook) (side : Side) : Nat :=
  match side with
  | Side.BUY => a.best_ask
  | Side.SELL => a.best_bid

/-- The price part of the guard of the matching loop of `AddOrder`. -/
def ABook.crosses (a : ABook) (side : Side) (price : Nat) : Prop :=
  match side with
  | Side.BUY => price ≥ a.best_ask ∧ a.best_ask < MAX_PRICE
  | Side.SELL => price ≤ a.best_bid ∧ a.best_bid > 0

instance (a : ABook) (side : Side) (price : Nat) : Decidable (a.crosses side price) := by
  cases side <;> unfold ABook.crosses <;> exact inferInstance

/-- The list view after the cached best price of the other side was recomputed. -/
def ABook.advance (a : ABook) (side : Side) : ABook :=
  match side with
  | Side.BUY => a.advanceAsk
  | Side.SELL => a.retreatBid

/-- The matching loop of `AddOrder` for an incoming order of side `side`, on the
list view. -/
def aMatch (side : Side) (price : Nat) : Nat → ABook → Nat → Option (ABook × Nat)
  | 0, _, _ => none
  | fuel + 1, a, q =>
    if q > 0 ∧ a.crosses side price then
      match a.lv side.opp (a.oppBest side) with
      | [] => aMatch side price fuel (a.advance side) q
      | _ :: _ =>
        match aMatchLevel side.opp (a.oppBest side) fuel a q with
        | none => none
        | some (a1, q1) =>
          match a1.lv side.opp (a.oppBest side) with
          | [] => aMatch side price fuel (a1.advance side) q1
          | _ :: _ => aMatch side price fuel a1 q1
    else some (a, q)

/-- The resting phase on the list view: the residual takes the slot on top of
the free list and joins the tail of its level; `none` when no slot is free. -/
def aRest (a : ABook) (id : Nat) (side : Side) (price q : Nat) : Option ABook :=
  if q > 0 then
    match a.free with
    | [] => none
    | s :: rest =>
      some
        { lv := (a.setLv side price (a.lv side price ++ [⟨s, id, q⟩])).lv,
          free := rest,
          best_bid := if side = Side.BUY ∧ price > a.best_bid then price else a.best_bid,
          best_ask := if side = Side.SELL ∧ price < a.best_ask then price else a.best_ask }
  else some a

/-- `AddOrder` on the list view. -/
def aAdd (fuel : Nat) (a : ABook) (id : Nat) (side : Side) (price q : Nat) : Option ABook :=
  match aMatch side price fuel a q with
  | none => none
  | some (a1, q1) => aRest a1 id side price q1

/-- `CancelOrder` of the resting order `o` of level `(side, p)` on the list view. -/
def aCancel (a : ABook) (side : Side) (p : Nat) (o : AOrder) : ABook :=
  let a1 : ABook := { a.setLv side p ((a.lv side p).erase o) with free := o.slot :: a.free }
  match a1.lv side p with
  | [] =>
    match side with
    | Side.BUY => if p = a1.best_bid then a1.retreatBid else a1
    | Side.SELL => if p = a1.best_ask then a1.advanceAsk else a1
  | _ :: _ => a1

/-- Matching an incoming quantity `q` against the list of a level: the orders
left in the list, the orders filled whole (in the order they were filled), and
the quantity left. -/
def fillList : List AOrder → Nat → List AOrder × List AOrder × Nat
  | [], q => ([], [], q)
  | o :: t, q =>
    if q = 0 then (o :: t, [], 0)
    else if o.qty ≤ q then
      ((fillList t (q - o.qty)).1, o :: (fillList t (q - o.qty)).2.1,
        (fillList t (q - o.qty)).2.2)
    else ({ o with qty := o.qty - q } :: t, [], 0)

/-- The invariant of the list view between calls. -/
structure ABook.Inv (a : ABook) : Prop where
  wf : a.WF
  best : a.BestOK

/-- The list view after one round of the matching loop: the cached best is
recomputed when the level emptied. -/
def ABook.afterLevel (a1 : ABook) (side : Side) (best : Nat) : ABook :=
  match a1.lv side.opp best with
  | [] => a1.advance side
  | _ :: _ => a1

/-- The last part of `CancelOrder`, after the record has been unlinked: the
bitmap bit of an emptied level is cleared and the cached best recomputed when
the level was at the best. -/
def OrderBookV6.cancelTail (b3 : OrderBookV6) (side : Side) (price : Nat) : OrderBookV6 :=
  if side = Side.BUY ∧ (b3.bids_ price).head = none then
    if price = b3.best_bid_ then
      ({ b3 with bids_bitmap_ := clear_bit price b3.bids_bitmap_ } : OrderBookV6).UpdateBestBid
    else { b3 with bids_bitmap_ := clear_bit price b3.bids_bitmap_ }
  else if side = Side.SELL ∧ (b3.asks_ price).head = none then
    if price = b3.best_ask_ then
      ({ b3 with asks_bitmap_ := clear_bit price b3.asks_bitmap_ } : OrderBookV6).UpdateBestAsk
    else { b3 with asks_bitmap_ := clear_bit price b3.asks_bitmap_ }
  else b3

/-- The slots reached from `head` through `next`, at most `fuel` of them. -/
def walk (pool : Nat → HP_Order_V6) : Nat → Option Nat → List Nat
  | 0, _ => []
  | _ + 1, none => []
  | fuel + 1, some s => s :: walk pool fuel (pool s).next

/-- The slots of the list of the level `(side, p)`, from `head` on (the arena
has `MAX_ORDER_ID` slots, so no list is longer). -/
def OrderBookV6.levelSlots (b : OrderBookV6) (side : Side) (p : Nat) : List Nat :=
  walk b.pool MAX_ORDER_ID (b.level side p).head

/-- The records of the list of the level `(side, p)`: slot, order id and quantity. -/
def OrderBookV6.levelOrders (b : OrderBookV6) (side : Side) (p : Nat) : List AOrder :=
  (b.levelSlots side p).map fun s => ⟨s, (b.pool s).order_id, (b.pool s).quantity⟩

/-- The list view of a book. -/
def OrderBookV6.view (b : OrderBookV6) : ABook :=
  { lv := b.levelOrders, free := b.order_pool_.free_list_,
    best_bid := b.best_bid_, best_ask := b.best_ask_ }

/-- The preconditions of `AddOrder` (a `Quantity` is a `uint32_t`). -/
structure ValidAdd (b : OrderBookV6) (order_id : Nat) (price quantity : Nat) : Prop where
  price_le : price ≤ MAX_PRICE
  id_lt : order_id < MAX_ORDER_ID
  qty_pos : 0 < quantity
  qty_lt : quantity < 2 ^ 32
  not_live : b.order_map_ order_id = none

/-- The books reached from the empty book by `CancelOrder` calls and by
`AddOrder` calls that satisfy the preconditions and return. -/
inductive Reachable : OrderBookV6 → Prop where
  | new : Reachable OrderBookV6.new
  | add {b b' : OrderBookV6} (fuel order_id : Nat) (side : Side) (price quantity : Nat) :
      Reachable b → ValidAdd b order_id price quantity →
      b.AddOrder fuel order_id side price quantity = .ok b' → Reachable b'
  | cancel {b : OrderBookV6} (order_id : Nat) : Reachable b → Reachable (b.CancelOrder order_id)

/-- The list view of the empty book. -/
def ABook.empty : ABook :=
  { lv := fun _ _ => [], free := ObjectPool.initFree MAX_ORDER_ID,
    best_bid := 0, best_ask := MAX_PRICE }

/-- The bitmap of a side. -/
def OrderBookV6.bitmap (b : OrderBookV6) (side : Side) : Nat → Nat :=
  match side with
  | Side.BUY => b.bids_bitmap_
  | Side.SELL => b.asks_bitmap_

/-- The guard of the matching loop of `AddOrder` apart from `quantity > 0`: the
incoming order crosses the cached best of the other side. -/
def OrderBookV6.Marketable (b : OrderBookV6) (side : Side) (price : Nat) : Prop :=
  match side with
  | Side.BUY => price ≥ b.best_ask_ ∧ b.best_ask_ < MAX_PRICE
  | Side.SELL => price ≤ b.best_bid_ ∧ b.best_bid_ > 0

/-- An incoming order that is not marketable, in the words of the specification. -/
def OrderBookV6.NotMarketable (b : OrderBookV6) (side : Side) (price : Nat) : Prop :=
  match side with
  | Side.BUY => price < b.best_ask_ ∨ b.best_ask_ = MAX_PRICE
  | Side.SELL => price > b.best_bid_ ∨ b.best_bid_ = 0

/-- The list view after an order rested without matching. -/
def ABook.rested (a : ABook) (s id : Nat) (side : Side) (price q : Nat) (rest : List Nat) :
    ABook :=
  { lv := (a.setLv side price (a.lv side price ++ [⟨s, id, q⟩])).lv,
    free := rest,
    best_bid := if side = Side.BUY ∧ price > a.best_bid then price else a.best_bid,
    best_ask := if side = Side.SELL ∧ price < a.best_ask then price else a.best_ask }

/-- The prices of the other side at which an incoming order of side `side` with
limit `price` may trade: asks at `x ≤ price` below the sentinel `MAX_PRICE` for a
BUY, bids at `x ≥ price` above the sentinel `0` for a SELL. -/
def eligible (side : Side) (price x : Nat) : Prop :=
  match side with
  | Side.BUY => x ≤ price ∧ x < MAX_PRICE
  | Side.SELL => price ≤ x ∧ 0 < x

instance (side : Side) (price x : Nat) : Decidable (eligible side price x) := by
  cases side <;> unfold eligible <;> exact inferInstance

/-- The total quantity resting on one side of the book. -/
def OrderBookV6.restingQty (b : OrderBookV6) (side : Side) : Nat :=
  Finset.sum (Finset.range (MAX_PRICE + 1)) (fun x => qsum (b.levelOrders side x))

/-- The total quantity resting on the other side at the prices an incoming order
of side `side` with limit `price` may trade at. -/
def OrderBookV6.eligibleQty (b : OrderBookV6) (side : Side) (price : Nat) : Nat :=
  Finset.sum (Finset.range (MAX_PRICE + 1))
    (fun x => if eligible side price x then qsum (b.levelOrders side.opp x) else 0)

/-- Price `y` has priority over price `x` for an incoming order of side `side`:
a lower ask for a BUY, a higher bid for a SELL. -/
def betterPrice (side : Side) (y x : Nat) : Prop :=
  match side with
  | Side.BUY => y < x
  | Side.SELL => x < y

/-- A call of the public interface of the book. -/
inductive Call where
  | add (fuel order_id : Nat) (side : Side) (price quantity : Nat)
  | cancel (order_id : Nat)

/-- The calls `cs`, the latest first, lead from the empty book to the book:
every `AddOrder` among them satisfies the preconditions and returns. -/
inductive Run : List Call → OrderBookV6 → Prop where
  | new : Run [] OrderBookV6.new
  | add {cs : List Call} {b b' : OrderBookV6} (fuel order_id : Nat) (side : Side)
      (price quantity : Nat) :
      Run cs b → ValidAdd b order_id price quantity →
      b.AddOrder fuel order_id side price quantity = .ok b' →
      Run (Call.add fuel order_id side price quantity :: cs) b'
  | cancel {cs : List Call} {b : OrderBookV6} (order_id : Nat) :
      Run cs b → Run (Call.cancel order_id :: cs) (b.CancelOrder order_id)

/-- The position, counted from 1 in the order of the calls, of the latest
`AddOrder` call that carries `id`; `0` when there is none. The list holds the
latest call first. -/
def arrival : List Call → Nat → Nat
  | [], _ => 0
  | Call.add _ order_id _ _ _ :: cs, id =>
    if order_id = id then cs.length + 1 else arrival cs id
  | Call.cancel _ :: cs, id => arrival cs id

/-- The book an `AddOrder` returned, or the empty book when it threw. -/
def okOr (r : Except Error OrderBookV6) : OrderBookV6 :=
  match r with
  | .ok b => b
  | .error _ => OrderBookV6.new

/-- The book after `Add(1, BUY, 100, 10)`. -/
def exBook1 : OrderBookV6 := okOr (OrderBookV6.new.AddOrder 12 1 Side.BUY 100 10)

/-- The book after `Add(1, BUY, 100, 10)`, `Add(2, SELL, 200, 5)`. -/
def exBook2 : OrderBookV6 := okOr (exBook1.AddOrder 7 2 Side.SELL 200 5)

/-- The book after `Add(1, BUY, MAX_PRICE, 1)`. -/
def exBookMax : OrderBookV6 := okOr (OrderBookV6.new.AddOrder 3 1 Side.BUY MAX_PRICE 1)

/-- The book after `Add(1, BUY, 100, 2^31)`. -/
def exBig1 : OrderBookV6 := okOr (OrderBookV6.new.AddOrder 3 1 Side.BUY 100 2147483648)

/-- The book after `Add(1, BUY, 100, 2^31)`, `Add(2, BUY, 100, 2^31)`. -/
def exBig2 : OrderBookV6 := okOr (exBig1.AddOrder 3 2 Side.BUY 100 2147483648)

/-- The book after `Add(1, SELL, 100, 5)`. -/
def exFifo1 : OrderBookV6 := okOr (OrderBookV6.new.AddOrder 7 1 Side.SELL 100 5)

/-- The book after `Add(1, SELL, 100, 5)`, `Add(2, SELL, 100, 5)`. -/
def exFifo2 : OrderBookV6 := okOr (exFifo1.AddOrder 7 2 Side.SELL 100 5)

/-- `k` calls of `NewOrder` in a row, with no `DeleteOrder` in between: the slots
returned, in call order, and the pool left; the first exception ends the run. -/
def ObjectPool.NewOrders : Nat → ObjectPool → Except Error (List Nat × ObjectPool)
  | 0, pool => .ok ([], pool)
  | k + 1, pool =>
    match pool.NewOrder with
    | .error e => .error e
    | .ok (obj, pool1) =>
      match ObjectPool.NewOrders k pool1 with
      | .error e => .error e
      | .ok (objs, pool2) => .ok (obj :: objs, pool2)

/-- Bit by bit: the largest `x ≤ p` whose bit is set in the bitmap, or 0 when
no bit at or below `p` is set. -/
def highestSetAtOrBelow (bm : Nat → Nat) : Nat → Nat
  | 0 => 0
  | p + 1 => if bitAt bm (p + 1) then p + 1 else highestSetAtOrBelow bm p

/-- Bit by bit: the smallest `x` among `p, p+1, ..., p+n-1` whose bit is set in
the bitmap, or `MAX_PRICE` when there is none. -/
def lowestSetFrom (bm : Nat → Nat) : Nat → Nat → Nat
  | 0, _ => MAX_PRICE
  | n + 1, p => if bitAt bm p then p else lowestSetFrom bm n (p + 1)

/-- Bit by bit: the smallest `x` with `p ≤ x ≤ MAX_PRICE` whose bit is set in
the bitmap, or `MAX_PRICE` when there is none. -/
def lowestSetAtOrAbove (bm : Nat → Nat) (p : Nat) : Nat :=
  lowestSetFrom bm (MAX_PRICE + 1 - p) p

/-- The words of a bitmap vector of `BITMAP_SIZE` words, and 0 past its end. -/
def wordsOf (bm : Nat → Nat) : Nat → Nat := fun i => if i < BITMAP_SIZE then bm i else 0

/-! ## Slots in use and live ids -/

/-- The number of arena slots in use: the slots that are not on the free list. -/
def OrderBookV6.inUseCount (b : OrderBookV6) : Nat :=
  ((Finset.range MAX_ORDER_ID).filter (fun s => s ∉ b.order_pool_.free_list_)).card

/-- The number of ids present in `order_map_`: the entries that are not null. -/
def OrderBookV6.liveCount (b : OrderBookV6) : Nat :=
  ((Finset.range MAX_ORDER_ID).filter (fun id => b.order_map_ id ≠ none)).card

/-! ## Books reached with prices strictly inside the domain -/

/-- The books reached from the empty book by `CancelOrder` calls and by
`AddOrder` calls that satisfy the preconditions, carry a price strictly inside
the domain (`0 < price < MAX_PRICE`) and return. -/
inductive ReachableInterior : OrderBookV6 → Prop where
  | new : ReachableInterior OrderBookV6.new
  | add {b b' : OrderBookV6} (fuel order_id : Nat) (side : Side) (price quantity : Nat) :
      ReachableInterior b → ValidAdd b order_id price quantity →
      0 < price → price < MAX_PRICE →
      b.AddOrder fuel order_id side price quantity = .ok b' → ReachableInterior b'
  | cancel {b : OrderBookV6} (order_id : Nat) :
      ReachableInterior b → ReachableInterior (b.CancelOrder order_id)

/-! ## One round of the matching loop -/

/-- The guard of the matching loop of `AddOrder` for an incoming order of side
`side`: `quantity > 0 && price >= best_ask_ && best_ask_ < MAX_PRICE`, resp.
`quantity > 0 && price <= best_bid_ && best_bid_ > 0`. -/
def OrderBookV6.loopGuard (b : OrderBookV6) (side : Side) (price quantity : Nat) : Prop :=
  match side with
  | Side.BUY => quantity > 0 ∧ price ≥ b.best_ask_ ∧ b.best_ask_ < MAX_PRICE
  | Side.SELL => quantity > 0 ∧ price ≤ b.best_bid_ ∧ b.best_bid_ > 0

instance (b : OrderBookV6) (side : Side) (price quantity : Nat) :
    Decidable (b.loopGuard side price quantity) := by
  cases side <;> unfold OrderBookV6.loopGuard <;> exact inferInstance

/-- The test of the stale-cache branch at the top of the loop body,
`if (level.head == nullptr)` for the level at the cached best. -/
def OrderBookV6.stale (b : OrderBookV6) (side : Side) : Prop :=
  match side with
  | Side.BUY => (b.asks_ b.best_ask_).head = none
  | Side.SELL => (b.bids_ b.best_bid_).head = none

instance (b : OrderBookV6) (side : Side) : Decidable (b.stale side) := by
  cases side <;> unfold OrderBookV6.stale <;> exact inferInstance

/-- The body of the matching loop of `AddOrder`, one iteration: the stale-cache
branch, or the inner loop at the cached best followed by the bitmap and
best-price update when the level emptied. -/
def OrderBookV6.matchRound (side : Side) (fuel : Nat) (b : OrderBookV6) (quantity : Nat) :
    Except Error (OrderBookV6 × Nat) :=
  match side with
  | Side.BUY =>
    let lprice := b.best_ask_
    if (b.asks_ lprice).head = none then .ok (b.UpdateBestAsk, quantity)
    else
      match matchLevel Side.SELL lprice fuel b (b.asks_ lprice).head quantity with
      | .error e => .error e
      | .ok (b1, quantity1) =>
        if (b1.asks_ lprice).head = none then
          .ok (({ b1 with asks_bitmap_ := clear_bit b1.best_ask_ b1.asks_bitmap_ }).UpdateBestAsk,
            quantity1)
        else .ok (b1, quantity1)
  | Side.SELL =>
    let lprice := b.best_bid_
    if (b.bids_ lprice).head = none then .ok (b.UpdateBestBid, quantity)
    else
      match matchLevel Side.BUY lprice fuel b (b.bids_ lprice).head quantity with
      | .error e => .error e
      | .ok (b1, quantity1) =>
        if (b1.bids_ lprice).head = none then
          .ok (({ b1 with bids_bitmap_ := clear_bit b1.best_bid_ b1.bids_bitmap_ }).UpdateBestBid,
            quantity1)
        else .ok (b1, quantity1)

/-- The matching loop of `AddOrder` for an incoming order of side `side`. -/
def OrderBookV6.matchLoop (side : Side) (price fuel : Nat) (b : OrderBookV6) (quantity : Nat) :
    Except Error (OrderBookV6 × Nat) :=
  match side with
  | Side.BUY => matchBuy price fuel b quantity
  | Side.SELL => matchSell price fuel b quantity

/-- The states at the top of the matching loop of an `AddOrder` call of side
`side` and price `price` that enters the loop with the book `b0` and the
quantity `q0`: the entry state, and the state one iteration after each such
state at which the guard holds. -/
inductive LoopState (side : Side) (price : Nat) (b0 : OrderBookV6) (q0 : Nat) :
    OrderBookV6 → Nat → Prop where
  | entry : LoopState side price b0 q0 b0 q0
  | next {b b' : OrderBookV6} {q q' : Nat} (fuel : Nat) :
      LoopState side price b0 q0 b q → b.loopGuard side price q →
      OrderBookV6.matchRound side fuel b q = .ok (b', q') → LoopState side price b0 q0 b' q'

/-! ## The linear-scan book (OrderBookV4)

A shallow embedding of `src/V4/src/OrderBookV4.{h,cpp}`, with the conventions
of the embedding of `OrderBookV6`. -/

/-- `struct HP_Order_V4`: the fields `order_id, quantity, price, side, next, prev`
of `HP_Order_V6`, of the same types and in the same order. -/
abbrev HP_Order_V4 := HP_Order_V6

/-- `struct PriceLevel_V4`: the fields `total_quantity, head, tail` of
`PriceLevel_V6`. -/
abbrev PriceLevel_V4 := PriceLevel_V6

/-- The class `OrderBookV4`; `order_pool_` is an `ObjectPool<HP_Order_V4>`. -/
structure OrderBookV4 where
  bids_ : Nat → PriceLevel_V4
  asks_ : Nat → PriceLevel_V4
  order_pool_ : ObjectPool
  order_map_ : Nat → Option Nat
  best_bid_ : Nat
  best_ask_ : Nat

/-- The constructor `OrderBookV4::OrderBookV4()`. -/
def OrderBookV4.new : OrderBookV4 :=
  { bids_ := fun _ => PriceLevel_V6.empty,
    asks_ := fun _ => PriceLevel_V6.empty,
    order_pool_ := ObjectPool.new MAX_ORDER_ID,
    order_map_ := fun _ => none,
    best_bid_ := 0,
    best_ask_ := MAX_PRICE }

/-- The record a slot points to (`*order`). -/
def OrderBookV4.pool (b : OrderBookV4) (s : Nat) : HP_Order_V4 := b.order_pool_.pool_ s

/-- A write through an order pointer. -/
def OrderBookV4.setOrder (b : OrderBookV4) (s : Nat) (r : HP_Order_V4) : OrderBookV4 :=
  { b with order_pool_ :=
      { b.order_pool_ with pool_ := Function.update b.order_pool_.pool_ s r } }

/-- The level `(side == Side::BUY) ? bids_[p] : asks_[p]`. -/
def OrderBookV4.level (b : OrderBookV4) (side : Side) (p : Nat) : PriceLevel_V4 :=
  match side with
  | Side.BUY => b.bids_ p
  | Side.SELL => b.asks_ p

/-- A write through the level reference. -/
def OrderBookV4.setLevel (b : OrderBookV4) (side : Side) (p : Nat) (l : PriceLevel_V4) :
    OrderBookV4 :=
  match side with
  | Side.BUY => { b with bids_ := Function.update b.bids_ p l }
  | Side.SELL => { b with asks_ := Function.update b.asks_ p l }

/-- `void OrderBookV4::AddToList(Price price, HP_Order_V4* order)`. -/
def OrderBookV4.AddToList (b : OrderBookV4) (price : Nat) (order : Nat) :
    Except Error OrderBookV4 :=
  let side := (b.pool order).side
  match (b.level side price).head with
  | none =>
    let b1 := b.setLevel side price
      { b.level side price with head := some order, tail := some order }
    .ok (b1.setLevel side price
      { b1.level side price with
        total_quantity := add32 (b1.level side price).total_quantity (b1.pool order).quantity })
  | some _ =>
    match (b.level side price).tail with
    | none => .error Error.NullDeref
    | some t =>
      let b1 := b.setOrder t { b.pool t with next := some order }
      let b2 := b1.setOrder order { b1.pool order with prev := (b1.level side price).tail }
      let b3 := b2.setLevel side price { b2.level side price with tail := some order }
      .ok (b3.setLevel side price
        { b3.level side price with
          total_quantity := add32 (b3.level side price).total_quantity (b3.pool order).quantity })

/-- `void OrderBookV4::RemoveFromList(HP_Order_V4* order)`. -/
def OrderBookV4.RemoveFromList (b : OrderBookV4) (order : Nat) : OrderBookV4 :=
  let side := (b.pool order).side
  let price := (b.pool order).price
  let b1 := match (b.pool order).prev with
    | some p => b.setOrder p { b.pool p with next := (b.pool order).next }
    | none => b
  let b2 := match (b1.pool order).next with
    | some n => b1.setOrder n { b1.pool n with prev := (b1.pool order).prev }
    | none => b1
  let b3 := if (b2.level side price).head = some order
    then b2.setLevel side price { b2.level side price with head := (b2.pool order).next }
    else b2
  let b4 := if (b3.level side price).tail = some order
    then b3.setLevel side price { b3.level side price with tail := (b3.pool order).prev }
    else b3
  let b5 := b4.setLevel side price
    { b4.level side price with
      total_quantity := sub32 (b4.level side price).total_quantity (b4.pool order).quantity }
  b5.setOrder order { b5.pool order with next := none, prev := none }

/-- The loop of `UpdateBestBid`,
`while (best_bid_ > 0 && bids_[best_bid_].head == nullptr) best_bid_--;`, by
recursion on `best_bid_`; the result is the new `best_bid_`. -/
def OrderBookV4.scanBid (bids : Nat → PriceLevel_V4) : Nat → Nat
  | 0 => 0
  | p + 1 => if (bids (p + 1)).head = none then scanBid bids p else p + 1

/-- `void OrderBookV4::UpdateBestBid()`. -/
def OrderBookV4.UpdateBestBid (b : OrderBookV4) : OrderBookV4 :=
  { b with best_bid_ := OrderBookV4.scanBid b.bids_ b.best_bid_ }

/-- The loop of `UpdateBestAsk`,
`while (best_ask_ < MAX_PRICE && asks_[best_ask_].head == nullptr) best_ask_++;`;
`n` is `MAX_PRICE - best_ask_`, the number of prices from `best_ask_` up to
`MAX_PRICE`, so the recursion is exact; the result is the new `best_ask_`. -/
def OrderBookV4.scanAsk (asks : Nat → PriceLevel_V4) : Nat → Nat → Nat
  | 0, p => p
  | n + 1, p => if p < MAX_PRICE ∧ (asks p).head = none then scanAsk asks n (p + 1) else p

/-- `void OrderBookV4::UpdateBestAsk()`. -/
def OrderBookV4.UpdateBestAsk (b : OrderBookV4) : OrderBookV4 :=
  { b with best_ask_ := OrderBookV4.scanAsk b.asks_ (MAX_PRICE - b.best_ask_) b.best_ask_ }

/-- One trade of the inner loop of `OrderBookV4::AddOrder` against the record
`cur` of the level `lside[lprice]`: the decrements by
`trade_quantity = std::min(quantity, current_order->quantity)` of the record's
quantity and of the level's total. -/
def OrderBookV4.trade (lside : Side) (lprice : Nat) (b : OrderBookV4) (cur quantity : Nat) :
    OrderBookV4 :=
  let trade_quantity := min quantity (b.pool cur).quantity
  let b1 := b.setOrder cur
    { b.pool cur with quantity := sub32 (b.pool cur).quantity trade_quantity }
  b1.setLevel lside lprice
    { b1.level lside lprice with
      total_quantity := sub32 (b1.level lside lprice).total_quantity trade_quantity }

/-- The body of `if (current_order->quantity == 0)` in the inner loop:
`order_map_[current_order->order_id] = nullptr; RemoveFromList(current_order);
order_pool_.DeleteOrder(current_order);`. -/
def OrderBookV4.release (b : OrderBookV4) (cur : Nat) : OrderBookV4 :=
  let b1 := { b with order_map_ := Function.update b.order_map_ (b.pool cur).order_id none }
  let b2 := b1.RemoveFromList cur
  { b2 with order_pool_ := b2.order_pool_.DeleteOrder cur }

/-- The inner loop of `OrderBookV4::AddOrder`, `while (current_order && quantity > 0)`,
on the level `level = lside[lprice]` bound before the loop; returns the book and
the remaining `quantity`. -/
def OrderBookV4.matchLevel (lside : Side) (lprice : Nat) :
    Nat → OrderBookV4 → Option Nat → Nat → Except Error (OrderBookV4 × Nat)
  | 0, _, _, _ => .error Error.OutOfFuel
  | fuel + 1, b, current_order, quantity =>
    match current_order with
    | none => .ok (b, quantity)
    | some cur =>
      if quantity > 0 then
        let trade_quantity := min quantity (b.pool cur).quantity
        let b1 := OrderBookV4.trade lside lprice b cur quantity
        let quantity1 := sub32 quantity trade_quantity
        if (b1.pool cur).quantity = 0 then
          let next_order := (b1.pool cur).next
          OrderBookV4.matchLevel lside lprice fuel (b1.release cur) next_order quantity1
        else
          OrderBookV4.matchLevel lside lprice fuel b1 (some cur) quantity1
      else .ok (b, quantity)

/-- The BUY matching loop of `OrderBookV4::AddOrder`,
`while (quantity > 0 && price >= best_ask_ && best_ask_ < MAX_PRICE)`. -/
def OrderBookV4.matchBuy (price : Nat) : Nat → OrderBookV4 → Nat → Except Error (OrderBookV4 × Nat)
  | 0, _, _ => .error Error.OutOfFuel
  | fuel + 1, b, quantity =>
    if quantity > 0 ∧ price ≥ b.best_ask_ ∧ b.best_ask_ < MAX_PRICE then
      let lprice := b.best_ask_
      if (b.asks_ lprice).head = none then
        OrderBookV4.matchBuy price fuel b.UpdateBestAsk quantity
      else
        match OrderBookV4.matchLevel Side.SELL lprice fuel b (b.asks_ lprice).head quantity with
        | .error e => .error e
        | .ok (b1, quantity1) =>
          if (b1.asks_ lprice).head = none then
            OrderBookV4.matchBuy price fuel b1.UpdateBestAsk quantity1
          else
            OrderBookV4.matchBuy price fuel b1 quantity1
    else .ok (b, quantity)

/-- The SELL matching loop of `OrderBookV4::AddOrder`,
`while (quantity > 0 && price <= best_bid_ && best_bid_ > 0)`. -/
def OrderBookV4.matchSell (price : Nat) :
    Nat → OrderBookV4 → Nat → Except Error (OrderBookV4 × Nat)
  | 0, _, _ => .error Error.OutOfFuel
  | fuel + 1, b, quantity =>
    if quantity > 0 ∧ price ≤ b.best_bid_ ∧ b.best_bid_ > 0 then
      let lprice := b.best_bid_
      if (b.bids_ lprice).head = none then
        OrderBookV4.matchSell price fuel b.UpdateBestBid quantity
      else
        match OrderBookV4.matchLevel Side.BUY lprice fuel b (b.bids_ lprice).head quantity with
        | .error e => .error e
        | .ok (b1, quantity1) =>
          if (b1.bids_ lprice).head = none then
            OrderBookV4.matchSell price fuel b1.UpdateBestBid quantity1
          else
            OrderBookV4.matchSell price fuel b1 quantity1
    else .ok (b, quantity)

/-- The resting phase of the BUY branch of `OrderBookV4::AddOrder`,
`if (quantity > 0) { ... }`. -/
def OrderBookV4.restBuy (b : OrderBookV4) (order_id price quantity : Nat) :
    Except Error OrderBookV4 :=
  if quantity > 0 then
    match b.order_pool_.NewOrder with
    | .error e => .error e
    | .ok (new_order, pool1) =>
      let b1 := { b with order_pool_ := pool1 }
      let b2 := b1.setOrder new_order
        { b1.pool new_order with
          order_id := order_id, quantity := quantity, price := price, side := Side.BUY }
      match b2.AddToList price new_order with
      | .error e => .error e
      | .ok b3 =>
        let b4 := { b3 with order_map_ := Function.update b3.order_map_ order_id (some new_order) }
        .ok (if price > b4.best_bid_ then { b4 with best_bid_ := price } else b4)
  else .ok b

/-- The resting phase of the SELL branch of `OrderBookV4::AddOrder`,
`if (quantity > 0) { ... }`. -/
def OrderBookV4.restSell (b : OrderBookV4) (order_id price quantity : Nat) :
    Except Error OrderBookV4 :=
  if quantity > 0 then
    match b.order_pool_.NewOrder with
    | .error e => .error e
    | .ok (new_order, pool1) =>
      let b1 := { b with order_pool_ := pool1 }
      let b2 := b1.setOrder new_order
        { b1.pool new_order with
          order_id := order_id, quantity := quantity, price := price, side := Side.SELL }
      match b2.AddToList price new_order with
      | .error e => .error e
      | .ok b3 =>
        let b4 := { b3 with order_map_ := Function.update b3.order_map_ order_id (some new_order) }
        .ok (if price < b4.best_ask_ then { b4 with best_ask_ := price } else b4)
  else .ok b

/-- `void OrderBookV4::AddOrder(OrderId order_id, Side side, Price price, Quantity quantity)`;
`fuel` bounds the iterations of the matching loops. -/
def OrderBookV4.AddOrder (fuel : Nat) (b : OrderBookV4) (order_id : Nat) (side : Side)
    (price quantity : Nat) : Except Error OrderBookV4 :=
  match side with
  | Side.BUY =>
    match OrderBookV4.matchBuy price fuel b quantity with
    | .error e => .error e
    | .ok (b1, quantity1) => b1.restBuy order_id price quantity1
  | Side.SELL =>
    match OrderBookV4.matchSell price fuel b quantity with
    | .error e => .error e
    | .ok (b1, quantity1) => b1.restSell order_id price quantity1

/-- `void OrderBookV4::CancelOrder(OrderId order_id)`; `order_map_.size()` is
`MAX_ORDER_ID`. -/
def OrderBookV4.CancelOrder (b : OrderBookV4) (order_id : Nat) : OrderBookV4 :=
  if order_id ≥ MAX_ORDER_ID then b
  else
    match b.order_map_ order_id with
    | none => b
    | some order =>
      let price := (b.pool order).price
      let side := (b.pool order).side
      let b1 := b.RemoveFromList order
      let b2 := { b1 with order_map_ := Function.update b1.order_map_ order_id none }
      let b3 := { b2 with order_pool_ := b2.order_pool_.DeleteOrder order }
      if side = Side.BUY ∧ (b3.bids_ price).head = none ∧ price = b3.best_bid_ then
        b3.UpdateBestBid
      else if side = Side.SELL ∧ (b3.asks_ price).head = none ∧ price = b3.best_ask_ then
        b3.UpdateBestAsk
      else b3

/-- The call sequence `cs`, the latest call first, run on `OrderBookV4` from
the empty book. -/
def OrderBookV4.run : List Call → Except Error OrderBookV4
  | [] => .ok OrderBookV4.new
  | Call.add fuel order_id side price quantity :: cs =>
    match OrderBookV4.run cs with
    | .error e => .error e
    | .ok b => b.AddOrder fuel order_id side price quantity
  | Call.cancel order_id :: cs =>
    match OrderBookV4.run cs with
    | .error e => .error e
    | .ok b => .ok (b.CancelOrder order_id)

/-- The slots of the list of the level `(side, p)` of an `OrderBookV4`, from
`head` on. -/
def OrderBookV4.levelSlots (b : OrderBookV4) (side : Side) (p : Nat) : List Nat :=
  walk b.pool MAX_ORDER_ID (b.level side p).head

/-- The sequence of `(order_id, quantity)` records of the list of a level of an
`OrderBookV4`. -/
def OrderBookV4.levelRecords (b : OrderBookV4) (side : Side) (p : Nat) : List (Nat × Nat) :=
  (b.levelSlots side p).map fun s => ((b.pool s).order_id, (b.pool s).quantity)

/-- The sequence of `(order_id, quantity)` records of the list of a level of an
`OrderBookV6`. -/
def OrderBookV6.levelRecords (b : OrderBookV6) (side : Side) (p : Nat) : List (Nat × Nat) :=
  (b.levelSlots side p).map fun s => ((b.pool s).order_id, (b.pool s).quantity)

/-- The `OrderBookV6` without its bitmaps, as an `OrderBookV4`. -/
def OrderBookV6.toV4 (b : OrderBookV6) : OrderBookV4 :=
  { bids_ := b.bids_, asks_ := b.asks_, order_pool_ := b.order_pool_,
    order_map_ := b.order_map_, best_bid_ := b.best_bid_, best_ask_ := b.best_ask_ }

/-! ## The map-based baseline (OrderBookV1)

A shallow embedding of `src/V1/src/OrderBookV1.{h,cpp}` and `src/V1/src/Types.h`.

* `Price`, `Quantity` and `OrderId` are `uint64_t`: subtractions wrap modulo `2^64`.
* A `std::list<Order>` is the list of its nodes, first node first; a node has an
  identity, which is what an iterator to it holds, and `push_back` makes a node
  with an identity no node had before (`next_it_` is the next one to hand out).
* A `std::map<Price, OrderList, Compare>` is the list of its entries in
  iteration order: `begin()` is the first entry.
* `std::unordered_map<OrderId, OrderLocation>` is a partial function.
* The `while` loops of `AddOrder` take a fuel argument. -/

/-- Wrap-around subtraction on `uint64_t`. -/
def sub64 (a b : Nat) : Nat := (a + 2 ^ 64 - b % 2 ^ 64) % 2 ^ 64

/-- `struct Order` of `Types.h`. -/
structure Order where
  order_id : Nat
  price : Nat
  quantity : Nat
  side : Side
deriving DecidableEq, Repr

/-- A node of a `std::list<Order>`: its identity `it` and the `Order` it stores. -/
structure ListNode where
  it : Nat
  val : Order
deriving DecidableEq, Repr

/-- `using OrderList = std::list<Order>;` -/
abbrev OrderList := List ListNode

/-- `struct OrderLocation`; `it` is the identity of the node the iterator points to. -/
structure OrderLocation where
  price : Nat
  side : Side
  it : Nat
deriving DecidableEq, Repr

/-- A `std::map<Price, OrderList, Compare>`: its entries in iteration order. -/
abbrev PriceMap := List (Nat × OrderList)

/-- What `OrderBookV1` can run into: `std::out_of_range` from `std::map::at`, or
a loop that did not finish within the fuel. -/
inductive ErrorV1 where
  | OutOfRange
  | OutOfFuel
deriving DecidableEq, Repr

/-- `m.find(key)`, `m.at(key)`: the list stored under `key`, if any. -/
def PriceMap.find : PriceMap → Nat → Option OrderList
  | [], _ => none
  | (k, v) :: rest, key => if k = key then some v else PriceMap.find rest key

/-- The map with `v` stored under `key` (what writing through the reference
`m[key]` leaves); `before x y` says that the key `x` comes before the key `y` in
the iteration order of the map. -/
def PriceMap.insert (before : Nat → Nat → Bool) : PriceMap → Nat → OrderList → PriceMap
  | [], key, v => [(key, v)]
  | (k, v') :: rest, key, v =>
    if k = key then (key, v) :: rest
    else if before key k then (key, v) :: (k, v') :: rest
    else (k, v') :: PriceMap.insert before rest key v

/-- `m.erase(key)`. -/
def PriceMap.erase : PriceMap → Nat → PriceMap
  | [], _ => []
  | (k, v) :: rest, key => if k = key then rest else (k, v) :: PriceMap.erase rest key

/-- The iteration order of the map of a side: `std::greater<Price>` for `bids_`,
`std::less<Price>` for `asks_`. -/
def Side.before (side : Side) (x y : Nat) : Bool :=
  match side with
  | Side.BUY => decide (x > y)
  | Side.SELL => decide (x < y)

/-- The class `OrderBookV1`. -/
structure OrderBookV1 where
  bids_ : PriceMap
  asks_ : PriceMap
  order_map_ : Nat → Option OrderLocation
  next_it_ : Nat

/-- A default-constructed `OrderBookV1`. -/
def OrderBookV1.new : OrderBookV1 :=
  { bids_ := [], asks_ := [], order_map_ := fun _ => none, next_it_ := 0 }

/-- The inner loop of `OrderBookV1::AddOrder`,
`while (it != best_level.end() && quantity > 0)`, on the list of the best level
and `order_map_`; `it` starts at `begin()` and every `erase(it)` hands back the
iterator to the next node, which is then the first node of the list, so `it`
always points to the first node. Returns the list, `order_map_` and the
remaining `quantity`. -/
def OrderBookV1.matchLevel :
    Nat → OrderList → (Nat → Option OrderLocation) → Nat →
      Except ErrorV1 (OrderList × (Nat → Option OrderLocation) × Nat)
  | 0, _, _, _ => .error ErrorV1.OutOfFuel
  | fuel + 1, level, order_map, quantity =>
    match level with
    | [] => .ok (level, order_map, quantity)
    | node :: rest =>
      if quantity > 0 then
        let trade_quantity := min quantity node.val.quantity
        let node1 : ListNode :=
          { node with val := { node.val with quantity := sub64 node.val.quantity trade_quantity } }
        let quantity1 := sub64 quantity trade_quantity
        if node1.val.quantity = 0 then
          OrderBookV1.matchLevel fuel rest
            (Function.update order_map node1.val.order_id none) quantity1
        else
          OrderBookV1.matchLevel fuel (node1 :: rest) order_map quantity1
      else .ok (level, order_map, quantity)

/-- The BUY matching loop of `OrderBookV1::AddOrder`,
`while (quantity > 0 && !asks_.empty() && price >= asks_.begin()->first)`. -/
def OrderBookV1.matchBuy (price : Nat) :
    Nat → OrderBookV1 → Nat → Except ErrorV1 (OrderBookV1 × Nat)
  | 0, _, _ => .error ErrorV1.OutOfFuel
  | fuel + 1, b, quantity =>
    match b.asks_ with
    | [] => .ok (b, quantity)
    | (best_price, best_ask_level) :: rest =>
      if quantity > 0 ∧ price ≥ best_price then
        match OrderBookV1.matchLevel fuel best_ask_level b.order_map_ quantity with
        | .error e => .error e
        | .ok (level1, order_map1, quantity1) =>
          if level1.isEmpty then
            OrderBookV1.matchBuy price fuel
              { b with asks_ := rest, order_map_ := order_map1 } quantity1
          else
            OrderBookV1.matchBuy price fuel
              { b with asks_ := (best_price, level1) :: rest, order_map_ := order_map1 } quantity1
      else .ok (b, quantity)

/-- The SELL matching loop of `OrderBookV1::AddOrder`,
`while (quantity > 0 && !bids_.empty() && price <= bids_.begin()->first)`. -/
def OrderBookV1.matchSell (price : Nat) :
    Nat → OrderBookV1 → Nat → Except ErrorV1 (OrderBookV1 × Nat)
  | 0, _, _ => .error ErrorV1.OutOfFuel
  | fuel + 1, b, quantity =>
    match b.bids_ with
    | [] => .ok (b, quantity)
    | (best_price, best_bid_level) :: rest =>
      if quantity > 0 ∧ price ≤ best_price then
        match OrderBookV1.matchLevel fuel best_bid_level b.order_map_ quantity with
        | .error e => .error e
        | .ok (level1, order_map1, quantity1) =>
          if level1.isEmpty then
            OrderBookV1.matchSell price fuel
              { b with bids_ := rest, order_map_ := order_map1 } quantity1
          else
            OrderBookV1.matchSell price fuel
              { b with bids_ := (best_price, level1) :: rest, order_map_ := order_map1 } quantity1
      else .ok (b, quantity)

/-- The resting phase of the BUY branch of `OrderBookV1::AddOrder`,
`if (quantity > 0) { ... }`: `bids_[price]` is the list under `price`, an empty
one when the key is new. -/
def OrderBookV1.restBuy (b : OrderBookV1) (order_id price quantity : Nat) : OrderBookV1 :=
  if quantity > 0 then
    let new_order : Order :=
      { order_id := order_id, price := price, quantity := quantity, side := Side.BUY }
    let level := (PriceMap.find b.bids_ price).getD []
    let node : ListNode := { it := b.next_it_, val := new_order }
    { b with
      bids_ := PriceMap.insert Side.BUY.before b.bids_ price (level ++ [node]),
      order_map_ := Function.update b.order_map_ order_id
        (some { price := price, side := Side.BUY, it := node.it }),
      next_it_ := b.next_it_ + 1 }
  else b

/-- The resting phase of the SELL branch of `OrderBookV1::AddOrder`. -/
def OrderBookV1.restSell (b : OrderBookV1) (order_id price quantity : Nat) : OrderBookV1 :=
  if quantity > 0 then
    let new_order : Order :=
      { order_id := order_id, price := price, quantity := quantity, side := Side.SELL }
    let level := (PriceMap.find b.asks_ price).getD []
    let node : ListNode := { it := b.next_it_, val := new_order }
    { b with
      asks_ := PriceMap.insert Side.SELL.before b.asks_ price (level ++ [node]),
      order_map_ := Function.update b.order_map_ order_id
        (some { price := price, side := Side.SELL, it := node.it }),
      next_it_ := b.next_it_ + 1 }
  else b

/-- `void OrderBookV1::AddOrder(OrderId order_id, Side side, Price price, Quantity quantity)`;
`fuel` bounds the iterations of the matching loops. -/
def OrderBookV1.AddOrder (fuel : Nat) (b : OrderBookV1) (order_id : Nat) (side : Side)
    (price quantity : Nat) : Except ErrorV1 OrderBookV1 :=
  match side with
  | Side.BUY =>
    match OrderBookV1.matchBuy price fuel b quantity with
    | .error e => .error e
    | .ok (b1, quantity1) => .ok (b1.restBuy order_id price quantity1)
  | Side.SELL =>
    match OrderBookV1.matchSell price fuel b quantity with
    | .error e => .error e
    | .ok (b1, quantity1) => .ok (b1.restSell order_id price quantity1)

/-- `void OrderBookV1::CancelOrder(OrderId order_id)`: `level.erase(loc.it)`
takes the node with the identity `loc.it` out of the list. -/
def OrderBookV1.CancelOrder (b : OrderBookV1) (order_id : Nat) : Except ErrorV1 OrderBookV1 :=
  match b.order_map_ order_id with
  | none => .ok b
  | some loc =>
    match loc.side with
    | Side.BUY =>
      match PriceMap.find b.bids_ loc.price with
      | none => .error ErrorV1.OutOfRange
      | some level =>
        let level1 := level.eraseP (fun n => decide (n.it = loc.it))
        let bids1 :=
          if level1.isEmpty then PriceMap.erase b.bids_ loc.price
          else PriceMap.insert Side.BUY.before b.bids_ loc.price level1
        .ok { b with bids_ := bids1, order_map_ := Function.update b.order_map_ order_id none }
    | Side.SELL =>
      match PriceMap.find b.asks_ loc.price with
      | none => .error ErrorV1.OutOfRange
      | some level =>
        let level1 := level.eraseP (fun n => decide (n.it = loc.it))
        let asks1 :=
          if level1.isEmpty then PriceMap.erase b.asks_ loc.price
          else PriceMap.insert Side.SELL.before b.asks_ loc.price level1
        .ok { b with asks_ := asks1, order_map_ := Function.update b.order_map_ order_id none }

/-- The call sequence `cs`, the latest call first, run on `OrderBookV1` from
the empty book. -/
def OrderBookV1.run : List Call → Except ErrorV1 OrderBookV1
  | [] => .ok OrderBookV1.new
  | Call.add fuel order_id side price quantity :: cs =>
    match OrderBookV1.run cs with
    | .error e => .error e
    | .ok b => b.AddOrder fuel order_id side price quantity
  | Call.cancel order_id :: cs =>
    match OrderBookV1.run cs with
    | .error e => .error e
    | .ok b => b.CancelOrder order_id

/-- The map of a side. -/
def OrderBookV1.book (b : OrderBookV1) (side : Side) : PriceMap :=
  match side with
  | Side.BUY => b.bids_
  | Side.SELL => b.asks_

/-- The list stored under the price `p` in the map of `side`; empty when `p` is
not a key. -/
def OrderBookV1.levelOf (b : OrderBookV1) (side : Side) (p : Nat) : OrderList :=
  (PriceMap.find (b.book side) p).getD []

/-- The `(order_id, quantity)` record of a node. -/
def ListNode.idq (n : ListNode) : Nat × Nat := (n.val.order_id, n.val.quantity)

/-- The sequence of `(order_id, quantity)` records of the list under `p`. -/
def OrderBookV1.levelRecords (b : OrderBookV1) (side : Side) (p : Nat) : List (Nat × Nat) :=
  (b.levelOf side p).map ListNode.idq

/-- The price `p` is a key of the map of `side`. -/
def OrderBookV1.isKey (b : OrderBookV1) (side : Side) (p : Nat) : Prop :=
  PriceMap.find (b.book side) p ≠ none

instance (b : OrderBookV1) (side : Side) (p : Nat) : Decidable (b.isKey side p) := by
  unfold OrderBookV1.isKey; exact inferInstance

/-- The price of an `AddOrder` call lies strictly inside the price domain. -/
def Call.interior : Call → Prop
  | Call.add _ _ _ price _ => 0 < price ∧ price < MAX_PRICE
  | Call.cancel _ => True

instance (c : Call) : Decidable c.interior := by
  cases c <;> unfold Call.interior <;> exact inferInstance

/-! ## Maps as lists of entries in iteration order -/

/-- The keys of the map come in the iteration order of the side, strictly. -/
def PriceMap.Sorted (side : Side) (m : PriceMap) : Prop :=
  (m.map Prod.fst).Pairwise (fun x y => side.before x y = true)

/-! ## The map-based book against the list view -/

/-- The `(order_id, quantity)` record of a resting order of the list view. -/
def AOrder.idq (o : AOrder) : Nat × Nat := (o.id, o.qty)

/-- The identity and the order id of a node. -/
def ListNode.key (n : ListNode) : Nat × Nat := (n.it, n.val.order_id)

/-- The map-based book `v` holds the resting orders of the list view `a`: level
by level the same `(order_id, quantity)` records in the same order, in maps
sorted by price without empty lists, with `order_map_` pointing to the nodes. -/
structure Rep1 (v : OrderBookV1) (a : ABook) : Prop where
  sorted : ∀ side, PriceMap.Sorted side (v.book side)
  nonempty : ∀ side, ∀ e ∈ v.book side, e.2 ≠ []
  levels : ∀ side p, (v.levelOf side p).map ListNode.idq = (a.lv side p).map AOrder.idq
  its : ∀ side p, ((v.levelOf side p).map ListNode.it).Nodup
  fresh : ∀ side p, ∀ n ∈ v.levelOf side p, n.it < v.next_it_
  omap : ∀ id loc, v.order_map_ id = some loc →
    ∃ n ∈ v.levelOf loc.side loc.price, n.it = loc.it ∧ n.val.order_id = id
  live : ∀ id, v.order_map_ id ≠ none ↔ ∃ sd x, ∃ o ∈ a.lv sd x, o.id = id

/-- Every resting order of the list view has a price strictly inside the domain. -/
def ABook.Interior (a : ABook) : Prop :=
  ∀ s x, a.lv s x ≠ [] → 0 < x ∧ x < MAX_PRICE

/-! ## The matching loop of the map-based book, for either side -/

/-- The book with the map of `side` replaced. -/
def OrderBookV1.setBook (b : OrderBookV1) (side : Side) (m : PriceMap) : OrderBookV1 :=
  match side with
  | Side.BUY => { b with bids_ := m }
  | Side.SELL => { b with asks_ := m }

/-- The price test of the guard of the matching loop of `OrderBookV1::AddOrder`
for an incoming order of side `side` against the best price of the other side. -/
def Side.takes (side : Side) (price best : Nat) : Prop :=
  match side with
  | Side.BUY => price ≥ best
  | Side.SELL => price ≤ best

instance (side : Side) (price best : Nat) : Decidable (side.takes price best) := by
  cases side <;> unfold Side.takes <;> exact inferInstance

/-- The book after one round of the matching loop against the first entry
`(best, _)` of the map of `sd`, whose other entries are `rest`: the inner loop
left the list `level1` and the order map `order_map1`, and an emptied list is
erased from the map. -/
def OrderBookV1.afterRound (b : OrderBookV1) (sd : Side) (best : Nat) (rest : PriceMap)
    (level1 : OrderList) (order_map1 : Nat → Option OrderLocation) : OrderBookV1 :=
  ({ b with order_map_ := order_map1 } : OrderBookV1).setBook sd
    (if level1.isEmpty then rest else (best, level1) :: rest)

/-- The matching loop of `OrderBookV1::AddOrder` for an incoming order of side
`side`: `matchBuy` for a BUY, `matchSell` for a SELL. -/
def OrderBookV1.matchSide (side : Side) (price : Nat) :
    Nat → OrderBookV1 → Nat → Except ErrorV1 (OrderBookV1 × Nat)
  | 0, _, _ => .error ErrorV1.OutOfFuel
  | fuel + 1, b, quantity =>
    match b.book side.opp with
    | [] => .ok (b, quantity)
    | (best_price, best_level) :: rest =>
      if quantity > 0 ∧ side.takes price best_price then
        match OrderBookV1.matchLevel fuel best_level b.order_map_ quantity with
        | .error e => .error e
        | .ok (level1, order_map1, quantity1) =>
          OrderBookV1.matchSide side price fuel
            (b.afterRound side.opp best_price rest level1 order_map1) quantity1
      else .ok (b, quantity)

/-- The resting phase of `OrderBookV1::AddOrder` for either side. -/
def OrderBookV1.restSide (b : OrderBookV1) (side : Side) (order_id price quantity : Nat) :
    OrderBookV1 :=
  match side with
  | Side.BUY => b.restBuy order_id price quantity
  | Side.SELL => b.restSell order_id price quantity

/-! ## C5: the cached bests cross only at an occupied sentinel level -/

/-- A resting bid and a resting ask cross only at a sentinel price: a bid at
`pb` and an ask at `pa` have `pb < pa`, or both rest at `MAX_PRICE`, or both
rest at `0`. -/
def ABook.Uncrossed (a : ABook) : Prop :=
  ∀ pb pa, a.lv Side.BUY pb ≠ [] → a.lv Side.SELL pa ≠ [] →
    pb < pa ∨ (pb = MAX_PRICE ∧ pa = MAX_PRICE) ∨ (pb = 0 ∧ pa = 0)

/-- The book after `Add(1, SELL, 100, 5)` and `Add(2, SELL, 200, 5)`. -/
def exAsks : OrderBookV6 := okOr (exFifo1.AddOrder 7 2 Side.SELL 200 5)

/-- The book after `Add(3, BUY, MAX_PRICE, 5)` on `exAsks`: the BUY at
`MAX_PRICE` is filled against the ask at 100 and does not rest. -/
def exSweep : OrderBookV6 := okOr (exAsks.AddOrder 7 3 Side.BUY MAX_PRICE 5)

/-- The book after `Add(4, BUY, 50, 5)` on `exSweep`: a bid rests at 50 and an
ask at 200. -/
def exSweepBid : OrderBookV6 := okOr (exSweep.AddOrder 7 4 Side.BUY 50 5)

/-! ## Theorems -/

/-! ## Reading a book after a write -/

namespace OrderBookV6

@[simp] theorem pool_setOrder (b : OrderBookV6) (s : Nat) (r : HP_Order_V6) (x : Nat) :
    (b.setOrder s r).pool x = if x = s then r else b.pool x := by
  simp [setOrder, pool, Function.update_apply]

@[simp] theorem level_setOrder (b : OrderBookV6) (s : Nat) (r : HP_Order_V6) (side : Side)
    (p : Nat) : (b.setOrder s r).level side p = b.level side p := by
  cases side <;> rfl

@[simp] theorem pool_setLevel (b : OrderBookV6) (side : Side) (p : Nat) (l : PriceLevel_V6)
    (x : Nat) : (b.setLevel side p l).pool x = b.pool x := by
  cases side <;> rfl

@[simp] theorem level_setLevel (b : OrderBookV6) (side side' : Side) (p p' : Nat)
    (l : PriceLevel_V6) :
    (b.setLevel side p l).level side' p' =
      if side' = side ∧ p' = p then l else b.level side' p' := by
  cases side <;> cases side' <;> simp [setLevel, level, Function.update_apply]

@[simp] theorem order_map_setOrder (b : OrderBookV6) (s : Nat) (r : HP_Order_V6) :
    (b.setOrder s r).order_map_ = b.order_map_ := rfl

@[simp] theorem order_map_setLevel (b : OrderBookV6) (side : Side) (p : Nat)
    (l : PriceLevel_V6) : (b.setLevel side p l).order_map_ = b.order_map_ := by
  cases side <;> rfl

@[simp] theorem free_setOrder (b : OrderBookV6) (s : Nat) (r : HP_Order_V6) :
    (b.setOrder s r).order_pool_.free_list_ = b.order_pool_.free_list_ := rfl

@[simp] theorem free_setLevel (b : OrderBookV6) (side : Side) (p : Nat)
    (l : PriceLevel_V6) :
    (b.setLevel side p l).order_pool_.free_list_ = b.order_pool_.free_list_ := by
  cases side <;> rfl

@[simp] theorem best_bid_setOrder (b : OrderBookV6) (s : Nat) (r : HP_Order_V6) :
    (b.setOrder s r).best_bid_ = b.best_bid_ := rfl

@[simp] theorem best_ask_setOrder (b : OrderBookV6) (s : Nat) (r : HP_Order_V6) :
    (b.setOrder s r).best_ask_ = b.best_ask_ := rfl

@[simp] theorem best_bid_setLevel (b : OrderBookV6) (side : Side) (p : Nat)
    (l : PriceLevel_V6) : (b.setLevel side p l).best_bid_ = b.best_bid_ := by
  cases side <;> rfl

@[simp] theorem best_ask_setLevel (b : OrderBookV6) (side : Side) (p : Nat)
    (l : PriceLevel_V6) : (b.setLevel side p l).best_ask_ = b.best_ask_ := by
  cases side <;> rfl

@[simp] theorem bids_bitmap_setOrder (b : OrderBookV6) (s : Nat) (r : HP_Order_V6) :
    (b.setOrder s r).bids_bitmap_ = b.bids_bitmap_ := rfl

@[simp] theorem asks_bitmap_setOrder (b : OrderBookV6) (s : Nat) (r : HP_Order_V6) :
    (b.setOrder s r).asks_bitmap_ = b.asks_bitmap_ := rfl

@[simp] theorem bids_bitmap_setLevel (b : OrderBookV6) (side : Side) (p : Nat)
    (l : PriceLevel_V6) : (b.setLevel side p l).bids_bitmap_ = b.bids_bitmap_ := by
  cases side <;> rfl

@[simp] theorem asks_bitmap_setLevel (b : OrderBookV6) (side : Side) (p : Nat)
    (l : PriceLevel_V6) : (b.setLevel side p l).asks_bitmap_ = b.asks_bitmap_ := by
  cases side <;> rfl

/-- Two books are equal when their observable components are. -/
theorem ext_of {b c : OrderBookV6}
    (hl : ∀ side p, b.level side p = c.level side p)
    (hp : ∀ s, b.pool s = c.pool s)
    (hf : b.order_pool_.free_list_ = c.order_pool_.free_list_)
    (hm : b.order_map_ = c.order_map_)
    (hbb : b.best_bid_ = c.best_bid_) (hba : b.best_ask_ = c.best_ask_)
    (hbm : b.bids_bitmap_ = c.bids_bitmap_) (ham : b.asks_bitmap_ = c.asks_bitmap_) :
    b = c := by
  obtain ⟨bids, asks, ⟨pl, fl⟩, om, bb, ba, bbm, abm⟩ := b
  obtain ⟨bids', asks', ⟨pl', fl'⟩, om', bb', ba', bbm', abm'⟩ := c
  have h1 : bids = bids' := funext fun p => hl Side.BUY p
  have h2 : asks = asks' := funext fun p => hl Side.SELL p
  have h3 : pl = pl' := funext fun s => hp s
  simp only at hf hm hbb hba hbm ham
  subst h1 h2 h3 hf hm hbb hba hbm ham
  rfl

/-- The result of `RemoveFromList` on a record whose neighbours are other
records, and different from each other. -/
theorem pool_RemoveFromList (b : OrderBookV6) (s : Nat)
    (hp : (b.pool s).prev ≠ some s) (hn : (b.pool s).next ≠ some s)
    (hpn : (b.pool s).prev = (b.pool s).next → (b.pool s).prev = none) (x : Nat) :
    (b.RemoveFromList s).pool x =
      if x = s then { b.pool s with next := none, prev := none }
      else if (b.pool s).prev = some x then { b.pool x with next := (b.pool s).next }
      else if (b.pool s).next = some x then { b.pool x with prev := (b.pool s).prev }
      else b.pool x := by
  unfold RemoveFromList
  rcases hpv : (b.pool s).prev with _ | pv <;> rcases hnx : (b.pool s).next with _ | nx
  · by_cases hx : x = s <;> simp [hpv, hnx, hx] <;> split_ifs <;> simp [hpv, hnx, hx]
  · have h1 : nx ≠ s := fun h => hn (by rw [hnx, h])
    by_cases hx : x = s
    · subst hx; simp [hpv, hnx, h1.symm]; split_ifs <;> simp [hpv, hnx, h1.symm]
    · by_cases hx2 : x = nx
      · subst hx2; simp [hpv, hnx, h1.symm, hx]; split_ifs <;> simp [hpv, hnx, h1.symm, hx]
      · have : nx ≠ x := fun h => hx2 h.symm
        simp [hpv, hnx, h1.symm, hx, hx2, this]; split_ifs <;> simp [hpv, hnx, h1.symm, hx, hx2, this]
  · have h1 : pv ≠ s := fun h => hp (by rw [hpv, h])
    by_cases hx : x = s
    · subst hx; simp [hpv, hnx, h1.symm]; split_ifs <;> simp [hpv, hnx, h1.symm]
    · by_cases hx2 : x = pv
      · subst hx2; simp [hpv, hnx, h1.symm, hx]; split_ifs <;> simp [hpv, hnx, h1.symm, hx]
      · have : pv ≠ x := fun h => hx2 h.symm
        simp [hpv, hnx, h1.symm, hx, hx2, this]; split_ifs <;> simp [hpv, hnx, h1.symm, hx, hx2, this]
  · have h1 : pv ≠ s := fun h => hp (by rw [hpv, h])
    have h2 : nx ≠ s := fun h => hn (by rw [hnx, h])
    have h3 : pv ≠ nx := fun h => by
      have := hpn (by rw [hpv, hnx, h]); rw [hpv] at this; cases this
    by_cases hx : x = s
    · subst hx; simp [hpv, hnx, h1.symm, h2.symm]; split_ifs <;> simp [hpv, hnx, h1.symm, h2.symm]
    · by_cases hx2 : x = pv
      · subst hx2
        have : nx ≠ x := fun h => h3 h.symm
        simp [hpv, hnx, h1.symm, h2.symm, hx, h3, this]
        split_ifs <;> simp [hpv, hnx, h1.symm, h2.symm, hx, h3, this]
      · by_cases hx3 : x = nx
        · subst hx3
          have : pv ≠ x := fun h => hx2 h.symm
          simp [hpv, hnx, h1.symm, h2.symm, hx, h3, this, hx2]
          split_ifs <;> simp [hpv, hnx, h1.symm, h2.symm, hx, h3, this, hx2]
        · have e1 : pv ≠ x := fun h => hx2 h.symm
          have e2 : nx ≠ x := fun h => hx3 h.symm
          simp [hpv, hnx, h1.symm, h2.symm, hx, h3, hx2, hx3, e1, e2]
          split_ifs <;> simp [hpv, hnx, h1.symm, h2.symm, hx, h3, hx2, hx3, e1, e2]

/-- The levels after `RemoveFromList`. -/
theorem level_RemoveFromList (b : OrderBookV6) (s : Nat) (side : Side) (p : Nat)
    (hp : (b.pool s).prev ≠ some s) (hn : (b.pool s).next ≠ some s)
    (hpn : (b.pool s).prev = (b.pool s).next → (b.pool s).prev = none) :
    (b.RemoveFromList s).level side p =
      if side = (b.pool s).side ∧ p = (b.pool s).price then
        { total_quantity := sub32 (b.level side p).total_quantity (b.pool s).quantity,
          head := if (b.level side p).head = some s then (b.pool s).next
                  else (b.level side p).head,
          tail := if (b.level side p).tail = some s then (b.pool s).prev
                  else (b.level side p).tail }
      else b.level side p := by
  unfold RemoveFromList
  rcases hpv : (b.pool s).prev with _ | pv <;> rcases hnx : (b.pool s).next with _ | nx
  · simp only [hpv, hnx]
    by_cases h : side = (b.pool s).side ∧ p = (b.pool s).price
    · obtain ⟨rfl, rfl⟩ := h
      simp; split_ifs <;> simp_all
    · simp [h]; split_ifs <;> simp_all
  · have h1 : s ≠ nx := fun h => hn (by rw [hnx, h])
    simp only [hpv, hnx]
    by_cases h : side = (b.pool s).side ∧ p = (b.pool s).price
    · obtain ⟨rfl, rfl⟩ := h
      simp [h1, hpv, hnx]; split_ifs <;> simp_all
    · simp [h, h1, hpv, hnx]; split_ifs <;> simp_all
  · have h1 : s ≠ pv := fun h => hp (by rw [hpv, h])
    simp only [hpv, hnx]
    by_cases h : side = (b.pool s).side ∧ p = (b.pool s).price
    · obtain ⟨rfl, rfl⟩ := h
      simp [h1, hpv, hnx]; split_ifs <;> simp_all
    · simp [h, h1, hpv, hnx]; split_ifs <;> simp_all
  · have h1 : s ≠ pv := fun h => hp (by rw [hpv, h])
    have h2 : s ≠ nx := fun h => hn (by rw [hnx, h])
    simp only [hpv, hnx]
    by_cases h : side = (b.pool s).side ∧ p = (b.pool s).price
    · obtain ⟨rfl, rfl⟩ := h
      simp [h1, h2, hpv, hnx]; split_ifs <;> simp_all
    · simp [h, h1, h2, hpv, hnx]; split_ifs <;> simp_all

theorem other_RemoveFromList (b : OrderBookV6) (s : Nat) :
    (b.RemoveFromList s).order_map_ = b.order_map_ ∧
    (b.RemoveFromList s).order_pool_.free_list_ = b.order_pool_.free_list_ ∧
    (b.RemoveFromList s).best_bid_ = b.best_bid_ ∧
    (b.RemoveFromList s).best_ask_ = b.best_ask_ ∧
    (b.RemoveFromList s).bids_bitmap_ = b.bids_bitmap_ ∧
    (b.RemoveFromList s).asks_bitmap_ = b.asks_bitmap_ := by
  unfold RemoveFromList
  simp only []
  refine ⟨?_, ?_, ?_, ?_, ?_, ?_⟩ <;>
  · simp only [order_map_setOrder, order_map_setLevel, free_setOrder, free_setLevel,
      best_bid_setOrder, best_bid_setLevel, best_ask_setOrder, best_ask_setLevel,
      bids_bitmap_setOrder, bids_bitmap_setLevel, asks_bitmap_setOrder, asks_bitmap_setLevel]
    split_ifs <;> (try simp) <;> (split <;> (try simp) <;> (split <;> simp))

end OrderBookV6

@[simp] theorem qsum_nil : qsum [] = 0 := rfl

@[simp] theorem qsum_cons (o : AOrder) (l : List AOrder) : qsum (o :: l) = o.qty + qsum l := by
  simp [qsum]

@[simp] theorem qsum_append (l1 l2 : List AOrder) : qsum (l1 ++ l2) = qsum l1 + qsum l2 := by
  simp [qsum]

@[simp] theorem ABook.setLv_lv (a : ABook) (side s : Side) (p x : Nat) (l : List AOrder) :
    (a.setLv side p l).lv s x = if s = side ∧ x = p then l else a.lv s x := rfl

@[simp] theorem ABook.setLv_free (a : ABook) (side : Side) (p : Nat) (l : List AOrder) :
    (a.setLv side p l).free = a.free := rfl

@[simp] theorem ABook.setLv_best_bid (a : ABook) (side : Side) (p : Nat) (l : List AOrder) :
    (a.setLv side p l).best_bid = a.best_bid := rfl

@[simp] theorem ABook.setLv_best_ask (a : ABook) (side : Side) (p : Nat) (l : List AOrder) :
    (a.setLv side p l).best_ask = a.best_ask := rfl

@[simp] theorem headSlot_nil (n : Option Nat) : headSlot [] n = n := rfl

@[simp] theorem headSlot_cons (o : AOrder) (t : List AOrder) (n : Option Nat) :
    headSlot (o :: t) n = some o.slot := rfl

@[simp] theorem lastSlot_nil (n : Option Nat) : lastSlot [] n = n := rfl

@[simp] theorem lastSlot_cons (o : AOrder) (t : List AOrder) (n : Option Nat) :
    lastSlot (o :: t) n = lastSlot t (some o.slot) := rfl

theorem headSlot_append (l1 l2 : List AOrder) (n : Option Nat) :
    headSlot (l1 ++ l2) n = headSlot l1 (headSlot l2 n) := by
  cases l1 <;> rfl

theorem lastSlot_append (l1 l2 : List AOrder) (n : Option Nat) :
    lastSlot (l1 ++ l2) n = lastSlot l2 (lastSlot l1 n) := by
  induction l1 generalizing n with
  | nil => rfl
  | cons o t ih => simp [ih]

theorem lastSlot_mem (l : List AOrder) (n : Option Nat) (x : Nat) (h : lastSlot l n = some x) :
    n = some x ∨ ∃ o ∈ l, o.slot = x := by
  induction l generalizing n with
  | nil => exact Or.inl h
  | cons o t ih =>
    rcases ih _ h with h1 | ⟨u, hu, hx⟩
    · right; exact ⟨o, List.mem_cons_self _ _, by simpa using h1⟩
    · right; exact ⟨u, List.mem_cons_of_mem _ hu, hx⟩

theorem headSlot_mem (l : List AOrder) (n : Option Nat) (x : Nat) (h : headSlot l n = some x) :
    n = some x ∨ ∃ o ∈ l, o.slot = x := by
  cases l with
  | nil => exact Or.inl h
  | cons o t => right; exact ⟨o, List.mem_cons_self _ _, by simpa using h⟩

@[simp] theorem RepSeg_nil (pool : Nat → HP_Order_V6) (side : Side) (p : Nat)
    (prev nxt : Option Nat) : RepSeg pool side p prev [] nxt ↔ True := Iff.rfl

theorem RepSeg_cons (pool : Nat → HP_Order_V6) (side : Side) (p : Nat)
    (prev nxt : Option Nat) (o : AOrder) (t : List AOrder) :
    RepSeg pool side p prev (o :: t) nxt ↔
      (pool o.slot =
        { order_id := o.id, quantity := o.qty, price := p, side := side,
          next := headSlot t nxt, prev := prev } ∧
      RepSeg pool side p (some o.slot) t nxt) := Iff.rfl

theorem RepSeg_append (pool : Nat → HP_Order_V6) (side : Side) (p : Nat)
    (prev nxt : Option Nat) (l1 l2 : List AOrder) :
    RepSeg pool side p prev (l1 ++ l2) nxt ↔
      RepSeg pool side p prev l1 (headSlot l2 nxt) ∧
      RepSeg pool side p (lastSlot l1 prev) l2 nxt := by
  induction l1 generalizing prev with
  | nil => simp
  | cons o t ih =>
    simp only [List.cons_append, RepSeg_cons, ih, headSlot_append, lastSlot_cons]
    tauto

/-- A segment only depends on the records of its own slots. -/
theorem RepSeg_congr {pool pool' : Nat → HP_Order_V6} {side : Side} {p : Nat}
    {prev nxt : Option Nat} {l : List AOrder}
    (h : ∀ o ∈ l, pool' o.slot = pool o.slot)
    (hr : RepSeg pool side p prev l nxt) : RepSeg pool' side p prev l nxt := by
  induction l generalizing prev with
  | nil => trivial
  | cons o t ih =>
    refine ⟨?_, ih (fun u hu => h u (List.mem_cons_of_mem _ hu)) hr.2⟩
    rw [h o (List.mem_cons_self _ _)]; exact hr.1

/-- The record of an order of a segment. -/
theorem RepSeg_mem {pool : Nat → HP_Order_V6} {side : Side} {p : Nat}
    {prev nxt : Option Nat} {l : List AOrder}
    (hr : RepSeg pool side p prev l nxt) {o : AOrder} (ho : o ∈ l) :
    (pool o.slot).order_id = o.id ∧ (pool o.slot).quantity = o.qty ∧
    (pool o.slot).price = p ∧ (pool o.slot).side = side := by
  induction l generalizing prev with
  | nil => cases ho
  | cons u t ih =>
    rcases List.mem_cons.1 ho with rfl | h
    · rw [hr.1]; exact ⟨rfl, rfl, rfl, rfl⟩
    · exact ih hr.2 h

/-- Redirecting the `next` link of the last record of a segment. -/
theorem RepSeg_set_next {pool pool' : Nat → HP_Order_V6} {side : Side} {p : Nat}
    {prev nxt nxt' : Option Nat} {l : List AOrder}
    (hnd : (l.map AOrder.slot).Nodup)
    (h : ∀ o ∈ l, pool' o.slot =
      if lastSlot l none = some o.slot then { pool o.slot with next := nxt' } else pool o.slot)
    (hr : RepSeg pool side p prev l nxt) : RepSeg pool' side p prev l nxt' := by
  induction l generalizing prev with
  | nil => trivial
  | cons o t ih =>
    have hnd' : (t.map AOrder.slot).Nodup := by
      rw [List.map_cons, List.nodup_cons] at hnd; exact hnd.2
    have hot : ∀ u ∈ t, u.slot ≠ o.slot := by
      intro u hu he
      rw [List.map_cons, List.nodup_cons] at hnd
      exact hnd.1 (by rw [← he]; exact List.mem_map_of_mem _ hu)
    cases t with
    | nil =>
      refine ⟨?_, trivial⟩
      have := h o (List.mem_cons_self _ _)
      simp at this
      rw [this, hr.1]; rfl
    | cons u r =>
      refine ⟨?_, ih hnd' ?_ hr.2⟩
      · have := h o (List.mem_cons_self _ _)
        have hne : lastSlot (u :: r) (some o.slot) ≠ some o.slot := by
          intro he
          rw [lastSlot_cons] at he
          rcases lastSlot_mem r _ _ he with h1 | ⟨w, hw, hx⟩
          · exact hot u (List.mem_cons_self _ _) (by simpa using h1)
          · exact hot w (List.mem_cons_of_mem _ hw) hx
        rw [lastSlot_cons] at this
        rw [if_neg hne] at this
        rw [this, hr.1]; rfl
      · intro w hw
        have := h w (List.mem_cons_of_mem _ hw)
        simpa using this

/-- Redirecting the `prev` link of the first record of a segment. -/
theorem RepSeg_set_prev {pool pool' : Nat → HP_Order_V6} {side : Side} {p : Nat}
    {prev prev' nxt : Option Nat} {l : List AOrder}
    (hnd : (l.map AOrder.slot).Nodup)
    (h : ∀ o ∈ l, pool' o.slot =
      if headSlot l none = some o.slot then { pool o.slot with prev := prev' } else pool o.slot)
    (hr : RepSeg pool side p prev l nxt) : RepSeg pool' side p prev' l nxt := by
  cases l with
  | nil => trivial
  | cons o t =>
    have hot : ∀ u ∈ t, u.slot ≠ o.slot := by
      intro u hu he
      rw [List.map_cons, List.nodup_cons] at hnd
      exact hnd.1 (by rw [← he]; exact List.mem_map_of_mem _ hu)
    refine ⟨?_, RepSeg_congr ?_ hr.2⟩
    · have := h o (List.mem_cons_self _ _)
      simp at this
      rw [this, hr.1]
    · intro u hu
      have := h u (List.mem_cons_of_mem _ hu)
      have hne : ¬ (o.slot = u.slot) := fun he => hot u hu he.symm
      simpa [hne] using this

theorem ABook.Struct.slots_nodup {a : ABook} (hs : a.Struct) (side : Side) (p : Nat) :
    ((a.lv side p).map AOrder.slot).Nodup := by
  refine List.Nodup.map_on ?_ (hs.nodup side p)
  intro x hx y hy hxy
  exact (hs.slot_inj hx hy hxy).2.2

/-- Changing the quantity of the first order of a level. -/
theorem RepCore_setQty {b : OrderBookV6} {a : ABook} (hr : RepCore b a) (hs : a.Struct)
    {side : Side} {p : Nat} {o : AOrder} {t : List AOrder} (hl : a.lv side p = o :: t)
    (x T : Nat) (hT : T = (x + qsum t) % 2 ^ 32) :
    RepCore
      ((b.setOrder o.slot { b.pool o.slot with quantity := x }).setLevel side p
        { b.level side p with total_quantity := T })
      (a.setLv side p ({ o with qty := x } :: t)) := by
  have hseg := hr.segs side p
  rw [hl, RepSeg_cons] at hseg
  have hnd := hs.slots_nodup side p
  rw [hl, List.map_cons, List.nodup_cons] at hnd
  have hmem : o ∈ a.lv side p := by rw [hl]; exact List.mem_cons_self _ _
  constructor
  · intro side' p'
    by_cases h : side' = side ∧ p' = p
    · obtain ⟨rfl, rfl⟩ := h
      simp only [ABook.setLv_lv, and_self, if_true, RepSeg_cons]
      refine ⟨?_, RepSeg_congr ?_ hseg.2⟩
      · simp [hseg.1]
      · intro u hu
        have : u.slot ≠ o.slot := fun he => hnd.1 (by rw [← he]; exact List.mem_map_of_mem _ hu)
        simp [this]
    · simp only [ABook.setLv_lv, h, if_false]
      refine RepSeg_congr ?_ (hr.segs side' p')
      intro u hu
      have : u.slot ≠ o.slot := fun he => h (by
        have := hs.slot_inj hu hmem he; exact ⟨this.1, this.2.1⟩)
      simp [this]
  · intro side' p'
    by_cases h : side' = side ∧ p' = p
    · obtain ⟨rfl, rfl⟩ := h
      simp [hr.levels, hl, hT]
    · simp [h, hr.levels]
  · intro s hs'
    have hne : s ≠ o.slot := by
      rintro rfl
      exact hs' ⟨side, p, { o with qty := x }, by simp, rfl⟩
    simp only [pool_setLevel, pool_setOrder, hne, if_false]
    apply hr.unused
    rintro ⟨side', p', u, hu, rfl⟩
    apply hs'
    by_cases h : side' = side ∧ p' = p
    · obtain ⟨rfl, rfl⟩ := h
      rw [hl] at hu
      rcases List.mem_cons.1 hu with rfl | hu
      · exact absurd rfl hne
      · exact ⟨side', p', u, by simp [hu], rfl⟩
    · exact ⟨side', p', u, by simp [h, hu], rfl⟩
  · simp [hr.free]
  · intro id s
    simp only [order_map_setLevel, order_map_setOrder, hr.omap]
    constructor
    · rintro ⟨side', p', u, hu, rfl, rfl⟩
      by_cases h : side' = side ∧ p' = p
      · obtain ⟨rfl, rfl⟩ := h
        rw [hl] at hu
        rcases List.mem_cons.1 hu with rfl | hu
        · exact ⟨side', p', { u with qty := x }, by simp, rfl, rfl⟩
        · exact ⟨side', p', u, by simp [hu], rfl, rfl⟩
      · exact ⟨side', p', u, by simp [h, hu], rfl, rfl⟩
    · rintro ⟨side', p', u, hu, rfl, rfl⟩
      by_cases h : side' = side ∧ p' = p
      · obtain ⟨rfl, rfl⟩ := h
        simp only [ABook.setLv_lv, and_self, if_true] at hu
        rcases List.mem_cons.1 hu with rfl | hu
        · exact ⟨side', p', o, hmem, rfl, rfl⟩
        · exact ⟨side', p', u, by rw [hl]; exact List.mem_cons_of_mem _ hu, rfl, rfl⟩
      · simp only [ABook.setLv_lv, h, if_false] at hu
        exact ⟨side', p', u, hu, rfl, rfl⟩

theorem sub32_mod (S q : Nat) (h : q ≤ S) : sub32 (S % 2 ^ 32) q = (S - q) % 2 ^ 32 := by
  unfold sub32
  omega

theorem sub32_of_le (v t : Nat) (h : t ≤ v) (hv : v < 2 ^ 32) : sub32 v t = v - t := by
  unfold sub32
  omega

theorem add32_mod (S q : Nat) : add32 (S % 2 ^ 32) q = (S + q) % 2 ^ 32 := by
  unfold add32
  omega

theorem lastSlot_of_ne_nil {l : List AOrder} (h : l ≠ []) (n n' : Option Nat) :
    lastSlot l n = lastSlot l n' := by
  cases l with
  | nil => exact absurd rfl h
  | cons o t => rfl

theorem pool_unlink (b : OrderBookV6) (s x : Nat) :
    (b.unlink s).pool x = if x = s then HP_Order_V6.zero else (b.RemoveFromList s).pool x := by
  simp [unlink, pool, ObjectPool.DeleteOrder, Function.update_apply]

theorem level_unlink (b : OrderBookV6) (s : Nat) (side : Side) (p : Nat) :
    (b.unlink s).level side p = (b.RemoveFromList s).level side p := by
  cases side <;> rfl

/-- Removing an order from anywhere in its level. -/
theorem RepCore_unlink {b : OrderBookV6} {a : ABook} (hr : RepCore b a) (hs : a.Struct)
    {side : Side} {p : Nat} {o : AOrder} {l1 l2 : List AOrder}
    (hl : a.lv side p = l1 ++ o :: l2) :
    RepCore (b.unlink o.slot)
      { a.setLv side p (l1 ++ l2) with free := o.slot :: a.free } := by
  have hseg := hr.segs side p
  rw [hl, RepSeg_append, RepSeg_cons] at hseg
  obtain ⟨hseg1, hrec, hseg2⟩ := hseg
  simp only [headSlot_cons] at hseg1
  have hnd := hs.slots_nodup side p
  rw [hl, List.map_append, List.map_cons] at hnd
  have hmem : o ∈ a.lv side p := by rw [hl]; simp
  have hmem1 : ∀ u ∈ l1, u ∈ a.lv side p := fun u hu => by rw [hl]; simp [hu]
  have hmem2 : ∀ u ∈ l2, u ∈ a.lv side p := fun u hu => by rw [hl]; simp [hu]
  have hnd1 : (l1.map AOrder.slot).Nodup := (List.nodup_append.1 hnd).1
  have hnd2 : (l2.map AOrder.slot).Nodup :=
    (List.nodup_cons.1 (List.nodup_append.1 hnd).2.1).2
  have h1o : ∀ u ∈ l1, u.slot ≠ o.slot := by
    intro u hu he
    exact (List.nodup_append.1 hnd).2.2 (List.mem_map_of_mem _ hu)
      (by rw [he]; exact List.mem_cons_self _ _)
  have h2o : ∀ u ∈ l2, u.slot ≠ o.slot := by
    intro u hu he
    exact (List.nodup_cons.1 (List.nodup_append.1 hnd).2.1).1
      (by rw [← he]; exact List.mem_map_of_mem _ hu)
  have h12 : ∀ u ∈ l1, ∀ w ∈ l2, u.slot ≠ w.slot := by
    intro u hu w hw he
    exact (List.nodup_append.1 hnd).2.2 (List.mem_map_of_mem _ hu)
      (by rw [he]; exact List.mem_cons_of_mem _ (List.mem_map_of_mem _ hw))
  have hprev : (b.pool o.slot).prev = lastSlot l1 none := by rw [hrec]
  have hnext : (b.pool o.slot).next = headSlot l2 none := by rw [hrec]
  have hside : (b.pool o.slot).side = side := by rw [hrec]
  have hprice : (b.pool o.slot).price = p := by rw [hrec]
  have hqty : (b.pool o.slot).quantity = o.qty := by rw [hrec]
  have hid : (b.pool o.slot).order_id = o.id := by rw [hrec]
  have hp1 : ∀ x, lastSlot l1 none = some x → ∃ u ∈ l1, u.slot = x := by
    intro x hx
    rcases lastSlot_mem _ _ _ hx with h | h
    · cases h
    · exact h
  have hn1 : ∀ x, headSlot l2 none = some x → ∃ u ∈ l2, u.slot = x := by
    intro x hx
    rcases headSlot_mem _ _ _ hx with h | h
    · cases h
    · exact h
  have c1 : (b.pool o.slot).prev ≠ some o.slot := by
    rw [hprev]; intro h
    obtain ⟨u, hu, he⟩ := hp1 _ h
    exact h1o u hu he
  have c2 : (b.pool o.slot).next ≠ some o.slot := by
    rw [hnext]; intro h
    obtain ⟨u, hu, he⟩ := hn1 _ h
    exact h2o u hu he
  have c3 : (b.pool o.slot).prev = (b.pool o.slot).next → (b.pool o.slot).prev = none := by
    rw [hprev, hnext]; intro h
    rcases hx : lastSlot l1 none with _ | x
    · rfl
    · obtain ⟨u, hu, he⟩ := hp1 _ hx
      obtain ⟨w, hw, he'⟩ := hn1 x (by rw [← h, hx])
      exact absurd (he.trans he'.symm) (h12 u hu w hw)
  have hpool : ∀ x, (b.unlink o.slot).pool x =
      if x = o.slot then HP_Order_V6.zero
      else if lastSlot l1 none = some x then { b.pool x with next := headSlot l2 none }
      else if headSlot l2 none = some x then { b.pool x with prev := lastSlot l1 none }
      else b.pool x := by
    intro x
    rw [pool_unlink, pool_RemoveFromList b o.slot c1 c2 c3, hprev, hnext]
    by_cases hx : x = o.slot
    · simp only [hx, if_true]
    · simp only [hx, if_false]
  have hother : ∀ side' p', ¬ (side' = side ∧ p' = p) → ∀ u ∈ a.lv side' p',
      (b.unlink o.slot).pool u.slot = b.pool u.slot := by
    intro side' p' h u hu
    have e1 : u.slot ≠ o.slot := fun he => h (by
      have := hs.slot_inj hu hmem he; exact ⟨this.1, this.2.1⟩)
    have e2 : lastSlot l1 none ≠ some u.slot := by
      intro hx
      obtain ⟨w, hw, he⟩ := hp1 _ hx
      have := hs.slot_inj hu (hmem1 w hw) he.symm
      exact h ⟨this.1, this.2.1⟩
    have e3 : headSlot l2 none ≠ some u.slot := by
      intro hx
      obtain ⟨w, hw, he⟩ := hn1 _ hx
      have := hs.slot_inj hu (hmem2 w hw) he.symm
      exact h ⟨this.1, this.2.1⟩
    rw [hpool]; simp [e1, e2, e3]
  constructor
  · intro side' p'
    by_cases h : side' = side ∧ p' = p
    · obtain ⟨rfl, rfl⟩ := h
      simp only [ABook.setLv_lv, and_self, if_true, RepSeg_append]
      constructor
      · refine RepSeg_set_next hnd1 ?_ hseg1
        intro u hu
        rw [hpool]
        have e1 : u.slot ≠ o.slot := h1o u hu
        have e3 : headSlot l2 none ≠ some u.slot := by
          intro hx
          obtain ⟨w, hw, he⟩ := hn1 _ hx
          exact h12 u hu w hw he.symm
        simp [e1, e3]
      · refine RepSeg_set_prev hnd2 ?_ hseg2
        intro u hu
        rw [hpool]
        have e1 : u.slot ≠ o.slot := h2o u hu
        have e2 : lastSlot l1 none ≠ some u.slot := by
          intro hx
          obtain ⟨w, hw, he⟩ := hp1 _ hx
          exact h12 w hw u hu he
        simp [e1, e2]
    · simp only [ABook.setLv_lv, h, if_false]
      exact RepSeg_congr (hother side' p' h) (hr.segs side' p')
  · intro side' p'
    rw [level_unlink, level_RemoveFromList b o.slot side' p' c1 c2 c3, hside, hprice]
    by_cases h : side' = side ∧ p' = p
    · obtain ⟨rfl, rfl⟩ := h
      simp only [and_self, if_true, ABook.setLv_lv, hr.levels, hl, hqty, hnext, hprev]
      congr 1
      · rw [sub32_mod _ _ (by simp; omega)]
        congr 1
        simp; omega
      · cases l1 with
        | nil => simp
        | cons u r =>
          have : u.slot ≠ o.slot := h1o u (List.mem_cons_self _ _)
          simp [this]
      · rw [lastSlot_append, lastSlot_append, lastSlot_cons]
        cases l2 with
        | nil => simp
        | cons u r =>
          have hne : lastSlot (u :: r) (some o.slot) ≠ some o.slot := by
            intro hx
            rw [lastSlot_cons] at hx
            rcases lastSlot_mem _ _ _ hx with h | ⟨w, hw, he⟩
            · exact h2o u (List.mem_cons_self _ _) (by simpa using h)
            · exact h2o w (List.mem_cons_of_mem _ hw) he
          rw [if_neg hne]
          exact lastSlot_of_ne_nil (by simp) _ _
    · simp only [h, if_false, ABook.setLv_lv, hr.levels]
  · intro s hs'
    rw [hpool]
    by_cases e1 : s = o.slot
    · simp [e1]
    · have hnot : ∀ u, (u ∈ l1 ∨ u ∈ l2) → u.slot ≠ s := by
        rintro u hu rfl
        exact hs' ⟨side, p, u, by simpa using hu, rfl⟩
      have e2 : lastSlot l1 none ≠ some s := by
        intro hx
        obtain ⟨w, hw, he⟩ := hp1 _ hx
        exact hnot w (Or.inl hw) he
      have e3 : headSlot l2 none ≠ some s := by
        intro hx
        obtain ⟨w, hw, he⟩ := hn1 _ hx
        exact hnot w (Or.inr hw) he
      simp only [e1, e2, e3, if_false]
      apply hr.unused
      rintro ⟨side', p', u, hu, rfl⟩
      by_cases h : side' = side ∧ p' = p
      · obtain ⟨rfl, rfl⟩ := h
        rw [hl] at hu
        rcases List.mem_append.1 hu with hu | hu
        · exact hnot u (Or.inl hu) rfl
        · rcases List.mem_cons.1 hu with rfl | hu
          · exact e1 rfl
          · exact hnot u (Or.inr hu) rfl
      · exact hs' ⟨side', p', u, by simp [h, hu], rfl⟩
  · simp [unlink, ObjectPool.DeleteOrder, (other_RemoveFromList b o.slot).2.1, hr.free]
  · intro id s
    have hom : (b.unlink o.slot).order_map_ = Function.update b.order_map_ o.id none := by
      simp [unlink, (other_RemoveFromList b o.slot).1, hid]
    rw [hom, Function.update_apply]
    by_cases hi : id = o.id
    · subst hi
      simp only [if_true]
      constructor
      · intro h; cases h
      · rintro ⟨side', p', u, hu, he, -⟩
        exfalso
        by_cases h : side' = side ∧ p' = p
        · obtain ⟨rfl, rfl⟩ := h
          simp only [ABook.setLv_lv, and_self, if_true] at hu
          have hu' : u ∈ a.lv side' p' := by
            rw [hl]; rcases List.mem_append.1 hu with h | h <;> simp [h]
          have := (hs.id_inj hu' hmem he).2.2
          subst this
          rcases List.mem_append.1 hu with h | h
          · exact h1o u h rfl
          · exact h2o u h rfl
        · simp only [ABook.setLv_lv, h, if_false] at hu
          have := hs.id_inj hu hmem he
          exact h ⟨this.1, this.2.1⟩
    · simp only [hi, if_false, hr.omap]
      constructor
      · rintro ⟨side', p', u, hu, rfl, rfl⟩
        by_cases h : side' = side ∧ p' = p
        · obtain ⟨rfl, rfl⟩ := h
          refine ⟨side', p', u, ?_, rfl, rfl⟩
          rw [hl] at hu
          simp only [ABook.setLv_lv, and_self, if_true]
          rcases List.mem_append.1 hu with h | h
          · simp [h]
          · rcases List.mem_cons.1 h with rfl | h
            · exact absurd rfl hi
            · simp [h]
        · exact ⟨side', p', u, by simp [h, hu], rfl, rfl⟩
      · rintro ⟨side', p', u, hu, rfl, rfl⟩
        by_cases h : side' = side ∧ p' = p
        · obtain ⟨rfl, rfl⟩ := h
          simp only [ABook.setLv_lv, and_self, if_true] at hu
          refine ⟨side', p', u, ?_, rfl, rfl⟩
          rw [hl]; rcases List.mem_append.1 hu with h | h <;> simp [h]
        · simp only [ABook.setLv_lv, h, if_false] at hu
          exact ⟨side', p', u, hu, rfl, rfl⟩

theorem lastSlot_some_of_ne_nil {l : List AOrder} (h : l ≠ []) (n : Option Nat) :
    ∃ u ∈ l, lastSlot l n = some u.slot := by
  induction l generalizing n with
  | nil => exact absurd rfl h
  | cons o t ih =>
    cases t with
    | nil => exact ⟨o, List.mem_cons_self _ _, rfl⟩
    | cons u r =>
      obtain ⟨w, hw, he⟩ := ih (by simp) (some o.slot)
      exact ⟨w, List.mem_cons_of_mem _ hw, he⟩

theorem other_AddToList {b b' : OrderBookV6} {price s : Nat}
    (h : b.AddToList price s = .ok b') :
    b'.order_map_ = b.order_map_ ∧
    b'.order_pool_.free_list_ = b.order_pool_.free_list_ ∧
    b'.best_bid_ = b.best_bid_ ∧ b'.best_ask_ = b.best_ask_ ∧
    b'.bids_bitmap_ = b.bids_bitmap_ ∧ b'.asks_bitmap_ = b.asks_bitmap_ := by
  unfold AddToList at h
  simp only [] at h
  split at h
  · cases h; simp
  · split at h
    · cases h
    · cases h; simp

/-- Appending a new order at the tail of its level. -/
theorem RepCore_append {b : OrderBookV6} {a : ABook} (hr : RepCore b a) (hs : a.Struct)
    {s : Nat} {rest : List Nat} (hfree : a.free = s :: rest) (hun : ¬ a.InUse s)
    (id : Nat) (hid : ∀ side p, ∀ u ∈ a.lv side p, u.id ≠ id)
    (side : Side) (price q : Nat) :
    ∃ b3, (b.allocated rest s id side price q).AddToList price s = .ok b3 ∧
      RepCore { b3 with order_map_ := Function.update b3.order_map_ id (some s) }
        { a.setLv side price (a.lv side price ++ [⟨s, id, q⟩]) with free := rest } := by
  have hz := hr.unused s hun
  have hns : ∀ side' p', ∀ u ∈ a.lv side' p', u.slot ≠ s := by
    intro side' p' u hu he
    exact hun ⟨side', p', u, hu, he⟩
  have hps : (b.allocated rest s id side price q).pool s =
      { order_id := id, quantity := q, price := price, side := side,
        next := none, prev := none } := by
    unfold allocated
    rw [pool_setOrder, if_pos rfl]
    have : ({ b with order_pool_ := { b.order_pool_ with free_list_ := rest } } :
      OrderBookV6).pool s = b.pool s := rfl
    rw [this, hz]; rfl
  have hpx : ∀ x, x ≠ s → (b.allocated rest s id side price q).pool x = b.pool x := by
    intro x hx
    unfold allocated
    rw [pool_setOrder, if_neg hx]; rfl
  have hlv : ∀ side' p', (b.allocated rest s id side price q).level side' p' =
      b.level side' p' := by
    intro side' p'; cases side' <;> rfl
  have hom : (b.allocated rest s id side price q).order_map_ = b.order_map_ := rfl
  have hfl : (b.allocated rest s id side price q).order_pool_.free_list_ = rest := rfl
  generalize b.allocated rest s id side price q = b2 at hps hpx hlv hom hfl
  -- the conclusions that do not depend on the shape of the level
  have key : ∀ b3 : OrderBookV6,
      b3.order_map_ = b2.order_map_ → b3.order_pool_.free_list_ = rest →
      (∀ x, b3.pool x =
        if x = s then { order_id := id, quantity := q, price := price, side := side,
                        next := none, prev := lastSlot (a.lv side price) none }
        else if lastSlot (a.lv side price) none = some x then
          { b.pool x with next := some s }
        else b.pool x) →
      (∀ side' p', b3.level side' p' =
        if side' = side ∧ p' = price then
          { total_quantity := (qsum (a.lv side price) + q) % 2 ^ 32,
            head := headSlot (a.lv side price) (some s), tail := some s }
        else b.level side' p') →
      RepCore { b3 with order_map_ := Function.update b3.order_map_ id (some s) }
        { a.setLv side price (a.lv side price ++ [⟨s, id, q⟩]) with free := rest } := by
    intro b3 h3m h3f h3p h3l
    have hp3 : ∀ x, ({ b3 with order_map_ := Function.update b3.order_map_ id (some s) } :
        OrderBookV6).pool x = b3.pool x := fun _ => rfl
    have hl3 : ∀ sd x, ({ b3 with order_map_ := Function.update b3.order_map_ id (some s) } :
        OrderBookV6).level sd x = b3.level sd x := fun sd _ => by cases sd <;> rfl
    have hother : ∀ side' p', ¬ (side' = side ∧ p' = price) → ∀ u ∈ a.lv side' p',
        b3.pool u.slot = b.pool u.slot := by
      intro side' p' h u hu
      have e1 : u.slot ≠ s := hns side' p' u hu
      have e2 : lastSlot (a.lv side price) none ≠ some u.slot := by
        intro hx
        rcases lastSlot_mem _ _ _ hx with h' | ⟨w, hw, he⟩
        · cases h'
        · have := hs.slot_inj hu hw he.symm
          exact h ⟨this.1, this.2.1⟩
      rw [h3p]; simp [e1, e2]
    constructor
    · intro side' p'
      have : RepSeg b3.pool side' p' none
          (({ a.setLv side price (a.lv side price ++ [⟨s, id, q⟩]) with free := rest } :
            ABook).lv side' p') none := by
        by_cases h : side' = side ∧ p' = price
        · obtain ⟨rfl, rfl⟩ := h
          simp only [ABook.setLv_lv, and_self, if_true, RepSeg_append, RepSeg_cons,
            headSlot_cons, headSlot_nil, RepSeg_nil, and_true]
          constructor
          · refine RepSeg_set_next (hs.slots_nodup side' p') ?_ (hr.segs side' p')
            intro u hu
            rw [h3p]
            simp [hns side' p' u hu]
          · rw [h3p]; simp
        · simp only [ABook.setLv_lv, h, if_false]
          exact RepSeg_congr (hother side' p' h) (hr.segs side' p')
      exact this
    · intro side' p'
      rw [hl3, h3l]
      by_cases h : side' = side ∧ p' = price
      · obtain ⟨rfl, rfl⟩ := h
        simp only [and_self, if_true, ABook.setLv_lv, qsum_append, qsum_cons, qsum_nil,
          headSlot_append, lastSlot_append, lastSlot_cons, lastSlot_nil, headSlot_cons,
          headSlot_nil, Nat.add_zero]
      · simp only [h, if_false, ABook.setLv_lv, hr.levels]
    · intro x hx
      rw [hp3, h3p]
      have e1 : x ≠ s := by
        rintro rfl
        exact hx ⟨side, price, ⟨x, id, q⟩, by simp, rfl⟩
      have hnot : ∀ side' p', ∀ u ∈ a.lv side' p', u.slot ≠ x := by
        rintro side' p' u hu rfl
        apply hx
        by_cases h : side' = side ∧ p' = price
        · obtain ⟨rfl, rfl⟩ := h
          exact ⟨side', p', u, by simp [hu], rfl⟩
        · exact ⟨side', p', u, by simp [h, hu], rfl⟩
      have e2 : lastSlot (a.lv side price) none ≠ some x := by
        intro h
        rcases lastSlot_mem _ _ _ h with h' | ⟨w, hw, he⟩
        · cases h'
        · exact hnot _ _ w hw he
      simp only [e1, e2, if_false]
      apply hr.unused
      rintro ⟨side', p', u, hu, rfl⟩
      exact hnot _ _ u hu rfl
    · exact h3f
    · intro i x
      show Function.update b3.order_map_ id (some s) i = some x ↔ _
      rw [h3m, hom, Function.update_apply]
      by_cases hi : i = id
      · subst hi
        simp only [if_true]
        constructor
        · intro h
          cases h
          exact ⟨side, price, ⟨s, i, q⟩, by simp, rfl, rfl⟩
        · rintro ⟨side', p', u, hu, he, rfl⟩
          by_cases h : side' = side ∧ p' = price
          · obtain ⟨rfl, rfl⟩ := h
            simp only [ABook.setLv_lv, and_self, if_true, List.mem_append,
              List.mem_singleton] at hu
            rcases hu with hu | rfl
            · exact absurd he (hid _ _ u hu)
            · rfl
          · simp only [ABook.setLv_lv, h, if_false] at hu
            exact absurd he (hid _ _ u hu)
      · simp only [hi, if_false, hr.omap]
        constructor
        · rintro ⟨side', p', u, hu, rfl, rfl⟩
          by_cases h : side' = side ∧ p' = price
          · obtain ⟨rfl, rfl⟩ := h
            exact ⟨side', p', u, by simp [hu], rfl, rfl⟩
          · exact ⟨side', p', u, by simp [h, hu], rfl, rfl⟩
        · rintro ⟨side', p', u, hu, rfl, rfl⟩
          by_cases h : side' = side ∧ p' = price
          · obtain ⟨rfl, rfl⟩ := h
            simp only [ABook.setLv_lv, and_self, if_true, List.mem_append,
              List.mem_singleton] at hu
            rcases hu with hu | rfl
            · exact ⟨side', p', u, hu, rfl, rfl⟩
            · exact absurd rfl hi
          · simp only [ABook.setLv_lv, h, if_false] at hu
            exact ⟨side', p', u, hu, rfl, rfl⟩
  -- run `AddToList`
  have hside : (b2.pool s).side = side := by rw [hps]
  have run : ∃ b3, b2.AddToList price s = .ok b3 ∧
      b3.order_map_ = b2.order_map_ ∧ b3.order_pool_.free_list_ = rest ∧
      (∀ x, b3.pool x =
        if x = s then { order_id := id, quantity := q, price := price, side := side,
                        next := none, prev := lastSlot (a.lv side price) none }
        else if lastSlot (a.lv side price) none = some x then
          { b.pool x with next := some s }
        else b.pool x) ∧
      (∀ side' p', b3.level side' p' =
        if side' = side ∧ p' = price then
          { total_quantity := (qsum (a.lv side price) + q) % 2 ^ 32,
            head := headSlot (a.lv side price) (some s), tail := some s }
        else b.level side' p') := by
    unfold AddToList
    simp only [hside, hlv, hr.levels]
    rcases hl : a.lv side price with _ | ⟨o, t⟩
    · simp only [headSlot_nil]
      refine ⟨_, rfl, ?_, ?_, ?_, ?_⟩
      · simp
      · simpa using hfl
      · intro x
        simp only [pool_setLevel, lastSlot_nil]
        by_cases hx : x = s
        · subst hx; simp [hps]
        · simp [hx, hpx x hx]
      · intro side' p'
        by_cases h : side' = side ∧ p' = price
        · obtain ⟨rfl, rfl⟩ := h
          simp [hps, add32]
        · simp [h, hlv, hr.levels]
    · obtain ⟨w, hw, hlast⟩ := @lastSlot_some_of_ne_nil (o :: t) (by simp) none
      have hws : w.slot ≠ s := hns side price w (by rw [hl]; exact hw)
      simp only [headSlot_cons, hlast]
      refine ⟨_, rfl, ?_, ?_, ?_, ?_⟩
      · simp
      · simpa using hfl
      · intro x
        simp only [pool_setLevel, pool_setOrder, hl, hlast, level_setOrder, hlv, hr.levels]
        by_cases hx : x = s
        · subst hx; simp [hps, hws.symm]
        · by_cases hx2 : x = w.slot
          · subst hx2; simp [hx, hpx _ hx]
          · have : w.slot ≠ x := fun h => hx2 h.symm
            simp [hx, hx2, this, hpx x hx]
      · intro side' p'
        by_cases h : side' = side ∧ p' = price
        · obtain ⟨rfl, rfl⟩ := h
          simp [hl, hps, hws.symm, hlv, hr.levels]
          unfold add32; omega
        · simp [h, hlv, hr.levels]
  obtain ⟨b3, e, h1, h2, h3, h4⟩ := run
  exact ⟨b3, e, key b3 h1 h2 h3 h4⟩

theorem shr6 (p : Nat) : p >>> 6 = p / 64 := by
  rw [Nat.shiftRight_eq_div_pow]

theorem and63 (p : Nat) : p &&& 63 = p % 64 := by
  have := Nat.and_pow_two_sub_one_eq_mod p 6
  simpa using this

theorem div_mod_eq {x p : Nat} (h1 : x / 64 = p / 64) (h2 : x % 64 = p % 64) : x = p := by
  omega

theorem bitAt_set_bit (bm : Nat → Nat) (p x : Nat) :
    bitAt (set_bit p bm) x = (decide (x = p) || bitAt bm x) := by
  unfold bitAt set_bit
  rw [shr6, and63, Function.update_apply]
  by_cases h : x / 64 = p / 64
  · rw [if_pos h, Nat.testBit_or, Nat.one_shiftLeft, Nat.testBit_two_pow, h, Bool.or_comm]
    congr 1
    by_cases h2 : p % 64 = x % 64
    · have := div_mod_eq h h2.symm
      simp [this]
    · have : x ≠ p := fun e => h2 (by rw [e])
      simp [h2, this]
  · have : x ≠ p := fun e => h (by rw [e])
    simp [h, this]

theorem testBit_not64_two_pow (k j : Nat) (hk : k < 64) :
    (not64 (2 ^ k)).testBit j = (decide (j < 64) && !decide (k = j)) := by
  unfold not64
  have h1 : 2 ^ k < 2 ^ 64 := Nat.pow_lt_pow_right (by decide) hk
  rw [Nat.mod_eq_of_lt h1]
  have : 2 ^ 64 - 1 - 2 ^ k = 2 ^ 64 - (2 ^ k + 1) := by omega
  rw [this, Nat.testBit_two_pow_sub_succ h1, Nat.testBit_two_pow]

theorem bitAt_clear_bit (bm : Nat → Nat) (p x : Nat) :
    bitAt (clear_bit p bm) x = (!decide (x = p) && bitAt bm x) := by
  unfold bitAt clear_bit
  rw [shr6, and63, Function.update_apply]
  by_cases h : x / 64 = p / 64
  · rw [if_pos h, Nat.testBit_and, Nat.one_shiftLeft,
      testBit_not64_two_pow _ _ (Nat.mod_lt _ (by decide)), h, Bool.and_comm]
    congr 1
    have h64 : x % 64 < 64 := Nat.mod_lt _ (by decide)
    by_cases h2 : p % 64 = x % 64
    · have := div_mod_eq h h2.symm
      simp [this]
    · have : x ≠ p := fun e => h2 (by rw [e])
      simp [h2, this, h64]
  · have : x ≠ p := fun e => h (by rw [e])
    simp [h, this]

theorem set_bit_lt (bm : Nat → Nat) (p : Nat) (h : ∀ i, bm i < 2 ^ 64) (i : Nat) :
    set_bit p bm i < 2 ^ 64 := by
  unfold set_bit
  rw [Function.update_apply]
  split
  · refine Nat.or_lt_two_pow (h _) ?_
    rw [Nat.one_shiftLeft, and63]
    exact Nat.pow_lt_pow_right (by decide) (Nat.mod_lt _ (by decide))
  · exact h i

theorem clear_bit_lt (bm : Nat → Nat) (p : Nat) (h : ∀ i, bm i < 2 ^ 64) (i : Nat) :
    clear_bit p bm i < 2 ^ 64 := by
  unfold clear_bit
  rw [Function.update_apply]
  split
  · exact Nat.lt_of_le_of_lt Nat.and_le_left (h _)
  · exact h i

/-- A non-zero word below `2^64` has a set bit below 64. -/
theorem exists_bit_of_ne_zero {x : Nat} (h0 : x ≠ 0) (hx : x < 2 ^ 64) :
    ∃ j, j < 64 ∧ x.testBit j = true := by
  obtain ⟨i, hi⟩ := Nat.ne_zero_implies_bit_true h0
  refine ⟨i, ?_, hi⟩
  by_contra hge
  have h1 : 2 ^ 64 ≤ 2 ^ i := Nat.pow_le_pow_right (by decide) (by omega)
  have h2 := Nat.testBit_implies_ge hi
  omega

theorem clzFrom_spec (x : Nat) (k : Nat) (h : ∃ j, j < k ∧ x.testBit j = true) :
    clzFrom x k < k ∧ x.testBit (k - 1 - clzFrom x k) = true ∧
      ∀ j, k - 1 - clzFrom x k < j → j < k → x.testBit j = false := by
  induction k with
  | zero => obtain ⟨j, hj, _⟩ := h; omega
  | succ k ih =>
    unfold clzFrom
    by_cases hk : x.testBit k = true
    · rw [if_pos hk]
      refine ⟨by omega, by simpa using hk, ?_⟩
      intro j h1 h2; omega
    · rw [if_neg hk]
      obtain ⟨j, hj, hb⟩ := h
      have hjk : j < k := by
        rcases Nat.lt_or_ge j k with h' | h'
        · exact h'
        · have : j = k := by omega
          subst this; exact absurd hb hk
      obtain ⟨h1, h2, h3⟩ := ih ⟨j, hjk, hb⟩
      have e : k + 1 - 1 - (1 + clzFrom x k) = k - 1 - clzFrom x k := by omega
      rw [e]
      refine ⟨by omega, h2, ?_⟩
      intro i hi1 hi2
      rcases Nat.lt_or_ge i k with h' | h'
      · exact h3 i hi1 h'
      · have : i = k := by omega
        subst this; simpa using hk

theorem ctzFrom_spec (x : Nat) (fuel i : Nat) (h : ∃ j, i ≤ j ∧ j < i + fuel ∧ x.testBit j = true) :
    i ≤ ctzFrom x fuel i ∧ ctzFrom x fuel i < i + fuel ∧
      x.testBit (ctzFrom x fuel i) = true ∧
      ∀ j, i ≤ j → j < ctzFrom x fuel i → x.testBit j = false := by
  induction fuel generalizing i with
  | zero => obtain ⟨j, h1, h2, _⟩ := h; omega
  | succ fuel ih =>
    unfold ctzFrom
    by_cases hk : x.testBit i = true
    · rw [if_pos hk]
      refine ⟨Nat.le_refl _, by omega, hk, ?_⟩
      intro j h1 h2; omega
    · rw [if_neg hk]
      obtain ⟨j, hj1, hj2, hb⟩ := h
      have hji : i + 1 ≤ j := by
        rcases Nat.lt_or_ge i j with h' | h'
        · exact h'
        · have : j = i := by omega
          subst this; exact absurd hb hk
      obtain ⟨h1, h2, h3, h4⟩ := ih (i + 1) ⟨j, hji, by omega, hb⟩
      refine ⟨by omega, by omega, h3, ?_⟩
      intro u hu1 hu2
      rcases Nat.lt_or_ge i u with h' | h'
      · exact h4 u h' hu2
      · have : u = i := by omega
        subst this; simpa using hk

/-- For a non-zero 64-bit word, `63 - clz` is the index of its highest set bit. -/
theorem clz_spec {x : Nat} (h0 : x ≠ 0) (hx : x < 2 ^ 64) :
    63 - BUILTIN_CLZLL x < 64 ∧ x.testBit (63 - BUILTIN_CLZLL x) = true ∧
      ∀ j, 63 - BUILTIN_CLZLL x < j → j < 64 → x.testBit j = false := by
  obtain ⟨h1, h2, h3⟩ := clzFrom_spec x 64 (exists_bit_of_ne_zero h0 hx)
  exact ⟨by omega, h2, h3⟩

/-- For a non-zero 64-bit word, `ctz` is the index of its lowest set bit. -/
theorem ctz_spec {x : Nat} (h0 : x ≠ 0) (hx : x < 2 ^ 64) :
    BUILTIN_CTZLL x < 64 ∧ x.testBit (BUILTIN_CTZLL x) = true ∧
      ∀ j, j < BUILTIN_CTZLL x → x.testBit j = false := by
  obtain ⟨j, hj, hb⟩ := exists_bit_of_ne_zero h0 hx
  obtain ⟨_, h2, h3, h4⟩ := ctzFrom_spec x 64 0 ⟨j, Nat.zero_le _, by omega, hb⟩
  unfold BUILTIN_CTZLL
  exact ⟨by omega, h3, fun u hu => h4 u (Nat.zero_le _) hu⟩

/-- What `scanDown` finds, for the bits `Q` it looks at: those of `chunk` in
word `index` and all bits of the words below. -/
theorem scanDown_spec (bm : Nat → Nat) (hbm : ∀ i, bm i < 2 ^ 64) (index chunk : Nat)
    (hc : chunk < 2 ^ 64) (Q : Nat → Prop)
    (hQ : ∀ x, Q x ↔ (x / 64 < index ∧ bitAt bm x = true) ∨
      (x / 64 = index ∧ chunk.testBit (x % 64) = true)) :
    (Q (scanDown bm index chunk) ∧ ∀ x, Q x → x ≤ scanDown bm index chunk) ∨
    (scanDown bm index chunk = 0 ∧ ∀ x, ¬ Q x) := by
  induction index generalizing chunk Q with
  | zero =>
    unfold scanDown
    by_cases h0 : chunk = 0
    · rw [if_pos h0]
      right
      refine ⟨rfl, ?_⟩
      intro x hx
      rcases (hQ x).1 hx with ⟨h, _⟩ | ⟨_, h⟩
      · omega
      · rw [h0] at h; simp at h
    · rw [if_neg h0]
      left
      obtain ⟨h1, h2, h3⟩ := clz_spec h0 hc
      have e : 0 <<< 6 + (63 - BUILTIN_CLZLL chunk) = 63 - BUILTIN_CLZLL chunk := by simp
      rw [e]
      constructor
      · rw [hQ]; right
        rw [Nat.mod_eq_of_lt h1]
        exact ⟨by omega, h2⟩
      · intro x hx
        rcases (hQ x).1 hx with ⟨h, _⟩ | ⟨hx1, hx2⟩
        · omega
        · by_contra hlt
          have hx64 : x % 64 < 64 := Nat.mod_lt _ (by decide)
          have := h3 (x % 64) (by omega) hx64
          rw [this] at hx2; cases hx2
  | succ index ih =>
    unfold scanDown
    by_cases h0 : chunk = 0
    · rw [if_pos h0]
      have := ih (bm index) (hbm index) Q (by
        intro x
        rw [hQ]
        constructor
        · rintro (⟨h1, h2⟩ | ⟨_, h⟩)
          · rcases Nat.lt_or_ge (x / 64) index with h' | h'
            · exact Or.inl ⟨h', h2⟩
            · have e : x / 64 = index := by omega
              right; refine ⟨e, ?_⟩
              unfold bitAt at h2; rw [e] at h2; exact h2
          · rw [h0] at h; simp at h
        · rintro (⟨h1, h2⟩ | ⟨h1, h2⟩)
          · exact Or.inl ⟨by omega, h2⟩
          · left; refine ⟨by omega, ?_⟩
            unfold bitAt; rw [h1]; exact h2)
      exact this
    · rw [if_neg h0]
      left
      obtain ⟨h1, h2, h3⟩ := clz_spec h0 hc
      have e : (index + 1) <<< 6 = (index + 1) * 64 := by
        rw [Nat.shiftLeft_eq]
      rw [e]
      constructor
      · rw [hQ]; right
        constructor
        · omega
        · have : ((index + 1) * 64 + (63 - BUILTIN_CLZLL chunk)) % 64 =
              63 - BUILTIN_CLZLL chunk := by omega
          rw [this]; exact h2
      · intro x hx
        rcases (hQ x).1 hx with ⟨h, _⟩ | ⟨hx1, hx2⟩
        · omega
        · by_contra hlt
          have hx64 : x % 64 < 64 := Nat.mod_lt _ (by decide)
          have := h3 (x % 64) (by omega) hx64
          rw [this] at hx2; cases hx2

/-- What `scanUp` finds, for the bits `Q` it looks at: those of `chunk` in word
`index` and all bits of the words above, up to the end of the bitmap. -/
theorem scanUp_spec (bm : Nat → Nat) (hbm : ∀ i, bm i < 2 ^ 64) (n index chunk : Nat)
    (hn : n = BITMAP_SIZE - index)
    (hc : chunk < 2 ^ 64) (Q : Nat → Prop)
    (hQ : ∀ x, Q x ↔ (index < x / 64 ∧ x / 64 < BITMAP_SIZE ∧ bitAt bm x = true) ∨
      (x / 64 = index ∧ chunk.testBit (x % 64) = true)) :
    (Q (scanUp bm n index chunk) ∧ ∀ x, Q x → scanUp bm n index chunk ≤ x) ∨
    (scanUp bm n index chunk = MAX_PRICE ∧ ∀ x, ¬ Q x) := by
  have found : ∀ (index chunk : Nat) (Q : Nat → Prop), chunk < 2 ^ 64 →
      (∀ x, Q x ↔ (index < x / 64 ∧ x / 64 < BITMAP_SIZE ∧ bitAt bm x = true) ∨
        (x / 64 = index ∧ chunk.testBit (x % 64) = true)) → chunk ≠ 0 →
      (Q (index <<< 6 + BUILTIN_CTZLL chunk) ∧
        ∀ x, Q x → index <<< 6 + BUILTIN_CTZLL chunk ≤ x) := by
    intro index chunk Q hc hQ h0
    obtain ⟨h1, h2, h3⟩ := ctz_spec h0 hc
    have e : index <<< 6 = index * 64 := by rw [Nat.shiftLeft_eq]
    rw [e]
    constructor
    · rw [hQ]; right
      constructor
      · omega
      · have : (index * 64 + BUILTIN_CTZLL chunk) % 64 = BUILTIN_CTZLL chunk := by omega
        rw [this]; exact h2
    · intro x hx
      rcases (hQ x).1 hx with ⟨h, _⟩ | ⟨hx1, hx2⟩
      · omega
      · by_contra hlt
        have := h3 (x % 64) (by omega)
        rw [this] at hx2; cases hx2
  induction n generalizing index chunk Q with
  | zero =>
    unfold scanUp
    by_cases h0 : chunk = 0
    · rw [if_pos h0]
      right
      refine ⟨rfl, ?_⟩
      intro x hx
      rcases (hQ x).1 hx with ⟨h1, h2, _⟩ | ⟨_, h⟩
      · omega
      · rw [h0] at h; simp at h
    · rw [if_neg h0]
      exact Or.inl (found index chunk Q hc hQ h0)
  | succ n ih =>
    unfold scanUp
    by_cases h0 : chunk = 0
    · rw [if_pos h0]
      by_cases hlt : index + 1 ≥ BITMAP_SIZE
      · rw [if_pos hlt]
        right
        refine ⟨rfl, ?_⟩
        intro x hx
        rcases (hQ x).1 hx with ⟨h1, h2, _⟩ | ⟨_, h⟩
        · omega
        · rw [h0] at h; simp at h
      rw [if_neg hlt]
      refine ih (index + 1) (bm (index + 1)) (by omega) (hbm _) Q ?_
      · intro x
        rw [hQ]
        constructor
        · rintro (⟨h1, h2, h3⟩ | ⟨_, h⟩)
          · rcases Nat.lt_or_ge (index + 1) (x / 64) with h' | h'
            · exact Or.inl ⟨h', h2, h3⟩
            · have e : x / 64 = index + 1 := by omega
              right; refine ⟨e, ?_⟩
              unfold bitAt at h3; rw [e] at h3; exact h3
          · rw [h0] at h; simp at h
        · rintro (⟨h1, h2, h3⟩ | ⟨h1, h2⟩)
          · exact Or.inl ⟨by omega, h2, h3⟩
          · left; refine ⟨by omega, by omega, ?_⟩
            unfold bitAt; rw [h1]; exact h2
    · rw [if_neg h0]
      exact Or.inl (found index chunk Q hc hQ h0)

theorem testBit_bid_mask (k j : Nat) :
    (((1 <<< k) - 1) ||| (1 <<< k)).testBit j = decide (j ≤ k) := by
  rw [Nat.testBit_or, Nat.one_shiftLeft, Nat.testBit_two_pow_sub_one, Nat.testBit_two_pow]
  by_cases h1 : j < k
  · have : j ≤ k := by omega
    simp [h1, this]
  · by_cases h2 : k = j
    · subst h2; simp
    · have : ¬ j ≤ k := by omega
      simp [h1, h2, this]

theorem testBit_ask_mask (k j : Nat) (hk : k < 64) :
    (not64 ((1 <<< k) - 1)).testBit j = (decide (j < 64) && decide (k ≤ j)) := by
  unfold not64
  have h1 : 2 ^ k < 2 ^ 64 := Nat.pow_lt_pow_right (by decide) hk
  have h0 : 0 < 2 ^ k := Nat.pow_pos (by decide)
  have h2 : 2 ^ k - 1 < 2 ^ 64 := by omega
  rw [Nat.one_shiftLeft, Nat.mod_eq_of_lt h2]
  have : 2 ^ 64 - 1 - (2 ^ k - 1) = 2 ^ 64 - (2 ^ k - 1 + 1) := by omega
  rw [this, Nat.testBit_two_pow_sub_succ h2, Nat.testBit_two_pow_sub_one]
  congr 1
  by_cases h : j < k
  · have : ¬ k ≤ j := by omega
    simp [h, this]
  · have : k ≤ j := by omega
    simp [h, this]

/-- `UpdateBestBid` moves `best_bid_` to the highest set bit at or below it, or to 0. -/
theorem UpdateBestBid_spec (b : OrderBookV6) (hbm : ∀ i, b.bids_bitmap_ i < 2 ^ 64) :
    (bitAt b.bids_bitmap_ b.UpdateBestBid.best_bid_ = true ∧
      b.UpdateBestBid.best_bid_ ≤ b.best_bid_ ∧
      ∀ x, x ≤ b.best_bid_ → bitAt b.bids_bitmap_ x = true → x ≤ b.UpdateBestBid.best_bid_) ∨
    (b.UpdateBestBid.best_bid_ = 0 ∧
      ∀ x, x ≤ b.best_bid_ → bitAt b.bids_bitmap_ x = false) := by
  have hQ : ∀ x, (bitAt b.bids_bitmap_ x = true ∧ x ≤ b.best_bid_) ↔
      (x / 64 < b.best_bid_ >>> 6 ∧ bitAt b.bids_bitmap_ x = true) ∨
      (x / 64 = b.best_bid_ >>> 6 ∧
        (b.bids_bitmap_ (b.best_bid_ >>> 6) &&&
          (((1 <<< (b.best_bid_ &&& 63)) - 1) ||| (1 <<< (b.best_bid_ &&& 63)))).testBit
            (x % 64) = true) := by
    intro x
    rw [shr6, and63, Nat.testBit_and, testBit_bid_mask]
    constructor
    · rintro ⟨h1, h2⟩
      rcases Nat.lt_or_ge (x / 64) (b.best_bid_ / 64) with h | h
      · exact Or.inl ⟨h, h1⟩
      · have e : x / 64 = b.best_bid_ / 64 := by omega
        right
        refine ⟨e, ?_⟩
        unfold bitAt at h1
        rw [e] at h1
        rw [h1]
        have : x % 64 ≤ b.best_bid_ % 64 := by omega
        simp [this]
    · rintro (⟨h1, h2⟩ | ⟨h1, h2⟩)
      · exact ⟨h2, by omega⟩
      · simp only [Bool.and_eq_true, decide_eq_true_eq] at h2
        refine ⟨?_, by omega⟩
        unfold bitAt; rw [h1]; exact h2.1
  have := scanDown_spec b.bids_bitmap_ hbm (b.best_bid_ >>> 6) _
    (Nat.lt_of_le_of_lt Nat.and_le_left (hbm _)) _ hQ
  rcases this with ⟨⟨h1, h2⟩, h3⟩ | ⟨h1, h2⟩
  · left
    exact ⟨h1, h2, fun x hx hb => h3 x ⟨hb, hx⟩⟩
  · right
    refine ⟨h1, fun x hx => ?_⟩
    have := h2 x
    simp only [not_and] at this
    cases hb : bitAt b.bids_bitmap_ x
    · rfl
    · exact absurd hx (this hb)

/-- `UpdateBestAsk` moves `best_ask_` to the lowest set bit at or above it, or
to `MAX_PRICE`, when no bit beyond the bitmap's words is set. -/
theorem UpdateBestAsk_spec (b : OrderBookV6) (hbm : ∀ i, b.asks_bitmap_ i < 2 ^ 64)
    (hhi : ∀ x, bitAt b.asks_bitmap_ x = true → x / 64 < BITMAP_SIZE) :
    (bitAt b.asks_bitmap_ b.UpdateBestAsk.best_ask_ = true ∧
      b.best_ask_ ≤ b.UpdateBestAsk.best_ask_ ∧
      ∀ x, b.best_ask_ ≤ x → bitAt b.asks_bitmap_ x = true → b.UpdateBestAsk.best_ask_ ≤ x) ∨
    (b.UpdateBestAsk.best_ask_ = MAX_PRICE ∧
      ∀ x, b.best_ask_ ≤ x → bitAt b.asks_bitmap_ x = false) := by
  have hQ : ∀ x, (bitAt b.asks_bitmap_ x = true ∧ b.best_ask_ ≤ x) ↔
      (b.best_ask_ >>> 6 < x / 64 ∧ x / 64 < BITMAP_SIZE ∧ bitAt b.asks_bitmap_ x = true) ∨
      (x / 64 = b.best_ask_ >>> 6 ∧
        (b.asks_bitmap_ (b.best_ask_ >>> 6) &&&
          not64 ((1 <<< (b.best_ask_ &&& 63)) - 1)).testBit (x % 64) = true) := by
    intro x
    have hx64 : x % 64 < 64 := Nat.mod_lt _ (by decide)
    rw [shr6, and63, Nat.testBit_and, testBit_ask_mask _ _ (Nat.mod_lt _ (by decide))]
    constructor
    · rintro ⟨h1, h2⟩
      rcases Nat.lt_or_ge (b.best_ask_ / 64) (x / 64) with h | h
      · exact Or.inl ⟨h, hhi x h1, h1⟩
      · have e : x / 64 = b.best_ask_ / 64 := by omega
        right
        refine ⟨e, ?_⟩
        unfold bitAt at h1
        rw [e] at h1
        rw [h1]
        have : b.best_ask_ % 64 ≤ x % 64 := by omega
        simp [this, hx64]
    · rintro (⟨h1, _, h2⟩ | ⟨h1, h2⟩)
      · exact ⟨h2, by omega⟩
      · simp only [Bool.and_eq_true, decide_eq_true_eq] at h2
        refine ⟨?_, by omega⟩
        unfold bitAt; rw [h1]; exact h2.1
  have := scanUp_spec b.asks_bitmap_ hbm (BITMAP_SIZE - b.best_ask_ >>> 6)
    (b.best_ask_ >>> 6) _ rfl
    (Nat.lt_of_le_of_lt Nat.and_le_left (hbm _)) _ hQ
  rcases this with ⟨⟨h1, h2⟩, h3⟩ | ⟨h1, h2⟩
  · left
    exact ⟨h1, h2, fun x hx hb => h3 x ⟨hb, hx⟩⟩
  · right
    refine ⟨h1, fun x hx => ?_⟩
    have := h2 x
    simp only [not_and] at this
    cases hb : bitAt b.asks_bitmap_ x
    · rfl
    · exact absurd hx (this hb)

theorem ABook.eq_of_fields {a c : ABook} (h1 : ∀ s p, a.lv s p = c.lv s p) (h2 : a.free = c.free)
    (h3 : a.best_bid = c.best_bid) (h4 : a.best_ask = c.best_ask) : a = c := by
  obtain ⟨lv, fr, bb, ba⟩ := a
  obtain ⟨lv', fr', bb', ba'⟩ := c
  have : lv = lv' := funext fun s => funext fun p => h1 s p
  simp only at h2 h3 h4
  subst this h2 h3 h4
  rfl

theorem ABook.mem_setLv {a : ABook} {side s : Side} {p x : Nat} {l : List AOrder} {u : AOrder}
    (h : u ∈ (a.setLv side p l).lv s x) :
    (s = side ∧ x = p ∧ u ∈ l) ∨ (¬ (s = side ∧ x = p) ∧ u ∈ a.lv s x) := by
  rw [ABook.setLv_lv] at h
  split at h
  · rename_i hc; exact Or.inl ⟨hc.1, hc.2, h⟩
  · rename_i hc; exact Or.inr ⟨hc, h⟩

/-- Replacing a level by a list of orders that keeps slots and ids of the old
one keeps the book free of duplicates. -/
theorem ABook.Struct.setLv_sub {a : ABook} (hs : a.Struct) (side : Side) (p : Nat)
    (l : List AOrder) (hnd : l.Nodup)
    (hsub : ∀ u ∈ l, ∃ w ∈ a.lv side p, w.slot = u.slot ∧ w.id = u.id)
    (hinj : ∀ u ∈ l, ∀ w ∈ l, (u.slot = w.slot ∨ u.id = w.id) → u = w) :
    (a.setLv side p l).Struct := by
  have old : ∀ {s x s' x' u w}, u ∈ a.lv s x → w ∈ a.lv s' x' →
      (u.slot = w.slot ∨ u.id = w.id) → s = s' ∧ x = x' ∧ u = w := by
    intro s x s' x' u w hu hw he
    rcases he with he | he
    · exact hs.slot_inj hu hw he
    · exact hs.id_inj hu hw he
  have key : ∀ {s x s' x' u w}, u ∈ (a.setLv side p l).lv s x → w ∈ (a.setLv side p l).lv s' x' →
      (u.slot = w.slot ∨ u.id = w.id) → s = s' ∧ x = x' ∧ u = w := by
    intro s x s' x' u w hu hw he
    rcases ABook.mem_setLv hu with ⟨rfl, rfl, hu1⟩ | ⟨hn1, hu1⟩ <;>
    rcases ABook.mem_setLv hw with ⟨rfl, rfl, hw1⟩ | ⟨hn2, hw1⟩
    · exact ⟨rfl, rfl, hinj u hu1 w hw1 he⟩
    · obtain ⟨u', hu', e1, e2⟩ := hsub u hu1
      have := old hu' hw1 (by rw [e1, e2]; exact he)
      exact absurd ⟨this.1.symm, this.2.1.symm⟩ hn2
    · obtain ⟨w', hw', e1, e2⟩ := hsub w hw1
      have := old hu1 hw' (by rw [e1, e2]; exact he)
      exact absurd ⟨this.1, this.2.1⟩ hn1
    · exact old hu1 hw1 he
  refine ⟨fun hu hw he => key hu hw (Or.inl he), fun hu hw he => key hu hw (Or.inr he), ?_⟩
  intro s x
  rw [ABook.setLv_lv]
  split
  · exact hnd
  · exact hs.nodup s x

theorem ABook.Struct.free_irrel {a : ABook} (hs : a.Struct) (fr : List Nat) :
    ({ a with free := fr } : ABook).Struct :=
  ⟨hs.slot_inj, hs.id_inj, hs.nodup⟩

/-- Changing the quantity of the first order of a level keeps the book free of duplicates. -/
theorem ABook.Struct.keep_setQty {a : ABook} (hs : a.Struct) {side : Side} {p : Nat}
    {o : AOrder} {t : List AOrder} (hl : a.lv side p = o :: t) (x : Nat) :
    (a.setLv side p ({ o with qty := x } :: t)).Struct := by
  have hnd := hs.nodup side p
  rw [hl, List.nodup_cons] at hnd
  have hmem : o ∈ a.lv side p := by rw [hl]; exact List.mem_cons_self _ _
  have hmt : ∀ u ∈ t, u ∈ a.lv side p := fun u hu => by rw [hl]; exact List.mem_cons_of_mem _ hu
  have hot : ∀ u ∈ t, u.slot ≠ o.slot ∧ u.id ≠ o.id := by
    intro u hu
    constructor
    · intro he
      have := (hs.slot_inj (hmt u hu) hmem he).2.2
      subst this; exact hnd.1 hu
    · intro he
      have := (hs.id_inj (hmt u hu) hmem he).2.2
      subst this; exact hnd.1 hu
  refine hs.setLv_sub side p _ ?_ ?_ ?_
  · rw [List.nodup_cons]
    refine ⟨?_, hnd.2⟩
    intro h
    exact (hot _ h).1 rfl
  · intro u hu
    rcases List.mem_cons.1 hu with rfl | hu
    · exact ⟨o, hmem, rfl, rfl⟩
    · exact ⟨u, hmt u hu, rfl, rfl⟩
  · intro u hu w hw he
    rcases List.mem_cons.1 hu with rfl | hu <;> rcases List.mem_cons.1 hw with rfl | hw
    · rfl
    · exfalso
      rcases he with he | he
      · exact (hot w hw).1 he.symm
      · exact (hot w hw).2 he.symm
    · exfalso
      rcases he with he | he
      · exact (hot u hu).1 he
      · exact (hot u hu).2 he
    · rcases he with he | he
      · exact (hs.slot_inj (hmt u hu) (hmt w hw) he).2.2
      · exact (hs.id_inj (hmt u hu) (hmt w hw) he).2.2

/-- Removing an order from its level keeps the book free of duplicates. -/
theorem ABook.Struct.keep_remove {a : ABook} (hs : a.Struct) {side : Side} {p : Nat}
    {o : AOrder} {l1 l2 : List AOrder} (hl : a.lv side p = l1 ++ o :: l2) :
    (a.setLv side p (l1 ++ l2)).Struct := by
  have hnd := hs.nodup side p
  rw [hl] at hnd
  have hm : ∀ u ∈ l1 ++ l2, u ∈ a.lv side p := by
    intro u hu
    rw [hl]
    rcases List.mem_append.1 hu with h | h <;> simp [h]
  refine hs.setLv_sub side p _ ?_ ?_ ?_
  · have hsub : List.Sublist (l1 ++ l2) (l1 ++ o :: l2) :=
      List.Sublist.append_left (List.sublist_cons_self _ _) _
    exact List.Nodup.sublist hsub hnd
  · intro u hu
    exact ⟨u, hm u hu, rfl, rfl⟩
  · intro u hu w hw he
    rcases he with he | he
    · exact (hs.slot_inj (hm u hu) (hm w hw) he).2.2
    · exact (hs.id_inj (hm u hu) (hm w hw) he).2.2

/-- Appending an order with a fresh slot and a fresh id keeps the book free of duplicates. -/
theorem ABook.Struct.keep_append {a : ABook} (hs : a.Struct) (side : Side) (p : Nat) (o : AOrder)
    (hslot : ∀ s x, ∀ u ∈ a.lv s x, u.slot ≠ o.slot)
    (hid : ∀ s x, ∀ u ∈ a.lv s x, u.id ≠ o.id) :
    (a.setLv side p (a.lv side p ++ [o])).Struct := by
  have key : ∀ {s x s' x' u w}, u ∈ (a.setLv side p (a.lv side p ++ [o])).lv s x →
      w ∈ (a.setLv side p (a.lv side p ++ [o])).lv s' x' →
      (u.slot = w.slot ∨ u.id = w.id) → s = s' ∧ x = x' ∧ u = w := by
    have old : ∀ {s x s' x' u w}, u ∈ a.lv s x → w ∈ a.lv s' x' →
        (u.slot = w.slot ∨ u.id = w.id) → s = s' ∧ x = x' ∧ u = w := by
      intro s x s' x' u w hu hw he
      rcases he with he | he
      · exact hs.slot_inj hu hw he
      · exact hs.id_inj hu hw he
    have cls : ∀ {s x u}, u ∈ (a.setLv side p (a.lv side p ++ [o])).lv s x →
        (s = side ∧ x = p ∧ u = o) ∨ u ∈ a.lv s x := by
      intro s x u hu
      rcases ABook.mem_setLv hu with ⟨rfl, rfl, h⟩ | ⟨_, h⟩
      · rcases List.mem_append.1 h with h | h
        · exact Or.inr h
        · exact Or.inl ⟨rfl, rfl, by simpa using h⟩
      · exact Or.inr h
    intro s x s' x' u w hu hw he
    rcases cls hu with ⟨rfl, rfl, rfl⟩ | hu1 <;> rcases cls hw with ⟨rfl, rfl, rfl⟩ | hw1
    · exact ⟨rfl, rfl, rfl⟩
    · exfalso
      rcases he with he | he
      · exact hslot _ _ w hw1 he.symm
      · exact hid _ _ w hw1 he.symm
    · exfalso
      rcases he with he | he
      · exact hslot _ _ u hu1 he
      · exact hid _ _ u hu1 he
    · exact old hu1 hw1 he
  refine ⟨fun hu hw he => key hu hw (Or.inl he), fun hu hw he => key hu hw (Or.inr he), ?_⟩
  intro s x
  rw [ABook.setLv_lv]
  split
  · rename_i hc
    obtain ⟨rfl, rfl⟩ := hc
    refine List.Nodup.append (hs.nodup _ _) (List.nodup_singleton _) ?_
    intro u hu hu'
    have : u = o := by simpa using hu'
    subst this
    exact hslot _ _ u hu rfl
  · exact hs.nodup s x

theorem ABook.setLv_setLv (a : ABook) (side : Side) (p : Nat) (l l' : List AOrder) :
    (a.setLv side p l).setLv side p l' = a.setLv side p l' := by
  apply ABook.eq_of_fields
  · intro s x; simp only [ABook.setLv_lv]; split <;> rfl
  · rfl
  · rfl
  · rfl

theorem ABook.setLv_self (a : ABook) (side : Side) (p : Nat) :
    a.setLv side p (a.lv side p) = a := by
  apply ABook.eq_of_fields
  · intro s x; simp only [ABook.setLv_lv]; split
    · rename_i h; rw [h.1, h.2]
    · rfl
  · rfl
  · rfl
  · rfl

theorem level_with_order_map (b : OrderBookV6) (m : Nat → Option Nat) (side : Side) (p : Nat) :
    ({ b with order_map_ := m } : OrderBookV6).level side p = b.level side p := by
  cases side <;> rfl

theorem level_with_pool (b : OrderBookV6) (pl : ObjectPool) (side : Side) (p : Nat) :
    ({ b with order_pool_ := pl } : OrderBookV6).level side p = b.level side p := by
  cases side <;> rfl

theorem RemoveFromList_order_map (b : OrderBookV6) (m : Nat → Option Nat) (s : Nat)
    (hp : (b.pool s).prev ≠ some s) (hn : (b.pool s).next ≠ some s)
    (hpn : (b.pool s).prev = (b.pool s).next → (b.pool s).prev = none) :
    ({ b with order_map_ := m } : OrderBookV6).RemoveFromList s =
      { b.RemoveFromList s with order_map_ := m } := by
  have o1 := other_RemoveFromList ({ b with order_map_ := m } : OrderBookV6) s
  have o2 := other_RemoveFromList b s
  apply ext_of
  · intro side p
    have e1 := level_RemoveFromList ({ b with order_map_ := m } : OrderBookV6) s side p hp hn hpn
    have e2 := level_RemoveFromList b s side p hp hn hpn
    have e3 := level_with_order_map (b.RemoveFromList s) m side p
    have e4 := level_with_order_map b m side p
    rw [e3, e2, e1, e4]
    rfl
  · intro x
    have e : ({ b.RemoveFromList s with order_map_ := m } : OrderBookV6).pool x =
        (b.RemoveFromList s).pool x := rfl
    rw [e, pool_RemoveFromList ({ b with order_map_ := m } : OrderBookV6) s hp hn hpn,
      pool_RemoveFromList b s hp hn hpn]
    rfl
  · rw [o1.2.1]; exact o2.2.1.symm
  · rw [o1.1]
  · rw [o1.2.2.1]; exact o2.2.2.1.symm
  · rw [o1.2.2.2.1]; exact o2.2.2.2.1.symm
  · rw [o1.2.2.2.2.1]; exact o2.2.2.2.2.1.symm
  · rw [o1.2.2.2.2.2]; exact o2.2.2.2.2.2.symm

/-- The fill branch of the inner loop of `AddOrder` is `unlink`. -/
theorem release_eq_unlink (b : OrderBookV6) (s : Nat)
    (hp : (b.pool s).prev ≠ some s) (hn : (b.pool s).next ≠ some s)
    (hpn : (b.pool s).prev = (b.pool s).next → (b.pool s).prev = none) :
    b.release s = b.unlink s := by
  unfold release
  simp only []
  rw [RemoveFromList_order_map b _ s hp hn hpn]
  unfold unlink
  rw [(other_RemoveFromList b s).1]

/-- The three removal steps of `CancelOrder` are `unlink`. -/
theorem cancel_eq_unlink (b : OrderBookV6) (s id : Nat) (hid : (b.pool s).order_id = id) :
    ({ ({ b.RemoveFromList s with
          order_map_ := Function.update (b.RemoveFromList s).order_map_ id none } :
          OrderBookV6) with
        order_pool_ := (b.RemoveFromList s).order_pool_.DeleteOrder s } : OrderBookV6) =
      b.unlink s := by
  unfold unlink
  rw [hid]

/-- The neighbours of a linked record are other records, different from each other. -/
theorem RepCore.neighbours {b : OrderBookV6} {a : ABook} (hr : RepCore b a) (hs : a.Struct)
    {side : Side} {p : Nat} {o : AOrder} (ho : o ∈ a.lv side p) :
    (b.pool o.slot).prev ≠ some o.slot ∧ (b.pool o.slot).next ≠ some o.slot ∧
    ((b.pool o.slot).prev = (b.pool o.slot).next → (b.pool o.slot).prev = none) := by
  obtain ⟨l1, l2, hl⟩ := List.append_of_mem ho
  have hseg := hr.segs side p
  rw [hl, RepSeg_append, RepSeg_cons] at hseg
  obtain ⟨-, hrec, -⟩ := hseg
  have hnd := hs.slots_nodup side p
  rw [hl, List.map_append, List.map_cons] at hnd
  have h1o : ∀ u ∈ l1, u.slot ≠ o.slot := by
    intro u hu he
    exact (List.nodup_append.1 hnd).2.2 (List.mem_map_of_mem _ hu)
      (by rw [he]; exact List.mem_cons_self _ _)
  have h2o : ∀ u ∈ l2, u.slot ≠ o.slot := by
    intro u hu he
    exact (List.nodup_cons.1 (List.nodup_append.1 hnd).2.1).1
      (by rw [← he]; exact List.mem_map_of_mem _ hu)
  have h12 : ∀ u ∈ l1, ∀ w ∈ l2, u.slot ≠ w.slot := by
    intro u hu w hw he
    exact (List.nodup_append.1 hnd).2.2 (List.mem_map_of_mem _ hu)
      (by rw [he]; exact List.mem_cons_of_mem _ (List.mem_map_of_mem _ hw))
  have hp1 : ∀ x, lastSlot l1 none = some x → ∃ u ∈ l1, u.slot = x := by
    intro x hx
    rcases lastSlot_mem _ _ _ hx with h | h
    · cases h
    · exact h
  have hn1 : ∀ x, headSlot l2 none = some x → ∃ u ∈ l2, u.slot = x := by
    intro x hx
    rcases headSlot_mem _ _ _ hx with h | h
    · cases h
    · exact h
  rw [hrec]
  refine ⟨?_, ?_, ?_⟩
  · intro h
    obtain ⟨u, hu, he⟩ := hp1 _ h
    exact h1o u hu he
  · intro h
    obtain ⟨u, hu, he⟩ := hn1 _ h
    exact h2o u hu he
  · intro h
    show lastSlot l1 none = none
    rcases hx : lastSlot l1 none with _ | x
    · rfl
    · obtain ⟨u, hu, he⟩ := hp1 _ hx
      have h' : lastSlot l1 none = headSlot l2 none := h
      obtain ⟨w, hw, he'⟩ := hn1 x (by rw [← h', hx])
      exact absurd (he.trans he'.symm) (h12 u hu w hw)

theorem SameQuotes.refl (b : OrderBookV6) : SameQuotes b b := ⟨rfl, rfl, rfl, rfl⟩

theorem SameQuotes.trans {b b' b'' : OrderBookV6} (h1 : SameQuotes b b') (h2 : SameQuotes b' b'') :
    SameQuotes b b'' :=
  ⟨h2.1.trans h1.1, h2.2.1.trans h1.2.1, h2.2.2.1.trans h1.2.2.1, h2.2.2.2.trans h1.2.2.2⟩

theorem SameQuotes_unlink (b : OrderBookV6) (s : Nat) : SameQuotes b (b.unlink s) := by
  have := other_RemoveFromList b s
  exact ⟨this.2.2.1, this.2.2.2.1, this.2.2.2.2.1, this.2.2.2.2.2⟩

theorem ABook.QtyLt.setLv {a : ABook} (h : a.QtyLt) (side : Side) (p : Nat) (l : List AOrder)
    (hl : ∀ o ∈ l, o.qty < 2 ^ 32) : (a.setLv side p l).QtyLt := by
  intro s x o ho
  rcases ABook.mem_setLv ho with ⟨_, _, h1⟩ | ⟨_, h1⟩
  · exact hl o h1
  · exact h s x o h1

/-- A trade that leaves `x` units on the first order of a level. -/
theorem RepCore_trade {b : OrderBookV6} {a : ABook} (hr : RepCore b a) (hs : a.Struct)
    (hq : a.QtyLt) {side : Side} {p : Nat} {o : AOrder} {t : List AOrder}
    (hl : a.lv side p = o :: t) (q : Nat) :
    RepCore (trade side p b o.slot q)
      (a.setLv side p ({ o with qty := o.qty - min q o.qty } :: t)) := by
  have hmem : o ∈ a.lv side p := by rw [hl]; exact List.mem_cons_self _ _
  have hrec := (RepSeg_mem (hr.segs side p) hmem)
  have hlt := hq side p o hmem
  have h1 := RepCore_setQty hr hs hl (sub32 (b.pool o.slot).quantity (min q o.qty))
    (sub32 (b.level side p).total_quantity (min q o.qty)) (by
      rw [hrec.2.1, sub32_of_le _ _ (Nat.min_le_right _ _) hlt, hr.levels, hl]
      simp only []
      have hle := Nat.min_le_right q o.qty
      rw [sub32_mod _ _ (by rw [qsum_cons]; omega)]
      congr 1
      rw [qsum_cons]
      omega)
  rw [hrec.2.1, sub32_of_le _ _ (Nat.min_le_right _ _) hlt] at h1
  unfold trade
  simp only [level_setOrder, hrec.2.1]
  rw [sub32_of_le _ _ (Nat.min_le_right _ _) hlt]
  exact h1

theorem matchLevel_succ (side : Side) (p fuel : Nat) (b : OrderBookV6) (c q : Nat) :
    matchLevel side p (fuel + 1) b (some c) q =
      if q > 0 then
        if ((trade side p b c q).pool c).quantity = 0 then
          matchLevel side p fuel ((trade side p b c q).release c)
            ((trade side p b c q).pool c).next (sub32 q (min q (b.pool c).quantity))
        else
          matchLevel side p fuel (trade side p b c q) (some c)
            (sub32 q (min q (b.pool c).quantity))
      else .ok (b, q) := rfl

theorem SameQuotes_trade (side : Side) (p : Nat) (b : OrderBookV6) (c q : Nat) :
    SameQuotes b (trade side p b c q) := by
  unfold trade
  exact ⟨by simp, by simp, by simp, by simp⟩

/-- The inner loop of `AddOrder` on a represented book does what `aMatchLevel`
does on the list view, with the same fuel. -/
theorem matchLevel_sim (side : Side) (p : Nat) :
    ∀ (fuel : Nat) (b : OrderBookV6) (a : ABook) (q : Nat),
      RepCore b a → a.Struct → a.QtyLt → q < 2 ^ 32 →
      (aMatchLevel side p fuel a q = none →
        matchLevel side p fuel b (headSlot (a.lv side p) none) q = .error Error.OutOfFuel) ∧
      (∀ a' q', aMatchLevel side p fuel a q = some (a', q') →
        ∃ b', matchLevel side p fuel b (headSlot (a.lv side p) none) q = .ok (b', q') ∧
          RepCore b' a' ∧ SameQuotes b b') := by
  intro fuel
  induction fuel with
  | zero =>
    intro b a q _ _ _ _
    refine ⟨fun _ => rfl, ?_⟩
    intro a' q' h
    simp [aMatchLevel] at h
  | succ fuel ih =>
    intro b a q hr hs hql hq
    rcases hl : a.lv side p with _ | ⟨o, t⟩
    · refine ⟨?_, ?_⟩
      · intro h; simp [aMatchLevel, hl] at h
      · intro a' q' h
        simp only [aMatchLevel, hl, Option.some.injEq, Prod.mk.injEq] at h
        obtain ⟨rfl, rfl⟩ := h
        exact ⟨b, rfl, hr, SameQuotes.refl b⟩
    · have hmem : o ∈ a.lv side p := by rw [hl]; exact List.mem_cons_self _ _
      have hseg := hr.segs side p
      rw [hl, RepSeg_cons] at hseg
      have hrec := hseg.1
      have hlt := hql side p o hmem
      have htr := RepCore_trade hr hs hql hl q
      have hs1 := hs.keep_setQty hl (o.qty - min q o.qty)
      have hql1 : (a.setLv side p ({ o with qty := o.qty - min q o.qty } :: t)).QtyLt := by
        refine hql.setLv side p _ ?_
        intro u hu
        rcases List.mem_cons.1 hu with rfl | hu
        · show o.qty - min q o.qty < 2 ^ 32
          omega
        · exact hql side p u (by rw [hl]; exact List.mem_cons_of_mem _ hu)
      have hpc : (trade side p b o.slot q).pool o.slot =
          { order_id := o.id, quantity := o.qty - min q o.qty, price := p, side := side,
            next := headSlot t none, prev := none } := by
        have := htr.segs side p
        rw [ABook.setLv_lv, if_pos ⟨rfl, rfl⟩, RepSeg_cons] at this
        exact this.1
      have hbq : (b.pool o.slot).quantity = o.qty := by rw [hrec]
      rw [headSlot_cons, matchLevel_succ, hpc, hbq]
      simp only [aMatchLevel, hl]
      by_cases hq0 : q > 0
      · rw [if_pos hq0, if_pos hq0]
        by_cases hfull : o.qty ≤ q
        · -- the resting order is filled whole
          have hmin : min q o.qty = o.qty := Nat.min_eq_right hfull
          rw [if_pos hfull, hmin, sub32_of_le _ _ hfull hq]
          simp only [Nat.sub_self, if_true]
          rw [hmin, Nat.sub_self] at htr hs1 hpc
          have hnb := htr.neighbours hs1
            (by rw [ABook.setLv_lv, if_pos ⟨rfl, rfl⟩]; exact List.mem_cons_self _ _ :
              ({ o with qty := 0 } : AOrder) ∈ _)
          rw [release_eq_unlink _ _ hnb.1 hnb.2.1 hnb.2.2]
          have hun := @RepCore_unlink _ _ htr hs1 side p { o with qty := 0 } [] t
            (by rw [ABook.setLv_lv, if_pos ⟨rfl, rfl⟩]; rfl)
          simp only [List.nil_append, ABook.setLv_setLv, ABook.setLv_free] at hun
          have hs2 : ({ a.setLv side p t with free := o.slot :: a.free } : ABook).Struct := by
            have := @ABook.Struct.keep_remove _ hs side p o [] t (by rw [hl]; rfl)
            exact this.free_irrel _
          have hql2 : ({ a.setLv side p t with free := o.slot :: a.free } : ABook).QtyLt := by
            refine hql.setLv side p t ?_
            intro u hu
            exact hql side p u (by rw [hl]; exact List.mem_cons_of_mem _ hu)
          have := ih _ _ (q - o.qty) hun hs2 hql2 (by omega)
          have hh : headSlot (({ a.setLv side p t with free := o.slot :: a.free } :
              ABook).lv side p) none = headSlot t none := by
            show headSlot ((a.setLv side p t).lv side p) none = _
            rw [ABook.setLv_lv, if_pos ⟨rfl, rfl⟩]
          rw [hh] at this
          refine ⟨this.1, ?_⟩
          intro a' q' h
          obtain ⟨b', e, hr', hsq⟩ := this.2 a' q' h
          exact ⟨b', e, hr', ((SameQuotes_trade side p b o.slot q).trans
            (SameQuotes_unlink _ _)).trans hsq⟩
        · -- the incoming quantity ends inside the resting order
          have hlt' : q < o.qty := by omega
          have hmin : min q o.qty = q := Nat.min_eq_left (by omega)
          rw [if_neg hfull, hmin, sub32_of_le _ _ (Nat.le_refl _) hq]
          have hne : ¬ (o.qty - q = 0) := by omega
          simp only [hne, if_false, Nat.sub_self]
          rw [hmin] at htr hs1 hql1
          have := ih _ _ 0 htr hs1 hql1 (by omega)
          have hh : headSlot ((a.setLv side p ({ o with qty := o.qty - q } :: t)).lv side p)
              none = some o.slot := by
            rw [ABook.setLv_lv, if_pos ⟨rfl, rfl⟩]; rfl
          rw [hh] at this
          refine ⟨this.1, ?_⟩
          intro a' q' h
          obtain ⟨b', e, hr', hsq⟩ := this.2 a' q' h
          exact ⟨b', e, hr', (SameQuotes_trade side p b o.slot q).trans hsq⟩
      · rw [if_neg hq0, if_neg hq0]
        constructor
        · intro h; cases h
        · intro a' q' h
          simp only [Option.some.injEq, Prod.mk.injEq] at h
          obtain ⟨rfl, rfl⟩ := h
          exact ⟨b, rfl, hr, SameQuotes.refl b⟩

theorem RepCore.transfer {b b' : OrderBookV6} {a a' : ABook} (hr : RepCore b a)
    (hl : ∀ s p, b'.level s p = b.level s p) (hp : ∀ x, b'.pool x = b.pool x)
    (hf : b'.order_pool_.free_list_ = b.order_pool_.free_list_)
    (hm : b'.order_map_ = b.order_map_)
    (hlv : a'.lv = a.lv) (hfr : a'.free = a.free) : RepCore b' a' := by
  have hpool : b'.pool = b.pool := funext hp
  constructor
  · intro s p; rw [hpool, hlv]; exact hr.segs s p
  · intro s p; rw [hl, hlv]; exact hr.levels s p
  · intro s hs
    rw [hp]; apply hr.unused
    rintro ⟨sd, p, o, ho, he⟩
    exact hs ⟨sd, p, o, by rw [hlv]; exact ho, he⟩
  · rw [hf, hfr]; exact hr.free
  · intro id s; rw [hm, hlv]; exact hr.omap id s

theorem firstFrom_spec (f : Nat → List AOrder) (n p : Nat) :
    (f (firstFrom f n p) ≠ [] ∧ p ≤ firstFrom f n p ∧ firstFrom f n p < p + n ∧
      ∀ x, p ≤ x → x < firstFrom f n p → f x = []) ∨
    (firstFrom f n p = MAX_PRICE ∧ ∀ x, p ≤ x → x < p + n → f x = []) := by
  induction n generalizing p with
  | zero =>
    right
    exact ⟨rfl, fun x h1 h2 => by omega⟩
  | succ n ih =>
    unfold firstFrom
    rcases hf : f p with _ | ⟨o, t⟩
    · simp only []
      rcases ih (p + 1) with ⟨h1, h2, h3, h4⟩ | ⟨h1, h2⟩
      · left
        refine ⟨h1, by omega, by omega, ?_⟩
        intro x hx1 hx2
        rcases Nat.lt_or_ge p x with h | h
        · exact h4 x h hx2
        · have : x = p := by omega
          rw [this]; exact hf
      · right
        refine ⟨h1, ?_⟩
        intro x hx1 hx2
        rcases Nat.lt_or_ge p x with h | h
        · exact h2 x h (by omega)
        · have : x = p := by omega
          rw [this]; exact hf
    · simp only []
      left
      refine ⟨by rw [hf]; simp, Nat.le_refl _, by omega, ?_⟩
      intro x h1 h2; omega

theorem lastFrom_spec (f : Nat → List AOrder) (p : Nat) :
    (f (lastFrom f p) ≠ [] ∧ lastFrom f p ≤ p ∧ 0 < lastFrom f p ∧
      ∀ x, lastFrom f p < x → x ≤ p → f x = []) ∨
    (lastFrom f p = 0 ∧ ∀ x, 0 < x → x ≤ p → f x = []) := by
  induction p with
  | zero =>
    right
    exact ⟨rfl, fun x h1 h2 => by omega⟩
  | succ p ih =>
    unfold lastFrom
    rcases hf : f (p + 1) with _ | ⟨o, t⟩
    · simp only []
      rcases ih with ⟨h1, h2, h3, h4⟩ | ⟨h1, h2⟩
      · left
        refine ⟨h1, by omega, h3, ?_⟩
        intro x hx1 hx2
        rcases Nat.lt_or_ge x (p + 1) with h | h
        · exact h4 x hx1 (by omega)
        · have : x = p + 1 := by omega
          rw [this]; exact hf
      · right
        refine ⟨h1, ?_⟩
        intro x hx1 hx2
        rcases Nat.lt_or_ge x (p + 1) with h | h
        · exact h2 x hx1 (by omega)
        · have : x = p + 1 := by omega
          rw [this]; exact hf
    · simp only []
      left
      refine ⟨by rw [hf]; simp, Nat.le_refl _, by omega, ?_⟩
      intro x h1 h2; omega

theorem div64_lt_BITMAP_SIZE {x : Nat} (h : x ≤ MAX_PRICE) : x / 64 < BITMAP_SIZE := by
  unfold BITMAP_SIZE
  have := Nat.div_le_div_right (c := 64) h
  omega

/-- `UpdateBestAsk` against the list view. -/
theorem UpdateBestAsk_eq (b : OrderBookV6) (f : Nat → List AOrder)
    (hb : Bits b.asks_bitmap_ f) (hp : ∀ x, f x ≠ [] → x ≤ MAX_PRICE) :
    b.UpdateBestAsk.best_ask_ = firstFrom f (MAX_PRICE + 1 - b.best_ask_) b.best_ask_ := by
  have hc := UpdateBestAsk_spec b hb.1
    (fun x hx => div64_lt_BITMAP_SIZE (hp x ((hb.2 x).1 hx)))
  have ha := firstFrom_spec f (MAX_PRICE + 1 - b.best_ask_) b.best_ask_
  have hbit : ∀ x, bitAt b.asks_bitmap_ x = false ↔ f x = [] := by
    intro x
    have := hb.2 x
    constructor
    · intro h; by_contra h'; rw [this.2 h'] at h; cases h
    · intro h
      cases hx : bitAt b.asks_bitmap_ x
      · rfl
      · exact absurd h (this.1 hx)
  rcases hc with ⟨c1, c2, c3⟩ | ⟨c1, c2⟩ <;> rcases ha with ⟨a1, a2, a3, a4⟩ | ⟨a1, a2⟩
  · apply Nat.le_antisymm
    · exact c3 _ a2 ((hb.2 _).2 a1)
    · by_contra hlt
      have := a4 _ c2 (by omega)
      exact (hb.2 _).1 c1 this
  · exfalso
    have h1 := (hb.2 _).1 c1
    have h2 := hp _ h1
    exact h1 (a2 _ c2 (by omega))
  · exfalso
    have := (hbit _).1 (c2 _ a2)
    exact a1 this
  · rw [c1, a1]

/-- `UpdateBestBid` against the list view. -/
theorem UpdateBestBid_eq (b : OrderBookV6) (f : Nat → List AOrder)
    (hb : Bits b.bids_bitmap_ f) :
    b.UpdateBestBid.best_bid_ = lastFrom f b.best_bid_ := by
  have hc := UpdateBestBid_spec b hb.1
  have ha := lastFrom_spec f b.best_bid_
  have hbit : ∀ x, bitAt b.bids_bitmap_ x = false ↔ f x = [] := by
    intro x
    have := hb.2 x
    constructor
    · intro h; by_contra h'; rw [this.2 h'] at h; cases h
    · intro h
      cases hx : bitAt b.bids_bitmap_ x
      · rfl
      · exact absurd h (this.1 hx)
  rcases hc with ⟨c1, c2, c3⟩ | ⟨c1, c2⟩ <;> rcases ha with ⟨a1, a2, a3, a4⟩ | ⟨a1, a2⟩
  · apply Nat.le_antisymm
    · by_contra hlt
      have := a4 _ (by omega) c2
      exact (hb.2 _).1 c1 this
    · exact c3 _ a2 ((hb.2 _).2 a1)
  · rw [a1]
    by_contra hne
    have h1 := (hb.2 _).1 c1
    exact h1 (a2 _ (by omega) c2)
  · exfalso
    have := (hbit _).1 (c2 _ a2)
    exact a1 this
  · rw [c1, a1]

theorem Rep.updateBestAsk {b : OrderBookV6} {a : ABook} (hr : Rep b a)
    (hp : ∀ x, a.lv Side.SELL x ≠ [] → x ≤ MAX_PRICE) : Rep b.UpdateBestAsk a.advanceAsk := by
  refine ⟨hr.core.transfer (fun s p => by cases s <;> rfl) (fun _ => rfl) rfl rfl rfl rfl,
    hr.bidBits, hr.askBits, hr.best_bid, ?_⟩
  rw [UpdateBestAsk_eq b _ hr.askBits hp, hr.best_ask]
  rfl

theorem Rep.updateBestBid {b : OrderBookV6} {a : ABook} (hr : Rep b a) :
    Rep b.UpdateBestBid a.retreatBid := by
  refine ⟨hr.core.transfer (fun s p => by cases s <;> rfl) (fun _ => rfl) rfl rfl rfl rfl,
    hr.bidBits, hr.askBits, ?_, hr.best_ask⟩
  rw [UpdateBestBid_eq b _ hr.bidBits, hr.best_bid]
  rfl

theorem Bits.clear {bm : Nat → Nat} {f f' : Nat → List AOrder} (hb : Bits bm f) (p : Nat)
    (hp : f' p = []) (hx : ∀ x, x ≠ p → f' x = f x) : Bits (clear_bit p bm) f' := by
  refine ⟨clear_bit_lt bm p hb.1, ?_⟩
  intro x
  rw [bitAt_clear_bit]
  by_cases h : x = p
  · subst h; simp [hp]
  · rw [hx x h, ← hb.2 x]; simp [h]

theorem Bits.set {bm : Nat → Nat} {f f' : Nat → List AOrder} (hb : Bits bm f) (p : Nat)
    (hp : f' p ≠ []) (hx : ∀ x, x ≠ p → f' x = f x) : Bits (set_bit p bm) f' := by
  refine ⟨set_bit_lt bm p hb.1, ?_⟩
  intro x
  rw [bitAt_set_bit]
  by_cases h : x = p
  · subst h; simp [hp]
  · rw [hx x h, ← hb.2 x]; simp [h]

theorem Bits.same {bm : Nat → Nat} {f f' : Nat → List AOrder} (hb : Bits bm f)
    (hx : ∀ x, f' x = [] ↔ f x = []) : Bits bm f' := by
  refine ⟨hb.1, ?_⟩
  intro x
  rw [hb.2 x, not_iff_not, hx]

theorem ABook.WF.congr {a a' : ABook} (h : a.WF) (hlv : a'.lv = a.lv) (hfr : a'.free = a.free) :
    a'.WF := by
  have hin : ∀ s, a'.InUse s ↔ a.InUse s := by
    intro s; unfold ABook.InUse; rw [hlv]
  refine ⟨⟨?_, ?_, ?_⟩, ?_, ?_, ?_, ?_, ?_, ?_, ?_⟩
  · intro s p s' p' o o'; rw [hlv]; exact h.struct.slot_inj
  · intro s p s' p' o o'; rw [hlv]; exact h.struct.id_inj
  · intro s p; rw [hlv]; exact h.struct.nodup s p
  · intro s x o; rw [hlv]; exact h.qty_lt s x o
  · intro s x o; rw [hlv]; exact h.qty_pos s x o
  · intro s x; rw [hlv]; exact h.price_le s x
  · intro s x o; rw [hlv]; exact h.id_lt s x o
  · rw [hfr]; exact h.free_nodup
  · intro s; rw [hfr, hin]; exact h.free_unused s
  · intro s; rw [hfr, hin]; exact h.cover s

/-- Changing the quantity of the first order of a level to another positive
32-bit quantity keeps the list view well-formed. -/
theorem ABook.WF.setQty {a : ABook} (h : a.WF) {side : Side} {p : Nat}
    {o : AOrder} {t : List AOrder} (hl : a.lv side p = o :: t) (x : Nat)
    (hx0 : 0 < x) (hx : x < 2 ^ 32) :
    (a.setLv side p ({ o with qty := x } :: t)).WF := by
  have hmem : o ∈ a.lv side p := by rw [hl]; exact List.mem_cons_self _ _
  have hmt : ∀ u ∈ t, u ∈ a.lv side p := fun u hu => by rw [hl]; exact List.mem_cons_of_mem _ hu
  have hold : ∀ {s y u}, u ∈ (a.setLv side p ({ o with qty := x } :: t)).lv s y →
      (s = side ∧ y = p ∧ u = { o with qty := x }) ∨ u ∈ a.lv s y := by
    intro s y u hu
    rcases ABook.mem_setLv hu with ⟨rfl, rfl, h1⟩ | ⟨_, h1⟩
    · rcases List.mem_cons.1 h1 with rfl | h1
      · exact Or.inl ⟨rfl, rfl, rfl⟩
      · exact Or.inr (hmt u h1)
    · exact Or.inr h1
  have hin : ∀ s, (a.setLv side p ({ o with qty := x } :: t)).InUse s ↔ a.InUse s := by
    intro s
    constructor
    · rintro ⟨sd, y, u, hu, rfl⟩
      rcases hold hu with ⟨rfl, rfl, rfl⟩ | h1
      · exact ⟨sd, y, o, hmem, rfl⟩
      · exact ⟨sd, y, u, h1, rfl⟩
    · rintro ⟨sd, y, u, hu, rfl⟩
      by_cases hc : sd = side ∧ y = p
      · obtain ⟨rfl, rfl⟩ := hc
        rw [hl] at hu
        rcases List.mem_cons.1 hu with rfl | hu
        · exact ⟨sd, y, { u with qty := x }, by simp, rfl⟩
        · exact ⟨sd, y, u, by simp [hu], rfl⟩
      · exact ⟨sd, y, u, by simp [hc, hu], rfl⟩
  refine ⟨h.struct.keep_setQty hl x, ?_, ?_, ?_, ?_, h.free_nodup, ?_, ?_⟩
  · intro s y u hu
    rcases hold hu with ⟨rfl, rfl, rfl⟩ | h1
    · exact hx
    · exact h.qty_lt s y u h1
  · intro s y u hu
    rcases hold hu with ⟨rfl, rfl, rfl⟩ | h1
    · exact hx0
    · exact h.qty_pos s y u h1
  · intro s y hne
    by_cases hc : s = side ∧ y = p
    · obtain ⟨rfl, rfl⟩ := hc
      exact h.price_le s y (by rw [hl]; simp)
    · rw [ABook.setLv_lv, if_neg hc] at hne
      exact h.price_le s y hne
  · intro s y u hu
    rcases hold hu with ⟨rfl, rfl, rfl⟩ | h1
    · exact h.id_lt s y o hmem
    · exact h.id_lt s y u h1
  · intro s hs; rw [hin]; exact h.free_unused s hs
  · intro s; rw [hin]; exact h.cover s

/-- Removing an order and releasing its slot keeps the list view well-formed. -/
theorem ABook.WF.remove {a : ABook} (h : a.WF) {side : Side} {p : Nat}
    {o : AOrder} {l1 l2 : List AOrder} (hl : a.lv side p = l1 ++ o :: l2) :
    ({ a.setLv side p (l1 ++ l2) with free := o.slot :: a.free } : ABook).WF := by
  have hmem : o ∈ a.lv side p := by rw [hl]; simp
  have hm : ∀ u ∈ l1 ++ l2, u ∈ a.lv side p := by
    intro u hu
    rw [hl]
    rcases List.mem_append.1 hu with h | h <;> simp [h]
  have hnd := h.struct.nodup side p
  rw [hl] at hnd
  have hno : o ∉ l1 ++ l2 := by
    intro ho
    have h1 := List.nodup_append.1 hnd
    rcases List.mem_append.1 ho with h' | h'
    · exact h1.2.2 h' (List.mem_cons_self _ _)
    · exact (List.nodup_cons.1 h1.2.1).1 h'
  have hold : ∀ {s y u}, u ∈ (a.setLv side p (l1 ++ l2)).lv s y → u ∈ a.lv s y ∧ u ≠ o := by
    intro s y u hu
    rcases ABook.mem_setLv hu with ⟨rfl, rfl, h1⟩ | ⟨hc, h1⟩
    · exact ⟨hm u h1, fun e => hno (e ▸ h1)⟩
    · refine ⟨h1, fun e => hc ?_⟩
      subst e
      have := h.struct.slot_inj h1 hmem rfl
      exact ⟨this.1, this.2.1⟩
  have hnew : ∀ {s y u}, u ∈ a.lv s y → u ≠ o → u ∈ (a.setLv side p (l1 ++ l2)).lv s y := by
    intro s y u hu hne
    by_cases hc : s = side ∧ y = p
    · obtain ⟨rfl, rfl⟩ := hc
      rw [ABook.setLv_lv, if_pos ⟨rfl, rfl⟩]
      rw [hl] at hu
      rcases List.mem_append.1 hu with h' | h'
      · exact List.mem_append_left _ h'
      · rcases List.mem_cons.1 h' with rfl | h'
        · exact absurd rfl hne
        · exact List.mem_append_right _ h'
    · rw [ABook.setLv_lv, if_neg hc]; exact hu
  have hin : ∀ s, ({ a.setLv side p (l1 ++ l2) with free := o.slot :: a.free } : ABook).InUse s ↔
      (a.InUse s ∧ s ≠ o.slot) := by
    intro s
    constructor
    · rintro ⟨sd, y, u, hu, rfl⟩
      have := hold hu
      refine ⟨⟨sd, y, u, this.1, rfl⟩, ?_⟩
      intro he
      exact this.2 (h.struct.slot_inj this.1 hmem he).2.2
    · rintro ⟨⟨sd, y, u, hu, rfl⟩, hne⟩
      exact ⟨sd, y, u, hnew hu (fun e => hne (by rw [e])), rfl⟩
  refine ⟨(h.struct.keep_remove hl).free_irrel _, ?_, ?_, ?_, ?_, ?_, ?_, ?_⟩
  · intro s y u hu; exact h.qty_lt s y u (hold hu).1
  · intro s y u hu; exact h.qty_pos s y u (hold hu).1
  · intro s y hne
    obtain ⟨u, hu⟩ := List.exists_mem_of_ne_nil _ hne
    exact h.price_le s y (List.ne_nil_of_mem (hold hu).1)
  · intro s y u hu; exact h.id_lt s y u (hold hu).1
  · show (o.slot :: a.free).Nodup
    rw [List.nodup_cons]
    refine ⟨?_, h.free_nodup⟩
    intro hf
    exact h.free_unused _ hf ⟨side, p, o, hmem, rfl⟩
  · intro s hs
    rw [hin]
    rintro ⟨h1, h2⟩
    rcases List.mem_cons.1 hs with rfl | hs
    · exact h2 rfl
    · exact h.free_unused s hs h1
  · intro s
    rw [hin, h.cover s]
    show _ ↔ (s ∈ o.slot :: a.free ∨ _)
    rw [List.mem_cons]
    constructor
    · rintro (h1 | h1)
      · exact Or.inl (Or.inr h1)
      · by_cases he : s = o.slot
        · exact Or.inl (Or.inl he)
        · exact Or.inr ⟨h1, he⟩
    · rintro ((h1 | h1) | h1)
      · right; rw [h1]; exact ⟨side, p, o, hmem, rfl⟩
      · exact Or.inl h1
      · exact Or.inr h1.1

/-- A new order on the slot on top of the free list, with a fresh id, keeps the
list view well-formed. -/
theorem ABook.WF.append {a : ABook} (h : a.WF) {s : Nat} {rest : List Nat}
    (hfree : a.free = s :: rest) (id : Nat) (hid : ∀ sd x, ∀ u ∈ a.lv sd x, u.id ≠ id)
    (hidlt : id < MAX_ORDER_ID) (side : Side) (price q : Nat) (hp : price ≤ MAX_PRICE)
    (hq0 : 0 < q) (hq : q < 2 ^ 32) :
    ({ a.setLv side price (a.lv side price ++ [⟨s, id, q⟩]) with free := rest } : ABook).WF := by
  have hsf : s ∈ a.free := by rw [hfree]; exact List.mem_cons_self _ _
  have hun : ∀ sd x, ∀ u ∈ a.lv sd x, u.slot ≠ s := by
    intro sd x u hu he
    exact h.free_unused s hsf ⟨sd, x, u, hu, he⟩
  have hfnd := h.free_nodup
  rw [hfree, List.nodup_cons] at hfnd
  have hold : ∀ {sd y u}, u ∈ (a.setLv side price (a.lv side price ++ [⟨s, id, q⟩])).lv sd y →
      (sd = side ∧ y = price ∧ u = ⟨s, id, q⟩) ∨ u ∈ a.lv sd y := by
    intro sd y u hu
    rcases ABook.mem_setLv hu with ⟨rfl, rfl, h1⟩ | ⟨_, h1⟩
    · rcases List.mem_append.1 h1 with h1 | h1
      · exact Or.inr h1
      · exact Or.inl ⟨rfl, rfl, by simpa using h1⟩
    · exact Or.inr h1
  have hnew : ∀ {sd y u}, u ∈ a.lv sd y →
      u ∈ (a.setLv side price (a.lv side price ++ [⟨s, id, q⟩])).lv sd y := by
    intro sd y u hu
    by_cases hc : sd = side ∧ y = price
    · obtain ⟨rfl, rfl⟩ := hc
      rw [ABook.setLv_lv, if_pos ⟨rfl, rfl⟩]; exact List.mem_append_left _ hu
    · rw [ABook.setLv_lv, if_neg hc]; exact hu
  have hin : ∀ x, ({ a.setLv side price (a.lv side price ++ [⟨s, id, q⟩]) with
      free := rest } : ABook).InUse x ↔ (a.InUse x ∨ x = s) := by
    intro x
    constructor
    · rintro ⟨sd, y, u, hu, rfl⟩
      rcases hold hu with ⟨rfl, rfl, rfl⟩ | h1
      · exact Or.inr rfl
      · exact Or.inl ⟨sd, y, u, h1, rfl⟩
    · rintro (⟨sd, y, u, hu, rfl⟩ | rfl)
      · exact ⟨sd, y, u, hnew hu, rfl⟩
      · refine ⟨side, price, ⟨x, id, q⟩, ?_, rfl⟩
        show _ ∈ (a.setLv side price _).lv side price
        rw [ABook.setLv_lv, if_pos ⟨rfl, rfl⟩]; simp
  refine ⟨(h.struct.keep_append side price ⟨s, id, q⟩ hun hid).free_irrel _, ?_, ?_, ?_, ?_, hfnd.2,
    ?_, ?_⟩
  · intro sd y u hu
    rcases hold hu with ⟨rfl, rfl, rfl⟩ | h1
    · exact hq
    · exact h.qty_lt sd y u h1
  · intro sd y u hu
    rcases hold hu with ⟨rfl, rfl, rfl⟩ | h1
    · exact hq0
    · exact h.qty_pos sd y u h1
  · intro sd y hne
    by_cases hc : sd = side ∧ y = price
    · rw [hc.2]; exact hp
    · have : ({ a.setLv side price (a.lv side price ++ [⟨s, id, q⟩]) with
          free := rest } : ABook).lv sd y = a.lv sd y := by
        show (a.setLv side price _).lv sd y = _
        rw [ABook.setLv_lv, if_neg hc]
      rw [this] at hne
      exact h.price_le sd y hne
  · intro sd y u hu
    rcases hold hu with ⟨rfl, rfl, rfl⟩ | h1
    · exact hidlt
    · exact h.id_lt sd y u h1
  · intro x hx
    rw [hin]
    rintro (h1 | rfl)
    · exact h.free_unused x (by rw [hfree]; exact List.mem_cons_of_mem _ hx) h1
    · exact hfnd.1 hx
  · intro x
    rw [hin, h.cover x, hfree, List.mem_cons]
    show _ ↔ (x ∈ rest ∨ _)
    tauto

theorem fillList_zero (l : List AOrder) : fillList l 0 = (l, [], 0) := by
  cases l <;> simp [fillList]

/-- The inner loop on the list view, in closed form. -/
theorem aMatchLevel_eq (side : Side) (p : Nat) :
    ∀ (fuel : Nat) (a : ABook) (q : Nat) (a' : ABook) (q' : Nat),
      aMatchLevel side p fuel a q = some (a', q') →
      a' = { a.setLv side p (fillList (a.lv side p) q).1 with
              free := ((fillList (a.lv side p) q).2.1.map AOrder.slot).reverse ++ a.free } ∧
      q' = (fillList (a.lv side p) q).2.2 := by
  intro fuel
  induction fuel with
  | zero => intro a q a' q' h; simp [aMatchLevel] at h
  | succ fuel ih =>
    intro a q a' q' h
    rcases hl : a.lv side p with _ | ⟨o, t⟩
    · simp only [aMatchLevel, hl, Option.some.injEq, Prod.mk.injEq] at h
      obtain ⟨rfl, rfl⟩ := h
      simp only [fillList, List.map_nil, List.reverse_nil, List.nil_append, and_true]
      rw [← hl, ABook.setLv_self]
    · simp only [aMatchLevel, hl] at h
      by_cases hq0 : q > 0
      · have hq0' : ¬ q = 0 := by omega
        rw [if_pos hq0] at h
        by_cases hfull : o.qty ≤ q
        · rw [if_pos hfull] at h
          obtain ⟨e1, e2⟩ := ih _ _ _ _ h
          have hlv : ({ a.setLv side p t with free := o.slot :: a.free } : ABook).lv side p = t := by
            show (a.setLv side p t).lv side p = t
            rw [ABook.setLv_lv, if_pos ⟨rfl, rfl⟩]
          rw [hlv] at e1 e2
          simp only [fillList, hq0', if_false, hfull, if_true]
          refine ⟨?_, e2⟩
          rw [e1]
          apply ABook.eq_of_fields
          · intro s x
            show ((a.setLv side p t).setLv side p _).lv s x = (a.setLv side p _).lv s x
            rw [ABook.setLv_setLv]
          · show _ ++ (o.slot :: a.free) = _
            simp
          · rfl
          · rfl
        · rw [if_neg hfull] at h
          obtain ⟨e1, e2⟩ := ih _ _ _ _ h
          rw [fillList_zero] at e1 e2
          simp only [fillList, hq0', if_false, hfull]
          refine ⟨?_, e2⟩
          rw [e1]
          apply ABook.eq_of_fields
          · intro s x
            simp only [List.map_nil, List.reverse_nil, List.nil_append]
            rw [ABook.setLv_self]
          · rfl
          · rfl
          · rfl
      · have hq0' : q = 0 := by omega
        rw [if_neg hq0] at h
        simp only [Option.some.injEq, Prod.mk.injEq] at h
        obtain ⟨rfl, rfl⟩ := h
        simp only [hq0', fillList, if_true, List.map_nil, List.reverse_nil, List.nil_append,
          and_true]
        rw [← hl, ABook.setLv_self]

/-- With positive resting quantities the inner loop ends within `q + 1` steps. -/
theorem aMatchLevel_isSome (side : Side) (p : Nat) :
    ∀ (fuel : Nat) (a : ABook) (q : Nat), (∀ o ∈ a.lv side p, 0 < o.qty) → q + 1 ≤ fuel →
      ∃ r, aMatchLevel side p fuel a q = some r := by
  intro fuel
  induction fuel with
  | zero => intro a q _ h; omega
  | succ fuel ih =>
    intro a q hpos hf
    rcases hl : a.lv side p with _ | ⟨o, t⟩
    · exact ⟨(a, q), by simp [aMatchLevel, hl]⟩
    · simp only [aMatchLevel, hl]
      by_cases hq0 : q > 0
      · rw [if_pos hq0]
        have ho := hpos o (by rw [hl]; exact List.mem_cons_self _ _)
        by_cases hfull : o.qty ≤ q
        · rw [if_pos hfull]
          refine ih _ _ ?_ (by omega)
          intro u hu
          have hu' : u ∈ t := by
            have : ({ a.setLv side p t with free := o.slot :: a.free } : ABook).lv side p = t := by
              show (a.setLv side p t).lv side p = t
              rw [ABook.setLv_lv, if_pos ⟨rfl, rfl⟩]
            rw [this] at hu; exact hu
          exact hpos u (by rw [hl]; exact List.mem_cons_of_mem _ hu')
        · rw [if_neg hfull]
          refine ih _ _ ?_ (by omega)
          intro u hu
          rw [ABook.setLv_lv, if_pos ⟨rfl, rfl⟩] at hu
          rcases List.mem_cons.1 hu with rfl | hu
          · show 0 < o.qty - q
            omega
          · exact hpos u (by rw [hl]; exact List.mem_cons_of_mem _ hu)
      · rw [if_neg hq0]; exact ⟨_, rfl⟩

/-- The inner loop keeps the list view well-formed and touches one level only. -/
theorem aMatchLevel_WF (side : Side) (p : Nat) :
    ∀ (fuel : Nat) (a : ABook) (q : Nat) (a' : ABook) (q' : Nat),
      aMatchLevel side p fuel a q = some (a', q') → a.WF → a'.WF := by
  intro fuel
  induction fuel with
  | zero => intro a q a' q' h; simp [aMatchLevel] at h
  | succ fuel ih =>
    intro a q a' q' h hwf
    rcases hl : a.lv side p with _ | ⟨o, t⟩
    · simp only [aMatchLevel, hl, Option.some.injEq, Prod.mk.injEq] at h
      obtain ⟨rfl, rfl⟩ := h
      exact hwf
    · simp only [aMatchLevel, hl] at h
      have hmem : o ∈ a.lv side p := by rw [hl]; exact List.mem_cons_self _ _
      by_cases hq0 : q > 0
      · rw [if_pos hq0] at h
        by_cases hfull : o.qty ≤ q
        · rw [if_pos hfull] at h
          exact ih _ _ _ _ h (@ABook.WF.remove a hwf side p o [] t (by rw [hl]; rfl))
        · rw [if_neg hfull] at h
          have := hwf.qty_lt side p o hmem
          exact ih _ _ _ _ h (hwf.setQty hl _ (by omega) (by omega))
      · rw [if_neg hq0] at h
        simp only [Option.some.injEq, Prod.mk.injEq] at h
        obtain ⟨rfl, rfl⟩ := h
        exact hwf

theorem fillList_le (l : List AOrder) (q : Nat) : (fillList l q).2.2 ≤ q := by
  induction l generalizing q with
  | nil => simp [fillList]
  | cons o t ih =>
    unfold fillList
    split
    · simp
    · split
      · have := ih (q - o.qty); simp only []; omega
      · simp

/-- What the inner loop on the list view leaves unchanged, and what it does to its level. -/
theorem aMatchLevel_frame {side : Side} {p fuel : Nat} {a a' : ABook} {q q' : Nat}
    (h : aMatchLevel side p fuel a q = some (a', q')) :
    a'.best_bid = a.best_bid ∧ a'.best_ask = a.best_ask ∧
    (∀ s x, ¬ (s = side ∧ x = p) → a'.lv s x = a.lv s x) ∧
    a'.lv side p = (fillList (a.lv side p) q).1 ∧
    q' = (fillList (a.lv side p) q).2.2 ∧
    a'.free = ((fillList (a.lv side p) q).2.1.map AOrder.slot).reverse ++ a.free := by
  obtain ⟨e1, e2⟩ := aMatchLevel_eq side p fuel a q a' q' h
  rw [e1]
  refine ⟨rfl, rfl, ?_, ?_, e2, rfl⟩
  · intro s x hc
    show (a.setLv side p _).lv s x = _
    rw [ABook.setLv_lv, if_neg hc]
  · show (a.setLv side p _).lv side p = _
    rw [ABook.setLv_lv, if_pos ⟨rfl, rfl⟩]

theorem head_eq_none_iff {b : OrderBookV6} {a : ABook} (hr : RepCore b a) (side : Side)
    (p : Nat) : (b.level side p).head = none ↔ a.lv side p = [] := by
  rw [hr.levels]
  cases a.lv side p <;> simp

/-- The BUY matching loop of `AddOrder` on a represented book does what `aMatch`
does on the list view, with the same fuel. -/
theorem matchBuy_sim (price : Nat) :
    ∀ (fuel : Nat) (b : OrderBookV6) (a : ABook) (q : Nat),
      Rep b a → a.WF → q < 2 ^ 32 →
      (aMatch Side.BUY price fuel a q = none →
        matchBuy price fuel b q = .error Error.OutOfFuel) ∧
      (∀ a' q', aMatch Side.BUY price fuel a q = some (a', q') →
        ∃ b', matchBuy price fuel b q = .ok (b', q') ∧ Rep b' a') := by
  intro fuel
  induction fuel with
  | zero =>
    intro b a q _ _ _
    refine ⟨fun _ => rfl, ?_⟩
    intro a' q' h
    simp [aMatch] at h
  | succ fuel ih =>
    intro b a q hr hwf hq
    have hba := hr.best_ask
    have hg : (q > 0 ∧ price ≥ b.best_ask_ ∧ b.best_ask_ < MAX_PRICE) ↔
        (q > 0 ∧ a.crosses Side.BUY price) := by
      rw [hba]; rfl
    unfold matchBuy aMatch
    by_cases hc : q > 0 ∧ a.crosses Side.BUY price
    · rw [if_pos (hg.2 hc), if_pos hc]
      have hhead := head_eq_none_iff hr.core Side.SELL a.best_ask
      have hob : a.oppBest Side.BUY = a.best_ask := rfl
      have hopp : Side.BUY.opp = Side.SELL := rfl
      simp only [hba, hob, hopp]
      have hlev : b.asks_ a.best_ask = b.level Side.SELL a.best_ask := rfl
      rcases hl : a.lv Side.SELL a.best_ask with _ | ⟨o, t⟩
      · -- stale cache
        rw [if_pos (by rw [hlev]; exact hhead.2 hl)]
        simp only []
        exact ih _ _ q (hr.updateBestAsk (hwf.price_le Side.SELL)) (hwf.congr rfl rfl) hq
      · have hne : ¬ (b.asks_ a.best_ask).head = none := by
          rw [hlev, hhead, hl]; simp
        rw [if_neg hne]
        simp only []
        have hsim := matchLevel_sim Side.SELL a.best_ask fuel b a q hr.core hwf.struct
          hwf.qty_lt hq
        have hhd : (b.asks_ a.best_ask).head = headSlot (a.lv Side.SELL a.best_ask) none := by
          rw [hlev, hr.core.levels]
        rw [hhd]
        rcases hml : aMatchLevel Side.SELL a.best_ask fuel a q with _ | ⟨a1, q1⟩
        · rw [hsim.1 hml]
          simp only []
          refine ⟨?_, fun a' q' h => by cases h⟩
          trivial
        · obtain ⟨b1, e1, hr1, hsq⟩ := hsim.2 a1 q1 hml
          rw [e1]
          simp only []
          obtain ⟨f1, f2, f3, f4, f5, f6⟩ := aMatchLevel_frame hml
          have hwf1 := aMatchLevel_WF _ _ _ _ _ _ _ hml hwf
          have hq1 : q1 < 2 ^ 32 := by
            have := fillList_le (a.lv Side.SELL a.best_ask) q
            omega
          have hhead1 := head_eq_none_iff hr1 Side.SELL a.best_ask
          have hlev1 : b1.asks_ a.best_ask = b1.level Side.SELL a.best_ask := rfl
          have hbid1 : Bits b1.bids_bitmap_ (a1.lv Side.BUY) := by
            rw [hsq.2.2.1]
            refine hr.bidBits.same ?_
            intro x
            rw [f3 Side.BUY x (by simp)]
          rcases hl1 : a1.lv Side.SELL a.best_ask with _ | ⟨o1, t1⟩
          · rw [if_pos (by rw [hlev1]; exact hhead1.2 hl1)]
            simp only []
            have hrc : Rep ({ b1 with asks_bitmap_ := clear_bit b1.best_ask_ b1.asks_bitmap_ } :
                OrderBookV6) a1 := by
              refine ⟨hr1.transfer (fun s p => by cases s <;> rfl) (fun _ => rfl) rfl rfl rfl rfl,
                hbid1, ?_, ?_, ?_⟩
              · show Bits (clear_bit b1.best_ask_ b1.asks_bitmap_) _
                rw [hsq.2.1, hsq.2.2.2, hba]
                refine hr.askBits.clear a.best_ask hl1 ?_
                intro x hx
                exact f3 Side.SELL x (by simp [hx])
              · show b1.best_bid_ = _
                rw [hsq.1, hr.best_bid, f1]
              · show b1.best_ask_ = _
                rw [hsq.2.1, hba, f2]
            exact ih _ _ q1 (hrc.updateBestAsk (hwf1.price_le Side.SELL))
              (hwf1.congr rfl rfl) hq1
          · have hne1 : ¬ (b1.asks_ a.best_ask).head = none := by
              rw [hlev1, hhead1, hl1]; simp
            rw [if_neg hne1]
            simp only []
            have hrc : Rep b1 a1 := by
              refine ⟨hr1, hbid1, ?_, ?_, ?_⟩
              · rw [hsq.2.2.2]
                refine hr.askBits.same ?_
                intro x
                by_cases hx : x = a.best_ask
                · subst hx; rw [hl1, hl]; simp
                · rw [f3 Side.SELL x (by simp [hx])]
              · rw [hsq.1, hr.best_bid, f1]
              · rw [hsq.2.1, hba, f2]
            exact ih _ _ q1 hrc hwf1 hq1
    · rw [if_neg (fun h => hc (hg.1 h)), if_neg hc]
      constructor
      · intro h; cases h
      · intro a' q' h
        simp only [Option.some.injEq, Prod.mk.injEq] at h
        obtain ⟨rfl, rfl⟩ := h
        exact ⟨b, rfl, hr⟩

/-- The SELL matching loop of `AddOrder` on a represented book does what `aMatch`
does on the list view, with the same fuel. -/
theorem matchSell_sim (price : Nat) :
    ∀ (fuel : Nat) (b : OrderBookV6) (a : ABook) (q : Nat),
      Rep b a → a.WF → q < 2 ^ 32 →
      (aMatch Side.SELL price fuel a q = none →
        matchSell price fuel b q = .error Error.OutOfFuel) ∧
      (∀ a' q', aMatch Side.SELL price fuel a q = some (a', q') →
        ∃ b', matchSell price fuel b q = .ok (b', q') ∧ Rep b' a') := by
  intro fuel
  induction fuel with
  | zero =>
    intro b a q _ _ _
    refine ⟨fun _ => rfl, ?_⟩
    intro a' q' h
    simp [aMatch] at h
  | succ fuel ih =>
    intro b a q hr hwf hq
    have hba := hr.best_bid
    have hg : (q > 0 ∧ price ≤ b.best_bid_ ∧ b.best_bid_ > 0) ↔
        (q > 0 ∧ a.crosses Side.SELL price) := by
      rw [hba]; rfl
    unfold matchSell aMatch
    by_cases hc : q > 0 ∧ a.crosses Side.SELL price
    · rw [if_pos (hg.2 hc), if_pos hc]
      have hhead := head_eq_none_iff hr.core Side.BUY a.best_bid
      have hob : a.oppBest Side.SELL = a.best_bid := rfl
      have hopp : Side.SELL.opp = Side.BUY := rfl
      simp only [hba, hob, hopp]
      have hlev : b.bids_ a.best_bid = b.level Side.BUY a.best_bid := rfl
      rcases hl : a.lv Side.BUY a.best_bid with _ | ⟨o, t⟩
      · -- stale cache
        rw [if_pos (by rw [hlev]; exact hhead.2 hl)]
        simp only []
        exact ih _ _ q hr.updateBestBid (hwf.congr rfl rfl) hq
      · have hne : ¬ (b.bids_ a.best_bid).head = none := by
          rw [hlev, hhead, hl]; simp
        rw [if_neg hne]
        simp only []
        have hsim := matchLevel_sim Side.BUY a.best_bid fuel b a q hr.core hwf.struct
          hwf.qty_lt hq
        have hhd : (b.bids_ a.best_bid).head = headSlot (a.lv Side.BUY a.best_bid) none := by
          rw [hlev, hr.core.levels]
        rw [hhd]
        rcases hml : aMatchLevel Side.BUY a.best_bid fuel a q with _ | ⟨a1, q1⟩
        · rw [hsim.1 hml]
          simp only []
          refine ⟨?_, fun a' q' h => by cases h⟩
          trivial
        · obtain ⟨b1, e1, hr1, hsq⟩ := hsim.2 a1 q1 hml
          rw [e1]
          simp only []
          obtain ⟨f1, f2, f3, f4, f5, f6⟩ := aMatchLevel_frame hml
          have hwf1 := aMatchLevel_WF _ _ _ _ _ _ _ hml hwf
          have hq1 : q1 < 2 ^ 32 := by
            have := fillList_le (a.lv Side.BUY a.best_bid) q
            omega
          have hhead1 := head_eq_none_iff hr1 Side.BUY a.best_bid
          have hlev1 : b1.bids_ a.best_bid = b1.level Side.BUY a.best_bid := rfl
          have hask1 : Bits b1.asks_bitmap_ (a1.lv Side.SELL) := by
            rw [hsq.2.2.2]
            refine hr.askBits.same ?_
            intro x
            rw [f3 Side.SELL x (by simp)]
          rcases hl1 : a1.lv Side.BUY a.best_bid with _ | ⟨o1, t1⟩
          · rw [if_pos (by rw [hlev1]; exact hhead1.2 hl1)]
            simp only []
            have hrc : Rep ({ b1 with bids_bitmap_ := clear_bit b1.best_bid_ b1.bids_bitmap_ } :
                OrderBookV6) a1 := by
              refine ⟨hr1.transfer (fun s p => by cases s <;> rfl) (fun _ => rfl) rfl rfl rfl rfl,
                ?_, hask1, ?_, ?_⟩
              · show Bits (clear_bit b1.best_bid_ b1.bids_bitmap_) _
                rw [hsq.1, hsq.2.2.1, hba]
                refine hr.bidBits.clear a.best_bid hl1 ?_
                intro x hx
                exact f3 Side.BUY x (by simp [hx])
              · show b1.best_bid_ = _
                rw [hsq.1, hba, f1]
              · show b1.best_ask_ = _
                rw [hsq.2.1, hr.best_ask, f2]
            exact ih _ _ q1 hrc.updateBestBid (hwf1.congr rfl rfl) hq1
          · have hne1 : ¬ (b1.bids_ a.best_bid).head = none := by
              rw [hlev1, hhead1, hl1]; simp
            rw [if_neg hne1]
            simp only []
            have hrc : Rep b1 a1 := by
              refine ⟨hr1, ?_, hask1, ?_, ?_⟩
              · rw [hsq.2.2.1]
                refine hr.bidBits.same ?_
                intro x
                by_cases hx : x = a.best_bid
                · subst hx; rw [hl1, hl]; simp
                · rw [f3 Side.BUY x (by simp [hx])]
              · rw [hsq.1, hba, f1]
              · rw [hsq.2.1, hr.best_ask, f2]
            exact ih _ _ q1 hrc hwf1 hq1
    · rw [if_neg (fun h => hc (hg.1 h)), if_neg hc]
      constructor
      · intro h; cases h
      · intro a' q' h
        simp only [Option.some.injEq, Prod.mk.injEq] at h
        obtain ⟨rfl, rfl⟩ := h
        exact ⟨b, rfl, hr⟩

/-- The resting phase of the BUY branch of `AddOrder` on a represented book does
what `aRest` does on the list view. -/
theorem restBuy_sim {b : OrderBookV6} {a : ABook} (hr : Rep b a) (hwf : a.WF)
    (id price q : Nat) (hid : ∀ sd x, ∀ u ∈ a.lv sd x, u.id ≠ id) :
    (aRest a id Side.BUY price q = none →
      restBuy b id price q = .error Error.ObjectPoolExhausted) ∧
    (∀ a', aRest a id Side.BUY price q = some a' →
      ∃ b', restBuy b id price q = .ok b' ∧ Rep b' a') := by
  unfold restBuy aRest
  by_cases hq0 : q > 0
  · rw [if_pos hq0, if_pos hq0]
    have hfl := hr.core.free
    unfold ObjectPool.NewOrder
    rcases hfree : a.free with _ | ⟨s, rest⟩
    · rw [hfree] at hfl
      rw [hfl]
      exact ⟨fun _ => rfl, fun a' h => by cases h⟩
    · rw [hfree] at hfl
      rw [hfl]
      simp only []
      have hun : ¬ a.InUse s := hwf.free_unused s (by rw [hfree]; exact List.mem_cons_self _ _)
      obtain ⟨b3, e3, hr3⟩ := RepCore_append hr.core hwf.struct hfree hun id hid
        Side.BUY price q
      have e3' : OrderBookV6.AddToList
          (({ b with order_pool_ := { pool_ := b.order_pool_.pool_, free_list_ := rest } } :
            OrderBookV6).setOrder s
            { order_id := id, quantity := q, price := price, side := Side.BUY,
              next := (({ b with order_pool_ :=
                { pool_ := b.order_pool_.pool_, free_list_ := rest } } : OrderBookV6).pool s).next,
              prev := (({ b with order_pool_ :=
                { pool_ := b.order_pool_.pool_, free_list_ := rest } } : OrderBookV6).pool s).prev })
          price s = .ok b3 := e3
      rw [e3']
      simp only []
      refine ⟨(fun h => by cases h), ?_⟩
      intro a' h
      simp only [Option.some.injEq] at h
      subst h
      refine ⟨_, rfl, ?_⟩
      obtain ⟨o1, o2, o3, o4, o5, o6⟩ := other_AddToList e3
      have hbb : b3.best_bid_ = a.best_bid := by rw [o3]; exact hr.best_bid
      have hba : b3.best_ask_ = a.best_ask := by rw [o4]; exact hr.best_ask
      have hbm : b3.bids_bitmap_ = b.bids_bitmap_ := o5
      have ham : b3.asks_bitmap_ = b.asks_bitmap_ := o6
      have hnew : (b.bids_ price).head = none ↔ a.lv Side.BUY price = [] :=
        head_eq_none_iff hr.core Side.BUY price
      have hlvB : ∀ x, x ≠ price →
          (a.setLv Side.BUY price (a.lv Side.BUY price ++ [⟨s, id, q⟩])).lv Side.BUY x =
            a.lv Side.BUY x := by
        intro x hx; rw [ABook.setLv_lv, if_neg (by simp [hx])]
      have hlvS : ∀ x,
          (a.setLv Side.BUY price (a.lv Side.BUY price ++ [⟨s, id, q⟩])).lv Side.SELL x =
            a.lv Side.SELL x := by
        intro x; rw [ABook.setLv_lv, if_neg (by simp)]
      have hlvP : (a.setLv Side.BUY price (a.lv Side.BUY price ++ [⟨s, id, q⟩])).lv Side.BUY price
          ≠ [] := by
        rw [ABook.setLv_lv, if_pos ⟨rfl, rfl⟩]; simp
      constructor
      · refine hr3.transfer ?_ ?_ ?_ ?_ rfl rfl
        · intro sd x; split_ifs <;> cases sd <;> rfl
        · intro x; split_ifs <;> rfl
        · split_ifs <;> rfl
        · split_ifs <;> rfl
      · show Bits _ ((a.setLv Side.BUY price (a.lv Side.BUY price ++ [⟨s, id, q⟩])).lv Side.BUY)
        have hset : Bits (set_bit price b.bids_bitmap_)
            ((a.setLv Side.BUY price (a.lv Side.BUY price ++ [⟨s, id, q⟩])).lv Side.BUY) :=
          hr.bidBits.set price hlvP hlvB
        simp only [apply_ite OrderBookV6.bids_bitmap_, ite_self, hbm]
        by_cases hn : (b.bids_ price).head = none
        · simp only [hn, decide_True, if_true]
          exact hset
        · simp only [hn, decide_False, if_false]
          refine hr.bidBits.same ?_
          intro x
          by_cases hx : x = price
          · subst hx
            have : a.lv Side.BUY x ≠ [] := fun h => hn (hnew.2 h)
            simp [hlvP, this]
          · rw [hlvB x hx]
      · show Bits _ ((a.setLv Side.BUY price (a.lv Side.BUY price ++ [⟨s, id, q⟩])).lv Side.SELL)
        simp only [apply_ite OrderBookV6.asks_bitmap_, ite_self, ham]
        refine hr.askBits.same ?_
        intro x
        rw [hlvS x]
      · simp only [apply_ite OrderBookV6.best_bid_, ite_self, hbb]
        simp
      · simp only [apply_ite OrderBookV6.best_ask_, ite_self, hba]
        simp
  · rw [if_neg hq0, if_neg hq0]
    refine ⟨(fun h => by cases h), ?_⟩
    intro a' h
    simp only [Option.some.injEq] at h
    subst h
    exact ⟨b, rfl, hr⟩

/-- The resting phase of the SELL branch of `AddOrder` on a represented book does
what `aRest` does on the list view. -/
theorem restSell_sim {b : OrderBookV6} {a : ABook} (hr : Rep b a) (hwf : a.WF)
    (id price q : Nat) (hid : ∀ sd x, ∀ u ∈ a.lv sd x, u.id ≠ id) :
    (aRest a id Side.SELL price q = none →
      restSell b id price q = .error Error.ObjectPoolExhausted) ∧
    (∀ a', aRest a id Side.SELL price q = some a' →
      ∃ b', restSell b id price q = .ok b' ∧ Rep b' a') := by
  unfold restSell aRest
  by_cases hq0 : q > 0
  · rw [if_pos hq0, if_pos hq0]
    have hfl := hr.core.free
    unfold ObjectPool.NewOrder
    rcases hfree : a.free with _ | ⟨s, rest⟩
    · rw [hfree] at hfl
      rw [hfl]
      exact ⟨fun _ => rfl, fun a' h => by cases h⟩
    · rw [hfree] at hfl
      rw [hfl]
      simp only []
      have hun : ¬ a.InUse s := hwf.free_unused s (by rw [hfree]; exact List.mem_cons_self _ _)
      obtain ⟨b3, e3, hr3⟩ := RepCore_append hr.core hwf.struct hfree hun id hid
        Side.SELL price q
      have e3' : OrderBookV6.AddToList
          (({ b with order_pool_ := { pool_ := b.order_pool_.pool_, free_list_ := rest } } :
            OrderBookV6).setOrder s
            { order_id := id, quantity := q, price := price, side := Side.SELL,
              next := (({ b with order_pool_ :=
                { pool_ := b.order_pool_.pool_, free_list_ := rest } } : OrderBookV6).pool s).next,
              prev := (({ b with order_pool_ :=
                { pool_ := b.order_pool_.pool_, free_list_ := rest } } : OrderBookV6).pool s).prev })
          price s = .ok b3 := e3
      rw [e3']
      simp only []
      refine ⟨(fun h => by cases h), ?_⟩
      intro a' h
      simp only [Option.some.injEq] at h
      subst h
      refine ⟨_, rfl, ?_⟩
      obtain ⟨o1, o2, o3, o4, o5, o6⟩ := other_AddToList e3
      have hbb : b3.best_bid_ = a.best_bid := by rw [o3]; exact hr.best_bid
      have hba : b3.best_ask_ = a.best_ask := by rw [o4]; exact hr.best_ask
      have hbm : b3.bids_bitmap_ = b.bids_bitmap_ := o5
      have ham : b3.asks_bitmap_ = b.asks_bitmap_ := o6
      have hnew : (b.asks_ price).head = none ↔ a.lv Side.SELL price = [] :=
        head_eq_none_iff hr.core Side.SELL price
      have hlvB : ∀ x, x ≠ price →
          (a.setLv Side.SELL price (a.lv Side.SELL price ++ [⟨s, id, q⟩])).lv Side.SELL x =
            a.lv Side.SELL x := by
        intro x hx; rw [ABook.setLv_lv, if_neg (by simp [hx])]
      have hlvS : ∀ x,
          (a.setLv Side.SELL price (a.lv Side.SELL price ++ [⟨s, id, q⟩])).lv Side.BUY x =
            a.lv Side.BUY x := by
        intro x; rw [ABook.setLv_lv, if_neg (by simp)]
      have hlvP : (a.setLv Side.SELL price (a.lv Side.SELL price ++ [⟨s, id, q⟩])).lv Side.SELL
          price ≠ [] := by
        rw [ABook.setLv_lv, if_pos ⟨rfl, rfl⟩]; simp
      constructor
      · refine hr3.transfer ?_ ?_ ?_ ?_ rfl rfl
        · intro sd x; split_ifs <;> cases sd <;> rfl
        · intro x; split_ifs <;> rfl
        · split_ifs <;> rfl
        · split_ifs <;> rfl
      · show Bits _ ((a.setLv Side.SELL price (a.lv Side.SELL price ++ [⟨s, id, q⟩])).lv Side.BUY)
        simp only [apply_ite OrderBookV6.bids_bitmap_, ite_self, hbm]
        refine hr.bidBits.same ?_
        intro x
        rw [hlvS x]
      · show Bits _ ((a.setLv Side.SELL price (a.lv Side.SELL price ++ [⟨s, id, q⟩])).lv Side.SELL)
        have hset : Bits (set_bit price b.asks_bitmap_)
            ((a.setLv Side.SELL price (a.lv Side.SELL price ++ [⟨s, id, q⟩])).lv Side.SELL) :=
          hr.askBits.set price hlvP hlvB
        simp only [apply_ite OrderBookV6.asks_bitmap_, ite_self, ham]
        by_cases hn : (b.asks_ price).head = none
        · simp only [hn, decide_True, if_true]
          exact hset
        · simp only [hn, decide_False, if_false]
          refine hr.askBits.same ?_
          intro x
          by_cases hx : x = price
          · subst hx
            have : a.lv Side.SELL x ≠ [] := fun h => hn (hnew.2 h)
            simp [hlvP, this]
          · rw [hlvB x hx]
      · simp only [apply_ite OrderBookV6.best_bid_, ite_self, hbb]
        simp
      · simp only [apply_ite OrderBookV6.best_ask_, ite_self, hba]
        simp
  · rw [if_neg hq0, if_neg hq0]
    refine ⟨(fun h => by cases h), ?_⟩
    intro a' h
    simp only [Option.some.injEq] at h
    subst h
    exact ⟨b, rfl, hr⟩

theorem fillList_exit (l : List AOrder) (q : Nat) :
    (fillList l q).2.2 = 0 ∨ (fillList l q).1 = [] := by
  induction l generalizing q with
  | nil => right; simp [fillList]
  | cons o t ih =>
    unfold fillList
    split
    · left; rfl
    · split
      · exact ih (q - o.qty)
      · left; rfl

/-- Under the invariant a crossing order finds a non-empty level at the cached best. -/
theorem ABook.Inv.level_ne_nil {a : ABook} (h : a.Inv) {side : Side} {price : Nat}
    (hc : a.crosses side price) : a.lv side.opp (a.oppBest side) ≠ [] := by
  cases side with
  | BUY =>
    rcases h.best.ask_at with h1 | h1
    · exact h1
    · have : a.best_ask < MAX_PRICE := hc.2
      omega
  | SELL =>
    rcases h.best.bid_at with h1 | h1
    · exact h1
    · have : a.best_bid > 0 := hc.2
      omega

theorem ABook.afterLevel_lv (a1 : ABook) (side : Side) (best : Nat) :
    (a1.afterLevel side best).lv = a1.lv := by
  unfold ABook.afterLevel
  split
  · cases side <;> rfl
  · rfl

theorem ABook.afterLevel_free (a1 : ABook) (side : Side) (best : Nat) :
    (a1.afterLevel side best).free = a1.free := by
  unfold ABook.afterLevel
  split
  · cases side <;> rfl
  · rfl

/-- The cached best prices stay exact when no level changes between empty and non-empty. -/
theorem ABook.BestOK.keep {a a1 : ABook} (h : a.BestOK) (hb : a1.best_bid = a.best_bid)
    (ha : a1.best_ask = a.best_ask) (hl : ∀ s x, a1.lv s x = [] ↔ a.lv s x = []) :
    a1.BestOK := by
  constructor
  · intro p hp; rw [hb]; exact h.bid_ub p (fun e => hp ((hl _ _).2 e))
  · rw [hb]
    rcases h.bid_at with h1 | h1
    · exact Or.inl (fun e => h1 ((hl _ _).1 e))
    · exact Or.inr h1
  · intro p hp; rw [ha]; exact h.ask_lb p (fun e => hp ((hl _ _).2 e))
  · rw [ha]
    rcases h.ask_at with h1 | h1
    · exact Or.inl (fun e => h1 ((hl _ _).1 e))
    · exact Or.inr h1

/-- The cached best prices stay exact when a level off the cached best empties. -/
theorem ABook.BestOK.off_best {a a1 : ABook} (h : a.BestOK) (hb : a1.best_bid = a.best_bid)
    (ha : a1.best_ask = a.best_ask) (side : Side) (p : Nat) (hp : p ≠ a.oppBest side)
    (hl1 : a1.lv side.opp p = [])
    (hl : ∀ s x, ¬ (s = side.opp ∧ x = p) → a1.lv s x = a.lv s x) : a1.BestOK := by
  have hsub : ∀ s x, a1.lv s x ≠ [] → a.lv s x ≠ [] := by
    intro s x hx
    by_cases hc : s = side.opp ∧ x = p
    · exfalso; rw [hc.1, hc.2] at hx; exact hx hl1
    · rw [← hl s x hc]; exact hx
  constructor
  · intro x hx; rw [hb]; exact h.bid_ub x (hsub _ _ hx)
  · rw [hb]
    rcases h.bid_at with h1 | h1
    · left
      rw [hl]
      · exact h1
      · rintro ⟨h2, h3⟩
        cases side with
        | BUY => cases h2
        | SELL => exact hp h3.symm
    · exact Or.inr h1
  · intro x hx; rw [ha]; exact h.ask_lb x (hsub _ _ hx)
  · rw [ha]
    rcases h.ask_at with h1 | h1
    · left
      rw [hl]
      · exact h1
      · rintro ⟨h2, h3⟩
        cases side with
        | BUY => exact hp h3.symm
        | SELL => cases h2
    · exact Or.inr h1

/-- The cached best prices are exact again after the level at the cached best
emptied and the best was recomputed. -/
theorem ABook.BestOK.advance {a a1 : ABook} (h : a.BestOK) (hb : a1.best_bid = a.best_bid)
    (ha : a1.best_ask = a.best_ask) (side : Side)
    (hpl : ∀ s x, a1.lv s x ≠ [] → x ≤ MAX_PRICE)
    (hl1 : a1.lv side.opp (a.oppBest side) = [])
    (hl : ∀ s x, ¬ (s = side.opp ∧ x = a.oppBest side) → a1.lv s x = a.lv s x) :
    (a1.advance side).BestOK := by
  cases side with
  | BUY =>
    have hob : a.oppBest Side.BUY = a.best_ask := rfl
    have hopp : Side.BUY.opp = Side.SELL := rfl
    rw [hob, hopp] at hl hl1
    have hbuy : ∀ x, a1.lv Side.BUY x = a.lv Side.BUY x := fun x => hl Side.BUY x (by simp)
    have hsell : ∀ x, x ≠ a.best_ask → a1.lv Side.SELL x = a.lv Side.SELL x :=
      fun x hx => hl Side.SELL x (by simp [hx])
    have hsp := firstFrom_spec (a1.lv Side.SELL) (MAX_PRICE + 1 - a1.best_ask) a1.best_ask
    rw [ha] at hsp
    constructor
    · intro p hp
      change a1.lv Side.BUY p ≠ [] at hp
      rw [hbuy] at hp
      show p ≤ a1.best_bid
      rw [hb]; exact h.bid_ub p hp
    · show a1.lv Side.BUY a1.best_bid ≠ [] ∨ a1.best_bid = 0
      rw [hb, hbuy]; exact h.bid_at
    · intro p hp
      show firstFrom (a1.lv Side.SELL) (MAX_PRICE + 1 - a1.best_ask) a1.best_ask ≤ p
      rw [ha]
      have hpb : p ≠ a.best_ask := fun e => hp (by rw [e]; exact hl1)
      have hlb : a.best_ask ≤ p := h.ask_lb p (by rw [← hsell p hpb]; exact hp)
      have hpm : p ≤ MAX_PRICE := hpl Side.SELL p hp
      rcases hsp with ⟨_, _, _, s4⟩ | ⟨_, s2⟩
      · by_contra hlt
        exact hp (s4 p hlb (by omega))
      · exact absurd (s2 p hlb (by omega)) hp
    · show a1.lv Side.SELL (firstFrom (a1.lv Side.SELL) (MAX_PRICE + 1 - a1.best_ask)
          a1.best_ask) ≠ [] ∨ firstFrom (a1.lv Side.SELL) (MAX_PRICE + 1 - a1.best_ask)
          a1.best_ask = MAX_PRICE
      rw [ha]
      rcases hsp with ⟨s1, _⟩ | ⟨s1, _⟩
      · exact Or.inl s1
      · exact Or.inr s1
  | SELL =>
    have hob : a.oppBest Side.SELL = a.best_bid := rfl
    have hopp : Side.SELL.opp = Side.BUY := rfl
    rw [hob, hopp] at hl hl1
    have hsell : ∀ x, a1.lv Side.SELL x = a.lv Side.SELL x := fun x => hl Side.SELL x (by simp)
    have hbuy : ∀ x, x ≠ a.best_bid → a1.lv Side.BUY x = a.lv Side.BUY x :=
      fun x hx => hl Side.BUY x (by simp [hx])
    have hsp := lastFrom_spec (a1.lv Side.BUY) a1.best_bid
    rw [hb] at hsp
    constructor
    · intro p hp
      show p ≤ lastFrom (a1.lv Side.BUY) a1.best_bid
      rw [hb]
      have hpb : p ≠ a.best_bid := fun e => hp (by rw [e]; exact hl1)
      have hub : p ≤ a.best_bid := h.bid_ub p (by rw [← hbuy p hpb]; exact hp)
      rcases hsp with ⟨_, _, _, s4⟩ | ⟨s1, s2⟩
      · by_contra hlt
        exact hp (s4 p (by omega) hub)
      · rw [s1]
        by_contra hlt
        exact hp (s2 p (by omega) hub)
    · show a1.lv Side.BUY (lastFrom (a1.lv Side.BUY) a1.best_bid) ≠ [] ∨
          lastFrom (a1.lv Side.BUY) a1.best_bid = 0
      rw [hb]
      rcases hsp with ⟨s1, _⟩ | ⟨s1, _⟩
      · exact Or.inl s1
      · exact Or.inr s1
    · intro p hp
      change a1.lv Side.SELL p ≠ [] at hp
      rw [hsell] at hp
      show a1.best_ask ≤ p
      rw [ha]; exact h.ask_lb p hp
    · show a1.lv Side.SELL a1.best_ask ≠ [] ∨ a1.best_ask = MAX_PRICE
      rw [ha, hsell]; exact h.ask_at

/-- One round of the matching loop keeps the invariant. -/
theorem ABook.Inv.afterLevel {a a1 : ABook} (h : a.Inv) {side : Side} {price fuel q q1 : Nat}
    (hc : a.crosses side price)
    (hml : aMatchLevel side.opp (a.oppBest side) fuel a q = some (a1, q1)) :
    (a1.afterLevel side (a.oppBest side)).Inv := by
  obtain ⟨f1, f2, f3, f4, f5, f6⟩ := aMatchLevel_frame hml
  have hwf1 := aMatchLevel_WF _ _ _ _ _ _ _ hml h.wf
  have hne := h.level_ne_nil hc
  refine ⟨hwf1.congr (ABook.afterLevel_lv _ _ _) (ABook.afterLevel_free _ _ _), ?_⟩
  unfold ABook.afterLevel
  rcases hl1 : a1.lv side.opp (a.oppBest side) with _ | ⟨o1, t1⟩
  · simp only []
    exact h.best.advance f1 f2 side hwf1.price_le hl1 f3
  · simp only []
    refine h.best.keep f1 f2 ?_
    intro s x
    by_cases hcx : s = side.opp ∧ x = a.oppBest side
    · rw [hcx.1, hcx.2, hl1]
      simp [hne]
    · rw [f3 s x hcx]

/-- Under the invariant one round of the matching loop is the inner loop at
the cached best followed by `afterLevel`. -/
theorem aMatch_succ {a : ABook} (h : a.Inv) {side : Side} {price : Nat} (fuel q : Nat)
    (hq : q > 0) (hc : a.crosses side price) :
    aMatch side price (fuel + 1) a q =
      match aMatchLevel side.opp (a.oppBest side) fuel a q with
      | none => none
      | some (a1, q1) => aMatch side price fuel (a1.afterLevel side (a.oppBest side)) q1 := by
  have hne := h.level_ne_nil hc
  rw [aMatch, if_pos ⟨hq, hc⟩]
  rcases hl : a.lv side.opp (a.oppBest side) with _ | ⟨o, t⟩
  · exact absurd hl hne
  · simp only []
    rcases aMatchLevel side.opp (a.oppBest side) fuel a q with _ | ⟨a1, q1⟩
    · rfl
    · simp only [ABook.afterLevel]
      rcases a1.lv side.opp (a.oppBest side) with _ | ⟨o1, t1⟩ <;> rfl

/-- Induction along the rounds of the matching loop from a state satisfying the invariant. -/
theorem aMatch_induct (side : Side) (price : Nat) (P : ABook → Nat → ABook → Nat → Prop)
    (base : ∀ a q, a.Inv → ¬ (q > 0 ∧ a.crosses side price) → P a q a q)
    (step : ∀ a q a1 q1 a' q' fuel, a.Inv → q > 0 → a.crosses side price →
      aMatchLevel side.opp (a.oppBest side) fuel a q = some (a1, q1) →
      (a1.afterLevel side (a.oppBest side)).Inv →
      P (a1.afterLevel side (a.oppBest side)) q1 a' q' → P a q a' q') :
    ∀ fuel a q a' q', a.Inv → aMatch side price fuel a q = some (a', q') → P a q a' q' := by
  intro fuel
  induction fuel with
  | zero => intro a q a' q' _ h; simp [aMatch] at h
  | succ fuel ih =>
    intro a q a' q' hinv h
    by_cases hc : q > 0 ∧ a.crosses side price
    · rw [aMatch_succ hinv fuel q hc.1 hc.2] at h
      rcases hml : aMatchLevel side.opp (a.oppBest side) fuel a q with _ | ⟨a1, q1⟩
      · rw [hml] at h; cases h
      · rw [hml] at h
        simp only [] at h
        have hinv1 := hinv.afterLevel hc.2 hml
        exact step a q a1 q1 a' q' fuel hinv hc.1 hc.2 hml hinv1 (ih _ _ _ _ hinv1 h)
    · rw [aMatch, if_neg hc] at h
      simp only [Option.some.injEq, Prod.mk.injEq] at h
      obtain ⟨rfl, rfl⟩ := h
      exact base a q hinv hc

/-- `CancelOrder` of a live order, step by step. -/
theorem CancelOrder_live (b : OrderBookV6) (id s : Nat) (hlt : id < MAX_ORDER_ID)
    (hm : b.order_map_ id = some s) (hid : (b.pool s).order_id = id) :
    b.CancelOrder id = (b.unlink s).cancelTail (b.pool s).side (b.pool s).price := by
  subst hid
  unfold CancelOrder
  rw [if_neg (by omega)]
  simp only [hm]
  rfl

theorem erase_mid {o : AOrder} {l1 l2 : List AOrder} (h : o ∉ l1) :
    (l1 ++ o :: l2).erase o = l1 ++ l2 := by
  induction l1 with
  | nil => simp
  | cons u t ih =>
    have hne : u ≠ o := fun e => h (by rw [e]; exact List.mem_cons_self _ _)
    have ht : o ∉ t := fun e => h (List.mem_cons_of_mem _ e)
    rw [List.cons_append, List.erase_cons_tail (by simpa using hne), ih ht, List.cons_append]

/-- `CancelOrder` of a live order on a represented book does what `aCancel`
does on the list view. -/
theorem CancelOrder_sim {b : OrderBookV6} {a : ABook} (hr : Rep b a) (hwf : a.WF)
    {id s : Nat} (hlt : id < MAX_ORDER_ID) (hm : b.order_map_ id = some s) :
    ∃ side p o, o ∈ a.lv side p ∧ o.id = id ∧ o.slot = s ∧
      (b.pool s).side = side ∧ (b.pool s).price = p ∧ (b.pool s).quantity = o.qty ∧
      Rep (b.CancelOrder id) (aCancel a side p o) := by
  obtain ⟨side, p, o, ho, hoid, hos⟩ := (hr.core.omap id s).1 hm
  subst hos
  have hrec := RepSeg_mem (hr.core.segs side p) ho
  refine ⟨side, p, o, ho, hoid, rfl, hrec.2.2.2, hrec.2.2.1, hrec.2.1, ?_⟩
  rw [CancelOrder_live b id o.slot hlt hm (hrec.1.trans hoid), hrec.2.2.2, hrec.2.2.1]
  obtain ⟨l1, l2, hl⟩ := List.append_of_mem ho
  have hnd := hwf.struct.nodup side p
  rw [hl] at hnd
  have hno1 : o ∉ l1 := fun e =>
    (List.nodup_append.1 hnd).2.2 e (List.mem_cons_self _ _)
  have her : (a.lv side p).erase o = l1 ++ l2 := by rw [hl]; exact erase_mid hno1
  have hrc := RepCore_unlink hr.core hwf.struct hl
  have hsq := SameQuotes_unlink b o.slot
  have hwf1 := hwf.remove hl
  unfold aCancel
  rw [her]
  generalize hb3 : b.unlink o.slot = b3 at hrc hsq
  generalize ha1 : ({ a.setLv side p (l1 ++ l2) with free := o.slot :: a.free } : ABook) = a1
    at hrc hwf1
  have hlv1 : a1.lv side p = l1 ++ l2 := by
    rw [← ha1]; show (a.setLv side p _).lv side p = _
    rw [ABook.setLv_lv, if_pos ⟨rfl, rfl⟩]
  have hlvo : ∀ sd x, ¬ (sd = side ∧ x = p) → a1.lv sd x = a.lv sd x := by
    intro sd x hc; rw [← ha1]; show (a.setLv side p _).lv sd x = _
    rw [ABook.setLv_lv, if_neg hc]
  have hbb1 : a1.best_bid = a.best_bid := by rw [← ha1]; rfl
  have hba1 : a1.best_ask = a.best_ask := by rw [← ha1]; rfl
  have hne : a.lv side p ≠ [] := List.ne_nil_of_mem ho
  have hhead := head_eq_none_iff hrc side p
  have hrep3 : a1.lv side p ≠ [] → Rep b3 a1 := by
    intro hne1
    refine ⟨hrc, ?_, ?_, ?_, ?_⟩
    · rw [hsq.2.2.1]
      refine hr.bidBits.same ?_
      intro x
      by_cases hc : Side.BUY = side ∧ x = p
      · rw [← hc.1] at hne hne1; rw [hc.2]; simp [hne, hne1]
      · rw [hlvo _ _ hc]
    · rw [hsq.2.2.2]
      refine hr.askBits.same ?_
      intro x
      by_cases hc : Side.SELL = side ∧ x = p
      · rw [← hc.1] at hne hne1; rw [hc.2]; simp [hne, hne1]
      · rw [hlvo _ _ hc]
    · rw [hsq.1, hr.best_bid, hbb1]
    · rw [hsq.2.1, hr.best_ask, hba1]
  unfold cancelTail
  rcases hl1 : a1.lv side p with _ | ⟨u, t⟩
  · simp only []
    cases side with
    | BUY =>
      have hh : (b3.bids_ p).head = none := hhead.2 hl1
      rw [if_pos ⟨rfl, hh⟩]
      have hrep4 : Rep ({ b3 with bids_bitmap_ := clear_bit p b3.bids_bitmap_ } : OrderBookV6)
          a1 := by
        refine ⟨hrc.transfer (fun s p => by cases s <;> rfl) (fun _ => rfl) rfl rfl rfl rfl,
          ?_, ?_, ?_, ?_⟩
        · show Bits (clear_bit p b3.bids_bitmap_) _
          rw [hsq.2.2.1]
          exact hr.bidBits.clear p hl1 (fun x hx => hlvo _ _ (by simp [hx]))
        · show Bits b3.asks_bitmap_ _
          rw [hsq.2.2.2]
          refine hr.askBits.same ?_
          intro x; rw [hlvo _ _ (by simp)]
        · show b3.best_bid_ = _
          rw [hsq.1, hr.best_bid, hbb1]
        · show b3.best_ask_ = _
          rw [hsq.2.1, hr.best_ask, hba1]
      have hbeq : (p = b3.best_bid_) ↔ (p = a1.best_bid) := by
        rw [hsq.1, hr.best_bid, hbb1]
      simp only [hl1]
      by_cases hpb : p = a1.best_bid
      · rw [if_pos (hbeq.2 hpb), if_pos hpb]
        exact hrep4.updateBestBid
      · rw [if_neg (fun h => hpb (hbeq.1 h)), if_neg hpb]
        exact hrep4
    | SELL =>
      have hh : (b3.asks_ p).head = none := hhead.2 hl1
      rw [if_neg (by simp), if_pos ⟨rfl, hh⟩]
      have hrep4 : Rep ({ b3 with asks_bitmap_ := clear_bit p b3.asks_bitmap_ } : OrderBookV6)
          a1 := by
        refine ⟨hrc.transfer (fun s p => by cases s <;> rfl) (fun _ => rfl) rfl rfl rfl rfl,
          ?_, ?_, ?_, ?_⟩
        · show Bits b3.bids_bitmap_ _
          rw [hsq.2.2.1]
          refine hr.bidBits.same ?_
          intro x; rw [hlvo _ _ (by simp)]
        · show Bits (clear_bit p b3.asks_bitmap_) _
          rw [hsq.2.2.2]
          exact hr.askBits.clear p hl1 (fun x hx => hlvo _ _ (by simp [hx]))
        · show b3.best_bid_ = _
          rw [hsq.1, hr.best_bid, hbb1]
        · show b3.best_ask_ = _
          rw [hsq.2.1, hr.best_ask, hba1]
      have hbeq : (p = b3.best_ask_) ↔ (p = a1.best_ask) := by
        rw [hsq.2.1, hr.best_ask, hba1]
      simp only [hl1]
      by_cases hpb : p = a1.best_ask
      · rw [if_pos (hbeq.2 hpb), if_pos hpb]
        exact hrep4.updateBestAsk (hwf1.price_le Side.SELL)
      · rw [if_neg (fun h => hpb (hbeq.1 h)), if_neg hpb]
        exact hrep4
  · simp only []
    have hne1 : a1.lv side p ≠ [] := by rw [hl1]; simp
    have hh : ¬ (b3.level side p).head = none := fun h => hne1 (hhead.1 h)
    have e1 : ¬ (side = Side.BUY ∧ (b3.bids_ p).head = none) := by
      rintro ⟨rfl, h⟩; exact hh h
    have e2 : ¬ (side = Side.SELL ∧ (b3.asks_ p).head = none) := by
      rintro ⟨rfl, h⟩; exact hh h
    rw [if_neg e1, if_neg e2]
    simp only [hl1]
    exact hrep3 hne1

/-- `CancelOrder` keeps the invariant of the list view. -/
theorem aCancel_Inv {a : ABook} (h : a.Inv) {side : Side} {p : Nat} {o : AOrder}
    (ho : o ∈ a.lv side p) : (aCancel a side p o).Inv := by
  obtain ⟨l1, l2, hl⟩ := List.append_of_mem ho
  have hnd := h.wf.struct.nodup side p
  rw [hl] at hnd
  have hno1 : o ∉ l1 := fun e =>
    (List.nodup_append.1 hnd).2.2 e (List.mem_cons_self _ _)
  have her : (a.lv side p).erase o = l1 ++ l2 := by rw [hl]; exact erase_mid hno1
  have hwf1 := h.wf.remove hl
  unfold aCancel
  rw [her]
  generalize ha1 : ({ a.setLv side p (l1 ++ l2) with free := o.slot :: a.free } : ABook) = a1
    at hwf1
  have hlvo : ∀ sd x, ¬ (sd = side ∧ x = p) → a1.lv sd x = a.lv sd x := by
    intro sd x hc; rw [← ha1]; show (a.setLv side p _).lv sd x = _
    rw [ABook.setLv_lv, if_neg hc]
  have hbb1 : a1.best_bid = a.best_bid := by rw [← ha1]; rfl
  have hba1 : a1.best_ask = a.best_ask := by rw [← ha1]; rfl
  have hne : a.lv side p ≠ [] := List.ne_nil_of_mem ho
  rcases hl1 : a1.lv side p with _ | ⟨u, t⟩
  · simp only [hl1]
    cases side with
    | BUY =>
      simp only []
      by_cases hpb : p = a1.best_bid
      · rw [if_pos hpb]
        refine ⟨hwf1.congr rfl rfl, ?_⟩
        have hpa : p = a.best_bid := by rw [← hbb1]; exact hpb
        have := h.best.advance hbb1 hba1 Side.SELL hwf1.price_le
          (by show a1.lv Side.BUY a.best_bid = []; rw [← hpa]; exact hl1)
          (by intro s x hc; exact hlvo s x (by rw [hpa]; exact hc))
        exact this
      · rw [if_neg hpb]
        refine ⟨hwf1, ?_⟩
        exact h.best.off_best hbb1 hba1 Side.SELL p
          (by show p ≠ a.best_bid; rw [← hbb1]; exact hpb) hl1 hlvo
    | SELL =>
      simp only []
      by_cases hpb : p = a1.best_ask
      · rw [if_pos hpb]
        refine ⟨hwf1.congr rfl rfl, ?_⟩
        have hpa : p = a.best_ask := by rw [← hba1]; exact hpb
        have := h.best.advance hbb1 hba1 Side.BUY hwf1.price_le
          (by show a1.lv Side.SELL a.best_ask = []; rw [← hpa]; exact hl1)
          (by intro s x hc; exact hlvo s x (by rw [hpa]; exact hc))
        exact this
      · rw [if_neg hpb]
        refine ⟨hwf1, ?_⟩
        exact h.best.off_best hbb1 hba1 Side.BUY p
          (by show p ≠ a.best_ask; rw [← hba1]; exact hpb) hl1 hlvo
  · simp only [hl1]
    refine ⟨hwf1, h.best.keep hbb1 hba1 ?_⟩
    intro s x
    by_cases hc : s = side ∧ x = p
    · rw [hc.1, hc.2, hl1]; simp [hne]
    · rw [hlvo s x hc]

/-- The resting phase keeps the invariant of the list view. -/
theorem aRest_Inv {a a' : ABook} (h : a.Inv) {id : Nat} {side : Side} {price q : Nat}
    (hid : ∀ sd x, ∀ u ∈ a.lv sd x, u.id ≠ id) (hidlt : id < MAX_ORDER_ID)
    (hp : price ≤ MAX_PRICE) (hq : q < 2 ^ 32)
    (hr : aRest a id side price q = some a') : a'.Inv := by
  unfold aRest at hr
  by_cases hq0 : q > 0
  · rw [if_pos hq0] at hr
    rcases hfree : a.free with _ | ⟨s, rest⟩
    · rw [hfree] at hr; cases hr
    · rw [hfree] at hr
      simp only [Option.some.injEq] at hr
      subst hr
      have hwf1 := h.wf.append hfree id hid hidlt side price q hp hq0 hq
      refine ⟨hwf1.congr rfl rfl, ?_⟩
      have hlvP : (a.setLv side price (a.lv side price ++ [⟨s, id, q⟩])).lv side price ≠ [] := by
        rw [ABook.setLv_lv, if_pos ⟨rfl, rfl⟩]; simp
      have hlvo : ∀ sd x, ¬ (sd = side ∧ x = price) →
          (a.setLv side price (a.lv side price ++ [⟨s, id, q⟩])).lv sd x = a.lv sd x := by
        intro sd x hc; rw [ABook.setLv_lv, if_neg hc]
      have hsup : ∀ sd x, a.lv sd x ≠ [] →
          (a.setLv side price (a.lv side price ++ [⟨s, id, q⟩])).lv sd x ≠ [] := by
        intro sd x hx
        by_cases hc : sd = side ∧ x = price
        · rw [hc.1, hc.2]; exact hlvP
        · rw [hlvo sd x hc]; exact hx
      have hsub : ∀ sd x,
          (a.setLv side price (a.lv side price ++ [⟨s, id, q⟩])).lv sd x ≠ [] →
          (sd = side ∧ x = price) ∨ a.lv sd x ≠ [] := by
        intro sd x hx
        by_cases hc : sd = side ∧ x = price
        · exact Or.inl hc
        · rw [hlvo sd x hc] at hx; exact Or.inr hx
      cases side with
      | BUY =>
        constructor
        · intro x hx
          show x ≤ if Side.BUY = Side.BUY ∧ price > a.best_bid then price else a.best_bid
          by_cases hgt : price > a.best_bid
          · rw [if_pos ⟨rfl, hgt⟩]
            rcases hsub _ _ hx with ⟨_, rfl⟩ | h1
            · exact Nat.le_refl _
            · have := h.best.bid_ub x h1
              omega
          · rw [if_neg (fun hh => hgt hh.2)]
            rcases hsub _ _ hx with ⟨_, rfl⟩ | h1
            · omega
            · exact h.best.bid_ub x h1
        · show (a.setLv Side.BUY price (a.lv Side.BUY price ++ [⟨s, id, q⟩])).lv Side.BUY
              (if Side.BUY = Side.BUY ∧ price > a.best_bid then price else a.best_bid) ≠ [] ∨
            (if Side.BUY = Side.BUY ∧ price > a.best_bid then price else a.best_bid) = 0
          by_cases hgt : price > a.best_bid
          · rw [if_pos ⟨rfl, hgt⟩]; exact Or.inl hlvP
          · rw [if_neg (fun hh => hgt hh.2)]
            rcases h.best.bid_at with h1 | h1
            · exact Or.inl (hsup _ _ h1)
            · exact Or.inr h1
        · intro x hx
          show (if Side.BUY = Side.SELL ∧ price < a.best_ask then price else a.best_ask) ≤ x
          rw [if_neg (by simp)]
          rcases hsub Side.SELL x hx with ⟨hh, _⟩ | h1
          · cases hh
          · exact h.best.ask_lb x h1
        · show (a.setLv Side.BUY price (a.lv Side.BUY price ++ [⟨s, id, q⟩])).lv Side.SELL
              (if Side.BUY = Side.SELL ∧ price < a.best_ask then price else a.best_ask) ≠ [] ∨
            (if Side.BUY = Side.SELL ∧ price < a.best_ask then price else a.best_ask) = MAX_PRICE
          rw [if_neg (by simp)]
          rcases h.best.ask_at with h1 | h1
          · exact Or.inl (hsup _ _ h1)
          · exact Or.inr h1
      | SELL =>
        constructor
        · intro x hx
          show x ≤ if Side.SELL = Side.BUY ∧ price > a.best_bid then price else a.best_bid
          rw [if_neg (by simp)]
          rcases hsub Side.BUY x hx with ⟨hh, _⟩ | h1
          · cases hh
          · exact h.best.bid_ub x h1
        · show (a.setLv Side.SELL price (a.lv Side.SELL price ++ [⟨s, id, q⟩])).lv Side.BUY
              (if Side.SELL = Side.BUY ∧ price > a.best_bid then price else a.best_bid) ≠ [] ∨
            (if Side.SELL = Side.BUY ∧ price > a.best_bid then price else a.best_bid) = 0
          rw [if_neg (by simp)]
          rcases h.best.bid_at with h1 | h1
          · exact Or.inl (hsup _ _ h1)
          · exact Or.inr h1
        · intro x hx
          show (if Side.SELL = Side.SELL ∧ price < a.best_ask then price else a.best_ask) ≤ x
          by_cases hgt : price < a.best_ask
          · rw [if_pos ⟨rfl, hgt⟩]
            rcases hsub _ _ hx with ⟨_, rfl⟩ | h1
            · exact Nat.le_refl _
            · have := h.best.ask_lb x h1
              omega
          · rw [if_neg (fun hh => hgt hh.2)]
            rcases hsub _ _ hx with ⟨_, rfl⟩ | h1
            · omega
            · exact h.best.ask_lb x h1
        · show (a.setLv Side.SELL price (a.lv Side.SELL price ++ [⟨s, id, q⟩])).lv Side.SELL
              (if Side.SELL = Side.SELL ∧ price < a.best_ask then price else a.best_ask) ≠ [] ∨
            (if Side.SELL = Side.SELL ∧ price < a.best_ask then price else a.best_ask) = MAX_PRICE
          by_cases hgt : price < a.best_ask
          · rw [if_pos ⟨rfl, hgt⟩]; exact Or.inl hlvP
          · rw [if_neg (fun hh => hgt hh.2)]
            rcases h.best.ask_at with h1 | h1
            · exact Or.inl (hsup _ _ h1)
            · exact Or.inr h1
  · rw [if_neg hq0] at hr
    simp only [Option.some.injEq] at hr
    subst hr
    exact h

/-- The matching loop keeps the invariant of the list view. -/
theorem aMatch_Inv (side : Side) (price : Nat) :
    ∀ fuel a q a' q', a.Inv → aMatch side price fuel a q = some (a', q') → a'.Inv :=
  aMatch_induct side price (fun _ _ a' _ => a'.Inv)
    (fun _ _ h _ => h)
    (fun _ _ _ _ _ _ _ _ _ _ _ _ h => h)

theorem fillList_sub (l : List AOrder) (q : Nat) :
    ∀ u ∈ (fillList l q).1, ∃ w ∈ l, w.slot = u.slot ∧ w.id = u.id ∧ u.qty ≤ w.qty := by
  induction l generalizing q with
  | nil => intro u hu; simp [fillList] at hu
  | cons o t ih =>
    intro u hu
    unfold fillList at hu
    split at hu
    · exact ⟨u, hu, rfl, rfl, Nat.le_refl _⟩
    · split at hu
      · obtain ⟨w, hw, h1⟩ := ih _ u hu
        exact ⟨w, List.mem_cons_of_mem _ hw, h1⟩
      · rcases List.mem_cons.1 hu with rfl | hu
        · exact ⟨o, List.mem_cons_self _ _, rfl, rfl, Nat.sub_le _ _⟩
        · exact ⟨u, List.mem_cons_of_mem _ hu, rfl, rfl, Nat.le_refl _⟩

/-- Every order resting after the matching loop rested before it, in the same
level, on the same slot, with the same id and at least the same quantity. -/
theorem aMatch_sub (side : Side) (price : Nat) :
    ∀ fuel a q a' q', a.Inv → aMatch side price fuel a q = some (a', q') →
      ∀ s x, ∀ u ∈ a'.lv s x, ∃ w ∈ a.lv s x, w.slot = u.slot ∧ w.id = u.id ∧ u.qty ≤ w.qty := by
  refine aMatch_induct side price
    (fun a _ a' _ => ∀ s x, ∀ u ∈ a'.lv s x,
      ∃ w ∈ a.lv s x, w.slot = u.slot ∧ w.id = u.id ∧ u.qty ≤ w.qty) ?_ ?_
  · intro a q _ _ s x u hu
    exact ⟨u, hu, rfl, rfl, Nat.le_refl _⟩
  · intro a q a1 q1 a' q' fuel _ _ _ hml _ ih s x u hu
    obtain ⟨w, hw, e1, e2, e3⟩ := ih s x u hu
    rw [ABook.afterLevel_lv] at hw
    obtain ⟨f1, f2, f3, f4, f5, f6⟩ := aMatchLevel_frame hml
    by_cases hc : s = side.opp ∧ x = a.oppBest side
    · rw [hc.1, hc.2, f4] at hw
      obtain ⟨v, hv, g1, g2, g3⟩ := fillList_sub _ _ w hw
      refine ⟨v, by rw [hc.1, hc.2]; exact hv, g1.trans e1, g2.trans e2, by omega⟩
    · rw [f3 s x hc] at hw
      exact ⟨w, hw, e1, e2, e3⟩

theorem fillList_lt (l : List AOrder) (q : Nat) (hl : l ≠ []) (hpos : ∀ o ∈ l, 0 < o.qty)
    (hq : 0 < q) : (fillList l q).2.2 < q := by
  cases l with
  | nil => exact absurd rfl hl
  | cons o t =>
    unfold fillList
    have ho := hpos o (List.mem_cons_self _ _)
    rw [if_neg (by omega)]
    split
    · have := fillList_le t (q - o.qty)
      simp only []
      omega
    · exact hq

/-- Under the invariant the matching loop ends within `q + 2` rounds. -/
theorem aMatch_isSome (side : Side) (price : Nat) :
    ∀ (fuel : Nat) (a : ABook) (q : Nat), a.Inv → q + 2 ≤ fuel →
      ∃ r, aMatch side price fuel a q = some r := by
  intro fuel
  induction fuel with
  | zero => intro a q _ h; omega
  | succ fuel ih =>
    intro a q hinv hf
    by_cases hc : q > 0 ∧ a.crosses side price
    · rw [aMatch_succ hinv fuel q hc.1 hc.2]
      obtain ⟨⟨a1, q1⟩, hml⟩ := aMatchLevel_isSome side.opp (a.oppBest side) fuel a q
        (fun o ho => hinv.wf.qty_pos _ _ o ho) (by omega)
      rw [hml]
      simp only []
      obtain ⟨_, _, _, _, f5, _⟩ := aMatchLevel_frame hml
      have hlt := fillList_lt (a.lv side.opp (a.oppBest side)) q (hinv.level_ne_nil hc.2)
        (fun o ho => hinv.wf.qty_pos _ _ o ho) hc.1
      exact ih _ q1 (hinv.afterLevel hc.2 hml) (by omega)
    · rw [aMatch, if_neg hc]
      exact ⟨_, rfl⟩

/-- With a valid id that is not live, a slot is free. -/
theorem ABook.WF.free_ne_nil {a : ABook} (h : a.WF) {id : Nat} (hlt : id < MAX_ORDER_ID)
    (hid : ∀ sd x, ∀ u ∈ a.lv sd x, u.id ≠ id) : a.free ≠ [] := by
  intro hfree
  have huse : ∀ s, s < MAX_ORDER_ID → a.InUse s := by
    intro s hs
    rcases (h.cover s).1 hs with h1 | h1
    · rw [hfree] at h1; cases h1
    · exact h1
  classical
  let f : Nat → Nat := fun s =>
    if hs : a.InUse s then (Classical.choose (Classical.choose_spec (Classical.choose_spec hs))).id
    else 0
  have hf : ∀ s, ∀ hs : a.InUse s, ∃ sd x, ∃ o ∈ a.lv sd x, o.slot = s ∧ f s = o.id := by
    intro s hs
    have h1 := Classical.choose_spec (Classical.choose_spec (Classical.choose_spec hs))
    refine ⟨_, _, _, h1.1, h1.2, ?_⟩
    show (if hs : a.InUse s then _ else 0) = _
    rw [dif_pos hs]
  have hcard := Finset.card_le_card_of_injOn (s := Finset.range MAX_ORDER_ID)
    (t := (Finset.range MAX_ORDER_ID).erase id) f ?_ ?_
  · rw [Finset.card_erase_of_mem (Finset.mem_range.2 hlt), Finset.card_range] at hcard
    omega
  · intro s hs
    obtain ⟨sd, x, o, ho, _, e⟩ := hf s (huse s (Finset.mem_range.1 hs))
    rw [Finset.mem_erase, Finset.mem_range, e]
    exact ⟨hid sd x o ho, h.id_lt sd x o ho⟩
  · intro s hs s' hs' e
    obtain ⟨sd, x, o, ho, e1, e2⟩ := hf s (huse s (Finset.mem_range.1 hs))
    obtain ⟨sd', x', o', ho', e1', e2'⟩ := hf s' (huse s' (Finset.mem_range.1 hs'))
    have := (h.struct.id_inj ho ho' (by rw [← e2, ← e2']; exact e)).2.2
    rw [← e1, ← e1', this]

theorem aRest_isSome {a : ABook} (h : a.WF) {id : Nat} (hlt : id < MAX_ORDER_ID)
    (hid : ∀ sd x, ∀ u ∈ a.lv sd x, u.id ≠ id) (side : Side) (price q : Nat) :
    ∃ a', aRest a id side price q = some a' := by
  unfold aRest
  split
  · rcases hfree : a.free with _ | ⟨s, rest⟩
    · exact absurd hfree (h.free_ne_nil hlt hid)
    · exact ⟨_, rfl⟩
  · exact ⟨_, rfl⟩

/-- `AddOrder` on a represented book does what `aAdd` does on the list view. -/
theorem AddOrder_sim {b : OrderBookV6} {a : ABook} (hr : Rep b a) (hinv : a.Inv)
    (fuel id : Nat) (side : Side) (price q : Nat) (hq : q < 2 ^ 32)
    (hid : ∀ sd x, ∀ u ∈ a.lv sd x, u.id ≠ id) :
    (aAdd fuel a id side price q = none → ∃ e, AddOrder fuel b id side price q = .error e) ∧
    (∀ a', aAdd fuel a id side price q = some a' →
      ∃ b', AddOrder fuel b id side price q = .ok b' ∧ Rep b' a') := by
  unfold aAdd AddOrder
  rcases hm : aMatch side price fuel a q with _ | ⟨a1, q1⟩
  · constructor
    · intro _
      cases side with
      | BUY =>
        have := (matchBuy_sim price fuel b a q hr hinv.wf hq).1 hm
        simp only [this]
        exact ⟨_, rfl⟩
      | SELL =>
        have := (matchSell_sim price fuel b a q hr hinv.wf hq).1 hm
        simp only [this]
        exact ⟨_, rfl⟩
    · intro a' h; cases h
  · have hinv1 := aMatch_Inv side price fuel a q a1 q1 hinv hm
    have hid1 : ∀ sd x, ∀ u ∈ a1.lv sd x, u.id ≠ id := by
      intro sd x u hu
      obtain ⟨w, hw, _, e, _⟩ := aMatch_sub side price fuel a q a1 q1 hinv hm sd x u hu
      rw [← e]; exact hid sd x w hw
    simp only []
    cases side with
    | BUY =>
      obtain ⟨b1, e1, hr1⟩ := (matchBuy_sim price fuel b a q hr hinv.wf hq).2 a1 q1 hm
      simp only [e1]
      have hrest := restBuy_sim hr1 hinv1.wf id price q1 hid1
      constructor
      · intro h
        rw [hrest.1 h]
        exact ⟨_, rfl⟩
      · exact hrest.2
    | SELL =>
      obtain ⟨b1, e1, hr1⟩ := (matchSell_sim price fuel b a q hr hinv.wf hq).2 a1 q1 hm
      simp only [e1]
      have hrest := restSell_sim hr1 hinv1.wf id price q1 hid1
      constructor
      · intro h
        rw [hrest.1 h]
        exact ⟨_, rfl⟩
      · exact hrest.2

theorem walk_none (pool : Nat → HP_Order_V6) (fuel : Nat) : walk pool fuel none = [] := by
  cases fuel <;> rfl

theorem walk_RepSeg {pool : Nat → HP_Order_V6} {side : Side} {p : Nat} {l : List AOrder} :
    ∀ {prev : Option Nat} {fuel : Nat}, RepSeg pool side p prev l none → l.length ≤ fuel →
      walk pool fuel (headSlot l none) = l.map AOrder.slot := by
  induction l with
  | nil => intro prev fuel _ _; exact walk_none pool fuel
  | cons o t ih =>
    intro prev fuel hr hlen
    cases fuel with
    | zero => simp at hlen
    | succ fuel =>
      rw [headSlot_cons, walk, hr.1]
      simp only [List.map_cons]
      rw [ih hr.2 (by simpa using hlen)]

theorem length_le_of_nodup_lt {l : List Nat} {n : Nat} (hnd : l.Nodup) (h : ∀ x ∈ l, x < n) :
    l.length ≤ n := by
  have hsub : l ⊆ List.range n := fun x hx => List.mem_range.2 (h x hx)
  have := (hnd.subperm hsub).length_le
  simpa using this

/-- The list view read off a represented book is the one it represents. -/
theorem Rep.view_eq {b : OrderBookV6} {a : ABook} (hr : Rep b a) (hwf : a.WF) : b.view = a := by
  apply ABook.eq_of_fields
  · intro s p
    show b.levelOrders s p = a.lv s p
    unfold levelOrders levelSlots
    have hlen : (a.lv s p).length ≤ MAX_ORDER_ID := by
      have := length_le_of_nodup_lt (hwf.struct.slots_nodup s p) (n := MAX_ORDER_ID) (by
        intro x hx
        obtain ⟨o, ho, rfl⟩ := List.mem_map.1 hx
        exact (hwf.cover o.slot).2 (Or.inr ⟨s, p, o, ho, rfl⟩))
      simpa using this
    rw [hr.core.levels, walk_RepSeg (hr.core.segs s p) hlen, List.map_map]
    conv_rhs => rw [← List.map_id (a.lv s p)]
    apply List.map_congr_left
    intro o ho
    have := RepSeg_mem (hr.core.segs s p) ho
    simp only [Function.comp, id]
    rw [this.1, this.2.1]
  · exact hr.core.free
  · exact hr.best_bid
  · exact hr.best_ask

theorem mem_initFree (n s : Nat) : s ∈ ObjectPool.initFree n ↔ s < n := by
  induction n with
  | zero => simp [ObjectPool.initFree]
  | succ n ih =>
    rw [ObjectPool.initFree, List.mem_cons, ih]
    omega

theorem nodup_initFree (n : Nat) : (ObjectPool.initFree n).Nodup := by
  induction n with
  | zero => simp [ObjectPool.initFree]
  | succ n ih =>
    rw [ObjectPool.initFree, List.nodup_cons]
    refine ⟨?_, ih⟩
    rw [mem_initFree]
    omega

theorem Rep_new : Rep OrderBookV6.new ABook.empty := by
  refine ⟨⟨?_, ?_, ?_, rfl, ?_⟩, ?_, ?_, rfl, rfl⟩
  · intro s p; trivial
  · intro s p; cases s <;> rfl
  · intro s _; rfl
  · intro id s
    constructor
    · intro h; cases h
    · rintro ⟨sd, p, o, ho, _⟩; cases ho
  · refine ⟨fun i => by show 0 < 2 ^ 64; decide, ?_⟩
    intro p
    show (Nat.testBit 0 (p % 64) = true) ↔ _
    simp [ABook.empty]
  · refine ⟨fun i => by show 0 < 2 ^ 64; decide, ?_⟩
    intro p
    show (Nat.testBit 0 (p % 64) = true) ↔ _
    simp [ABook.empty]

theorem Inv_empty : ABook.empty.Inv := by
  have hno : ∀ s, ¬ ABook.empty.InUse s := by
    rintro s ⟨sd, p, o, ho, _⟩; cases ho
  refine ⟨⟨⟨?_, ?_, ?_⟩, ?_, ?_, ?_, ?_, nodup_initFree _, fun s _ => hno s, ?_⟩, ?_⟩
  · intro s p s' p' o o' ho; cases ho
  · intro s p s' p' o o' ho; cases ho
  · intro s p; exact List.nodup_nil
  · intro s x o ho; cases ho
  · intro s x o ho; cases ho
  · intro s x h; exact absurd rfl h
  · intro s x o ho; cases ho
  · intro s
    show s < MAX_ORDER_ID ↔ (s ∈ ObjectPool.initFree MAX_ORDER_ID ∨ _)
    rw [mem_initFree]
    constructor
    · exact Or.inl
    · rintro (h | h)
      · exact h
      · exact absurd h (hno s)
  · refine ⟨?_, Or.inr rfl, ?_, Or.inr rfl⟩
    · intro p h; exact absurd rfl h
    · intro p h; exact absurd rfl h

/-- An id is live in the book iff an order with this id rests in the list view. -/
theorem Rep.not_live_iff {b : OrderBookV6} {a : ABook} (hr : Rep b a) (id : Nat) :
    b.order_map_ id = none ↔ ∀ sd x, ∀ u ∈ a.lv sd x, u.id ≠ id := by
  constructor
  · intro h sd x u hu he
    have := (hr.core.omap id u.slot).2 ⟨sd, x, u, hu, he, rfl⟩
    rw [h] at this; cases this
  · intro h
    cases hm : b.order_map_ id with
    | none => rfl
    | some s =>
      obtain ⟨sd, x, u, hu, he, _⟩ := (hr.core.omap id s).1 hm
      exact absurd he (h sd x u hu)

/-- The matching loop never increases the incoming quantity. -/
theorem aMatch_le (side : Side) (price : Nat) :
    ∀ fuel a q a' q', a.Inv → aMatch side price fuel a q = some (a', q') → q' ≤ q := by
  refine aMatch_induct side price (fun _ q _ q' => q' ≤ q) ?_ ?_
  · intro a q _ _; exact Nat.le_refl _
  · intro a q a1 q1 a' q' fuel _ _ _ hml _ ih
    obtain ⟨_, _, _, _, f5, _⟩ := aMatchLevel_frame hml
    have := fillList_le (a.lv side.opp (a.oppBest side)) q
    omega

/-- Every reachable book represents its own list view, and the view satisfies
the invariant. -/
theorem Reachable.good {b : OrderBookV6} (h : Reachable b) : Rep b b.view ∧ b.view.Inv := by
  have key : ∃ a, Rep b a ∧ a.Inv := by
    induction h with
    | new => exact ⟨_, Rep_new, Inv_empty⟩
    | @add b b' fuel id side price q _ hv he ih =>
      obtain ⟨a, hr, hinv⟩ := ih
      have hid := (hr.not_live_iff id).1 hv.not_live
      have hsim := AddOrder_sim hr hinv fuel id side price q hv.qty_lt hid
      rcases ha : aAdd fuel a id side price q with _ | a'
      · obtain ⟨e, he'⟩ := hsim.1 ha
        rw [he'] at he; cases he
      · obtain ⟨b'', he', hr'⟩ := hsim.2 a' ha
        rw [he'] at he
        cases he
        refine ⟨a', hr', ?_⟩
        unfold aAdd at ha
        rcases hm : aMatch side price fuel a q with _ | ⟨a1, q1⟩
        · rw [hm] at ha; cases ha
        · rw [hm] at ha
          simp only [] at ha
          have hinv1 := aMatch_Inv side price fuel a q a1 q1 hinv hm
          have hid1 : ∀ sd x, ∀ u ∈ a1.lv sd x, u.id ≠ id := by
            intro sd x u hu
            obtain ⟨w, hw, _, e, _⟩ := aMatch_sub side price fuel a q a1 q1 hinv hm sd x u hu
            rw [← e]; exact hid sd x w hw
          have hq1 : q1 < 2 ^ 32 := by
            have := aMatch_le side price fuel a q a1 q1 hinv hm
            have := hv.qty_lt
            omega
          exact aRest_Inv hinv1 hid1 hv.id_lt hv.price_le hq1 ha
    | @cancel b id _ ih =>
      obtain ⟨a, hr, hinv⟩ := ih
      by_cases hlt : id < MAX_ORDER_ID
      · cases hm : b.order_map_ id with
        | none =>
          refine ⟨a, ?_, hinv⟩
          have : b.CancelOrder id = b := by
            unfold CancelOrder; rw [if_neg (by omega)]; simp only [hm]
          rw [this]; exact hr
        | some s =>
          obtain ⟨side, p, o, ho, _, _, _, _, _, hr'⟩ := CancelOrder_sim hr hinv.wf hlt hm
          exact ⟨_, hr', aCancel_Inv hinv ho⟩
      · refine ⟨a, ?_, hinv⟩
        have : b.CancelOrder id = b := by
          unfold CancelOrder; rw [if_pos (by omega)]
        rw [this]; exact hr
  obtain ⟨a, hr, hinv⟩ := key
  rw [hr.view_eq hinv.wf]
  exact ⟨hr, hinv⟩

theorem Bits.bitmap_unique {bm bm' : Nat → Nat} {f : Nat → List AOrder} (h : Bits bm f)
    (h' : Bits bm' f) : bm = bm' := by
  funext i
  apply Nat.eq_of_testBit_eq
  intro k
  rcases Nat.lt_or_ge k 64 with hk | hk
  · have e1 : (64 * i + k) / 64 = i := by omega
    have e2 : (64 * i + k) % 64 = k := by omega
    have h1 := h.2 (64 * i + k)
    have h2 := h'.2 (64 * i + k)
    unfold bitAt at h1 h2
    rw [e1, e2] at h1 h2
    cases hb : (bm i).testBit k <;> cases hb' : (bm' i).testBit k
    · rfl
    · exact absurd (h1.2 (h2.1 hb')) (by rw [hb]; simp)
    · exact absurd (h2.2 (h1.1 hb)) (by rw [hb']; simp)
    · rfl
  · have hp : 2 ^ 64 ≤ 2 ^ k := Nat.pow_le_pow_right (by decide) hk
    rw [Nat.testBit_lt_two_pow (Nat.lt_of_lt_of_le (h.1 i) hp),
      Nat.testBit_lt_two_pow (Nat.lt_of_lt_of_le (h'.1 i) hp)]

/-- A list view is held by one book only. -/
theorem Rep.unique {b b' : OrderBookV6} {a : ABook} (h : Rep b a) (h' : Rep b' a) :
    b = b' := by
  apply ext_of
  · intro s p; rw [h.core.levels, h'.core.levels]
  · intro s
    by_cases hu : a.InUse s
    · obtain ⟨sd, p, o, ho, rfl⟩ := hu
      obtain ⟨l1, l2, hl⟩ := List.append_of_mem ho
      have h1 := h.core.segs sd p
      have h2 := h'.core.segs sd p
      rw [hl, RepSeg_append, RepSeg_cons] at h1 h2
      rw [h1.2.1, h2.2.1]
    · rw [h.core.unused s hu, h'.core.unused s hu]
  · rw [h.core.free, h'.core.free]
  · funext id
    apply Option.ext
    intro s
    show b.order_map_ id = some s ↔ b'.order_map_ id = some s
    rw [h.core.omap, h'.core.omap]
  · rw [h.best_bid, h'.best_bid]
  · rw [h.best_ask, h'.best_ask]
  · exact h.bidBits.bitmap_unique h'.bidBits
  · exact h.askBits.bitmap_unique h'.askBits

/-- The result of the matching loop does not depend on the fuel. -/
theorem aMatch_det (side : Side) (price : Nat) :
    ∀ (fuel fuel' : Nat) (a : ABook) (q : Nat) (r r' : ABook × Nat), a.Inv →
      aMatch side price fuel a q = some r → aMatch side price fuel' a q = some r' → r = r' := by
  intro fuel
  induction fuel with
  | zero => intro fuel' a q r r' _ h; simp [aMatch] at h
  | succ fuel ih =>
    intro fuel' a q r r' hinv h h'
    cases fuel' with
    | zero => simp [aMatch] at h'
    | succ fuel' =>
      by_cases hc : q > 0 ∧ a.crosses side price
      · rw [aMatch_succ hinv fuel q hc.1 hc.2] at h
        rw [aMatch_succ hinv fuel' q hc.1 hc.2] at h'
        rcases hml : aMatchLevel side.opp (a.oppBest side) fuel a q with _ | ⟨a1, q1⟩
        · rw [hml] at h; cases h
        · rcases hml' : aMatchLevel side.opp (a.oppBest side) fuel' a q with _ | ⟨a1', q1'⟩
          · rw [hml'] at h'; cases h'
          · rw [hml] at h; rw [hml'] at h'
            simp only [] at h h'
            obtain ⟨e1, e2⟩ := aMatchLevel_eq _ _ _ _ _ _ _ hml
            obtain ⟨e1', e2'⟩ := aMatchLevel_eq _ _ _ _ _ _ _ hml'
            rw [← e1] at e1'
            rw [← e2] at e2'
            subst e1' e2'
            exact ih fuel' _ _ r r' (hinv.afterLevel hc.2 hml) h h'
      · rw [aMatch, if_neg hc] at h h'
        rw [← Option.some.inj h, ← Option.some.inj h']

/-- `AddOrder` from a reachable book under its preconditions: it returns, with
any fuel from `quantity + 2` on, a book that does not depend on the fuel and
whose list view is the result of the matching loop followed by the resting
phase on the list view. -/
theorem AddOrder_run {b : OrderBookV6} (h : Reachable b) {id : Nat} {side : Side}
    {price q : Nat} (hv : ValidAdd b id price q) :
    ∃ a1 q1 a' b', aMatch side price (q + 2) b.view q = some (a1, q1) ∧
      aRest a1 id side price q1 = some a' ∧
      (∀ fuel, q + 2 ≤ fuel → b.AddOrder fuel id side price q = .ok b') ∧
      (∀ fuel b'', b.AddOrder fuel id side price q = .ok b'' → b'' = b') ∧
      Rep b' a' ∧ a'.Inv ∧ b'.view = a' ∧ a1.Inv ∧ q1 ≤ q ∧
      (∀ sd x, ∀ u ∈ a1.lv sd x, u.id ≠ id) := by
  obtain ⟨hr, hinv⟩ := h.good
  have hid := (hr.not_live_iff id).1 hv.not_live
  obtain ⟨⟨a1, q1⟩, hm⟩ := aMatch_isSome side price (q + 2) b.view q hinv (Nat.le_refl _)
  have hinv1 := aMatch_Inv side price _ _ _ _ _ hinv hm
  have hid1 : ∀ sd x, ∀ u ∈ a1.lv sd x, u.id ≠ id := by
    intro sd x u hu
    obtain ⟨w, hw, _, e, _⟩ := aMatch_sub side price _ _ _ _ _ hinv hm sd x u hu
    rw [← e]; exact hid sd x w hw
  have hq1 := aMatch_le side price _ _ _ _ _ hinv hm
  obtain ⟨a', hrest⟩ := aRest_isSome hinv1.wf hv.id_lt hid1 side price q1
  have hinv' : a'.Inv :=
    aRest_Inv hinv1 hid1 hv.id_lt hv.price_le (by have := hv.qty_lt; omega) hrest
  -- any run that returns, returns a book representing `a'`
  have hany : ∀ fuel b'', b.AddOrder fuel id side price q = .ok b'' → Rep b'' a' := by
    intro fuel b'' he
    have hsim := AddOrder_sim hr hinv fuel id side price q hv.qty_lt hid
    rcases ha : aAdd fuel b.view id side price q with _ | a''
    · obtain ⟨e, he'⟩ := hsim.1 ha
      rw [he'] at he; cases he
    · obtain ⟨b3, he', hr'⟩ := hsim.2 a'' ha
      rw [he'] at he
      cases he
      unfold aAdd at ha
      rcases hm' : aMatch side price fuel b.view q with _ | ⟨a2, q2⟩
      · rw [hm'] at ha; cases ha
      · rw [hm'] at ha
        simp only [] at ha
        have := aMatch_det side price _ _ _ _ _ _ hinv hm hm'
        cases this
        rw [hrest] at ha
        cases ha
        exact hr'
  -- a run with enough fuel returns
  have hsome : ∀ fuel, q + 2 ≤ fuel → ∃ b'', b.AddOrder fuel id side price q = .ok b'' := by
    intro fuel hf
    have hsim := AddOrder_sim hr hinv fuel id side price q hv.qty_lt hid
    obtain ⟨r, hm'⟩ := aMatch_isSome side price fuel b.view q hinv hf
    have := aMatch_det side price _ _ _ _ _ _ hinv hm hm'
    subst this
    have ha : aAdd fuel b.view id side price q = some a' := by
      unfold aAdd; rw [hm']; exact hrest
    obtain ⟨b'', he, _⟩ := hsim.2 a' ha
    exact ⟨b'', he⟩
  obtain ⟨b', he⟩ := hsome (q + 2) (Nat.le_refl _)
  have hr' := hany _ _ he
  refine ⟨a1, q1, a', b', hm, hrest, ?_, ?_, hr', hinv', hr'.view_eq hinv'.wf, hinv1, hq1, hid1⟩
  · intro fuel hf
    obtain ⟨b'', he'⟩ := hsome fuel hf
    rw [he', (hany _ _ he').unique hr']
  · intro fuel b'' he'
    exact (hany _ _ he').unique hr'

theorem order_map_cancelTail (b3 : OrderBookV6) (side : Side) (price : Nat) :
    (b3.cancelTail side price).order_map_ = b3.order_map_ := by
  unfold cancelTail
  split_ifs <;> rfl

/-- After `CancelOrder(id)` the order map has no entry for `id`, in any book. -/
theorem order_map_CancelOrder_self (b : OrderBookV6) (id : Nat) (hlt : id < MAX_ORDER_ID) :
    (b.CancelOrder id).order_map_ id = none := by
  cases hm : b.order_map_ id with
  | none =>
    have : b.CancelOrder id = b := by
      unfold CancelOrder; rw [if_neg (by omega)]; simp only [hm]
    rw [this, hm]
  | some s =>
    have e : b.CancelOrder id =
        ({ ({ b.RemoveFromList s with
          order_map_ := Function.update (b.RemoveFromList s).order_map_ id none } : OrderBookV6)
          with order_pool_ := (b.RemoveFromList s).order_pool_.DeleteOrder s } :
          OrderBookV6).cancelTail (b.pool s).side (b.pool s).price := by
      unfold CancelOrder
      rw [if_neg (by omega)]
      simp only [hm]
      rfl
    rw [e, order_map_cancelTail]
    show Function.update (b.RemoveFromList s).order_map_ id none id = none
    rw [Function.update_same]

/-- C9. Unknown-order cancel is a silent no-op: for every book and every
`order_id` that is out of range (`order_id >= MAX_ORDER_ID`) or whose `order_map_`
entry is absent, `CancelOrder(order_id)` returns the book unchanged in every
component (`CancelOrder` is a total function, it has no error to raise); and
in every book, cancelling the same id twice equals cancelling it once. -/
theorem C9_cancel_unknown_is_noop (b : OrderBookV6) (order_id : Nat)
    (h : order_id ≥ MAX_ORDER_ID ∨ b.order_map_ order_id = none) :
    b.CancelOrder order_id = b ∧
    ∀ (c : OrderBookV6) (id : Nat), (c.CancelOrder id).CancelOrder id = c.CancelOrder id := by
  have noop : ∀ (c : OrderBookV6) (id : Nat),
      (id ≥ MAX_ORDER_ID ∨ c.order_map_ id = none) → c.CancelOrder id = c := by
    intro c id hc
    unfold CancelOrder
    by_cases hge : id ≥ MAX_ORDER_ID
    · rw [if_pos hge]
    · rw [if_neg hge]
      rcases hc with hc | hc
      · exact absurd hc hge
      · simp only [hc]
  refine ⟨noop b order_id h, ?_⟩
  intro c id
  apply noop
  by_cases hge : id ≥ MAX_ORDER_ID
  · exact Or.inl hge
  · exact Or.inr (order_map_CancelOrder_self c id (by omega))

/-- C9 at the empty book: id 7 is not live, id `MAX_ORDER_ID` is out of range. -/
theorem C9_cancel_unknown_is_noop_witness :
    (OrderBookV6.new.CancelOrder 7 = OrderBookV6.new ∧
      ∀ (c : OrderBookV6) (id : Nat), (c.CancelOrder id).CancelOrder id = c.CancelOrder id) ∧
    OrderBookV6.new.CancelOrder MAX_ORDER_ID = OrderBookV6.new :=
  ⟨C9_cancel_unknown_is_noop OrderBookV6.new 7 (Or.inr rfl),
    (C9_cancel_unknown_is_noop OrderBookV6.new MAX_ORDER_ID (Or.inl (Nat.le_refl _))).1⟩

/-- C4. Best-quote exactness: in every book reachable from the empty book by
valid `AddOrder`/`CancelOrder` calls, `best_bid_` is the highest price with a
non-empty `bids_` level, or 0 if no bid rests, and `best_ask_` is the lowest
price with a non-empty `asks_` level, or `MAX_PRICE` if no ask rests. -/
theorem C4_best_quote_exact (b : OrderBookV6) (h : Reachable b) :
    (∀ p, p ≤ MAX_PRICE → (b.bids_ p).head ≠ none → p ≤ b.best_bid_) ∧
    ((b.bids_ b.best_bid_).head ≠ none ∨
      (b.best_bid_ = 0 ∧ ∀ p, p ≤ MAX_PRICE → (b.bids_ p).head = none)) ∧
    (∀ p, p ≤ MAX_PRICE → (b.asks_ p).head ≠ none → b.best_ask_ ≤ p) ∧
    ((b.asks_ b.best_ask_).head ≠ none ∨
      (b.best_ask_ = MAX_PRICE ∧ ∀ p, p ≤ MAX_PRICE → (b.asks_ p).head = none)) ∧
    b.best_bid_ ≤ MAX_PRICE ∧ b.best_ask_ ≤ MAX_PRICE := by
  obtain ⟨hr, hinv⟩ := h.good
  have hB : ∀ p, (b.bids_ p).head = none ↔ b.view.lv Side.BUY p = [] :=
    fun p => head_eq_none_iff hr.core Side.BUY p
  have hS : ∀ p, (b.asks_ p).head = none ↔ b.view.lv Side.SELL p = [] :=
    fun p => head_eq_none_iff hr.core Side.SELL p
  have hbb : b.view.best_bid = b.best_bid_ := rfl
  have hba : b.view.best_ask = b.best_ask_ := rfl
  have ub := hinv.best.bid_ub
  have lb := hinv.best.ask_lb
  rw [hbb] at ub
  rw [hba] at lb
  refine ⟨?_, ?_, ?_, ?_, ?_, ?_⟩
  · intro p _ hp
    exact ub p (fun e => hp ((hB p).2 e))
  · rcases hinv.best.bid_at with h1 | h1
    · left; rw [hbb] at h1; exact fun e => h1 ((hB _).1 e)
    · rw [hbb] at h1
      by_cases h0 : (b.bids_ b.best_bid_).head = none
      · right
        refine ⟨h1, ?_⟩
        intro p _
        by_contra hp
        have hp0 : p = 0 := by
          have := ub p (fun e => hp ((hB p).2 e)); omega
        rw [hp0, ← h1] at hp
        exact hp h0
      · exact Or.inl h0
  · intro p _ hp
    exact lb p (fun e => hp ((hS p).2 e))
  · rcases hinv.best.ask_at with h1 | h1
    · left; rw [hba] at h1; exact fun e => h1 ((hS _).1 e)
    · rw [hba] at h1
      by_cases h0 : (b.asks_ b.best_ask_).head = none
      · right
        refine ⟨h1, ?_⟩
        intro p hpm
        by_contra hp
        have hpe : p = MAX_PRICE := by
          have := lb p (fun e => hp ((hS p).2 e)); omega
        rw [hpe, ← h1] at hp
        exact hp h0
      · exact Or.inl h0
  · rcases hinv.best.bid_at with h1 | h1
    · rw [hbb] at h1; exact hinv.wf.price_le _ _ h1
    · rw [hbb] at h1; omega
  · rcases hinv.best.ask_at with h1 | h1
    · rw [hba] at h1; exact hinv.wf.price_le _ _ h1
    · rw [hba] at h1; omega

theorem Rep.bits {b : OrderBookV6} {a : ABook} (hr : Rep b a) (side : Side) :
    Bits (b.bitmap side) (a.lv side) := by
  cases side
  · exact hr.bidBits
  · exact hr.askBits

theorem not_crosses_of_notMarketable {b : OrderBookV6} {side : Side} {price : Nat}
    (h : b.NotMarketable side price) : ¬ b.view.crosses side price := by
  cases side with
  | BUY =>
    rintro ⟨h1, h2⟩
    have h1' : price ≥ b.best_ask_ := h1
    have h2' : b.best_ask_ < MAX_PRICE := h2
    rcases h with h | h
    · omega
    · omega
  | SELL =>
    rintro ⟨h1, h2⟩
    have h1' : price ≤ b.best_bid_ := h1
    have h2' : b.best_bid_ > 0 := h2
    rcases h with h | h
    · omega
    · omega

/-- An `AddOrder` that is not marketable, on the list view. -/
theorem AddOrder_rest_run {b : OrderBookV6} (h : Reachable b) {id : Nat} {side : Side}
    {price q : Nat} (hv : ValidAdd b id price q) (hnm : b.NotMarketable side price) :
    ∃ s rest b', b.order_pool_.free_list_ = s :: rest ∧
      (∀ fuel, q + 2 ≤ fuel → b.AddOrder fuel id side price q = .ok b') ∧
      (∀ fuel b'', b.AddOrder fuel id side price q = .ok b'' → b'' = b') ∧
      Rep b' (b.view.rested s id side price q rest) ∧
      (b.view.rested s id side price q rest).Inv ∧
      b'.view = b.view.rested s id side price q rest := by
  obtain ⟨a1, q1, a', b', hm, hrest, h1, h2, hr', hinv', hview, _, _, _⟩ :=
    @AddOrder_run b h id side price q hv
  have hnc := not_crosses_of_notMarketable hnm
  rw [aMatch, if_neg (fun hc => hnc hc.2)] at hm
  simp only [Option.some.injEq, Prod.mk.injEq] at hm
  obtain ⟨rfl, rfl⟩ := hm
  unfold aRest at hrest
  rw [if_pos hv.qty_pos] at hrest
  rcases hfree : b.view.free with _ | ⟨s, rest⟩
  · rw [hfree] at hrest; cases hrest
  · rw [hfree] at hrest
    simp only [Option.some.injEq] at hrest
    subst hrest
    exact ⟨s, rest, b', hfree, h1, h2, hr', hinv', hview⟩

theorem levelOrders_eq_view (b : OrderBookV6) (side : Side) (p : Nat) :
    b.levelOrders side p = b.view.lv side p := rfl

/-- C7, as amended. Resting without matching: for every reachable book and every
valid `AddOrder(id, side, p, q)` that is not marketable (BUY: `p < best_ask_` or
`best_ask_ = MAX_PRICE`; SELL: `p > best_bid_` or `best_bid_ = 0`), the call
returns; afterwards the same-side level at `p` is the old list with the record
`{id, q, p, side}` appended at the tail, on the slot `s` that was on top of the
free list; its `total_quantity` is the old one plus `q` modulo `2^32`, which is
the old one plus `q` whenever that stays below `2^32`; its bitmap bit is set;
`order_map_[id]` points to the record; the cached best is `max(best_bid_, p)`
for BUY and `min(best_ask_, p)` for SELL; and the opposite side, its bitmap and
its cached best are unchanged. -/
theorem C7_rest_without_matching (b : OrderBookV6) (h : Reachable b) (id : Nat) (side : Side)
    (p q : Nat) (hv : ValidAdd b id p q) (hnm : b.NotMarketable side p) :
    ∃ s rest b',
      (∀ fuel, q + 2 ≤ fuel → b.AddOrder fuel id side p q = .ok b') ∧
      (∀ fuel b'', b.AddOrder fuel id side p q = .ok b'' → b'' = b') ∧
      b.order_pool_.free_list_ = s :: rest ∧ b'.order_pool_.free_list_ = rest ∧
      b'.levelOrders side p = b.levelOrders side p ++ [⟨s, id, q⟩] ∧
      b'.pool s = { order_id := id, quantity := q, price := p, side := side,
                    next := none, prev := (b.level side p).tail } ∧
      (b'.level side p).tail = some s ∧
      (b'.level side p).total_quantity = add32 (b.level side p).total_quantity q ∧
      ((b.level side p).total_quantity + q < 2 ^ 32 →
        (b'.level side p).total_quantity = (b.level side p).total_quantity + q) ∧
      bitAt (b'.bitmap side) p = true ∧
      b'.order_map_ id = some s ∧
      (side = Side.BUY → b'.best_bid_ = max b.best_bid_ p) ∧
      (side = Side.SELL → b'.best_ask_ = min b.best_ask_ p) ∧
      (∀ x, b'.level side.opp x = b.level side.opp x) ∧
      (∀ x, b'.levelOrders side.opp x = b.levelOrders side.opp x) ∧
      b'.bitmap side.opp = b.bitmap side.opp ∧
      (side = Side.BUY → b'.best_ask_ = b.best_ask_) ∧
      (side = Side.SELL → b'.best_bid_ = b.best_bid_) := by
  obtain ⟨hr, hinv⟩ := h.good
  obtain ⟨s, rest, b', hfree, h1, h2, hr', hinv', hview⟩ := AddOrder_rest_run h hv hnm
  have hlvP : (b.view.rested s id side p q rest).lv side p = b.view.lv side p ++ [⟨s, id, q⟩] := by
    show (b.view.setLv side p _).lv side p = _
    rw [ABook.setLv_lv, if_pos ⟨rfl, rfl⟩]
  have hlvO : ∀ x, (b.view.rested s id side p q rest).lv side.opp x = b.view.lv side.opp x := by
    intro x
    show (b.view.setLv side p _).lv side.opp x = _
    rw [ABook.setLv_lv, if_neg (by cases side <;> simp [Side.opp])]
  have hseg := hr'.core.segs side p
  rw [hlvP, RepSeg_append, RepSeg_cons] at hseg
  have hlev := hr'.core.levels side p
  rw [hlvP] at hlev
  have hlev0 := hr.core.levels side p
  have htot : (b'.level side p).total_quantity = add32 (b.level side p).total_quantity q := by
    rw [hlev, hlev0]
    simp only [qsum_append, qsum_cons, qsum_nil, Nat.add_zero]
    unfold add32
    omega
  refine ⟨s, rest, b', h1, h2, hfree, hr'.core.free, ?_, ?_, ?_, htot, ?_, ?_, ?_, ?_, ?_, ?_,
    ?_, ?_, ?_, ?_⟩
  · rw [levelOrders_eq_view, hview, hlvP]; rfl
  · rw [hseg.2.1, hlev0]; rfl
  · rw [hlev]
    simp only [lastSlot_append, lastSlot_cons, lastSlot_nil]
  · intro hlt
    rw [htot]
    unfold add32
    exact Nat.mod_eq_of_lt hlt
  · rw [(hr'.bits side).2 p, hlvP]; simp
  · rw [hr'.core.omap]
    exact ⟨side, p, ⟨s, id, q⟩, by rw [hlvP]; simp, rfl, rfl⟩
  · intro hs
    rw [hr'.best_bid]
    show (if side = Side.BUY ∧ p > b.best_bid_ then p else b.best_bid_) = _
    by_cases hgt : p > b.best_bid_
    · rw [if_pos ⟨hs, hgt⟩]; omega
    · rw [if_neg (fun hh => hgt hh.2)]; omega
  · intro hs
    rw [hr'.best_ask]
    show (if side = Side.SELL ∧ p < b.best_ask_ then p else b.best_ask_) = _
    by_cases hgt : p < b.best_ask_
    · rw [if_pos ⟨hs, hgt⟩]; omega
    · rw [if_neg (fun hh => hgt hh.2)]; omega
  · intro x
    rw [hr'.core.levels, hr.core.levels, hlvO]
  · intro x
    rw [levelOrders_eq_view, levelOrders_eq_view, hview, hlvO]
  · refine (hr'.bits side.opp).bitmap_unique ?_
    have := hr.bits side.opp
    refine this.same ?_
    intro x; rw [hlvO]
  · intro hs
    rw [hr'.best_ask]
    show (if side = Side.SELL ∧ p < b.best_ask_ then p else b.best_ask_) = _
    rw [if_neg (by rw [hs]; simp)]
  · intro hs
    rw [hr'.best_bid]
    show (if side = Side.BUY ∧ p > b.best_bid_ then p else b.best_bid_) = _
    rw [if_neg (by rw [hs]; simp)]

/-- Searching down from any price at or above an exact best bid finds it again. -/
theorem lastFrom_eq_best {a : ABook} (h : a.BestOK) {p : Nat} (hp : a.best_bid ≤ p) :
    lastFrom (a.lv Side.BUY) p = a.best_bid := by
  rcases lastFrom_spec (a.lv Side.BUY) p with ⟨s1, s2, s3, s4⟩ | ⟨s1, s2⟩
  · have hle := h.bid_ub _ s1
    rcases h.bid_at with h1 | h1
    · by_contra hne
      exact h1 (s4 _ (by omega) hp)
    · omega
  · rw [s1]
    rcases h.bid_at with h1 | h1
    · by_contra hne
      exact h1 (s2 _ (by omega) hp)
    · exact h1.symm

/-- Searching up from any price at or below an exact best ask finds it again. -/
theorem firstFrom_eq_best {a : ABook} (h : a.BestOK)
    (hpl : ∀ x, a.lv Side.SELL x ≠ [] → x ≤ MAX_PRICE) {p : Nat} (hp : p ≤ a.best_ask) :
    firstFrom (a.lv Side.SELL) (MAX_PRICE + 1 - p) p = a.best_ask := by
  rcases firstFrom_spec (a.lv Side.SELL) (MAX_PRICE + 1 - p) p with ⟨s1, s2, s3, s4⟩ | ⟨s1, s2⟩
  · have hle := h.ask_lb _ s1
    rcases h.ask_at with h1 | h1
    · by_contra hne
      exact h1 (s4 _ hp (by omega))
    · have := hpl _ s1
      omega
  · rw [s1]
    rcases h.ask_at with h1 | h1
    · exfalso
      have := hpl _ h1
      exact h1 (s2 _ hp (by omega))
    · exact h1.symm

/-- The result of `aCancel` when the level stays non-empty. -/
theorem aCancel_cons (a : ABook) (side : Side) (p : Nat) (o : AOrder) (a1 : ABook)
    (h : a1 = { a.setLv side p ((a.lv side p).erase o) with free := o.slot :: a.free })
    (hl : a1.lv side p ≠ []) : aCancel a side p o = a1 := by
  subst h
  unfold aCancel
  simp only []
  split
  · rename_i hh; exact absurd hh hl
  · rfl

/-- The result of `aCancel` when a bid level empties. -/
theorem aCancel_nil_buy (a : ABook) (p : Nat) (o : AOrder) (a1 : ABook)
    (h : a1 = { a.setLv Side.BUY p ((a.lv Side.BUY p).erase o) with free := o.slot :: a.free })
    (hl : a1.lv Side.BUY p = []) :
    aCancel a Side.BUY p o = if p = a1.best_bid then a1.retreatBid else a1 := by
  subst h
  unfold aCancel
  simp only []
  split
  · rfl
  · rename_i x y hh; rw [hl] at hh; cases hh

/-- The result of `aCancel` when an ask level empties. -/
theorem aCancel_nil_sell (a : ABook) (p : Nat) (o : AOrder) (a1 : ABook)
    (h : a1 = { a.setLv Side.SELL p ((a.lv Side.SELL p).erase o) with free := o.slot :: a.free })
    (hl : a1.lv Side.SELL p = []) :
    aCancel a Side.SELL p o = if p = a1.best_ask then a1.advanceAsk else a1 := by
  subst h
  unfold aCancel
  simp only []
  split
  · rfl
  · rename_i x y hh; rw [hl] at hh; cases hh

/-- Cancelling an order that has just rested without matching gives back the
list view from before the `AddOrder`. -/
theorem aCancel_rested {a : ABook} (hinv : a.Inv) {s id : Nat} {rest : List Nat} {side : Side}
    {price q : Nat} (hfree : a.free = s :: rest)
    (hid : ∀ sd x, ∀ u ∈ a.lv sd x, u.id ≠ id) :
    aCancel (a.rested s id side price q rest) side price ⟨s, id, q⟩ = a := by
  have hno : (⟨s, id, q⟩ : AOrder) ∉ a.lv side price := fun hm => hid _ _ _ hm rfl
  have hlvP : (a.rested s id side price q rest).lv side price = a.lv side price ++ [⟨s, id, q⟩] := by
    show (a.setLv side price _).lv side price = _
    rw [ABook.setLv_lv, if_pos ⟨rfl, rfl⟩]
  have her : ((a.rested s id side price q rest).lv side price).erase ⟨s, id, q⟩ =
      a.lv side price := by
    rw [hlvP, erase_mid hno, List.append_nil]
  have hbbR : (a.rested s id side price q rest).best_bid =
      if side = Side.BUY ∧ price > a.best_bid then price else a.best_bid := rfl
  have hbaR : (a.rested s id side price q rest).best_ask =
      if side = Side.SELL ∧ price < a.best_ask then price else a.best_ask := rfl
  have ha1 : ({
        lv := a.lv, free := a.free,
        best_bid := if side = Side.BUY ∧ price > a.best_bid then price else a.best_bid,
        best_ask := if side = Side.SELL ∧ price < a.best_ask then price else a.best_ask } : ABook) =
      { ABook.setLv (a.rested s id side price q rest) side price
          (((a.rested s id side price q rest).lv side price).erase ⟨s, id, q⟩)
        with free := (⟨s, id, q⟩ : AOrder).slot :: (a.rested s id side price q rest).free } := by
    apply ABook.eq_of_fields
    · intro sd x
      rw [her]
      show a.lv sd x = ((a.rested s id side price q rest).setLv side price (a.lv side price)).lv sd x
      rw [ABook.setLv_lv]
      by_cases hc : sd = side ∧ x = price
      · rw [if_pos hc, hc.1, hc.2]
      · rw [if_neg hc]
        show _ = (a.setLv side price (a.lv side price ++ [⟨s, id, q⟩])).lv sd x
        rw [ABook.setLv_lv, if_neg hc]
    · exact hfree
    · rfl
    · rfl
  have hfin : ∀ bb ba, bb = a.best_bid → ba = a.best_ask →
      ({ lv := a.lv, free := a.free, best_bid := bb, best_ask := ba } : ABook) = a := by
    intro bb ba h1 h2
    subst h1 h2
    rfl
  by_cases hl : a.lv side price = []
  · cases side with
    | BUY =>
      rw [aCancel_nil_buy _ _ _ _ ha1 hl]
      have hba : (if Side.BUY = Side.SELL ∧ price < a.best_ask then price else a.best_ask) =
          a.best_ask := if_neg (by simp)
      by_cases hgt : price > a.best_bid
      · have hbb : (if Side.BUY = Side.BUY ∧ price > a.best_bid then price else a.best_bid) =
            price := if_pos ⟨rfl, hgt⟩
        rw [if_pos hbb.symm]
        refine hfin _ _ ?_ hba
        show lastFrom (a.lv Side.BUY)
          (if Side.BUY = Side.BUY ∧ price > a.best_bid then price else a.best_bid) = a.best_bid
        rw [hbb]
        exact lastFrom_eq_best hinv.best (by omega)
      · have hbb : (if Side.BUY = Side.BUY ∧ price > a.best_bid then price else a.best_bid) =
            a.best_bid := if_neg (fun hh => hgt hh.2)
        by_cases hpe : price = a.best_bid
        · rw [if_pos (hpe.trans hbb.symm)]
          refine hfin _ _ ?_ hba
          show lastFrom (a.lv Side.BUY)
            (if Side.BUY = Side.BUY ∧ price > a.best_bid then price else a.best_bid) = a.best_bid
          rw [hbb]
          exact lastFrom_eq_best hinv.best (Nat.le_refl _)
        · rw [if_neg (fun hh => hpe (hh.trans hbb))]
          exact hfin _ _ hbb hba
    | SELL =>
      rw [aCancel_nil_sell _ _ _ _ ha1 hl]
      have hbb : (if Side.SELL = Side.BUY ∧ price > a.best_bid then price else a.best_bid) =
          a.best_bid := if_neg (by simp)
      have hpl := hinv.wf.price_le Side.SELL
      by_cases hgt : price < a.best_ask
      · have hba : (if Side.SELL = Side.SELL ∧ price < a.best_ask then price else a.best_ask) =
            price := if_pos ⟨rfl, hgt⟩
        rw [if_pos hba.symm]
        refine hfin _ _ hbb ?_
        show firstFrom (a.lv Side.SELL)
          (MAX_PRICE + 1 - (if Side.SELL = Side.SELL ∧ price < a.best_ask then price else a.best_ask))
          (if Side.SELL = Side.SELL ∧ price < a.best_ask then price else a.best_ask) = a.best_ask
        rw [hba]
        exact firstFrom_eq_best hinv.best hpl (by omega)
      · have hba : (if Side.SELL = Side.SELL ∧ price < a.best_ask then price else a.best_ask) =
            a.best_ask := if_neg (fun hh => hgt hh.2)
        by_cases hpe : price = a.best_ask
        · rw [if_pos (hpe.trans hba.symm)]
          refine hfin _ _ hbb ?_
          show firstFrom (a.lv Side.SELL)
            (MAX_PRICE + 1 - (if Side.SELL = Side.SELL ∧ price < a.best_ask then price else a.best_ask))
            (if Side.SELL = Side.SELL ∧ price < a.best_ask then price else a.best_ask) = a.best_ask
          rw [hba]
          exact firstFrom_eq_best hinv.best hpl (Nat.le_refl _)
        · rw [if_neg (fun hh => hpe (hh.trans hba))]
          exact hfin _ _ hbb hba
  · rw [aCancel_cons _ _ _ _ _ ha1 hl]
    refine hfin _ _ ?_ ?_
    · by_cases hc : side = Side.BUY ∧ price > a.best_bid
      · exfalso
        have := hinv.best.bid_ub price (by rw [← hc.1]; exact hl)
        omega
      · rw [if_neg hc]
    · by_cases hc : side = Side.SELL ∧ price < a.best_ask
      · exfalso
        have := hinv.best.ask_lb price (by rw [← hc.1]; exact hl)
        omega
      · rw [if_neg hc]

/-- C8. Add-then-Cancel round trip: for every reachable book `b` and every valid
`AddOrder(id, side, p, q)` that is not marketable (so it rests without
matching), the call returns a book `b'` (for every fuel of at least `q + 2`, and
the same book for every fuel that returns), and `CancelOrder(id)` applied to
`b'` gives back `b` itself: the same level arrays, bitmaps, `order_map_`,
`best_bid_`, `best_ask_`, pool records and free list (same slots, same order). -/
theorem C8_add_then_cancel_round_trip (b : OrderBookV6) (h : Reachable b) (id : Nat)
    (side : Side) (p q : Nat) (hv : ValidAdd b id p q) (hnm : b.NotMarketable side p) :
    ∃ b', (∀ fuel, q + 2 ≤ fuel → b.AddOrder fuel id side p q = .ok b') ∧
      (∀ fuel b'', b.AddOrder fuel id side p q = .ok b'' → b'' = b') ∧
      b'.CancelOrder id = b ∧
      (b'.CancelOrder id).bids_ = b.bids_ ∧ (b'.CancelOrder id).asks_ = b.asks_ ∧
      (b'.CancelOrder id).bids_bitmap_ = b.bids_bitmap_ ∧
      (b'.CancelOrder id).asks_bitmap_ = b.asks_bitmap_ ∧
      (b'.CancelOrder id).order_map_ = b.order_map_ ∧
      (b'.CancelOrder id).best_bid_ = b.best_bid_ ∧
      (b'.CancelOrder id).best_ask_ = b.best_ask_ ∧
      (b'.CancelOrder id).order_pool_.free_list_ = b.order_pool_.free_list_ := by
  obtain ⟨s, rest, b', hfree, h1, h2, hr', hinv', _⟩ := AddOrder_rest_run h hv hnm
  obtain ⟨hr, hinv⟩ := h.good
  have hfree' : b.view.free = s :: rest := by rw [← hr.core.free]; exact hfree
  have hfresh := (hr.not_live_iff id).1 hv.not_live
  have hmem : (⟨s, id, q⟩ : AOrder) ∈ (b.view.rested s id side p q rest).lv side p := by
    show _ ∈ (b.view.setLv side p _).lv side p
    rw [ABook.setLv_lv, if_pos ⟨rfl, rfl⟩]
    exact List.mem_append_right _ (List.mem_singleton_self _)
  have hm : b'.order_map_ id = some s := (hr'.core.omap id s).2 ⟨side, p, _, hmem, rfl, rfl⟩
  obtain ⟨side', p', o', ho', hoid, _, _, _, _, hrc⟩ :=
    CancelOrder_sim hr' hinv'.wf hv.id_lt hm
  obtain ⟨e1, e2, e3⟩ := hinv'.wf.struct.id_inj ho' hmem hoid
  subst e1 e2 e3
  rw [aCancel_rested hinv hfree' hfresh] at hrc
  have heq : b'.CancelOrder id = b := hrc.unique hr
  refine ⟨b', h1, h2, heq, ?_, ?_, ?_, ?_, ?_, ?_, ?_, ?_⟩ <;> rw [heq]

theorem aCancel_lv (a : ABook) (side : Side) (p : Nat) (o : AOrder) (sd : Side) (x : Nat) :
    (aCancel a side p o).lv sd x =
      if sd = side ∧ x = p then (a.lv side p).erase o else a.lv sd x := by
  unfold aCancel
  simp only []
  split
  · cases side
    · simp only []
      split <;> rfl
    · simp only []
      split <;> rfl
  · rfl

theorem aCancel_free (a : ABook) (side : Side) (p : Nat) (o : AOrder) :
    (aCancel a side p o).free = o.slot :: a.free := by
  unfold aCancel
  simp only []
  split
  · cases side
    · simp only []
      split <;> rfl
    · simp only []
      split <;> rfl
  · rfl

theorem qsum_erase {o : AOrder} {l : List AOrder} (h : o ∈ l) :
    qsum l = o.qty + qsum (l.erase o) := by
  induction l with
  | nil => cases h
  | cons u t ih =>
    by_cases e : u = o
    · subst e
      rw [List.erase_cons_head, qsum_cons]
    · have ht : o ∈ t := by
        rcases List.mem_cons.1 h with h1 | h1
        · exact absurd h1.symm e
        · exact h1
      rw [List.erase_cons_tail (by simpa using e), qsum_cons, qsum_cons, ih ht]
      omega

/-- The order map after `CancelOrder` of a live order. -/
theorem order_map_CancelOrder_live (b : OrderBookV6) (id s : Nat) (hlt : id < MAX_ORDER_ID)
    (hm : b.order_map_ id = some s) (hid : (b.pool s).order_id = id) :
    (b.CancelOrder id).order_map_ = Function.update b.order_map_ id none := by
  rw [CancelOrder_live b id s hlt hm hid, order_map_cancelTail]
  show Function.update (b.RemoveFromList s).order_map_ (b.pool s).order_id none = _
  rw [(other_RemoveFromList b s).1, hid]

/-- C6, as amended. `CancelOrder` of a live order: for every reachable book `b`
and every `id` with `order_map_[id] = s`, the record in slot `s` carries this id
and lies in the list of the level of its own side and price; `CancelOrder(id)`
removes exactly that record from that list (what is left is the old list without
it, the other records in their old order with their old quantities), leaves as
the level's `total_quantity` the old one minus the record's quantity modulo
`2^32` (the old one minus the quantity whenever the old one is at least the
quantity), makes `order_map_[id]` absent and keeps
every other entry, pushes `s` on the free list, leaves every other level and its
list unchanged, and clears the bitmap bit of the level if it became empty. -/
theorem C6_cancel_live_order (b : OrderBookV6) (h : Reachable b) (id s : Nat)
    (hm : b.order_map_ id = some s) :
    ∃ side p qty,
      (b.pool s).side = side ∧ (b.pool s).price = p ∧ (b.pool s).quantity = qty ∧
      (b.pool s).order_id = id ∧
      (⟨s, id, qty⟩ : AOrder) ∈ b.levelOrders side p ∧
      (b.CancelOrder id).levelOrders side p = (b.levelOrders side p).erase ⟨s, id, qty⟩ ∧
      (b.CancelOrder id).levelOrders side p =
        (b.levelOrders side p).filter (fun o => decide (o.id ≠ id)) ∧
      ((b.CancelOrder id).level side p).total_quantity =
        sub32 (b.level side p).total_quantity qty ∧
      (qty ≤ (b.level side p).total_quantity →
        ((b.CancelOrder id).level side p).total_quantity =
          (b.level side p).total_quantity - qty) ∧
      (b.CancelOrder id).order_map_ id = none ∧
      (∀ id', id' ≠ id → (b.CancelOrder id).order_map_ id' = b.order_map_ id') ∧
      (b.CancelOrder id).order_pool_.free_list_ = s :: b.order_pool_.free_list_ ∧
      (∀ sd x, ¬ (sd = side ∧ x = p) →
        (b.CancelOrder id).level sd x = b.level sd x ∧
        (b.CancelOrder id).levelOrders sd x = b.levelOrders sd x) ∧
      (∀ x, (b.CancelOrder id).level side.opp x = b.level side.opp x) ∧
      ((b.CancelOrder id).levelOrders side p = [] →
        bitAt ((b.CancelOrder id).bitmap side) p = false) := by
  obtain ⟨hr, hinv⟩ := h.good
  obtain ⟨sd0, x0, o0, ho0, hoid0, hos0⟩ := (hr.core.omap id s).1 hm
  have hlt : id < MAX_ORDER_ID := by rw [← hoid0]; exact hinv.wf.id_lt _ _ _ ho0
  obtain ⟨side, p, o, ho, hoid, hos, hside, hprice, hqty, hrc⟩ :=
    CancelOrder_sim hr hinv.wf hlt hm
  have hrec := RepSeg_mem (hr.core.segs side p) ho
  have hpid : (b.pool s).order_id = id := by rw [← hos, hrec.1, hoid]
  have ho_eq : o = ⟨s, id, o.qty⟩ := by
    cases o; simp only at hoid hos; subst hoid hos; rfl
  have hinv' := aCancel_Inv hinv ho
  have hview : (b.CancelOrder id).view = aCancel b.view side p o := hrc.view_eq hinv'.wf
  have hlvP : (b.CancelOrder id).levelOrders side p = (b.levelOrders side p).erase o := by
    rw [levelOrders_eq_view, hview, aCancel_lv, if_pos ⟨rfl, rfl⟩]
    rfl
  have hmemL : o ∈ b.levelOrders side p := ho
  have hqs := qsum_erase ho
  have hqlt := hinv.wf.qty_lt _ _ _ ho
  have htot : (b.level side p).total_quantity = qsum (b.view.lv side p) % 2 ^ 32 := by
    rw [hr.core.levels]
  have htot' : ((b.CancelOrder id).level side p).total_quantity =
      qsum ((b.view.lv side p).erase o) % 2 ^ 32 := by
    rw [hrc.core.levels, aCancel_lv, if_pos ⟨rfl, rfl⟩]
  refine ⟨side, p, o.qty, hside, hprice, hqty, hpid, ?_, ?_, ?_, ?_, ?_, ?_, ?_, ?_, ?_, ?_, ?_⟩
  · rw [← ho_eq]; exact hmemL
  · rw [← ho_eq]; exact hlvP
  · rw [hlvP]
    show (b.view.lv side p).erase o = List.filter _ (b.view.lv side p)
    rw [(hinv.wf.struct.nodup side p).erase_eq_filter]
    apply List.filter_congr
    intro u hu
    by_cases e : u = o
    · subst e; simp [hoid]
    · have : u.id ≠ id := fun hh =>
        e (hinv.wf.struct.id_inj hu ho (hh.trans hoid.symm)).2.2
      simp [e, this]
  · rw [htot', htot, hqs]
    unfold sub32
    omega
  · intro hle
    rw [htot', htot, hqs]
    rw [htot, hqs] at hle
    omega
  · exact order_map_CancelOrder_self b id hlt
  · intro id' hne
    rw [order_map_CancelOrder_live b id s hlt hm hpid, Function.update_noteq hne]
  · rw [hrc.core.free, aCancel_free, hos, hr.core.free]
  · intro sd x hne
    constructor
    · rw [hrc.core.levels, hr.core.levels, aCancel_lv, if_neg hne]
    · rw [levelOrders_eq_view, hview, aCancel_lv, if_neg hne]
      rfl
  · intro x
    rw [hrc.core.levels, hr.core.levels, aCancel_lv, if_neg (by cases side <;> simp [Side.opp])]
  · intro hemp
    have hb := (hrc.bits side).2 p
    rw [levelOrders_eq_view, hview] at hemp
    cases hbit : bitAt ((b.CancelOrder id).bitmap side) p with
    | false => rfl
    | true => exact absurd hemp (hb.1 hbit)

theorem Side.opp_ne (side : Side) : side ≠ side.opp := by
  cases side <;> simp [Side.opp]

theorem sum_update_level (f g : Nat → Nat) (n p d : Nat) (hp : p < n)
    (hne : ∀ x, x ≠ p → g x = f x) (hd : g p + d = f p) :
    Finset.sum (Finset.range n) g + d = Finset.sum (Finset.range n) f := by
  rw [← Finset.add_sum_erase _ g (Finset.mem_range.2 hp),
    ← Finset.add_sum_erase _ f (Finset.mem_range.2 hp)]
  have : Finset.sum ((Finset.range n).erase p) g = Finset.sum ((Finset.range n).erase p) f :=
    Finset.sum_congr rfl (fun x hx => hne x (Finset.ne_of_mem_erase hx))
  rw [this, ← hd]
  exact Nat.add_right_comm _ _ _

theorem sum_split (P : Nat → Prop) [DecidablePred P] (f : Nat → Nat) (n : Nat) :
    Finset.sum (Finset.range n) f =
      Finset.sum (Finset.range n) (fun x => if P x then f x else 0) +
      Finset.sum (Finset.range n) (fun x => if P x then 0 else f x) := by
  rw [← Finset.sum_add_distrib]
  apply Finset.sum_congr rfl
  intro x _
  by_cases h : P x
  · simp [h]
  · simp [h]

/-- The inner loop takes from its level exactly what it takes from the incoming order. -/
theorem fillList_qsum (l : List AOrder) (q : Nat) :
    qsum (fillList l q).1 + (q - (fillList l q).2.2) = qsum l := by
  induction l generalizing q with
  | nil => simp [fillList]
  | cons o t ih =>
    unfold fillList
    split
    · rename_i h0; simp [h0]
    · split
      · have h1 := ih (q - o.qty)
        have h2 := fillList_le t (q - o.qty)
        simp only [qsum_cons]
        omega
      · simp only [qsum_cons]
        omega

/-- An incoming order that crosses finds the cached best of the other side eligible. -/
theorem eligible_oppBest {a : ABook} {side : Side} {price : Nat} (hc : a.crosses side price) :
    eligible side price (a.oppBest side) := by
  cases side with
  | BUY => exact ⟨hc.1, hc.2⟩
  | SELL => exact ⟨hc.1, hc.2⟩

/-- When the loop guard fails on price, no eligible level holds an order. -/
theorem eligible_empty {a : ABook} (h : a.Inv) {side : Side} {price : Nat}
    (hc : ¬ a.crosses side price) (x : Nat) (hx : eligible side price x) :
    a.lv side.opp x = [] := by
  by_contra hne
  apply hc
  cases side with
  | BUY =>
    have h1 := h.best.ask_lb x hne
    have h2 : x ≤ price := hx.1
    have h3 : x < MAX_PRICE := hx.2
    exact ⟨by show price ≥ a.best_ask; omega, by show a.best_ask < MAX_PRICE; omega⟩
  | SELL =>
    have h1 := h.best.bid_ub x hne
    have h2 : price ≤ x := hx.1
    have h3 : 0 < x := hx.2
    exact ⟨by show price ≤ a.best_bid; omega, by show a.best_bid > 0; omega⟩

/-- The matching loop on the list view: the own side and the levels that are not
eligible stay as they are, the other side loses exactly what the incoming order
loses, and the loop ends with the order used up or no longer crossing. -/
theorem aMatch_total (side : Side) (price : Nat) :
    ∀ fuel a q a' q', a.Inv → aMatch side price fuel a q = some (a', q') →
      (∀ x, a'.lv side x = a.lv side x) ∧
      (∀ x, ¬ eligible side price x → a'.lv side.opp x = a.lv side.opp x) ∧
      Finset.sum (Finset.range (MAX_PRICE + 1)) (fun x => qsum (a'.lv side.opp x)) + (q - q') =
        Finset.sum (Finset.range (MAX_PRICE + 1)) (fun x => qsum (a.lv side.opp x)) ∧
      q' ≤ q ∧ (q' = 0 ∨ ¬ a'.crosses side price) := by
  refine aMatch_induct side price
    (fun a q a' q' =>
      (∀ x, a'.lv side x = a.lv side x) ∧
      (∀ x, ¬ eligible side price x → a'.lv side.opp x = a.lv side.opp x) ∧
      Finset.sum (Finset.range (MAX_PRICE + 1)) (fun x => qsum (a'.lv side.opp x)) + (q - q') =
        Finset.sum (Finset.range (MAX_PRICE + 1)) (fun x => qsum (a.lv side.opp x)) ∧
      q' ≤ q ∧ (q' = 0 ∨ ¬ a'.crosses side price)) ?_ ?_
  · intro a q _ hc
    refine ⟨fun _ => rfl, fun _ _ => rfl, by simp, Nat.le_refl _, ?_⟩
    by_cases h0 : q = 0
    · exact Or.inl h0
    · exact Or.inr (fun hh => hc ⟨by omega, hh⟩)
  · intro a q a1 q1 a' q' fuel hinv hq hc hml _ ih
    obtain ⟨i1, i2, i3, i4, i5⟩ := ih
    obtain ⟨f1, f2, f3, f4, f5, f6⟩ := aMatchLevel_frame hml
    rw [ABook.afterLevel_lv] at i1 i2 i3
    have hle1 := fillList_le (a.lv side.opp (a.oppBest side)) q
    have hcons := fillList_qsum (a.lv side.opp (a.oppBest side)) q
    have hbest_le : a.oppBest side ≤ MAX_PRICE :=
      hinv.wf.price_le _ _ (hinv.level_ne_nil hc)
    have hstep : Finset.sum (Finset.range (MAX_PRICE + 1)) (fun x => qsum (a1.lv side.opp x)) +
        (q - q1) =
        Finset.sum (Finset.range (MAX_PRICE + 1)) (fun x => qsum (a.lv side.opp x)) := by
      apply sum_update_level _ _ _ (a.oppBest side) _ (by omega)
      · intro x hx
        show qsum (a1.lv side.opp x) = qsum (a.lv side.opp x)
        rw [f3 _ _ (fun hh => hx hh.2)]
      · show qsum (a1.lv side.opp (a.oppBest side)) + (q - q1) = _
        rw [f4, f5]
        exact hcons
    refine ⟨?_, ?_, ?_, by omega, i5⟩
    · intro x
      rw [i1 x, f3 _ _ (fun hh => side.opp_ne hh.1)]
    · intro x hx
      rw [i2 x hx, f3 _ _ (fun hh => hx (by rw [hh.2]; exact eligible_oppBest hc))]
    · omega

/-- The resting phase leaves the other side as it is. -/
theorem aRest_lv_opp {a a' : ABook} {id : Nat} {side : Side} {price q : Nat}
    (h : aRest a id side price q = some a') (x : Nat) : a'.lv side.opp x = a.lv side.opp x := by
  unfold aRest at h
  split at h
  · rcases hf : a.free with _ | ⟨s, rest⟩
    · rw [hf] at h; cases h
    · rw [hf] at h
      simp only [Option.some.injEq] at h
      subst h
      show (a.setLv side price _).lv side.opp x = _
      rw [ABook.setLv_lv, if_neg (fun hh => side.opp_ne hh.1.symm)]
  · simp only [Option.some.injEq] at h
    subst h
    rfl

/-- The quantity left of an incoming order after the matching loop, and the
quantity the other side has lost, in terms of the eligible quantity. -/
theorem aMatch_residual {side : Side} {price fuel : Nat} {a a1 : ABook} {q q1 : Nat}
    (hinv : a.Inv) (hinv1 : a1.Inv) (hm : aMatch side price fuel a q = some (a1, q1)) :
    q1 = q - Finset.sum (Finset.range (MAX_PRICE + 1))
        (fun x => if eligible side price x then qsum (a.lv side.opp x) else 0) ∧
    Finset.sum (Finset.range (MAX_PRICE + 1)) (fun x => qsum (a1.lv side.opp x)) +
      min q (Finset.sum (Finset.range (MAX_PRICE + 1))
        (fun x => if eligible side price x then qsum (a.lv side.opp x) else 0)) =
      Finset.sum (Finset.range (MAX_PRICE + 1)) (fun x => qsum (a.lv side.opp x)) := by
  obtain ⟨_, t2, t3, t4, t5⟩ := aMatch_total side price _ _ _ _ _ hinv hm
  have s0 := sum_split (eligible side price) (fun x => qsum (a.lv side.opp x)) (MAX_PRICE + 1)
  have s1 := sum_split (eligible side price) (fun x => qsum (a1.lv side.opp x)) (MAX_PRICE + 1)
  have hN : Finset.sum (Finset.range (MAX_PRICE + 1))
        (fun x => if eligible side price x then 0 else qsum (a1.lv side.opp x)) =
      Finset.sum (Finset.range (MAX_PRICE + 1))
        (fun x => if eligible side price x then 0 else qsum (a.lv side.opp x)) := by
    apply Finset.sum_congr rfl
    intro x _
    by_cases he : eligible side price x
    · rw [if_pos he, if_pos he]
    · rw [if_neg he, if_neg he, t2 x he]
  rcases t5 with t5 | t5
  · constructor <;> omega
  · have hE : Finset.sum (Finset.range (MAX_PRICE + 1))
        (fun x => if eligible side price x then qsum (a1.lv side.opp x) else 0) = 0 := by
      apply Finset.sum_eq_zero
      intro x _
      by_cases he : eligible side price x
      · rw [if_pos he, eligible_empty hinv1 t5 x he]; rfl
      · rw [if_neg he]
    constructor <;> omega

/-- C1. For every reachable book `b` and every valid `AddOrder(id, side, p, q)`,
with `A` the total quantity resting on the other side at the eligible prices
(for a BUY the asks at prices `≤ p` and `< MAX_PRICE`, for a SELL the bids at
prices `≥ p` and `> 0`): the call returns a book `b'` (for every fuel of at least
`q + 2`, the same for every fuel that returns); the total quantity resting on the
other side has gone down by exactly `min(q, A)`, and only at eligible prices;
if `q > A` an order with this id and quantity `q - A` has joined the tail of the
level `p` of its own side and `order_map_[id]` names its slot; if `q ≤ A` no order
with this id rests and `order_map_[id]` is absent. -/
theorem C1_add_trades_eligible_quantity (b : OrderBookV6) (h : Reachable b) (id : Nat)
    (side : Side) (p q : Nat) (hv : ValidAdd b id p q) :
    ∃ b', (∀ fuel, q + 2 ≤ fuel → b.AddOrder fuel id side p q = .ok b') ∧
      (∀ fuel b'', b.AddOrder fuel id side p q = .ok b'' → b'' = b') ∧
      b'.restingQty side.opp + min q (b.eligibleQty side p) = b.restingQty side.opp ∧
      (∀ x, ¬ eligible side p x → b'.levelOrders side.opp x = b.levelOrders side.opp x) ∧
      (b.eligibleQty side p < q →
        ∃ s, b'.levelOrders side p =
            b.levelOrders side p ++ [⟨s, id, q - b.eligibleQty side p⟩] ∧
          b'.order_map_ id = some s ∧ (b'.pool s).order_id = id ∧
          (b'.pool s).quantity = q - b.eligibleQty side p ∧
          (b'.pool s).price = p ∧ (b'.pool s).side = side) ∧
      (q ≤ b.eligibleQty side p →
        b'.order_map_ id = none ∧ (∀ sd x, ∀ u ∈ b'.levelOrders sd x, u.id ≠ id) ∧
        b'.levelOrders side p = b.levelOrders side p) := by
  obtain ⟨a1, q1, a', b', hm, hrest, h1, h2, hr', hinv', hview, hinv1, hq1, hfresh1⟩ :=
    @AddOrder_run b h id side p q hv
  obtain ⟨hr, hinv⟩ := h.good
  obtain ⟨t1, t2, _, _, _⟩ := aMatch_total side p _ _ _ _ _ hinv hm
  obtain ⟨r1, r2⟩ := aMatch_residual hinv hinv1 hm
  have hopp := aRest_lv_opp hrest
  have hE : b.eligibleQty side p = Finset.sum (Finset.range (MAX_PRICE + 1))
      (fun x => if eligible side p x then qsum (b.view.lv side.opp x) else 0) := rfl
  rw [← hE] at r1 r2
  refine ⟨b', h1, h2, ?_, ?_, ?_, ?_⟩
  · have e1 : b'.restingQty side.opp =
        Finset.sum (Finset.range (MAX_PRICE + 1)) (fun x => qsum (a1.lv side.opp x)) := by
      unfold OrderBookV6.restingQty
      apply Finset.sum_congr rfl
      intro x _
      rw [levelOrders_eq_view, hview, hopp]
    rw [e1]
    exact r2
  · intro x hx
    rw [levelOrders_eq_view, hview, hopp, t2 x hx]
    rfl
  · intro hlt
    have hq1pos : q1 > 0 := by omega
    unfold aRest at hrest
    rw [if_pos hq1pos] at hrest
    rcases hf : a1.free with _ | ⟨s, rest⟩
    · rw [hf] at hrest; cases hrest
    · rw [hf] at hrest
      simp only [Option.some.injEq] at hrest
      have hlv : a'.lv side p = b.view.lv side p ++ [⟨s, id, q1⟩] := by
        rw [← hrest]
        show (a1.setLv side p _).lv side p = _
        rw [ABook.setLv_lv, if_pos ⟨rfl, rfl⟩, t1]
      have hmem : (⟨s, id, q1⟩ : AOrder) ∈ a'.lv side p := by
        rw [hlv]; exact List.mem_append_right _ (List.mem_singleton_self _)
      have hrec := RepSeg_mem (hr'.core.segs side p) hmem
      refine ⟨s, ?_, (hr'.core.omap id s).2 ⟨side, p, _, hmem, rfl, rfl⟩, hrec.1, ?_,
        hrec.2.2.1, hrec.2.2.2⟩
      · rw [levelOrders_eq_view, hview, hlv, r1]
        rfl
      · rw [hrec.2.1, r1]
  · intro hle
    have hq10 : q1 = 0 := by omega
    unfold aRest at hrest
    rw [if_neg (by omega)] at hrest
    simp only [Option.some.injEq] at hrest
    subst hrest
    refine ⟨(hr'.not_live_iff id).2 hfresh1, ?_, ?_⟩
    · intro sd x u hu
      rw [levelOrders_eq_view, hview] at hu
      exact hfresh1 sd x u hu
    · rw [levelOrders_eq_view, hview, t1]
      rfl

/-- No order rests at a price better than the cached best. -/
theorem better_than_best_empty {a : ABook} (h : a.Inv) {side : Side} {y : Nat}
    (hy : betterPrice side y (a.oppBest side)) : a.lv side.opp y = [] := by
  by_contra hne
  cases side with
  | BUY =>
    have h1 := h.best.ask_lb y hne
    have h2 : y < a.best_ask := hy
    omega
  | SELL =>
    have h1 := h.best.bid_ub y hne
    have h2 : a.best_bid < y := hy
    omega

theorem betterPrice_ne {side : Side} {y x : Nat} (h : betterPrice side y x) : y ≠ x := by
  cases side with
  | BUY => have : y < x := h; omega
  | SELL => have : x < y := h; omega

/-- The matching loop touches a level only after every better level is empty. -/
theorem aMatch_priority (side : Side) (price : Nat) :
    ∀ fuel a q a' q', a.Inv → aMatch side price fuel a q = some (a', q') →
      (∀ sd y, a.lv sd y = [] → a'.lv sd y = []) ∧
      (∀ x, a'.lv side.opp x ≠ a.lv side.opp x →
        ∀ y, betterPrice side y x → a'.lv side.opp y = []) := by
  refine aMatch_induct side price
    (fun a _ a' _ =>
      (∀ sd y, a.lv sd y = [] → a'.lv sd y = []) ∧
      (∀ x, a'.lv side.opp x ≠ a.lv side.opp x →
        ∀ y, betterPrice side y x → a'.lv side.opp y = [])) ?_ ?_
  · intro a q _ _
    exact ⟨fun _ _ hh => hh, fun x hx => absurd rfl hx⟩
  · intro a q a1 q1 a' q' fuel hinv hq hc hml _ ih
    obtain ⟨i1, i2⟩ := ih
    obtain ⟨f1, f2, f3, f4, f5, f6⟩ := aMatchLevel_frame hml
    rw [ABook.afterLevel_lv] at i1 i2
    have hmono : ∀ sd y, a.lv sd y = [] → a1.lv sd y = [] := by
      intro sd y hy
      by_cases hcase : sd = side.opp ∧ y = a.oppBest side
      · rw [hcase.1, hcase.2, f4]
        rw [hcase.1, hcase.2] at hy
        rw [hy]
        rfl
      · rw [f3 sd y hcase]; exact hy
    refine ⟨fun sd y hy => i1 sd y (hmono sd y hy), ?_⟩
    intro x hx y hy
    by_cases hsame : a'.lv side.opp x = a1.lv side.opp x
    · have hxb : x = a.oppBest side := by
        by_contra hne
        apply hx
        rw [hsame, f3 _ _ (fun hh => hne hh.2)]
      rw [hxb] at hy
      exact i1 _ _ (hmono _ _ (better_than_best_empty hinv hy))
    · exact i2 x hsame y hy

/-- Every order resting after the resting phase rested before it or is the new order. -/
theorem aRest_mem {a a' : ABook} {id : Nat} {side : Side} {price q : Nat}
    (h : aRest a id side price q = some a') {sd : Side} {x : Nat} {u : AOrder}
    (hu : u ∈ a'.lv sd x) :
    u ∈ a.lv sd x ∨ (u.id = id ∧ sd = side ∧ x = price ∧ u.qty = q) := by
  unfold aRest at h
  split at h
  · rcases hf : a.free with _ | ⟨s, rest⟩
    · rw [hf] at h; cases h
    · rw [hf] at h
      simp only [Option.some.injEq] at h
      subst h
      have hu' : u ∈ (a.setLv side price (a.lv side price ++ [⟨s, id, q⟩])).lv sd x := hu
      rw [ABook.setLv_lv] at hu'
      by_cases hc : sd = side ∧ x = price
      · rw [if_pos hc] at hu'
        rcases List.mem_append.1 hu' with h1 | h1
        · left; rw [hc.1, hc.2]; exact h1
        · right; rw [List.mem_singleton.1 h1]; exact ⟨rfl, hc.1, hc.2, rfl⟩
      · rw [if_neg hc] at hu'
        exact Or.inl hu'
  · simp only [Option.some.injEq] at h
    subst h
    exact Or.inl hu

/-- C2. Price priority across levels: for every reachable book `b` and every
valid `AddOrder(id, side, p, q)`, the call returns a book `b'`, and if the list
of a level `x` of the other side has changed (an order there was reduced or
removed), then every level `y` of the other side with a better price (a lower
ask for a BUY, a higher bid for a SELL) is empty afterwards and every order that
rested there has lost its `order_map_` entry. -/
theorem C2_price_priority (b : OrderBookV6) (h : Reachable b) (id : Nat)
    (side : Side) (p q : Nat) (hv : ValidAdd b id p q) :
    ∃ b', (∀ fuel, q + 2 ≤ fuel → b.AddOrder fuel id side p q = .ok b') ∧
      (∀ fuel b'', b.AddOrder fuel id side p q = .ok b'' → b'' = b') ∧
      ∀ x, b'.levelOrders side.opp x ≠ b.levelOrders side.opp x →
        ∀ y, betterPrice side y x →
          b'.levelOrders side.opp y = [] ∧
          (b'.level side.opp y).head = none ∧
          ∀ u ∈ b.levelOrders side.opp y, b'.order_map_ u.id = none := by
  obtain ⟨a1, q1, a', b', hm, hrest, h1, h2, hr', hinv', hview, hinv1, hq1, hfresh1⟩ :=
    @AddOrder_run b h id side p q hv
  obtain ⟨hr, hinv⟩ := h.good
  obtain ⟨_, hprio⟩ := aMatch_priority side p _ _ _ _ _ hinv hm
  have hsub := aMatch_sub side p _ _ _ _ _ hinv hm
  have hopp := aRest_lv_opp hrest
  have hfresh := (hr.not_live_iff id).1 hv.not_live
  refine ⟨b', h1, h2, ?_⟩
  intro x hx y hy
  have hx' : a1.lv side.opp x ≠ b.view.lv side.opp x := by
    intro e
    apply hx
    rw [levelOrders_eq_view, hview, hopp, e]
    rfl
  have hey : a1.lv side.opp y = [] := hprio x hx' y hy
  have hey' : a'.lv side.opp y = [] := by rw [hopp]; exact hey
  refine ⟨?_, ?_, ?_⟩
  · rw [levelOrders_eq_view, hview]; exact hey'
  · exact (head_eq_none_iff hr'.core _ _).2 hey'
  · intro u hu
    apply (hr'.not_live_iff u.id).2
    intro sd z w hw hwid
    rcases aRest_mem hrest hw with hw1 | hw1
    · obtain ⟨w0, hw0, _, e2, _⟩ := hsub sd z w hw1
      obtain ⟨g1, g2, g3⟩ := hinv.wf.struct.id_inj hw0 hu (e2.trans hwid)
      subst g1 g2
      rw [hey] at hw1
      cases hw1
    · exact hfresh _ _ u hu (hwid.symm.trans hw1.1)

/-- The shape of one pass of the inner loop: the filled orders are the first `k`
of the level, and what stays is the remainder, with at most its first order
reduced. -/
theorem fillList_shape (l : List AOrder) (q : Nat) :
    ∃ k, (fillList l q).2.1 = l.take k ∧
      ((fillList l q).1 = l.drop k ∨
        ∃ o t r, l.drop k = o :: t ∧ (fillList l q).1 = { o with qty := o.qty - r } :: t ∧
          0 < r ∧ r < o.qty ∧ (fillList l q).2.2 = 0) := by
  induction l generalizing q with
  | nil => exact ⟨0, by simp [fillList], Or.inl (by simp [fillList])⟩
  | cons o t ih =>
    unfold fillList
    split
    · exact ⟨0, by simp, Or.inl (by simp)⟩
    · split
      · obtain ⟨k, h1, h2⟩ := ih (q - o.qty)
        refine ⟨k + 1, by simp [h1], ?_⟩
        rcases h2 with h2 | ⟨o', t', r, g1, g2, g3, g4, g5⟩
        · exact Or.inl (by simpa using h2)
        · exact Or.inr ⟨o', t', r, by simpa using g1, g2, g3, g4, g5⟩
      · exact ⟨0, by simp, Or.inr ⟨o, t, q, by simp, rfl, by omega, by omega, rfl⟩⟩

theorem fillList_filled_mem {l : List AOrder} {q : Nat} {o : AOrder}
    (h : o ∈ (fillList l q).2.1) : o ∈ l := by
  obtain ⟨k, h1, _⟩ := fillList_shape l q
  rw [h1] at h
  exact List.mem_of_mem_take h

theorem fillList_filled_nodup {l : List AOrder} (q : Nat) (h : l.Nodup) :
    (fillList l q).2.1.Nodup := by
  obtain ⟨k, h1, _⟩ := fillList_shape l q
  rw [h1]
  exact h.sublist (List.take_sublist _ _)

theorem fillList_cover {l : List AOrder} (q : Nat) {o : AOrder} (h : o ∈ l) :
    o ∈ (fillList l q).2.1 ∨ ∃ u ∈ (fillList l q).1, u.id = o.id := by
  obtain ⟨k, h1, h2⟩ := fillList_shape l q
  rw [← List.take_append_drop k l] at h
  rcases List.mem_append.1 h with h | h
  · left; rw [h1]; exact h
  · right
    rcases h2 with h2 | ⟨o', t', r, g1, g2, _⟩
    · exact ⟨o, by rw [h2]; exact h, rfl⟩
    · rw [g1] at h
      rw [g2]
      rcases List.mem_cons.1 h with h | h
      · exact ⟨_, List.mem_cons_self _ _, by rw [h]⟩
      · exact ⟨o, List.mem_cons_of_mem _ h, rfl⟩

theorem fillList_disjoint {l : List AOrder} (q : Nat) (hnd : l.Nodup)
    (hid : ∀ u ∈ l, ∀ w ∈ l, u.id = w.id → u = w) {o u : AOrder}
    (ho : o ∈ (fillList l q).2.1) (hu : u ∈ (fillList l q).1) : u.id ≠ o.id := by
  obtain ⟨k, h1, h2⟩ := fillList_shape l q
  rw [h1] at ho
  have hsplit := List.take_append_drop k l
  have hnd' : (l.take k ++ l.drop k).Nodup := by rw [hsplit]; exact hnd
  have hdisj := (List.nodup_append.1 hnd').2.2
  have hol : o ∈ l := List.mem_of_mem_take ho
  have key : ∃ w ∈ l.drop k, w.id = u.id := by
    rcases h2 with h2 | ⟨o', t', r, g1, g2, _⟩
    · exact ⟨u, by rw [← h2]; exact hu, rfl⟩
    · rw [g2] at hu
      rw [g1]
      rcases List.mem_cons.1 hu with h | h
      · exact ⟨o', List.mem_cons_self _ _, by rw [h]⟩
      · exact ⟨u, List.mem_cons_of_mem _ h, rfl⟩
  obtain ⟨w, hw, hwid⟩ := key
  intro e
  have hwl : w ∈ l := List.mem_of_mem_drop hw
  have : w = o := hid w hwl o hol (hwid.trans e)
  rw [this] at hw
  exact hdisj ho hw

/-- The orders the matching loop fills: their slots go on the free list in the
order of filling, and they are exactly the orders of the other side whose id no
longer rests. -/
theorem aMatch_filled (side : Side) (price : Nat) :
    ∀ fuel a q a' q', a.Inv → aMatch side price fuel a q = some (a', q') →
      (q = 0 → a' = a) ∧
      (∀ s x, ∀ u ∈ a'.lv s x, ∃ w ∈ a.lv s x, w.id = u.id) ∧
      ∃ F : List AOrder, a'.free = (F.map AOrder.slot).reverse ++ a.free ∧ F.Nodup ∧
        (q = 0 → F = []) ∧
        ∀ o, o ∈ F ↔ ((∃ x, o ∈ a.lv side.opp x) ∧ ∀ sd y, ∀ u ∈ a'.lv sd y, u.id ≠ o.id) := by
  refine aMatch_induct side price
    (fun a q a' _ =>
      (q = 0 → a' = a) ∧
      (∀ s x, ∀ u ∈ a'.lv s x, ∃ w ∈ a.lv s x, w.id = u.id) ∧
      ∃ F : List AOrder, a'.free = (F.map AOrder.slot).reverse ++ a.free ∧ F.Nodup ∧
        (q = 0 → F = []) ∧
        ∀ o, o ∈ F ↔ ((∃ x, o ∈ a.lv side.opp x) ∧ ∀ sd y, ∀ u ∈ a'.lv sd y, u.id ≠ o.id))
    ?_ ?_
  · intro a q _ _
    refine ⟨fun _ => rfl, fun s x u hu => ⟨u, hu, rfl⟩, [], by simp, List.nodup_nil,
      fun _ => rfl, ?_⟩
    intro o
    constructor
    · intro ho; cases ho
    · rintro ⟨⟨x, hx⟩, hg⟩
      exact absurd rfl (hg _ _ o hx)
  · intro a q a1 q1 a' q' fuel hinv hq hc hml _ ih
    obtain ⟨j0, jsub, F2, j1, j2, j3, j4⟩ := ih
    obtain ⟨f1, f2, f3, f4, f5, f6⟩ := aMatchLevel_frame hml
    rw [ABook.afterLevel_free] at j1
    rw [ABook.afterLevel_lv] at jsub j4
    have hnd := hinv.wf.struct.nodup side.opp (a.oppBest side)
    have hidl : ∀ u ∈ a.lv side.opp (a.oppBest side), ∀ w ∈ a.lv side.opp (a.oppBest side),
        u.id = w.id → u = w := fun u hu w hw e => (hinv.wf.struct.id_inj hu hw e).2.2
    have hexit := fillList_exit (a.lv side.opp (a.oppBest side)) q
    rw [← f5, ← f4] at hexit
    have hq1 : q1 > 0 → a1.lv side.opp (a.oppBest side) = [] := by
      intro hpos
      rcases hexit with h0 | h0
      · omega
      · exact h0
    have hq0 : q1 = 0 → ∀ s x, a'.lv s x = a1.lv s x := by
      intro h0 s x
      rw [j0 h0, ABook.afterLevel_lv]
    refine ⟨fun h0 => by omega, ?_, (fillList (a.lv side.opp (a.oppBest side)) q).2.1 ++ F2,
      ?_, ?_, fun h0 => by omega, ?_⟩
    · intro s x u hu
      obtain ⟨w, hw, e⟩ := jsub s x u hu
      by_cases hcase : s = side.opp ∧ x = a.oppBest side
      · rw [hcase.1, hcase.2, f4] at hw
        obtain ⟨v, hv, _, g2, _⟩ := fillList_sub _ _ w hw
        exact ⟨v, by rw [hcase.1, hcase.2]; exact hv, g2.trans e⟩
      · rw [f3 s x hcase] at hw
        exact ⟨w, hw, e⟩
    · rw [j1, f6]
      simp [List.map_append, List.reverse_append, List.append_assoc]
    · refine List.nodup_append.2 ⟨fillList_filled_nodup q hnd, j2, ?_⟩
      intro o ho1 ho2
      obtain ⟨⟨x, hx⟩, _⟩ := (j4 o).1 ho2
      have hol := fillList_filled_mem ho1
      by_cases hxb : x = a.oppBest side
      · rw [hxb, f4] at hx
        exact fillList_disjoint q hnd hidl ho1 hx rfl
      · rw [f3 _ _ (fun hh => hxb hh.2)] at hx
        exact hxb (hinv.wf.struct.id_inj hx hol rfl).2.1
    · intro o
      constructor
      · intro ho
        rcases List.mem_append.1 ho with ho | ho
        · have hol := fillList_filled_mem ho
          refine ⟨⟨_, hol⟩, ?_⟩
          intro sd y u hu e
          obtain ⟨w, hw, ew⟩ := jsub sd y u hu
          by_cases hcase : sd = side.opp ∧ y = a.oppBest side
          · rw [hcase.1, hcase.2, f4] at hw
            exact fillList_disjoint q hnd hidl ho hw (ew.trans e)
          · rw [f3 sd y hcase] at hw
            have := hinv.wf.struct.id_inj hw hol (ew.trans e)
            exact hcase ⟨this.1, this.2.1⟩
        · obtain ⟨⟨x, hx⟩, hg⟩ := (j4 o).1 ho
          refine ⟨⟨x, ?_⟩, hg⟩
          by_cases hxb : x = a.oppBest side
          · exfalso
            by_cases h0 : q1 = 0
            · rw [j3 h0] at ho; cases ho
            · rw [hxb, hq1 (by omega)] at hx; cases hx
          · rw [← f3 _ _ (fun hh => hxb hh.2)]; exact hx
      · rintro ⟨⟨x, hx⟩, hg⟩
        apply List.mem_append.2
        by_cases hin : o ∈ a1.lv side.opp x
        · exact Or.inr ((j4 o).2 ⟨⟨x, hin⟩, hg⟩)
        · left
          have hxb : x = a.oppBest side := by
            by_contra hne
            exact hin (by rw [f3 _ _ (fun hh => hne hh.2)]; exact hx)
          rw [hxb] at hx
          rcases fillList_cover q hx with h1 | ⟨u, hu, e⟩
          · exact h1
          · exfalso
            rw [← f4] at hu
            by_cases h0 : q1 = 0
            · exact hg _ _ u (by rw [hq0 h0]; exact hu) e
            · rw [hq1 (by omega)] at hu; cases hu

theorem Side.eq_opp_of_ne {sd side : Side} (h : sd ≠ side) : sd = side.opp := by
  cases sd <;> cases side <;> simp [Side.opp] at h ⊢

/-- C10. A fully filled Add leaves no trace: for every reachable book `b` and
every valid `AddOrder(id, side, p, q)` whose quantity does not exceed the
eligible quantity of the other side (so matching consumes all of `q`), the call
returns a book `b'` in which `order_map_[id]` is absent, no resting order and no
slot in use carries this id, the old free list lies untouched beneath the slots
pushed by the call (no slot was taken from it), and the pushed slots are those of
a duplicate-free list `F` that holds exactly the orders that rested before and
whose id no longer rests: the free list has grown by the length of `F`, and every
order of `F` has lost its `order_map_` entry. -/
theorem C10_fully_filled_add_leaves_no_trace (b : OrderBookV6) (h : Reachable b) (id : Nat)
    (side : Side) (p q : Nat) (hv : ValidAdd b id p q) (hfull : q ≤ b.eligibleQty side p) :
    ∃ (b' : OrderBookV6) (F : List AOrder),
      (∀ fuel, q + 2 ≤ fuel → b.AddOrder fuel id side p q = .ok b') ∧
      (∀ fuel b'', b.AddOrder fuel id side p q = .ok b'' → b'' = b') ∧
      b'.order_map_ id = none ∧
      (∀ sd x, ∀ u ∈ b'.levelOrders sd x, u.id ≠ id) ∧
      (∀ s, s < MAX_ORDER_ID → s ∉ b'.order_pool_.free_list_ → (b'.pool s).order_id ≠ id) ∧
      b'.order_pool_.free_list_ = (F.map AOrder.slot).reverse ++ b.order_pool_.free_list_ ∧
      b'.order_pool_.free_list_.length = b.order_pool_.free_list_.length + F.length ∧
      F.Nodup ∧
      (∀ o : AOrder, o ∈ F ↔ ((∃ sd x, o ∈ b.levelOrders sd x) ∧
        ∀ sd y, ∀ u ∈ b'.levelOrders sd y, u.id ≠ o.id)) ∧
      (∀ o : AOrder, o ∈ F → b'.order_map_ o.id = none) := by
  obtain ⟨a1, q1, a', b', hm, hrest, h1, h2, hr', hinv', hview, hinv1, hq1, hfresh1⟩ :=
    @AddOrder_run b h id side p q hv
  obtain ⟨hr, hinv⟩ := h.good
  obtain ⟨t1, _, _, _, _⟩ := aMatch_total side p _ _ _ _ _ hinv hm
  obtain ⟨r1, _⟩ := aMatch_residual hinv hinv1 hm
  have hE : b.eligibleQty side p = Finset.sum (Finset.range (MAX_PRICE + 1))
      (fun x => if eligible side p x then qsum (b.view.lv side.opp x) else 0) := rfl
  rw [← hE] at r1
  have hq10 : q1 = 0 := by omega
  unfold aRest at hrest
  rw [if_neg (by omega)] at hrest
  simp only [Option.some.injEq] at hrest
  subst hrest
  obtain ⟨_, _, F, g1, g2, _, g4⟩ := aMatch_filled side p _ _ _ _ _ hinv hm
  have hfl : b'.order_pool_.free_list_ =
      (F.map AOrder.slot).reverse ++ b.order_pool_.free_list_ := by
    rw [hr'.core.free, g1, hr.core.free]
  have hlev : ∀ sd x, b'.levelOrders sd x = a1.lv sd x := by
    intro sd x; rw [levelOrders_eq_view, hview]
  refine ⟨b', F, h1, h2, (hr'.not_live_iff id).2 hfresh1, ?_, ?_, hfl, ?_, g2, ?_, ?_⟩
  · intro sd x u hu
    rw [hlev] at hu
    exact hfresh1 sd x u hu
  · intro s hs hnf
    rw [hr'.core.free] at hnf
    rcases (hinv1.wf.cover s).1 hs with hf | ⟨sd, x, o, ho, hos⟩
    · exact absurd hf hnf
    · have hrec := RepSeg_mem (hr'.core.segs sd x) ho
      rw [← hos, hrec.1]
      exact hfresh1 sd x o ho
  · rw [hfl]
    simp
    omega
  · intro o
    rw [g4 o]
    constructor
    · rintro ⟨⟨x, hx⟩, hg⟩
      refine ⟨⟨side.opp, x, hx⟩, ?_⟩
      intro sd y u hu
      rw [hlev] at hu
      exact hg sd y u hu
    · rintro ⟨⟨sd, x, hx⟩, hg⟩
      have hg' : ∀ sd y, ∀ u ∈ a1.lv sd y, u.id ≠ o.id := by
        intro sd y u hu
        exact hg sd y u (by rw [hlev]; exact hu)
      refine ⟨⟨x, ?_⟩, hg'⟩
      by_cases hs : sd = side
      · exfalso
        have hx' : o ∈ b.view.lv side x := by rw [← hs]; exact hx
        rw [← t1 x] at hx'
        exact hg' _ _ o hx' rfl
      · rw [← Side.eq_opp_of_ne hs]; exact hx
  · intro o ho
    apply (hr'.not_live_iff o.id).2
    exact ((g4 o).1 ho).2

theorem ABook.Inv.best_ask_le {a : ABook} (h : a.Inv) : a.best_ask ≤ MAX_PRICE := by
  rcases h.best.ask_at with h1 | h1
  · exact h.wf.price_le _ _ h1
  · omega

/-- When no level goes from empty to non-empty, the cached bests do not improve. -/
theorem best_mono {a a1 : ABook} (h : a.Inv) (h1 : a1.Inv)
    (hl : ∀ sd y, a.lv sd y = [] → a1.lv sd y = []) :
    a1.best_bid ≤ a.best_bid ∧ a.best_ask ≤ a1.best_ask := by
  constructor
  · rcases h1.best.bid_at with g | g
    · exact h.best.bid_ub _ (fun e => g (hl _ _ e))
    · omega
  · rcases h1.best.ask_at with g | g
    · exact h.best.ask_lb _ (fun e => g (hl _ _ e))
    · rw [g]; exact h.best_ask_le

/-- `CancelOrder` of an id that is out of range or not live returns the book as it is. -/
theorem CancelOrder_absent (b : OrderBookV6) (id : Nat)
    (h : id ≥ MAX_ORDER_ID ∨ b.order_map_ id = none) : b.CancelOrder id = b := by
  by_cases hlt : id ≥ MAX_ORDER_ID
  · unfold CancelOrder; rw [if_pos hlt]
  · rcases h with h | h
    · exact absurd h hlt
    · unfold CancelOrder; rw [if_neg hlt]; simp only [h]

theorem Run.reachable {cs : List Call} {b : OrderBookV6} (h : Run cs b) : Reachable b := by
  induction h with
  | new => exact Reachable.new
  | add fuel id side price q _ hv he ih => exact Reachable.add fuel id side price q ih hv he
  | cancel id _ ih => exact Reachable.cancel id ih

theorem arrival_le (cs : List Call) (id : Nat) : arrival cs id ≤ cs.length := by
  induction cs with
  | nil => exact Nat.le_refl _
  | cons c cs ih =>
    cases c with
    | add fuel oid side price q =>
      unfold arrival
      split
      · simp
      · simp; omega
    | cancel oid =>
      unfold arrival
      simp; omega

theorem split_unique {a : AOrder} :
    ∀ {x1 z1 x2 z2 : List AOrder}, a ∉ x1 → a ∉ x2 → x1 ++ a :: z1 = x2 ++ a :: z2 →
      x1 = x2 ∧ z1 = z2 := by
  intro x1
  induction x1 with
  | nil =>
    intro z1 x2 z2 _ h2 e
    cases x2 with
    | nil => simp at e; exact ⟨rfl, e⟩
    | cons c x2 =>
      simp at e
      exact absurd (by rw [e.1]; exact List.mem_cons_self _ _) h2
  | cons b x1 ih =>
    intro z1 x2 z2 h1 h2 e
    cases x2 with
    | nil =>
      simp at e
      exact absurd (by rw [← e.1]; exact List.mem_cons_self _ _) h1
    | cons c x2 =>
      simp only [List.cons_append, List.cons.injEq] at e
      obtain ⟨g1, g2⟩ := ih (fun hh => h1 (List.mem_cons_of_mem _ hh))
        (fun hh => h2 (List.mem_cons_of_mem _ hh)) e.2
      exact ⟨by rw [e.1, g1], g2⟩

/-- A level that lost its first `k` orders and had at most its new first order
reduced keeps, unchanged, every order that stood behind an order that is still
there. -/
theorem shape_keeps_later {l l' : List AOrder} (hnd : l.Nodup)
    (hid : ∀ u ∈ l, ∀ w ∈ l, u.id = w.id → u = w)
    (hshape : ∃ k, l' = l.drop k ∨
      ∃ o t r, l.drop k = o :: t ∧ l' = { o with qty := o.qty - r } :: t ∧ 0 < r ∧ r < o.qty)
    {l1 l2 l3 : List AOrder} {u w : AOrder} (hl : l = l1 ++ u :: (l2 ++ w :: l3))
    (hu : ∃ u' ∈ l', u'.id = u.id) : w ∈ l' := by
  obtain ⟨k, hk⟩ := hshape
  obtain ⟨u', hu', hue⟩ := hu
  have hul : u ∈ l := by rw [hl]; simp
  have hud : u ∈ l.drop k := by
    have key : ∃ v ∈ l.drop k, v.id = u'.id := by
      rcases hk with hk | ⟨o, t, r, g1, g2, _, _⟩
      · exact ⟨u', by rw [← hk]; exact hu', rfl⟩
      · rw [g2] at hu'
        rw [g1]
        rcases List.mem_cons.1 hu' with e | e
        · exact ⟨o, List.mem_cons_self _ _, by rw [e]⟩
        · exact ⟨u', List.mem_cons_of_mem _ e, rfl⟩
    obtain ⟨v, hv, hve⟩ := key
    have : v = u := hid v (List.mem_of_mem_drop hv) u hul (hve.trans hue)
    rw [← this]; exact hv
  obtain ⟨m1, m2, hm⟩ := List.append_of_mem hud
  have hsplit : l = (l.take k ++ m1) ++ u :: m2 := by
    rw [List.append_assoc, ← hm, List.take_append_drop]
  have hn1 : u ∉ l1 := by
    have := hnd
    rw [hl] at this
    exact fun e => (List.nodup_append.1 this).2.2 e (List.mem_cons_self _ _)
  have hn2 : u ∉ l.take k ++ m1 := by
    have := hnd
    rw [hsplit] at this
    exact fun e => (List.nodup_append.1 this).2.2 e (List.mem_cons_self _ _)
  have hz : l2 ++ w :: l3 = m2 := (split_unique hn1 hn2 (hl.symm.trans hsplit)).2
  have hw2 : w ∈ m2 := by rw [← hz]; simp
  have hwt : w ∈ (l.drop k).tail := by
    rw [hm]
    cases m1 with
    | nil => exact hw2
    | cons c m1 =>
      show w ∈ m1 ++ u :: m2
      exact List.mem_append_right _ (List.mem_cons_of_mem _ hw2)
  rcases hk with hk | ⟨o, t, r, g1, g2, _, _⟩
  · rw [hk]; exact List.mem_of_mem_tail hwt
  · rw [g1] at hwt
    rw [g2]
    exact List.mem_cons_of_mem _ hwt

/-- The matching loop leaves of every level of the other side the list without
its first `k` orders, with at most the new first order reduced. -/
theorem aMatch_shape (side : Side) (price : Nat) :
    ∀ fuel a q a' q', a.Inv → aMatch side price fuel a q = some (a', q') →
      (q = 0 → a' = a) ∧
      (∀ sd y, a.lv sd y = [] → a'.lv sd y = []) ∧
      ∀ x, ∃ k, a'.lv side.opp x = (a.lv side.opp x).drop k ∨
        ∃ o t r, (a.lv side.opp x).drop k = o :: t ∧
          a'.lv side.opp x = { o with qty := o.qty - r } :: t ∧ 0 < r ∧ r < o.qty := by
  refine aMatch_induct side price
    (fun a q a' _ =>
      (q = 0 → a' = a) ∧
      (∀ sd y, a.lv sd y = [] → a'.lv sd y = []) ∧
      ∀ x, ∃ k, a'.lv side.opp x = (a.lv side.opp x).drop k ∨
        ∃ o t r, (a.lv side.opp x).drop k = o :: t ∧
          a'.lv side.opp x = { o with qty := o.qty - r } :: t ∧ 0 < r ∧ r < o.qty) ?_ ?_
  · intro a q _ _
    exact ⟨fun _ => rfl, fun _ _ hh => hh, fun x => ⟨0, Or.inl rfl⟩⟩
  · intro a q a1 q1 a' q' fuel hinv hq hc hml _ ih
    obtain ⟨j0, jmono, jshape⟩ := ih
    obtain ⟨f1, f2, f3, f4, f5, f6⟩ := aMatchLevel_frame hml
    rw [ABook.afterLevel_lv] at jmono jshape
    have hexit := fillList_exit (a.lv side.opp (a.oppBest side)) q
    rw [← f5, ← f4] at hexit
    have hmono : ∀ sd y, a.lv sd y = [] → a1.lv sd y = [] := by
      intro sd y hy
      by_cases hcase : sd = side.opp ∧ y = a.oppBest side
      · rw [hcase.1, hcase.2, f4]
        rw [hcase.1, hcase.2] at hy
        rw [hy]
        rfl
      · rw [f3 sd y hcase]; exact hy
    refine ⟨fun h0 => by omega, fun sd y hy => jmono sd y (hmono sd y hy), ?_⟩
    intro x
    by_cases hxb : x = a.oppBest side
    · rw [hxb]
      obtain ⟨k, _, hk⟩ := fillList_shape (a.lv side.opp (a.oppBest side)) q
      rw [← f4] at hk
      by_cases h0 : q1 = 0
      · have e : a'.lv side.opp (a.oppBest side) = a1.lv side.opp (a.oppBest side) := by
          rw [j0 h0, ABook.afterLevel_lv]
        rw [e]
        rcases hk with hk | ⟨o, t, r, g1, g2, g3, g4, _⟩
        · exact ⟨k, Or.inl hk⟩
        · exact ⟨k, Or.inr ⟨o, t, r, g1, g2, g3, g4⟩⟩
      · have he1 : a1.lv side.opp (a.oppBest side) = [] := by
          rcases hexit with h | h
          · omega
          · exact h
        rw [jmono _ _ he1]
        rcases hk with hk | ⟨o, t, r, g1, g2, _⟩
        · exact ⟨k, Or.inl (by rw [← hk, he1])⟩
        · rw [he1] at g2; cases g2
    · rw [← f3 _ _ (fun hh => hxb hh.2)]
      exact jshape x

theorem arrival_add_ne {fuel oid : Nat} {side : Side} {price q : Nat} (cs : List Call)
    {id : Nat} (h : oid ≠ id) : arrival (Call.add fuel oid side price q :: cs) id = arrival cs id := by
  show (if oid = id then cs.length + 1 else arrival cs id) = _
  rw [if_neg h]

theorem arrival_add_self (fuel id : Nat) (side : Side) (price q : Nat) (cs : List Call) :
    arrival (Call.add fuel id side price q :: cs) id = cs.length + 1 := by
  show (if id = id then cs.length + 1 else arrival cs id) = _
  rw [if_pos rfl]

/-- The ids of a level after the matching loop are, in order, among the ids
it held before. -/
theorem aMatch_ids_sublist {side : Side} {price fuel : Nat} {a a1 : ABook} {q q1 : Nat}
    (hinv : a.Inv) (hm : aMatch side price fuel a q = some (a1, q1)) (sd : Side) (x : Nat) :
    ((a1.lv sd x).map AOrder.id).Sublist ((a.lv sd x).map AOrder.id) := by
  obtain ⟨t1, _, _, _, _⟩ := aMatch_total side price _ _ _ _ _ hinv hm
  obtain ⟨_, _, hshape⟩ := aMatch_shape side price _ _ _ _ _ hinv hm
  by_cases hs : sd = side
  · rw [hs, t1]
  · rw [Side.eq_opp_of_ne hs]
    obtain ⟨k, hk | ⟨o, t, r, g1, g2, _, _⟩⟩ := hshape x
    · rw [hk]
      exact (List.drop_sublist k _).map _
    · have e : (a1.lv side.opp x).map AOrder.id = ((a.lv side.opp x).drop k).map AOrder.id := by
        rw [g1, g2]; rfl
      rw [e]
      exact (List.drop_sublist k _).map _

/-- Along every valid run each level lists its orders in the order of their
`AddOrder` calls, and every resting order was placed by the latest `AddOrder`
call carrying its id, on its own side and at its own price. -/
theorem Run.sorted {cs : List Call} {b : OrderBookV6} (h : Run cs b) :
    (∀ side p, (b.view.lv side p).Pairwise (fun u v => arrival cs u.id < arrival cs v.id)) ∧
    (∀ side p, ∀ u ∈ b.view.lv side p, ∃ pre suf fuel q0,
      cs = pre ++ Call.add fuel u.id side p q0 :: suf ∧ arrival cs u.id = suf.length + 1 ∧
      u.qty ≤ q0) := by
  induction h with
  | new =>
    have e : OrderBookV6.new.view = ABook.empty := Rep_new.view_eq Inv_empty.wf
    rw [e]
    exact ⟨fun _ _ => List.Pairwise.nil, fun _ _ u hu => by cases hu⟩
  | @add cs b b' fuel id side price q hrun hv he ih =>
    obtain ⟨ih1, ih2⟩ := ih
    have hreach := hrun.reachable
    obtain ⟨a1, q1, a', b1, hm, hrest, _, h2, hr', hinv', hview, hinv1, hq1, hfresh1⟩ :=
      @AddOrder_run b hreach id side price q hv
    have hbb := h2 fuel b' he
    subst hbb
    obtain ⟨hr, hinv⟩ := hreach.good
    have hsub := aMatch_sub side price _ _ _ _ _ hinv hm
    rw [hview]
    have hp1 : ∀ sd x, (a1.lv sd x).Pairwise
        (fun u v => arrival (Call.add fuel id side price q :: cs) u.id <
          arrival (Call.add fuel id side price q :: cs) v.id) := by
      intro sd x
      have hs := aMatch_ids_sublist hinv hm sd x
      have hpw := (List.pairwise_map.2 (ih1 sd x) :
        ((b.view.lv sd x).map AOrder.id).Pairwise (fun i j => arrival cs i < arrival cs j))
      have hpw1 := List.pairwise_map.1 (hpw.sublist hs)
      refine List.Pairwise.imp_of_mem ?_ hpw1
      intro u v hu hv' huv
      rw [arrival_add_ne cs (fun e => hfresh1 sd x u hu e.symm),
        arrival_add_ne cs (fun e => hfresh1 sd x v hv' e.symm)]
      exact huv
    constructor
    · intro sd x
      unfold aRest at hrest
      by_cases hq : q1 > 0
      · rw [if_pos hq] at hrest
        rcases hf : a1.free with _ | ⟨s, rest⟩
        · rw [hf] at hrest; cases hrest
        · rw [hf] at hrest
          simp only [Option.some.injEq] at hrest
          subst hrest
          show ((a1.setLv side price (a1.lv side price ++ [⟨s, id, q1⟩])).lv sd x).Pairwise _
          rw [ABook.setLv_lv]
          by_cases hc : sd = side ∧ x = price
          · rw [if_pos hc]
            refine List.pairwise_append.2 ⟨?_, List.pairwise_singleton _ _, ?_⟩
            · have := hp1 side price
              exact this
            · intro u hu v hv'
              rw [List.mem_singleton.1 hv']
              show arrival _ u.id < arrival _ id
              rw [arrival_add_self, arrival_add_ne cs (fun e => hfresh1 _ _ u hu e.symm)]
              have := arrival_le cs u.id
              omega
          · rw [if_neg hc]; exact hp1 sd x
      · rw [if_neg hq] at hrest
        simp only [Option.some.injEq] at hrest
        subst hrest
        exact hp1 sd x
    · intro sd x u hu
      rcases aRest_mem hrest hu with hu1 | ⟨e1, e2, e3, e4⟩
      · obtain ⟨w, hw, _, g2, g3⟩ := hsub sd x u hu1
        obtain ⟨pre, suf, fuel', q0, c1, c2, c3⟩ := ih2 sd x w hw
        refine ⟨Call.add fuel id side price q :: pre, suf, fuel', q0, ?_, ?_, by omega⟩
        · rw [List.cons_append, ← g2, ← c1]
        · rw [arrival_add_ne cs (fun e => hfresh1 sd x u hu1 e.symm), ← g2]
          exact c2
      · refine ⟨[], cs, fuel, q, ?_, ?_, by omega⟩
        · rw [e1, e2, e3]; rfl
        · rw [e1]; exact arrival_add_self _ _ _ _ _ _
  | @cancel cs b id hrun ih =>
    obtain ⟨ih1, ih2⟩ := ih
    have hreach := hrun.reachable
    obtain ⟨hr, hinv⟩ := hreach.good
    have hkeep : ∀ sd x, ((b.CancelOrder id).view.lv sd x).Sublist (b.view.lv sd x) := by
      intro sd x
      by_cases hlive : id ≥ MAX_ORDER_ID ∨ b.order_map_ id = none
      · rw [CancelOrder_absent b id hlive]
      · have hlt : id < MAX_ORDER_ID := by
          by_contra hh; exact hlive (Or.inl (by omega))
        rcases hm : b.order_map_ id with _ | s
        · exact absurd (Or.inr hm) hlive
        · obtain ⟨side, p, o, ho, _, _, _, _, _, hrc⟩ := CancelOrder_sim hr hinv.wf hlt hm
          rw [hrc.view_eq (aCancel_Inv hinv ho).wf, aCancel_lv]
          split
          · rename_i hc
            rw [hc.1, hc.2]
            exact List.erase_sublist _ _
          · exact List.Sublist.refl _
    constructor
    · intro sd x
      exact (ih1 sd x).sublist (hkeep sd x)
    · intro sd x u hu
      obtain ⟨pre, suf, fuel', q0, c1, c2, c3⟩ := ih2 sd x u ((hkeep sd x).subset hu)
      exact ⟨Call.cancel id :: pre, suf, fuel', q0, by rw [List.cons_append, ← c1], c2, c3⟩

/-- The resting phase removes no order. -/
theorem aRest_keeps {a a' : ABook} {id : Nat} {side : Side} {price q : Nat}
    (h : aRest a id side price q = some a') {sd : Side} {x : Nat} {u : AOrder}
    (hu : u ∈ a.lv sd x) : u ∈ a'.lv sd x := by
  unfold aRest at h
  split at h
  · rcases hf : a.free with _ | ⟨s, rest⟩
    · rw [hf] at h; cases h
    · rw [hf] at h
      simp only [Option.some.injEq] at h
      subst h
      show u ∈ (a.setLv side price (a.lv side price ++ [⟨s, id, q⟩])).lv sd x
      rw [ABook.setLv_lv]
      by_cases hc : sd = side ∧ x = price
      · rw [if_pos hc]
        rw [hc.1, hc.2] at hu
        exact List.mem_append_left _ hu
      · rw [if_neg hc]; exact hu
  · simp only [Option.some.injEq] at h
    subst h
    exact hu

/-- C3. Time priority within a level. For every valid call sequence `cs` leading
to a book `b`: (1) the list of every level is strictly increasing in arrival,
the position of the latest `AddOrder` call carrying the order's id, so of two
orders resting at the same side and price the one whose `AddOrder` came first
stands nearer the head; (2) that call is an `AddOrder` for the side and price
of the level the order rests in, with at least its quantity; (3) every further
valid `AddOrder` returns a book in which each level of the other side is its old
list without its first `k` orders, with at most the new first order reduced
(by less than its quantity), and in which an order that stood behind an order
that is still resting is still there with its quantity unchanged. -/
theorem C3_time_priority (cs : List Call) (b : OrderBookV6) (h : Run cs b) :
    (∀ side p, (b.levelOrders side p).Pairwise
      (fun u v => arrival cs u.id < arrival cs v.id)) ∧
    (∀ side p, ∀ u ∈ b.levelOrders side p, ∃ pre suf fuel q0,
      cs = pre ++ Call.add fuel u.id side p q0 :: suf ∧ arrival cs u.id = suf.length + 1 ∧
      u.qty ≤ q0) ∧
    (∀ id side p q, ValidAdd b id p q →
      ∃ b', (∀ fuel, q + 2 ≤ fuel → b.AddOrder fuel id side p q = .ok b') ∧
        (∀ fuel b'', b.AddOrder fuel id side p q = .ok b'' → b'' = b') ∧
        (∀ x, ∃ k, b'.levelOrders side.opp x = (b.levelOrders side.opp x).drop k ∨
          ∃ o t r, (b.levelOrders side.opp x).drop k = o :: t ∧
            b'.levelOrders side.opp x = { o with qty := o.qty - r } :: t ∧ 0 < r ∧ r < o.qty) ∧
        (∀ sd x l1 u l2 w l3, b.levelOrders sd x = l1 ++ u :: (l2 ++ w :: l3) →
          (∃ u' ∈ b'.levelOrders sd x, u'.id = u.id) → w ∈ b'.levelOrders sd x)) := by
  obtain ⟨s1, s2⟩ := h.sorted
  refine ⟨s1, s2, ?_⟩
  intro id side p q hv
  have hreach := h.reachable
  obtain ⟨a1, q1, a', b', hm, hrest, h1, h2, hr', hinv', hview, hinv1, hq1, hfresh1⟩ :=
    @AddOrder_run b hreach id side p q hv
  obtain ⟨hr, hinv⟩ := hreach.good
  obtain ⟨t1, _, _, _, _⟩ := aMatch_total side p _ _ _ _ _ hinv hm
  obtain ⟨_, _, hshape⟩ := aMatch_shape side p _ _ _ _ _ hinv hm
  have hopp := aRest_lv_opp hrest
  have hlev : ∀ sd x, b'.levelOrders sd x = a'.lv sd x := by
    intro sd x; rw [levelOrders_eq_view, hview]
  have hshape' : ∀ x, ∃ k, b'.levelOrders side.opp x = (b.levelOrders side.opp x).drop k ∨
      ∃ o t r, (b.levelOrders side.opp x).drop k = o :: t ∧
        b'.levelOrders side.opp x = { o with qty := o.qty - r } :: t ∧ 0 < r ∧ r < o.qty := by
    intro x
    rw [hlev, hopp]
    exact hshape x
  refine ⟨b', h1, h2, hshape', ?_⟩
  intro sd x l1 u l2 w l3 hl hu
  by_cases hs : sd = side
  · rw [hlev]
    apply aRest_keeps hrest
    rw [hs, t1]
    show w ∈ b.levelOrders side x
    rw [← hs, hl]
    simp
  · have hso := Side.eq_opp_of_ne hs
    rw [hso] at hl hu ⊢
    exact shape_keeps_later (hinv.wf.struct.nodup side.opp x)
      (fun u hu w hw e => (hinv.wf.struct.id_inj hu hw e).2.2) (hshape' x) hl hu

theorem exBook1_run : OrderBookV6.new.AddOrder 12 1 Side.BUY 100 10 = .ok exBook1 := by
  rfl

theorem exBook2_run : exBook1.AddOrder 7 2 Side.SELL 200 5 = .ok exBook2 := by
  rfl

theorem exBookMax_run : OrderBookV6.new.AddOrder 3 1 Side.BUY MAX_PRICE 1 = .ok exBookMax := by
  rfl

theorem exValid1 : ValidAdd OrderBookV6.new 1 100 10 :=
  ⟨by decide, by decide, by decide, by decide, rfl⟩

theorem exValid2 : ValidAdd exBook1 2 200 5 :=
  ⟨by decide, by decide, by decide, by decide, by rfl⟩

theorem exValidMax : ValidAdd OrderBookV6.new 1 MAX_PRICE 1 :=
  ⟨by decide, by decide, by decide, by decide, rfl⟩

theorem exReach1 : Reachable exBook1 :=
  Reachable.add 12 1 Side.BUY 100 10 Reachable.new exValid1 exBook1_run

theorem exReach2 : Reachable exBook2 :=
  Reachable.add 7 2 Side.SELL 200 5 exReach1 exValid2 exBook2_run

theorem exBookMax_best_bid : exBookMax.best_bid_ = 25000 := by rfl

theorem exBookMax_best_ask : exBookMax.best_ask_ = 25000 := by rfl

theorem exValid3 : ValidAdd exBook2 3 200 8 :=
  ⟨by decide, by decide, by decide, by decide, by rfl⟩

theorem exValid4 : ValidAdd exBook2 3 200 5 :=
  ⟨by decide, by decide, by decide, by decide, by rfl⟩

theorem exFifo1_run : OrderBookV6.new.AddOrder 7 1 Side.SELL 100 5 = .ok exFifo1 := by
  rfl

theorem exFifo2_run : exFifo1.AddOrder 7 2 Side.SELL 100 5 = .ok exFifo2 := by
  rfl

theorem exValidFifo1 : ValidAdd OrderBookV6.new 1 100 5 :=
  ⟨by decide, by decide, by decide, by decide, rfl⟩

theorem exValidFifo2 : ValidAdd exFifo1 2 100 5 :=
  ⟨by decide, by decide, by decide, by decide, by rfl⟩

theorem exRunFifo2 :
    Run [Call.add 7 2 Side.SELL 100 5, Call.add 7 1 Side.SELL 100 5] exFifo2 :=
  Run.add 7 2 Side.SELL 100 5 (Run.add 7 1 Side.SELL 100 5 Run.new exValidFifo1 exFifo1_run)
    exValidFifo2 exFifo2_run

theorem exFifo2_level :
    exFifo2.levelOrders Side.SELL 100 = [⟨2999999, 1, 5⟩, ⟨2999998, 2, 5⟩] := by
  rfl

theorem exNotMarketable1 : OrderBookV6.new.NotMarketable Side.BUY 100 := Or.inr rfl

theorem exNotMarketable2 : exBook1.NotMarketable Side.SELL 200 := by
  show 200 > exBook1.best_bid_ ∨ exBook1.best_bid_ = 0
  exact Or.inl (by decide)

/-- A single eligible level bounds the eligible quantity from below. -/
theorem eligibleQty_ge (b : OrderBookV6) (side : Side) (p x : Nat) (hx : x ≤ MAX_PRICE)
    (he : eligible side p x) : qsum (b.levelOrders side.opp x) ≤ b.eligibleQty side p := by
  unfold OrderBookV6.eligibleQty
  have hmem : x ∈ Finset.range (MAX_PRICE + 1) := Finset.mem_range.2 (by omega)
  have := Finset.single_le_sum
    (f := fun y => if eligible side p y then qsum (b.levelOrders side.opp y) else 0)
    (fun _ _ => Nat.zero_le _) hmem
  simp only [if_pos he] at this
  exact this

theorem exFull : 5 ≤ exBook2.eligibleQty Side.BUY 200 :=
  Nat.le_trans (by decide) (eligibleQty_ge exBook2 Side.BUY 200 200 (by decide) (by decide))

/-- C1 on the book with a bid of 10 at 100 and an ask of 5 at 200, for `Add(3, BUY, 200, 8)`. -/
theorem C1_add_trades_eligible_quantity_witness :
    Reachable exBook2 ∧ ValidAdd exBook2 3 200 8 ∧
    ∃ b', exBook2.AddOrder 10 3 Side.BUY 200 8 = .ok b' ∧
      b'.restingQty Side.SELL + min 8 (exBook2.eligibleQty Side.BUY 200) =
        exBook2.restingQty Side.SELL :=
  ⟨exReach2, exValid3,
    (C1_add_trades_eligible_quantity exBook2 exReach2 3 Side.BUY 200 8 exValid3).elim
      (fun b' hb => ⟨b', hb.1 10 (by decide), hb.2.2.1⟩)⟩

/-- C2 on the same book, for `Add(3, BUY, 200, 5)`. -/
theorem C2_price_priority_witness :
    Reachable exBook2 ∧ ValidAdd exBook2 3 200 5 ∧
    ∃ b', exBook2.AddOrder 7 3 Side.BUY 200 5 = .ok b' ∧
      ∀ x, b'.levelOrders Side.SELL x ≠ exBook2.levelOrders Side.SELL x →
        ∀ y, y < x → b'.levelOrders Side.SELL y = [] :=
  ⟨exReach2, exValid4,
    (C2_price_priority exBook2 exReach2 3 Side.BUY 200 5 exValid4).elim
      (fun b' hb => ⟨b', hb.1 7 (by decide), fun x hx y hy => (hb.2.2 x hx y hy).1⟩)⟩

/-- C3 on the run `Add(1, SELL, 100, 5)`, `Add(2, SELL, 100, 5)`: order 1 stands
before order 2 in `asks_[100]`. -/
theorem C3_time_priority_witness :
    Run [Call.add 7 2 Side.SELL 100 5, Call.add 7 1 Side.SELL 100 5] exFifo2 ∧
    exFifo2.levelOrders Side.SELL 100 = [⟨2999999, 1, 5⟩, ⟨2999998, 2, 5⟩] ∧
    ∀ side p, (exFifo2.levelOrders side p).Pairwise
      (fun u v =>
        arrival [Call.add 7 2 Side.SELL 100 5, Call.add 7 1 Side.SELL 100 5] u.id <
          arrival [Call.add 7 2 Side.SELL 100 5, Call.add 7 1 Side.SELL 100 5] v.id) :=
  ⟨exRunFifo2, exFifo2_level, (C3_time_priority _ exFifo2 exRunFifo2).1⟩

/-- C5 as stated fails: `Add(1, BUY, MAX_PRICE, 1)` on the empty book is valid,
rests, and leaves `best_bid_ = best_ask_ = MAX_PRICE`. -/
theorem C5_counterexample :
    ValidAdd OrderBookV6.new 1 MAX_PRICE 1 ∧
    OrderBookV6.new.AddOrder 3 1 Side.BUY MAX_PRICE 1 = .ok exBookMax ∧
    Reachable exBookMax ∧ exBookMax.best_bid_ = 25000 ∧ exBookMax.best_ask_ = 25000 ∧
    ¬ (∀ b, Reachable b → b.best_bid_ < b.best_ask_) := by
  have hreach : Reachable exBookMax :=
    Reachable.add 3 1 Side.BUY MAX_PRICE 1 Reachable.new exValidMax exBookMax_run
  refine ⟨exValidMax, exBookMax_run, hreach, exBookMax_best_bid, exBookMax_best_ask, ?_⟩
  intro hall
  have := hall exBookMax hreach
  rw [exBookMax_best_bid, exBookMax_best_ask] at this
  omega

/-- C6 on the book with a bid at 100 and an ask at 200: cancelling order 2. -/
theorem C6_cancel_live_order_witness :
    Reachable exBook2 ∧ exBook2.order_map_ 2 = some 2999998 ∧
    (exBook2.CancelOrder 2).order_map_ 2 = none ∧
    (exBook2.CancelOrder 2).order_pool_.free_list_ =
      2999998 :: exBook2.order_pool_.free_list_ :=
  ⟨exReach2, rfl,
    (C6_cancel_live_order exBook2 exReach2 2 2999998 rfl).elim
      (fun _ h1 => h1.elim (fun _ h2 => h2.elim (fun _ h3 =>
        ⟨h3.2.2.2.2.2.2.2.2.2.1, h3.2.2.2.2.2.2.2.2.2.2.2.1⟩)))⟩

/-- C7 on the empty book, for `Add(1, BUY, 100, 10)`. -/
theorem C7_rest_without_matching_witness :
    Reachable OrderBookV6.new ∧ ValidAdd OrderBookV6.new 1 100 10 ∧
    OrderBookV6.new.NotMarketable Side.BUY 100 ∧
    ∃ s rest b', OrderBookV6.new.AddOrder 12 1 Side.BUY 100 10 = .ok b' ∧
      OrderBookV6.new.order_pool_.free_list_ = s :: rest ∧
      b'.levelOrders Side.BUY 100 = OrderBookV6.new.levelOrders Side.BUY 100 ++ [⟨s, 1, 10⟩] ∧
      b'.order_map_ 1 = some s :=
  ⟨Reachable.new, exValid1, exNotMarketable1,
    (C7_rest_without_matching OrderBookV6.new Reachable.new 1 Side.BUY 100 10 exValid1
      exNotMarketable1).elim
      (fun s h1 => h1.elim (fun rest h2 => h2.elim (fun b' h3 =>
        ⟨s, rest, b', h3.1 12 (by decide), h3.2.2.1, h3.2.2.2.2.1,
          h3.2.2.2.2.2.2.2.2.2.2.1⟩)))⟩

/-- C8 on the book with a bid at 100: `Add(2, SELL, 200, 5)` then `Cancel(2)`. -/
theorem C8_add_then_cancel_round_trip_witness :
    Reachable exBook1 ∧ ValidAdd exBook1 2 200 5 ∧ exBook1.NotMarketable Side.SELL 200 ∧
    ∃ b', exBook1.AddOrder 7 2 Side.SELL 200 5 = .ok b' ∧ b'.CancelOrder 2 = exBook1 :=
  ⟨exReach1, exValid2, exNotMarketable2,
    (C8_add_then_cancel_round_trip exBook1 exReach1 2 Side.SELL 200 5 exValid2
      exNotMarketable2).elim
      (fun b' hb => ⟨b', hb.1 7 (by decide), hb.2.2.1⟩)⟩

/-- C10 on the book with a bid at 100 and an ask of 5 at 200, for `Add(3, BUY, 200, 5)`. -/
theorem C10_fully_filled_add_leaves_no_trace_witness :
    Reachable exBook2 ∧ ValidAdd exBook2 3 200 5 ∧ 5 ≤ exBook2.eligibleQty Side.BUY 200 ∧
    ∃ b', exBook2.AddOrder 7 3 Side.BUY 200 5 = .ok b' ∧ b'.order_map_ 3 = none ∧
      ∃ F : List AOrder, b'.order_pool_.free_list_ =
        (F.map AOrder.slot).reverse ++ exBook2.order_pool_.free_list_ :=
  ⟨exReach2, exValid4, exFull,
    (C10_fully_filled_add_leaves_no_trace exBook2 exReach2 3 Side.BUY 200 5 exValid4
      exFull).elim
      (fun b' h1 => h1.elim (fun F h2 =>
        ⟨b', h2.1 7 (by decide), h2.2.2.1, F, h2.2.2.2.2.2.1⟩))⟩

theorem exBig1_run : OrderBookV6.new.AddOrder 3 1 Side.BUY 100 2147483648 = .ok exBig1 := by
  rfl

theorem exBig2_run : exBig1.AddOrder 3 2 Side.BUY 100 2147483648 = .ok exBig2 := by
  rfl

theorem exValidBig1 : ValidAdd OrderBookV6.new 1 100 2147483648 :=
  ⟨by decide, by decide, by decide, by decide, rfl⟩

theorem exValidBig2 : ValidAdd exBig1 2 100 2147483648 :=
  ⟨by decide, by decide, by decide, by decide, by rfl⟩

theorem exReachBig1 : Reachable exBig1 :=
  Reachable.add 3 1 Side.BUY 100 2147483648 Reachable.new exValidBig1 exBig1_run

theorem exReachBig2 : Reachable exBig2 :=
  Reachable.add 3 2 Side.BUY 100 2147483648 exReachBig1 exValidBig2 exBig2_run

theorem exBig1_total : (exBig1.level Side.BUY 100).total_quantity = 2147483648 := by rfl

theorem exBig2_total : (exBig2.level Side.BUY 100).total_quantity = 0 := by rfl

theorem exBig2_cancel_total :
    ((exBig2.CancelOrder 2).level Side.BUY 100).total_quantity = 2147483648 := by rfl

/-- C6 as stated fails: after `Add(1, BUY, 100, 2^31)`, `Add(2, BUY, 100, 2^31)`
the 32-bit `total_quantity` of `bids_[100]` has wrapped to 0, and `Cancel(2)`
leaves it at `2^31`: it has not gone down by the quantity `2^31` of the record. -/
theorem C6_counterexample :
    Reachable exBig2 ∧ exBig2.order_map_ 2 = some 2999998 ∧
    (exBig2.pool 2999998).side = Side.BUY ∧ (exBig2.pool 2999998).price = 100 ∧
    (exBig2.pool 2999998).quantity = 2147483648 ∧
    (exBig2.level Side.BUY 100).total_quantity = 0 ∧
    ((exBig2.CancelOrder 2).level Side.BUY 100).total_quantity = 2147483648 ∧
    ¬ (∀ (b : OrderBookV6) (id s : Nat), Reachable b → b.order_map_ id = some s →
        ((b.CancelOrder id).level (b.pool s).side (b.pool s).price).total_quantity +
          (b.pool s).quantity =
        (b.level (b.pool s).side (b.pool s).price).total_quantity) := by
  refine ⟨exReachBig2, rfl, rfl, rfl, rfl, exBig2_total, exBig2_cancel_total, ?_⟩
  intro hall
  have h := hall exBig2 2 2999998 exReachBig2 rfl
  have e1 : (exBig2.pool 2999998).side = Side.BUY := rfl
  have e2 : (exBig2.pool 2999998).price = 100 := rfl
  have e3 : (exBig2.pool 2999998).quantity = 2147483648 := rfl
  rw [e1, e2, e3, exBig2_total, exBig2_cancel_total] at h
  omega

/-- C7 as stated fails: on the book after `Add(1, BUY, 100, 2^31)` the call
`Add(2, BUY, 100, 2^31)` is valid and not marketable, and takes the 32-bit
`total_quantity` of `bids_[100]` from `2^31` to 0, not to `2^31 + 2^31`. -/
theorem C7_counterexample :
    Reachable exBig1 ∧ ValidAdd exBig1 2 100 2147483648 ∧
    exBig1.NotMarketable Side.BUY 100 ∧
    exBig1.AddOrder 3 2 Side.BUY 100 2147483648 = .ok exBig2 ∧
    (exBig1.level Side.BUY 100).total_quantity = 2147483648 ∧
    (exBig2.level Side.BUY 100).total_quantity = 0 ∧
    ¬ (∀ (b b' : OrderBookV6) (fuel id : Nat) (side : Side) (p q : Nat), Reachable b →
        ValidAdd b id p q → b.NotMarketable side p → b.AddOrder fuel id side p q = .ok b' →
        (b'.level side p).total_quantity = (b.level side p).total_quantity + q) := by
  have hnm : exBig1.NotMarketable Side.BUY 100 := Or.inr rfl
  refine ⟨exReachBig1, exValidBig2, hnm, exBig2_run, exBig1_total, exBig2_total, ?_⟩
  intro hall
  have h := hall exBig1 exBig2 3 2 Side.BUY 100 2147483648 exReachBig1 exValidBig2 hnm
    exBig2_run
  rw [exBig1_total, exBig2_total] at h
  omega

theorem levelSlots_eq (b : OrderBookV6) (side : Side) (p : Nat) :
    b.levelSlots side p = (b.levelOrders side p).map AOrder.slot := by
  unfold OrderBookV6.levelOrders
  rw [List.map_map]
  conv_lhs => rw [← List.map_id (b.levelSlots side p)]
  rfl

theorem mem_levelSlots {b : OrderBookV6} {side : Side} {p s : Nat} :
    s ∈ b.levelSlots side p ↔ ∃ o ∈ b.view.lv side p, o.slot = s := by
  rw [levelSlots_eq]
  exact List.mem_map

/-- C11. Bitmap/level agreement: in every reachable book, for each side and every
price `p ≤ MAX_PRICE`, bit `p` of the side's bitmap (bit `p & 63` of word
`p >> 6`) is set if and only if the side's level at `p` has a non-null head. -/
theorem C11_bitmap_level_agreement (b : OrderBookV6) (h : Reachable b) (side : Side) (p : Nat)
    (_hp : p ≤ MAX_PRICE) :
    (bitAt (b.bitmap side) p = true ↔ (b.level side p).head ≠ none) ∧
    ((b.bitmap side (p >>> 6)).testBit (p &&& 63) = true ↔ (b.level side p).head ≠ none) ∧
    (bitAt b.bids_bitmap_ p = true ↔ (b.bids_ p).head ≠ none) ∧
    (bitAt b.asks_bitmap_ p = true ↔ (b.asks_ p).head ≠ none) := by
  obtain ⟨hr, _⟩ := h.good
  have key : ∀ sd, bitAt (b.bitmap sd) p = true ↔ (b.level sd p).head ≠ none := by
    intro sd
    rw [((hr.bits sd).2 p)]
    exact not_congr (head_eq_none_iff hr.core sd p).symm
  refine ⟨key side, ?_, key Side.BUY, key Side.SELL⟩
  rw [shr6, and63]
  exact key side

/-- `AddToList` adds the quantity of the appended record to the level's total. -/
theorem AddToList_total {b b' : OrderBookV6} {price order : Nat}
    (h : b.AddToList price order = .ok b') :
    (b'.level (b.pool order).side price).total_quantity =
      add32 (b.level (b.pool order).side price).total_quantity (b.pool order).quantity := by
  unfold AddToList at h
  simp only [] at h
  split at h
  · cases h
    simp
  · split at h
    · cases h
    · cases h
      rename_i t _
      by_cases e : order = t
      · subst e; simp
      · simp [e]

/-- One trade takes the same quantity from the record and from the level's total. -/
theorem trade_total (lside : Side) (lprice : Nat) (b : OrderBookV6) (cur q : Nat) :
    ((trade lside lprice b cur q).level lside lprice).total_quantity =
      sub32 (b.level lside lprice).total_quantity (min q (b.pool cur).quantity) ∧
    ((trade lside lprice b cur q).pool cur).quantity =
      sub32 (b.pool cur).quantity (min q (b.pool cur).quantity) := by
  unfold trade
  simp

/-- The level total of a represented book is the sum of its records modulo `2^32`. -/
theorem Rep.total {b : OrderBookV6} {a : ABook} (hr : Rep b a) (side : Side) (p : Nat) :
    (b.level side p).total_quantity = qsum (a.lv side p) % 2 ^ 32 := by
  rw [hr.core.levels]

theorem qsum_mem_le {l : List AOrder} {o : AOrder} (h : o ∈ l) : o.qty ≤ qsum l := by
  induction l with
  | nil => cases h
  | cons u t ih =>
    rw [qsum_cons]
    rcases List.mem_cons.1 h with e | e
    · rw [e]; omega
    · have := ih e; omega

/-- C12. Aggregate quantity: in every reachable book, for every level whose true
sum of resting quantities is below `2^32`, `total_quantity` equals the sum of the
`quantity` fields of the records in the level's list (0 for an empty level); and
the three paths that change it keep this: an append (`AddToList`) adds the
quantity of the appended record (exactly, when the sum stays below `2^32`), a
detach (`RemoveFromList`) of a record of the list takes exactly its quantity
away, and a match decrement takes the same `trade_quantity` from the record and
from the total. -/
theorem C12_aggregate_quantity (b : OrderBookV6) (h : Reachable b) (side : Side) (p : Nat)
    (hsum : qsum (b.levelOrders side p) < 2 ^ 32) :
    (b.level side p).total_quantity = qsum (b.levelOrders side p) ∧
    (b.level side p).total_quantity =
      ((b.levelSlots side p).map (fun s => (b.pool s).quantity)).sum ∧
    ((b.level side p).head = none → (b.level side p).total_quantity = 0) ∧
    (∀ order b', (b.pool order).side = side → b.AddToList p order = .ok b' →
      (b.level side p).total_quantity + (b.pool order).quantity < 2 ^ 32 →
      (b'.level side p).total_quantity =
        (b.level side p).total_quantity + (b.pool order).quantity) ∧
    (∀ s, s ∈ b.levelSlots side p →
      (b.pool s).quantity ≤ (b.level side p).total_quantity ∧
      ((b.RemoveFromList s).level side p).total_quantity =
        (b.level side p).total_quantity - (b.pool s).quantity) ∧
    (∀ cur q, cur ∈ b.levelSlots side p →
      ((trade side p b cur q).level side p).total_quantity =
        (b.level side p).total_quantity - min q (b.pool cur).quantity ∧
      ((trade side p b cur q).pool cur).quantity =
        (b.pool cur).quantity - min q (b.pool cur).quantity) := by
  obtain ⟨hr, hinv⟩ := h.good
  have htot : (b.level side p).total_quantity = qsum (b.levelOrders side p) := by
    rw [hr.total]
    exact Nat.mod_eq_of_lt hsum
  have hrec : ∀ s, s ∈ b.levelSlots side p →
      (b.pool s).side = side ∧ (b.pool s).price = p ∧
      (b.pool s).quantity ≤ (b.level side p).total_quantity ∧
      (b.pool s).quantity < 2 ^ 32 ∧
      (b.pool s).prev ≠ some s ∧ (b.pool s).next ≠ some s ∧
      ((b.pool s).prev = (b.pool s).next → (b.pool s).prev = none) := by
    intro s hs
    obtain ⟨o, ho, rfl⟩ := mem_levelSlots.1 hs
    have r := RepSeg_mem (hr.core.segs side p) ho
    have n := hr.core.neighbours hinv.wf.struct ho
    refine ⟨r.2.2.2, r.2.2.1, ?_, ?_, n.1, n.2.1, n.2.2⟩
    · rw [htot, r.2.1]; exact qsum_mem_le ho
    · rw [r.2.1]; exact hinv.wf.qty_lt _ _ _ ho
  refine ⟨htot, ?_, ?_, ?_, ?_, ?_⟩
  · rw [htot]
    unfold OrderBookV6.levelOrders qsum
    rw [List.map_map]
    rfl
  · intro hh
    rw [htot, levelOrders_eq_view, (head_eq_none_iff hr.core side p).1 hh]
    rfl
  · intro order b' hside hadd hlt
    have := AddToList_total hadd
    rw [hside] at this
    rw [this]
    unfold add32
    exact Nat.mod_eq_of_lt hlt
  · intro s hs
    obtain ⟨h1, h2, h3, h4, h5, h6, h7⟩ := hrec s hs
    refine ⟨h3, ?_⟩
    rw [level_RemoveFromList b s side p h5 h6 h7, if_pos ⟨h1.symm, h2.symm⟩]
    show sub32 _ _ = _
    have hlt : (b.level side p).total_quantity < 2 ^ 32 := by rw [htot]; exact hsum
    exact sub32_of_le _ _ h3 hlt
  · intro cur q hs
    obtain ⟨_, _, h3, h4, _, _, _⟩ := hrec cur hs
    have hlt : (b.level side p).total_quantity < 2 ^ 32 := by rw [htot]; exact hsum
    have hm : min q (b.pool cur).quantity ≤ (b.pool cur).quantity := Nat.min_le_right _ _
    obtain ⟨t1, t2⟩ := trade_total side p b cur q
    rw [t1, t2]
    exact ⟨sub32_of_le _ _ (by omega) hlt, sub32_of_le _ _ hm h4⟩

/-- C13. Order-index consistency: in every reachable book, an id with
`order_map_[id] = s` is in range, the record in slot `s` carries this id and a
positive quantity and is linked in the list of the level of its own side and
price; conversely every record linked in a level's list has the `order_map_`
entry of its id pointing to its slot. -/
theorem C13_order_index_consistency (b : OrderBookV6) (h : Reachable b) :
    (∀ id s, b.order_map_ id = some s →
      id < MAX_ORDER_ID ∧ s < MAX_ORDER_ID ∧ (b.pool s).order_id = id ∧
      0 < (b.pool s).quantity ∧ s ∈ b.levelSlots (b.pool s).side (b.pool s).price) ∧
    (∀ side p s, s ∈ b.levelSlots side p → b.order_map_ (b.pool s).order_id = some s) := by
  obtain ⟨hr, hinv⟩ := h.good
  constructor
  · intro id s hm
    obtain ⟨side, p, o, ho, hid, hs⟩ := (hr.core.omap id s).1 hm
    have r := RepSeg_mem (hr.core.segs side p) ho
    subst hs
    refine ⟨by rw [← hid]; exact hinv.wf.id_lt _ _ _ ho,
      (hinv.wf.cover o.slot).2 (Or.inr ⟨side, p, o, ho, rfl⟩), by rw [r.1, hid], ?_, ?_⟩
    · rw [r.2.1]; exact hinv.wf.qty_pos _ _ _ ho
    · rw [r.2.2.2, r.2.2.1]
      exact mem_levelSlots.2 ⟨o, ho, rfl⟩
  · intro side p s hs
    obtain ⟨o, ho, rfl⟩ := mem_levelSlots.1 hs
    have r := RepSeg_mem (hr.core.segs side p) ho
    exact (hr.core.omap _ _).2 ⟨side, p, o, ho, r.1.symm, rfl⟩

/-- C14. Arena partition: in every reachable book the free list has no
duplicates and holds only arena slots, every level list has no duplicates and
holds only arena slots, and every arena slot (`s < MAX_ORDER_ID`) is either on
the free list, exactly once, and in no level list, or off the free list and in
exactly one level list, exactly once there. -/
theorem C14_arena_partition (b : OrderBookV6) (h : Reachable b) :
    b.order_pool_.free_list_.Nodup ∧
    (∀ s, s ∈ b.order_pool_.free_list_ → s < MAX_ORDER_ID) ∧
    (∀ side p, (b.levelSlots side p).Nodup ∧ ∀ s, s ∈ b.levelSlots side p → s < MAX_ORDER_ID) ∧
    ∀ s, s < MAX_ORDER_ID →
      (b.order_pool_.free_list_.count s = 1 ∧ ∀ side p, s ∉ b.levelSlots side p) ∨
      (s ∉ b.order_pool_.free_list_ ∧
        ∃ side p, (b.levelSlots side p).count s = 1 ∧
          ∀ side' p', s ∈ b.levelSlots side' p' → side' = side ∧ p' = p) := by
  obtain ⟨hr, hinv⟩ := h.good
  have hfree : b.order_pool_.free_list_ = b.view.free := rfl
  have hnd : ∀ side p, (b.levelSlots side p).Nodup := by
    intro side p
    rw [levelSlots_eq]
    exact hinv.wf.struct.slots_nodup side p
  refine ⟨hinv.wf.free_nodup, ?_, ?_, ?_⟩
  · intro s hs
    exact (hinv.wf.cover s).2 (Or.inl hs)
  · intro side p
    refine ⟨hnd side p, ?_⟩
    intro s hs
    obtain ⟨o, ho, rfl⟩ := mem_levelSlots.1 hs
    exact (hinv.wf.cover o.slot).2 (Or.inr ⟨side, p, o, ho, rfl⟩)
  · intro s hs
    rcases (hinv.wf.cover s).1 hs with hf | ⟨side, p, o, ho, hos⟩
    · left
      refine ⟨List.count_eq_one_of_mem hinv.wf.free_nodup hf, ?_⟩
      intro side p hm
      obtain ⟨o, ho, hos⟩ := mem_levelSlots.1 hm
      exact hinv.wf.free_unused s hf ⟨side, p, o, ho, hos⟩
    · right
      have hm : s ∈ b.levelSlots side p := mem_levelSlots.2 ⟨o, ho, hos⟩
      refine ⟨fun hf => hinv.wf.free_unused s hf ⟨side, p, o, ho, hos⟩, side, p,
        List.count_eq_one_of_mem (hnd side p) hm, ?_⟩
      intro side' p' hm'
      obtain ⟨o', ho', hos'⟩ := mem_levelSlots.1 hm'
      have := hinv.wf.struct.slot_inj ho' ho (hos'.trans hos.symm)
      exact ⟨this.1, this.2.1⟩

theorem length_initFree (n : Nat) : (ObjectPool.initFree n).length = n := by
  induction n with
  | zero => rfl
  | succ n ih => rw [ObjectPool.initFree, List.length_cons, ih]

/-- As long as free slots are left, `k` calls take the top `k` slots of the free list. -/
theorem NewOrders_ok (k : Nat) (pool : ObjectPool) (hk : k ≤ pool.free_list_.length) :
    pool.NewOrders k =
      .ok (pool.free_list_.take k, { pool with free_list_ := pool.free_list_.drop k }) := by
  induction k generalizing pool with
  | zero => simp [ObjectPool.NewOrders]
  | succ k ih =>
    obtain ⟨pl, fl⟩ := pool
    cases fl with
    | nil => simp at hk
    | cons s rest =>
      have hk' : k ≤ rest.length := by simpa using hk
      simp only [ObjectPool.NewOrders, ObjectPool.NewOrder]
      rw [ih { pool_ := pl, free_list_ := rest } hk']
      simp

/-- One call more than there are free slots throws. -/
theorem NewOrders_exhausted (pool : ObjectPool) :
    pool.NewOrders (pool.free_list_.length + 1) = .error Error.ObjectPoolExhausted := by
  obtain ⟨pl, fl⟩ := pool
  induction fl with
  | nil => simp [ObjectPool.NewOrders, ObjectPool.NewOrder]
  | cons s rest ih =>
    simp only [List.length_cons]
    rw [ObjectPool.NewOrders]
    simp only [ObjectPool.NewOrder]
    have : ({ pool_ := pl, free_list_ := rest } : ObjectPool).NewOrders (rest.length + 1) =
        .error Error.ObjectPoolExhausted := ih
    rw [this]

/-- C15. `ObjectPool::NewOrder` throws (`ObjectPoolExhausted`, and nothing else)
if and only if the free list is empty; on a free list `s :: rest` it returns the
top slot `s` and a pool with the same records and the free list `rest`; a call
that throws returns no pool, so the pool is the one it was. -/
theorem C15_NewOrder_fails_iff_empty (pool : ObjectPool) :
    (pool.NewOrder = .error Error.ObjectPoolExhausted ↔ pool.free_list_ = []) ∧
    ((∃ e, pool.NewOrder = .error e) ↔ pool.free_list_ = []) ∧
    ((∃ r, pool.NewOrder = .ok r) ↔ pool.free_list_ ≠ []) ∧
    (∀ s rest, pool.free_list_ = s :: rest →
      pool.NewOrder = .ok (s, { pool_ := pool.pool_, free_list_ := rest })) ∧
    (∀ s pool', pool.NewOrder = .ok (s, pool') →
      pool.free_list_ = s :: pool'.free_list_ ∧ pool'.pool_ = pool.pool_) := by
  obtain ⟨pl, fl⟩ := pool
  cases fl with
  | nil => simp [ObjectPool.NewOrder]
  | cons s rest =>
    simp only [ObjectPool.NewOrder]
    refine ⟨by simp, by simp, by simp, ?_, ?_⟩
    · intro s' rest' e
      simp only [List.cons.injEq] at e
      rw [e.1, e.2]
    · intro s' pool' e
      simp only [Except.ok.injEq, Prod.mk.injEq] at e
      rw [← e.1, ← e.2]
      exact ⟨rfl, rfl⟩

/-- C16. Arena capacity: for every `n`, the free list of `ObjectPool(n)` holds
exactly the `n` slots `0 .. n-1`, each once; every run of `k ≤ n` `NewOrder`
calls returns; the first `n` calls return `n` pairwise distinct slots and leave
the free list empty, and the call after them throws. -/
theorem C16_arena_capacity (n : Nat) :
    (ObjectPool.new n).free_list_.length = n ∧ (ObjectPool.new n).free_list_.Nodup ∧
    (∀ s, s ∈ (ObjectPool.new n).free_list_ ↔ s < n) ∧
    (∀ k, k ≤ n → ∃ r, (ObjectPool.new n).NewOrders k = .ok r) ∧
    (∃ slots pool', (ObjectPool.new n).NewOrders n = .ok (slots, pool') ∧
      slots.length = n ∧ slots.Nodup ∧ (∀ s, s ∈ slots ↔ s < n) ∧
      pool'.free_list_ = [] ∧ pool'.NewOrder = .error Error.ObjectPoolExhausted) ∧
    (ObjectPool.new n).NewOrders (n + 1) = .error Error.ObjectPoolExhausted := by
  have hlen : (ObjectPool.new n).free_list_.length = n := length_initFree n
  refine ⟨hlen, nodup_initFree n, mem_initFree n, ?_, ?_, ?_⟩
  · intro k hk
    exact ⟨_, NewOrders_ok k _ (by rw [hlen]; exact hk)⟩
  · refine ⟨_, _, NewOrders_ok n _ (by rw [hlen]), ?_, ?_, ?_, ?_, ?_⟩
    · rw [List.length_take, hlen]; simp
    · exact (nodup_initFree n).sublist (List.take_sublist _ _)
    · intro s
      rw [List.take_of_length_le (by rw [hlen])]
      exact mem_initFree n s
    · show List.drop n (ObjectPool.new n).free_list_ = []
      exact List.drop_eq_nil_of_le (by rw [hlen])
    · show ObjectPool.NewOrder _ = _
      unfold ObjectPool.NewOrder
      have : List.drop n (ObjectPool.new n).free_list_ = [] :=
        List.drop_eq_nil_of_le (by rw [hlen])
      simp only [this]
  · have := NewOrders_exhausted (ObjectPool.new n)
    rw [hlen] at this
    exact this

/-- C17. `ObjectPool::DeleteOrder(s)` leaves in slot `s` the all-zero record
(`order_id` 0, `quantity` 0, `price` 0, `side` BUY, `next` and `prev` null),
puts `s` on top of the free list, and leaves every other slot as it was, so the
`NewOrder` that follows returns `s`, with the zero record in it and the old
free list left. -/
theorem C17_DeleteOrder_zeroes_and_pushes (pool : ObjectPool) (s : Nat) :
    (pool.DeleteOrder s).pool_ s =
      { order_id := 0, quantity := 0, price := 0, side := Side.BUY,
        next := none, prev := none } ∧
    (pool.DeleteOrder s).free_list_ = s :: pool.free_list_ ∧
    (∀ x, x ≠ s → (pool.DeleteOrder s).pool_ x = pool.pool_ x) ∧
    (∃ pool', (pool.DeleteOrder s).NewOrder = .ok (s, pool') ∧
      pool'.free_list_ = pool.free_list_ ∧
      pool'.pool_ s = HP_Order_V6.zero ∧
      ∀ x, x ≠ s → pool'.pool_ x = pool.pool_ x) := by
  refine ⟨?_, rfl, ?_, ?_⟩
  · show Function.update pool.pool_ s HP_Order_V6.zero s = _
    rw [Function.update_same]
    rfl
  · intro x hx
    show Function.update pool.pool_ s HP_Order_V6.zero x = _
    rw [Function.update_noteq hx]
  · refine ⟨{ pool_ := (pool.DeleteOrder s).pool_, free_list_ := pool.free_list_ }, rfl, rfl,
      ?_, ?_⟩
    · show Function.update pool.pool_ s HP_Order_V6.zero s = _
      rw [Function.update_same]
    · intro x hx
      show Function.update pool.pool_ s HP_Order_V6.zero x = _
      rw [Function.update_noteq hx]

theorem highestSetAtOrBelow_spec (bm : Nat → Nat) (p : Nat) :
    (bitAt bm (highestSetAtOrBelow bm p) = true ∧ highestSetAtOrBelow bm p ≤ p ∧
      ∀ x, x ≤ p → bitAt bm x = true → x ≤ highestSetAtOrBelow bm p) ∨
    (highestSetAtOrBelow bm p = 0 ∧ ∀ x, x ≤ p → bitAt bm x = false) := by
  induction p with
  | zero =>
    unfold highestSetAtOrBelow
    by_cases h0 : bitAt bm 0 = true
    · left; exact ⟨h0, Nat.le_refl _, fun x hx _ => hx⟩
    · right
      refine ⟨rfl, ?_⟩
      intro x hx
      have : x = 0 := by omega
      rw [this]; simpa using h0
  | succ p ih =>
    unfold highestSetAtOrBelow
    by_cases h1 : bitAt bm (p + 1) = true
    · left
      rw [if_pos h1]
      exact ⟨h1, Nat.le_refl _, fun x hx _ => hx⟩
    · rw [if_neg h1]
      rcases ih with ⟨i1, i2, i3⟩ | ⟨i1, i2⟩
      · left
        refine ⟨i1, by omega, ?_⟩
        intro x hx hb
        by_cases e : x = p + 1
        · rw [e] at hb; exact absurd hb h1
        · exact i3 x (by omega) hb
      · right
        refine ⟨i1, ?_⟩
        intro x hx
        by_cases e : x = p + 1
        · rw [e]; simpa using h1
        · exact i2 x (by omega)

theorem lowestSetFrom_spec (bm : Nat → Nat) (n p : Nat) :
    (bitAt bm (lowestSetFrom bm n p) = true ∧ p ≤ lowestSetFrom bm n p ∧
      lowestSetFrom bm n p < p + n ∧
      ∀ x, p ≤ x → x < p + n → bitAt bm x = true → lowestSetFrom bm n p ≤ x) ∨
    (lowestSetFrom bm n p = MAX_PRICE ∧ ∀ x, p ≤ x → x < p + n → bitAt bm x = false) := by
  induction n generalizing p with
  | zero =>
    right
    exact ⟨rfl, fun x h1 h2 => by omega⟩
  | succ n ih =>
    unfold lowestSetFrom
    by_cases h1 : bitAt bm p = true
    · left
      rw [if_pos h1]
      exact ⟨h1, Nat.le_refl _, by omega, fun x hx _ _ => hx⟩
    · rw [if_neg h1]
      rcases ih (p + 1) with ⟨i1, i2, i3, i4⟩ | ⟨i1, i2⟩
      · left
        refine ⟨i1, by omega, by omega, ?_⟩
        intro x hx hx2 hb
        by_cases e : x = p
        · rw [e] at hb; exact absurd hb h1
        · exact i4 x (by omega) (by omega) hb
      · right
        refine ⟨i1, ?_⟩
        intro x hx hx2
        by_cases e : x = p
        · rw [e]; simpa using h1
        · exact i2 x (by omega) (by omega)

/-- `scanDown` reads only the words below `index`. -/
theorem scanDown_congr {bm bm' : Nat → Nat} (index : Nat) (h : ∀ i, i < index → bm' i = bm i)
    (chunk : Nat) : scanDown bm' index chunk = scanDown bm index chunk := by
  induction index generalizing chunk with
  | zero => rfl
  | succ index ih =>
    unfold scanDown
    rw [h index (by omega), ih (fun i hi => h i (by omega))]

/-- `scanUp` reads only words below `BITMAP_SIZE`. -/
theorem scanUp_congr {bm bm' : Nat → Nat} (h : ∀ i, i < BITMAP_SIZE → bm' i = bm i)
    (n index chunk : Nat) : scanUp bm' n index chunk = scanUp bm n index chunk := by
  induction n generalizing index chunk with
  | zero => rfl
  | succ n ih =>
    unfold scanUp
    by_cases hc : chunk = 0
    · rw [if_pos hc, if_pos hc]
      by_cases hi : index + 1 ≥ BITMAP_SIZE
      · rw [if_pos hi, if_pos hi]
      · rw [if_neg hi, if_neg hi, h (index + 1) (by omega), ih]
    · rw [if_neg hc, if_neg hc]

theorem shr6_lt_BITMAP_SIZE {x : Nat} (h : x ≤ MAX_PRICE) : x >>> 6 < BITMAP_SIZE := by
  rw [shr6]
  exact div64_lt_BITMAP_SIZE h

/-- `UpdateBestBid` from a best at most `MAX_PRICE` reads only words of the vector. -/
theorem UpdateBestBid_congr (b : OrderBookV6) (hbb : b.best_bid_ ≤ MAX_PRICE)
    (bm' : Nat → Nat) (h : ∀ i, i < BITMAP_SIZE → bm' i = b.bids_bitmap_ i) :
    ({ b with bids_bitmap_ := bm' } : OrderBookV6).UpdateBestBid.best_bid_ =
      b.UpdateBestBid.best_bid_ := by
  have hi := shr6_lt_BITMAP_SIZE hbb
  show scanDown bm' (b.best_bid_ >>> 6) (bm' (b.best_bid_ >>> 6) &&& _) =
    scanDown b.bids_bitmap_ (b.best_bid_ >>> 6) (b.bids_bitmap_ (b.best_bid_ >>> 6) &&& _)
  rw [h _ hi, scanDown_congr _ (fun i hlt => h i (by omega))]

/-- `UpdateBestAsk` from a best at most `MAX_PRICE` reads only words of the vector. -/
theorem UpdateBestAsk_congr (b : OrderBookV6) (hba : b.best_ask_ ≤ MAX_PRICE)
    (bm' : Nat → Nat) (h : ∀ i, i < BITMAP_SIZE → bm' i = b.asks_bitmap_ i) :
    ({ b with asks_bitmap_ := bm' } : OrderBookV6).UpdateBestAsk.best_ask_ =
      b.UpdateBestAsk.best_ask_ := by
  have hi := shr6_lt_BITMAP_SIZE hba
  show scanUp bm' (BITMAP_SIZE - b.best_ask_ >>> 6) (b.best_ask_ >>> 6)
      (bm' (b.best_ask_ >>> 6) &&& _) =
    scanUp b.asks_bitmap_ (BITMAP_SIZE - b.best_ask_ >>> 6) (b.best_ask_ >>> 6)
      (b.asks_bitmap_ (b.best_ask_ >>> 6) &&& _)
  rw [h _ hi, scanUp_congr h]

theorem bitAt_wordsOf (bm : Nat → Nat) (x : Nat) :
    bitAt (wordsOf bm) x = (decide (x / 64 < BITMAP_SIZE) && bitAt bm x) := by
  unfold bitAt wordsOf
  by_cases h : x / 64 < BITMAP_SIZE
  · simp [h]
  · simp [h]

theorem wordsOf_lt (bm : Nat → Nat) (h : ∀ i, i < BITMAP_SIZE → bm i < 2 ^ 64) (i : Nat) :
    wordsOf bm i < 2 ^ 64 := by
  unfold wordsOf
  split
  · rename_i hi; exact h i hi
  · exact Nat.pow_pos (by decide)

/-- C18. `UpdateBestBid` computes "highest set bit at or below": for every bids
bitmap (of 64-bit words) and every `best_bid_ ≤ MAX_PRICE`, it changes nothing
but `best_bid_`, and the new `best_bid_` is the largest `p ≤` the old one whose
bit is set, or 0 if no bit at or below the old one is set; the word-wise mask
and count-leading-zeros computation gives what the bit-by-bit definition
`highestSetAtOrBelow` gives. -/
theorem C18_UpdateBestBid_highest_set_bit (b : OrderBookV6) (hbb : b.best_bid_ ≤ MAX_PRICE)
    (hbm : ∀ i, i < BITMAP_SIZE → b.bids_bitmap_ i < 2 ^ 64) :
    b.UpdateBestBid = { b with best_bid_ := highestSetAtOrBelow b.bids_bitmap_ b.best_bid_ } ∧
    ((bitAt b.bids_bitmap_ b.UpdateBestBid.best_bid_ = true ∧
        b.UpdateBestBid.best_bid_ ≤ b.best_bid_ ∧
        ∀ x, x ≤ b.best_bid_ → bitAt b.bids_bitmap_ x = true →
          x ≤ b.UpdateBestBid.best_bid_) ∨
      (b.UpdateBestBid.best_bid_ = 0 ∧
        ∀ x, x ≤ b.best_bid_ → bitAt b.bids_bitmap_ x = false)) := by
  have hin : ∀ x, x ≤ b.best_bid_ →
      bitAt (wordsOf b.bids_bitmap_) x = bitAt b.bids_bitmap_ x := by
    intro x hx
    rw [bitAt_wordsOf]
    have : x / 64 < BITMAP_SIZE := div64_lt_BITMAP_SIZE (by omega)
    simp [this]
  have e := UpdateBestBid_congr b hbb (wordsOf b.bids_bitmap_)
    (fun i hi => by unfold wordsOf; rw [if_pos hi])
  have spec := UpdateBestBid_spec ({ b with bids_bitmap_ := wordsOf b.bids_bitmap_ } : OrderBookV6)
    (wordsOf_lt _ hbm)
  rw [e] at spec
  have spec' : (bitAt b.bids_bitmap_ b.UpdateBestBid.best_bid_ = true ∧
        b.UpdateBestBid.best_bid_ ≤ b.best_bid_ ∧
        ∀ x, x ≤ b.best_bid_ → bitAt b.bids_bitmap_ x = true →
          x ≤ b.UpdateBestBid.best_bid_) ∨
      (b.UpdateBestBid.best_bid_ = 0 ∧
        ∀ x, x ≤ b.best_bid_ → bitAt b.bids_bitmap_ x = false) := by
    rcases spec with ⟨s1, s2, s3⟩ | ⟨s1, s2⟩
    · left
      have s2' : b.UpdateBestBid.best_bid_ ≤ b.best_bid_ := s2
      refine ⟨by rw [← hin _ s2']; exact s1, s2', ?_⟩
      intro x hx hb
      exact s3 x hx (by rw [hin x hx]; exact hb)
    · right
      refine ⟨s1, ?_⟩
      intro x hx
      rw [← hin x hx]
      exact s2 x hx
  refine ⟨?_, spec'⟩
  have heq : b.UpdateBestBid.best_bid_ = highestSetAtOrBelow b.bids_bitmap_ b.best_bid_ := by
    rcases spec' with ⟨s1, s2, s3⟩ | ⟨s1, s2⟩ <;>
      rcases highestSetAtOrBelow_spec b.bids_bitmap_ b.best_bid_ with ⟨t1, t2, t3⟩ | ⟨t1, t2⟩
    · exact Nat.le_antisymm (t3 _ s2 s1) (s3 _ t2 t1)
    · rw [t2 _ s2] at s1; cases s1
    · rw [s2 _ t2] at t1; cases t1
    · rw [s1, t1]
  show ({ b with best_bid_ := b.UpdateBestBid.best_bid_ } : OrderBookV6) = _
  rw [heq]

/-- C19. `UpdateBestAsk` computes "lowest set bit at or above": for every asks
bitmap (of 64-bit words) with no bit set above `MAX_PRICE` and every
`best_ask_ ≤ MAX_PRICE`, it changes nothing but `best_ask_`, and the new
`best_ask_` is the smallest `p ≥` the old one whose bit is set (what the
bit-by-bit definition `lowestSetAtOrAbove` gives), or `MAX_PRICE` if there is
none; the result does not depend on any word at an index `≥ BITMAP_SIZE`, so
none is read. -/
theorem C19_UpdateBestAsk_lowest_set_bit (b : OrderBookV6) (hba : b.best_ask_ ≤ MAX_PRICE)
    (hbm : ∀ i, i < BITMAP_SIZE → b.asks_bitmap_ i < 2 ^ 64)
    (hhi : ∀ x, MAX_PRICE < x → x / 64 < BITMAP_SIZE → bitAt b.asks_bitmap_ x = false) :
    b.UpdateBestAsk = { b with best_ask_ := lowestSetAtOrAbove b.asks_bitmap_ b.best_ask_ } ∧
    ((bitAt b.asks_bitmap_ b.UpdateBestAsk.best_ask_ = true ∧
        b.best_ask_ ≤ b.UpdateBestAsk.best_ask_ ∧ b.UpdateBestAsk.best_ask_ ≤ MAX_PRICE ∧
        ∀ x, b.best_ask_ ≤ x → x ≤ MAX_PRICE → bitAt b.asks_bitmap_ x = true →
          b.UpdateBestAsk.best_ask_ ≤ x) ∨
      (b.UpdateBestAsk.best_ask_ = MAX_PRICE ∧
        ∀ x, b.best_ask_ ≤ x → x ≤ MAX_PRICE → bitAt b.asks_bitmap_ x = false)) ∧
    (∀ bm' : Nat → Nat, (∀ i, i < BITMAP_SIZE → bm' i = b.asks_bitmap_ i) →
      ({ b with asks_bitmap_ := bm' } : OrderBookV6).UpdateBestAsk.best_ask_ =
        b.UpdateBestAsk.best_ask_) := by
  have hin : ∀ x, x ≤ MAX_PRICE →
      bitAt (wordsOf b.asks_bitmap_) x = bitAt b.asks_bitmap_ x := by
    intro x hx
    rw [bitAt_wordsOf]
    have : x / 64 < BITMAP_SIZE := div64_lt_BITMAP_SIZE hx
    simp [this]
  have hset : ∀ x, bitAt (wordsOf b.asks_bitmap_) x = true →
      x / 64 < BITMAP_SIZE ∧ bitAt b.asks_bitmap_ x = true ∧ x ≤ MAX_PRICE := by
    intro x hx
    rw [bitAt_wordsOf] at hx
    simp only [Bool.and_eq_true, decide_eq_true_eq] at hx
    refine ⟨hx.1, hx.2, ?_⟩
    by_contra hgt
    have := hhi x (by omega) hx.1
    rw [hx.2] at this
    cases this
  have e := UpdateBestAsk_congr b hba (wordsOf b.asks_bitmap_)
    (fun i hi => by unfold wordsOf; rw [if_pos hi])
  have spec := UpdateBestAsk_spec ({ b with asks_bitmap_ := wordsOf b.asks_bitmap_ } : OrderBookV6)
    (wordsOf_lt _ hbm) (fun x hx => (hset x hx).1)
  rw [e] at spec
  have spec' : (bitAt b.asks_bitmap_ b.UpdateBestAsk.best_ask_ = true ∧
        b.best_ask_ ≤ b.UpdateBestAsk.best_ask_ ∧ b.UpdateBestAsk.best_ask_ ≤ MAX_PRICE ∧
        ∀ x, b.best_ask_ ≤ x → x ≤ MAX_PRICE → bitAt b.asks_bitmap_ x = true →
          b.UpdateBestAsk.best_ask_ ≤ x) ∨
      (b.UpdateBestAsk.best_ask_ = MAX_PRICE ∧
        ∀ x, b.best_ask_ ≤ x → x ≤ MAX_PRICE → bitAt b.asks_bitmap_ x = false) := by
    rcases spec with ⟨s1, s2, s3⟩ | ⟨s1, s2⟩
    · left
      obtain ⟨_, h2, h3⟩ := hset _ s1
      refine ⟨h2, s2, h3, ?_⟩
      intro x hx hx2 hb
      exact s3 x hx (by rw [hin x hx2]; exact hb)
    · right
      refine ⟨s1, ?_⟩
      intro x hx hx2
      rw [← hin x hx2]
      exact s2 x hx
  refine ⟨?_, spec', fun bm' h => UpdateBestAsk_congr b hba bm' h⟩
  have heq : b.UpdateBestAsk.best_ask_ = lowestSetAtOrAbove b.asks_bitmap_ b.best_ask_ := by
    unfold lowestSetAtOrAbove
    rcases spec' with ⟨s1, s2, s3, s4⟩ | ⟨s1, s2⟩ <;>
      rcases lowestSetFrom_spec b.asks_bitmap_ (MAX_PRICE + 1 - b.best_ask_) b.best_ask_ with
        ⟨t1, t2, t3, t4⟩ | ⟨t1, t2⟩
    · exact Nat.le_antisymm (s4 _ t2 (by omega) t1) (t4 _ s2 (by omega) s1)
    · rw [t2 _ s2 (by omega)] at s1; cases s1
    · rw [s2 _ t2 (by omega)] at t1; cases t1
    · rw [s1, t1]
  show ({ b with best_ask_ := b.UpdateBestAsk.best_ask_ } : OrderBookV6) = _
  rw [heq]

/-- The links of a record inside a segment. -/
theorem RepSeg_links {pool : Nat → HP_Order_V6} {side : Side} {p : Nat}
    {prev nxt : Option Nat} {l1 l2 : List AOrder} {o : AOrder}
    (hr : RepSeg pool side p prev (l1 ++ o :: l2) nxt) :
    (pool o.slot).next = headSlot l2 nxt ∧ (pool o.slot).prev = lastSlot l1 prev := by
  rw [RepSeg_append, RepSeg_cons] at hr
  rw [hr.2.1]
  exact ⟨rfl, rfl⟩

theorem head?_map_slot (l : List AOrder) : (l.map AOrder.slot).head? = headSlot l none := by
  cases l <;> rfl

theorem lastSlot_eq_getLast? (l : List AOrder) (hl : l ≠ []) (prev : Option Nat) :
    lastSlot l prev = (l.map AOrder.slot).getLast? := by
  induction l generalizing prev with
  | nil => exact absurd rfl hl
  | cons o t ih =>
    cases t with
    | nil => rfl
    | cons u t =>
      rw [lastSlot_cons, ih (by simp)]
      simp only [List.map_cons, List.getLast?_cons_cons]

theorem getLast?_map_slot (l : List AOrder) :
    (l.map AOrder.slot).getLast? = lastSlot l none := by
  cases l with
  | nil => rfl
  | cons o t => exact (lastSlot_eq_getLast? _ (by simp) none).symm

theorem lastSlot_none_iff (l : List AOrder) : lastSlot l none = none ↔ l = [] := by
  constructor
  · intro h
    cases l with
    | nil => rfl
    | cons o t =>
      exfalso
      obtain ⟨x, _, hx⟩ := lastSlot_some_of_ne_nil (l := o :: t) (by simp) none
      rw [hx] at h
      cases h
  · intro h; rw [h]; rfl

/-- Along a segment every record's `next` is the slot that follows it. -/
theorem RepSeg_chain {pool : Nat → HP_Order_V6} {side : Side} {p : Nat} {l : List AOrder} :
    ∀ {prev nxt : Option Nat}, RepSeg pool side p prev l nxt →
      List.Chain' (fun r n => (pool r).next = some n) (l.map AOrder.slot) := by
  induction l with
  | nil => intro _ _ _; exact List.chain'_nil
  | cons o t ih =>
    intro prev nxt hr
    rw [List.map_cons, List.chain'_cons']
    refine ⟨?_, ih hr.2⟩
    intro y hy
    rw [hr.1]
    cases t with
    | nil => cases hy
    | cons u t =>
      simp only [List.map_cons, List.head?_cons, Option.mem_def, Option.some.injEq] at hy
      rw [← hy]
      rfl

/-- C20. Intrusive list well-formedness: in every reachable book, for every
level, with `levelSlots` the slots met from `head` along `next`: `head` is null
iff `tail` is null iff the list is empty; the list starts at `head` and ends at
`tail`; it has no slot twice and the walk along `next` stops by itself
(whatever bound at least the length is given), so it is finite and acyclic;
each record's `next` is the slot after it; `head.prev` and `tail.next` are
null; `prev` is the exact inverse of `next` on the list; and every record
carries the level's own side and price. -/
theorem C20_list_well_formed (b : OrderBookV6) (h : Reachable b) (side : Side) (p : Nat) :
    ((b.level side p).head = none ↔ (b.level side p).tail = none) ∧
    ((b.level side p).head = none ↔ b.levelSlots side p = []) ∧
    (b.levelSlots side p).head? = (b.level side p).head ∧
    (b.levelSlots side p).getLast? = (b.level side p).tail ∧
    (b.levelSlots side p).Nodup ∧ (b.levelSlots side p).length ≤ MAX_ORDER_ID ∧
    (∀ fuel, (b.levelSlots side p).length ≤ fuel →
      walk b.pool fuel (b.level side p).head = b.levelSlots side p) ∧
    List.Chain' (fun r n => (b.pool r).next = some n) (b.levelSlots side p) ∧
    (∀ hd, (b.level side p).head = some hd → (b.pool hd).prev = none) ∧
    (∀ tl, (b.level side p).tail = some tl → (b.pool tl).next = none) ∧
    (∀ r, r ∈ b.levelSlots side p → ∀ n, (b.pool r).next = some n →
      n ∈ b.levelSlots side p ∧ (b.pool n).prev = some r) ∧
    (∀ r, r ∈ b.levelSlots side p → ∀ m, (b.pool r).prev = some m →
      m ∈ b.levelSlots side p ∧ (b.pool m).next = some r) ∧
    (∀ r, r ∈ b.levelSlots side p → (b.pool r).side = side ∧ (b.pool r).price = p) := by
  obtain ⟨hr, hinv⟩ := h.good
  have hseg := hr.core.segs side p
  have hhead : (b.level side p).head = headSlot (b.view.lv side p) none := by
    rw [hr.core.levels]
  have htail : (b.level side p).tail = lastSlot (b.view.lv side p) none := by
    rw [hr.core.levels]
  have hslots : b.levelSlots side p = (b.view.lv side p).map AOrder.slot := levelSlots_eq b side p
  have hnd : ((b.view.lv side p).map AOrder.slot).Nodup := hinv.wf.struct.slots_nodup side p
  have hlen : ((b.view.lv side p).map AOrder.slot).length ≤ MAX_ORDER_ID := by
    refine length_le_of_nodup_lt hnd ?_
    intro x hx
    obtain ⟨o, ho, rfl⟩ := List.mem_map.1 hx
    exact (hinv.wf.cover o.slot).2 (Or.inr ⟨side, p, o, ho, rfl⟩)
  have hhn : (b.level side p).head = none ↔ b.view.lv side p = [] :=
    head_eq_none_iff hr.core side p
  have hsplit : ∀ r, r ∈ (b.view.lv side p).map AOrder.slot →
      ∃ l1 o l2, b.view.lv side p = l1 ++ o :: l2 ∧ o.slot = r := by
    intro r hr'
    obtain ⟨o, ho, hos⟩ := List.mem_map.1 hr'
    obtain ⟨l1, l2, hl⟩ := List.append_of_mem ho
    exact ⟨l1, o, l2, hl, hos⟩
  rw [hslots]
  refine ⟨?_, ?_, ?_, ?_, hnd, hlen, ?_, RepSeg_chain hseg, ?_, ?_, ?_, ?_, ?_⟩
  · rw [hhn, htail, lastSlot_none_iff]
  · rw [hhn]
    constructor
    · intro e; rw [e]; rfl
    · intro e; exact List.map_eq_nil_iff.1 e
  · rw [hhead, head?_map_slot]
  · rw [htail, getLast?_map_slot]
  · intro fuel hf
    rw [hhead]
    exact walk_RepSeg hseg (by simpa using hf)
  · intro hd hh
    rw [hhead] at hh
    rcases hl : b.view.lv side p with _ | ⟨o, t⟩
    · rw [hl] at hh; cases hh
    · rw [hl] at hh hseg
      simp only [headSlot_cons, Option.some.injEq] at hh
      rw [← hh, hseg.1]
  · intro tl ht
    rw [htail] at ht
    rcases List.eq_nil_or_concat (b.view.lv side p) with hl | ⟨l1, o, hl⟩
    · rw [hl] at ht; cases ht
    · rw [hl, List.concat_eq_append] at ht hseg
      rw [lastSlot_append] at ht
      simp only [lastSlot_cons, lastSlot_nil, Option.some.injEq] at ht
      rw [← ht, (RepSeg_links hseg).1]
      rfl
  · intro r hr' n hn
    obtain ⟨l1, o, l2, hl, rfl⟩ := hsplit r hr'
    rw [hl] at hseg ⊢
    rw [(RepSeg_links hseg).1] at hn
    cases l2 with
    | nil => cases hn
    | cons u l2 =>
      simp only [headSlot_cons, Option.some.injEq] at hn
      subst hn
      refine ⟨by simp, ?_⟩
      have hseg' : RepSeg b.pool side p none ((l1 ++ [o]) ++ u :: l2) none := by
        rw [List.append_assoc]; exact hseg
      rw [(RepSeg_links hseg').2, lastSlot_append]
      rfl
  · intro r hr' m hm
    obtain ⟨l1, o, l2, hl, rfl⟩ := hsplit r hr'
    rw [hl] at hseg ⊢
    rw [(RepSeg_links hseg).2] at hm
    rcases List.eq_nil_or_concat l1 with h1 | ⟨l0, u, h1⟩
    · rw [h1] at hm; cases hm
    · rw [h1, List.concat_eq_append] at hm hseg ⊢
      rw [lastSlot_append] at hm
      simp only [lastSlot_cons, lastSlot_nil, Option.some.injEq] at hm
      subst hm
      refine ⟨by simp, ?_⟩
      have hseg' : RepSeg b.pool side p none (l0 ++ u :: (o :: l2)) none := by
        rw [List.append_assoc] at hseg; exact hseg
      rw [(RepSeg_links hseg').1]
      rfl
  · intro r hr'
    obtain ⟨o, ho, rfl⟩ := List.mem_map.1 hr'
    have := RepSeg_mem hseg ho
    exact ⟨this.2.2.2, this.2.2.1⟩

/-- In a reachable book the bitmap words fit 64 bits. -/
theorem Reachable.words_lt {b : OrderBookV6} (h : Reachable b) (side : Side) (i : Nat) :
    b.bitmap side i < 2 ^ 64 :=
  (h.good.1.bits side).1 i

/-- In a reachable book no bit above `MAX_PRICE` is set. -/
theorem Reachable.no_high_bit {b : OrderBookV6} (h : Reachable b) (side : Side) (x : Nat)
    (hx : MAX_PRICE < x) : bitAt (b.bitmap side) x = false := by
  obtain ⟨hr, hinv⟩ := h.good
  cases hb : bitAt (b.bitmap side) x with
  | false => rfl
  | true =>
    have := hinv.wf.price_le side x (((hr.bits side).2 x).1 hb)
    omega

theorem exFifo2_reach : Reachable exFifo2 := exRunFifo2.reachable

theorem exFifo2_sum : qsum (exFifo2.levelOrders Side.SELL 100) < 2 ^ 32 := by
  rw [exFifo2_level]
  decide

/-- C11 on the book with a bid at 100 and an ask at 200, at the bid level 100. -/
theorem C11_bitmap_level_agreement_witness :
    Reachable exBook2 ∧ 100 ≤ MAX_PRICE ∧
    (bitAt exBook2.bids_bitmap_ 100 = true ↔ (exBook2.bids_ 100).head ≠ none) ∧
    bitAt exBook2.bids_bitmap_ 100 = true :=
  ⟨exReach2, by decide,
    (C11_bitmap_level_agreement exBook2 exReach2 Side.BUY 100 (by decide)).2.2.1, by rfl⟩

/-- C12 on the book with two asks of 5 at 100: the total of `asks_[100]` is 10. -/
theorem C12_aggregate_quantity_witness :
    Reachable exFifo2 ∧ qsum (exFifo2.levelOrders Side.SELL 100) < 2 ^ 32 ∧
    (exFifo2.level Side.SELL 100).total_quantity = qsum (exFifo2.levelOrders Side.SELL 100) ∧
    (exFifo2.level Side.SELL 100).total_quantity = 10 :=
  ⟨exFifo2_reach, exFifo2_sum,
    (C12_aggregate_quantity exFifo2 exFifo2_reach Side.SELL 100 exFifo2_sum).1, by rfl⟩

/-- C13 on the book with a bid at 100 and an ask at 200, for order 2. -/
theorem C13_order_index_consistency_witness :
    Reachable exBook2 ∧ exBook2.order_map_ 2 = some 2999998 ∧
    (exBook2.pool 2999998).order_id = 2 ∧ 0 < (exBook2.pool 2999998).quantity ∧
    2999998 ∈ exBook2.levelSlots (exBook2.pool 2999998).side (exBook2.pool 2999998).price :=
  ⟨exReach2, rfl,
    ((C13_order_index_consistency exBook2 exReach2).1 2 2999998 rfl).2.2.1,
    ((C13_order_index_consistency exBook2 exReach2).1 2 2999998 rfl).2.2.2.1,
    ((C13_order_index_consistency exBook2 exReach2).1 2 2999998 rfl).2.2.2.2⟩

/-- C14 on the book with a bid at 100 and an ask at 200: slot 2999998 holds
order 2, slot 0 is free. -/
theorem C14_arena_partition_witness :
    Reachable exBook2 ∧ exBook2.order_pool_.free_list_.Nodup ∧
    ((exBook2.order_pool_.free_list_.count 0 = 1 ∧
        ∀ side p, 0 ∉ exBook2.levelSlots side p) ∨
      (0 ∉ exBook2.order_pool_.free_list_ ∧
        ∃ side p, (exBook2.levelSlots side p).count 0 = 1 ∧
          ∀ side' p', 0 ∈ exBook2.levelSlots side' p' → side' = side ∧ p' = p)) :=
  ⟨exReach2, (C14_arena_partition exBook2 exReach2).1,
    (C14_arena_partition exBook2 exReach2).2.2.2 0 (by decide)⟩

/-- C18 on the book with a bid at 100 and a stale `best_bid_` of 5000: the scan
comes down to 100. -/
theorem C18_UpdateBestBid_highest_set_bit_witness :
    (5000 ≤ MAX_PRICE) ∧
    ({ exBook2 with best_bid_ := 5000 } : OrderBookV6).UpdateBestBid =
      { exBook2 with best_bid_ := highestSetAtOrBelow exBook2.bids_bitmap_ 5000 } ∧
    ({ exBook2 with best_bid_ := 5000 } : OrderBookV6).UpdateBestBid.best_bid_ = 100 :=
  ⟨by decide,
    (C18_UpdateBestBid_highest_set_bit ({ exBook2 with best_bid_ := 5000 } : OrderBookV6)
      (by decide) (fun i _ => exReach2.words_lt Side.BUY i)).1, by rfl⟩

/-- C19 on the book with an ask at 200 and a stale `best_ask_` of 0: the scan
comes up to 200. -/
theorem C19_UpdateBestAsk_lowest_set_bit_witness :
    (0 ≤ MAX_PRICE) ∧
    ({ exBook2 with best_ask_ := 0 } : OrderBookV6).UpdateBestAsk =
      { exBook2 with best_ask_ := lowestSetAtOrAbove exBook2.asks_bitmap_ 0 } ∧
    ({ exBook2 with best_ask_ := 0 } : OrderBookV6).UpdateBestAsk.best_ask_ = 200 :=
  ⟨by decide,
    (C19_UpdateBestAsk_lowest_set_bit ({ exBook2 with best_ask_ := 0 } : OrderBookV6)
      (by decide) (fun i _ => exReach2.words_lt Side.SELL i)
      (fun x hx _ => exReach2.no_high_bit Side.SELL x hx)).1, by rfl⟩

/-- C20 on the book with two asks at 100: the list of `asks_[100]`. -/
theorem C20_list_well_formed_witness :
    Reachable exFifo2 ∧
    exFifo2.levelSlots Side.SELL 100 = [2999999, 2999998] ∧
    (exFifo2.levelSlots Side.SELL 100).head? = (exFifo2.level Side.SELL 100).head ∧
    (exFifo2.levelSlots Side.SELL 100).getLast? = (exFifo2.level Side.SELL 100).tail ∧
    (exFifo2.levelSlots Side.SELL 100).Nodup :=
  ⟨exFifo2_reach, by rfl,
    (C20_list_well_formed exFifo2 exFifo2_reach Side.SELL 100).2.2.1,
    (C20_list_well_formed exFifo2 exFifo2_reach Side.SELL 100).2.2.2.1,
    (C20_list_well_formed exFifo2 exFifo2_reach Side.SELL 100).2.2.2.2.1⟩

/-! ## C21: the 32-bit level total wraps -/

theorem exBig2_level :
    exBig2.levelOrders Side.BUY 100 = [⟨2999999, 1, 2147483648⟩, ⟨2999998, 2, 2147483648⟩] := by
  rfl

theorem exNotMarketableBig1 : exBig1.NotMarketable Side.BUY 100 := by
  unfold OrderBookV6.NotMarketable
  decide

/-- C21. Aggregate overflow: the two calls `Add(1, BUY, 100, 2^31)` and
`Add(2, BUY, 100, 2^31)` from the empty book satisfy every precondition and
neither matches; afterwards the list of `bids_[100]` holds the two records, whose
quantities sum to `2^32`, while the 32-bit `total_quantity` of the level reads 0:
it has wrapped and differs from the true sum, on a non-empty level. In every
reachable book, for every side and price, `total_quantity` is the sum of the
quantities of the records in the level's list modulo `2^32`. -/
theorem C21_aggregate_overflow :
    (ValidAdd OrderBookV6.new 1 100 (2 ^ 31) ∧
      OrderBookV6.new.NotMarketable Side.BUY 100 ∧
      OrderBookV6.new.AddOrder 3 1 Side.BUY 100 (2 ^ 31) = .ok exBig1 ∧
      ValidAdd exBig1 2 100 (2 ^ 31) ∧
      exBig1.NotMarketable Side.BUY 100 ∧
      exBig1.AddOrder 3 2 Side.BUY 100 (2 ^ 31) = .ok exBig2 ∧
      Reachable exBig2 ∧
      exBig2.levelOrders Side.BUY 100 = [⟨2999999, 1, 2 ^ 31⟩, ⟨2999998, 2, 2 ^ 31⟩] ∧
      qsum (exBig2.levelOrders Side.BUY 100) = 2 ^ 32 ∧
      (exBig2.level Side.BUY 100).head ≠ none ∧
      (exBig2.level Side.BUY 100).total_quantity = 0 ∧
      (exBig2.level Side.BUY 100).total_quantity ≠ qsum (exBig2.levelOrders Side.BUY 100)) ∧
    ∀ b : OrderBookV6, Reachable b → ∀ (side : Side) (p : Nat),
      (b.level side p).total_quantity = qsum (b.levelOrders side p) % 2 ^ 32 := by
  have hsum : qsum (exBig2.levelOrders Side.BUY 100) = 2 ^ 32 := by
    rw [exBig2_level]; decide
  refine ⟨⟨exValidBig1, exNotMarketable1, exBig1_run, exValidBig2, exNotMarketableBig1,
    exBig2_run, exReachBig2, exBig2_level, hsum, ?_, exBig2_total, ?_⟩, ?_⟩
  · intro h
    have : (exBig2.level Side.BUY 100).head = some 2999999 := rfl
    rw [this] at h
    cases h
  · rw [exBig2_total, hsum]
    decide
  · intro b h side p
    exact h.good.1.total side p

/-- The slots in use and the live ids are as many. -/
theorem inUseCount_eq_liveCount {b : OrderBookV6} {a : ABook} (hr : Rep b a) (hwf : a.WF) :
    b.inUseCount = b.liveCount := by
  unfold OrderBookV6.inUseCount OrderBookV6.liveCount
  symm
  refine Finset.card_bij (fun id _ => (b.order_map_ id).getD 0) ?_ ?_ ?_
  · intro id hid
    rw [Finset.mem_filter] at hid
    cases hm : b.order_map_ id with
    | none => exact absurd hm hid.2
    | some s =>
      obtain ⟨sd, p, o, ho, _, hs⟩ := (hr.core.omap id s).1 hm
      have huse : a.InUse s := ⟨sd, p, o, ho, hs⟩
      show (b.order_map_ id).getD 0 ∈ _
      rw [hm, Finset.mem_filter, Finset.mem_range]
      show s < MAX_ORDER_ID ∧ s ∉ b.order_pool_.free_list_
      refine ⟨(hwf.cover s).2 (Or.inr huse), ?_⟩
      intro hf
      rw [hr.core.free] at hf
      exact hwf.free_unused s hf huse
  · intro id1 h1 id2 h2 e
    rw [Finset.mem_filter] at h1 h2
    cases hm1 : b.order_map_ id1 with
    | none => exact absurd hm1 h1.2
    | some s1 =>
      cases hm2 : b.order_map_ id2 with
      | none => exact absurd hm2 h2.2
      | some s2 =>
        have e' : s1 = s2 := by
          have e0 : (b.order_map_ id1).getD 0 = (b.order_map_ id2).getD 0 := e
          rw [hm1, hm2] at e0
          exact e0
        subst e'
        obtain ⟨sd, p, o, ho, hi, hs⟩ := (hr.core.omap id1 s1).1 hm1
        obtain ⟨sd', p', o', ho', hi', hs'⟩ := (hr.core.omap id2 s1).1 hm2
        have := (hwf.struct.slot_inj ho ho' (hs.trans hs'.symm)).2.2
        rw [← hi, ← hi', this]
  · intro s hs
    rw [Finset.mem_filter, Finset.mem_range] at hs
    rcases (hwf.cover s).1 hs.1 with hf | ⟨sd, p, o, ho, hos⟩
    · rw [← hr.core.free] at hf
      exact absurd hf hs.2
    · have hm : b.order_map_ o.id = some s := (hr.core.omap o.id s).2 ⟨sd, p, o, ho, rfl, hos⟩
      refine ⟨o.id, ?_, ?_⟩
      · rw [Finset.mem_filter, Finset.mem_range]
        refine ⟨hwf.id_lt sd p o ho, ?_⟩
        rw [hm]
        exact fun h => by cases h
      · show (b.order_map_ o.id).getD 0 = s
        rw [hm]
        rfl

/-- The slots in use and the free list make up the arena. -/
theorem inUseCount_add_free {b : OrderBookV6} {a : ABook} (hr : Rep b a) (hwf : a.WF) :
    b.inUseCount + b.order_pool_.free_list_.length = MAX_ORDER_ID := by
  unfold OrderBookV6.inUseCount
  have hnd : b.order_pool_.free_list_.Nodup := by rw [hr.core.free]; exact hwf.free_nodup
  have hsub : b.order_pool_.free_list_.toFinset ⊆ Finset.range MAX_ORDER_ID := by
    intro s hs
    rw [List.mem_toFinset, hr.core.free] at hs
    exact Finset.mem_range.2 ((hwf.cover s).2 (Or.inl hs))
  have hfil : (Finset.range MAX_ORDER_ID).filter (fun s => s ∉ b.order_pool_.free_list_) =
      Finset.range MAX_ORDER_ID \ b.order_pool_.free_list_.toFinset := by
    ext s
    simp [Finset.mem_sdiff]
  rw [hfil, Finset.card_sdiff hsub, List.toFinset_card_of_nodup hnd, Finset.card_range]
  have := Finset.card_le_card hsub
  rw [List.toFinset_card_of_nodup hnd, Finset.card_range] at this
  omega

/-- An id below `MAX_ORDER_ID` that is not live leaves the count of live ids
below `MAX_ORDER_ID`. -/
theorem liveCount_lt (b : OrderBookV6) {id : Nat} (hlt : id < MAX_ORDER_ID)
    (hnl : b.order_map_ id = none) : b.liveCount < MAX_ORDER_ID := by
  unfold OrderBookV6.liveCount
  have : ((Finset.range MAX_ORDER_ID).filter (fun id => b.order_map_ id ≠ none)).card <
      (Finset.range MAX_ORDER_ID).card := by
    refine Finset.card_lt_card ⟨Finset.filter_subset _ _, ?_⟩
    intro hsub
    have := hsub (Finset.mem_range.2 hlt)
    rw [Finset.mem_filter] at this
    exact this.2 hnl
  rw [Finset.card_range] at this
  exact this

/-- The only error a valid `AddOrder` on a reachable book can report is a lack
of fuel: `NewOrder` and `AddToList` do not fail. -/
theorem AddOrder_error {b : OrderBookV6} (h : Reachable b) {id : Nat} {side : Side}
    {price q : Nat} (hv : ValidAdd b id price q) (fuel : Nat) (e : Error)
    (he : b.AddOrder fuel id side price q = .error e) : e = Error.OutOfFuel := by
  obtain ⟨hr, hinv⟩ := h.good
  have hid := (hr.not_live_iff id).1 hv.not_live
  unfold AddOrder at he
  rcases hm : aMatch side price fuel b.view q with _ | ⟨a1, q1⟩
  · cases side with
    | BUY =>
      have := (matchBuy_sim price fuel b _ q hr hinv.wf hv.qty_lt).1 hm
      simp only [this] at he
      cases he; rfl
    | SELL =>
      have := (matchSell_sim price fuel b _ q hr hinv.wf hv.qty_lt).1 hm
      simp only [this] at he
      cases he; rfl
  · have hinv1 := aMatch_Inv side price fuel _ q a1 q1 hinv hm
    have hid1 : ∀ sd x, ∀ u ∈ a1.lv sd x, u.id ≠ id := by
      intro sd x u hu
      obtain ⟨w, hw, _, e, _⟩ := aMatch_sub side price fuel _ q a1 q1 hinv hm sd x u hu
      rw [← e]; exact hid sd x w hw
    obtain ⟨a', hrest⟩ := aRest_isSome hinv1.wf hv.id_lt hid1 side price q1
    cases side with
    | BUY =>
      obtain ⟨b1, e1, hr1⟩ := (matchBuy_sim price fuel b _ q hr hinv.wf hv.qty_lt).2 a1 q1 hm
      simp only [e1] at he
      obtain ⟨b', e', _⟩ := (restBuy_sim hr1 hinv1.wf id price q1 hid1).2 a' hrest
      rw [e'] at he
      cases he
    | SELL =>
      obtain ⟨b1, e1, hr1⟩ := (matchSell_sim price fuel b _ q hr hinv.wf hv.qty_lt).2 a1 q1 hm
      simp only [e1] at he
      obtain ⟨b', e', _⟩ := (restSell_sim hr1 hinv1.wf id price q1 hid1).2 a' hrest
      rw [e'] at he
      cases he

/-- C22. No arena exhaustion: in every reachable book the number of slots in use
(the arena slots off the free list) equals the number of ids present in
`order_map_`, and together with the free list they are the `MAX_ORDER_ID` slots of
the arena. Before any valid `AddOrder` (an id below `MAX_ORDER_ID` that is not
live) the number of live ids is below `MAX_ORDER_ID`, so the free list is not
empty; the call returns a book with any fuel from `quantity + 2` on, and with no
fuel does it report `ObjectPoolExhausted` (nor a null dereference): `NewOrder`
inside `AddOrder` does not throw. -/
theorem C22_no_arena_exhaustion (b : OrderBookV6) (h : Reachable b) :
    b.inUseCount = b.liveCount ∧
    b.inUseCount + b.order_pool_.free_list_.length = MAX_ORDER_ID ∧
    ∀ (id : Nat) (side : Side) (price q : Nat), ValidAdd b id price q →
      b.liveCount < MAX_ORDER_ID ∧
      b.order_pool_.free_list_ ≠ [] ∧
      (∃ b', ∀ fuel, q + 2 ≤ fuel → b.AddOrder fuel id side price q = .ok b') ∧
      (∀ fuel, b.AddOrder fuel id side price q ≠ .error Error.ObjectPoolExhausted) ∧
      (∀ fuel, b.AddOrder fuel id side price q ≠ .error Error.NullDeref) := by
  obtain ⟨hr, hinv⟩ := h.good
  have h1 := inUseCount_eq_liveCount hr hinv.wf
  have h2 := inUseCount_add_free hr hinv.wf
  refine ⟨h1, h2, ?_⟩
  intro id side price q hv
  have h3 := liveCount_lt b hv.id_lt hv.not_live
  refine ⟨h3, ?_, ?_, ?_, ?_⟩
  · intro hnil
    rw [hnil, h1] at h2
    simp only [List.length_nil] at h2
    omega
  · obtain ⟨_, _, _, b', _, _, hrun, _⟩ := @AddOrder_run b h id side price q hv
    exact ⟨b', hrun⟩
  · intro fuel he
    have := AddOrder_error h hv fuel _ he
    cases this
  · intro fuel he
    have := AddOrder_error h hv fuel _ he
    cases this

theorem ReachableInterior.isReachable {b : OrderBookV6} (h : ReachableInterior b) :
    Reachable b := by
  induction h with
  | new => exact Reachable.new
  | add fuel id side price q _ hv _ _ he ih => exact Reachable.add fuel id side price q ih hv he
  | cancel id _ ih => exact Reachable.cancel id ih

/-- A valid `AddOrder` off the sentinel price of its side keeps the cached bests
uncrossed. -/
theorem AddOrder_not_crossed {b b' : OrderBookV6} (hreach : Reachable b)
    (ih : b.best_bid_ < b.best_ask_) {fuel id : Nat} {side : Side} {price q : Nat}
    (hv : ValidAdd b id price q) (hbuy : side = Side.BUY → price < MAX_PRICE)
    (hsell : side = Side.SELL → 0 < price)
    (he : b.AddOrder fuel id side price q = .ok b') : b'.best_bid_ < b'.best_ask_ := by
  obtain ⟨a1, q1, a', b1, hm, hrest, _, h2, hr', hinv', _, hinv1, _, _⟩ :=
    @AddOrder_run b hreach id side price q hv
  have hbb := h2 fuel b' he
  subst hbb
  obtain ⟨hr, hinv⟩ := hreach.good
  obtain ⟨_, _, _, _, t5⟩ := aMatch_total side price _ _ _ _ _ hinv hm
  obtain ⟨hmono, _⟩ := aMatch_priority side price _ _ _ _ _ hinv hm
  obtain ⟨m1, m2⟩ := best_mono hinv hinv1 hmono
  have ih' : b.view.best_bid < b.view.best_ask := by
    rw [← hr.best_bid, ← hr.best_ask]; exact ih
  have hle := hinv1.best_ask_le
  rw [hr'.best_bid, hr'.best_ask]
  by_cases hq : q1 > 0
  · have hnc : ¬ a1.crosses side price := by
      rcases t5 with t5 | t5
      · omega
      · exact t5
    unfold aRest at hrest
    rw [if_pos hq] at hrest
    rcases hf : a1.free with _ | ⟨s, rest⟩
    · rw [hf] at hrest; cases hrest
    · rw [hf] at hrest
      simp only [Option.some.injEq] at hrest
      subst hrest
      show (if side = Side.BUY ∧ price > a1.best_bid then price else a1.best_bid) <
        (if side = Side.SELL ∧ price < a1.best_ask then price else a1.best_ask)
      cases side with
      | BUY =>
        have hp := hbuy rfl
        have hnc' : ¬ (price ≥ a1.best_ask ∧ a1.best_ask < MAX_PRICE) := hnc
        have hlt : price < a1.best_ask := by
          by_contra hcon
          exact hnc' ⟨by omega, by omega⟩
        rw [if_neg (fun hx : Side.BUY = Side.SELL ∧ price < a1.best_ask => by cases hx.1)]
        split_ifs <;> omega
      | SELL =>
        have hp := hsell rfl
        have hnc' : ¬ (price ≤ a1.best_bid ∧ a1.best_bid > 0) := hnc
        have hlt : a1.best_bid < price := by
          by_contra hcon
          exact hnc' ⟨by omega, by omega⟩
        rw [if_neg (fun hx : Side.SELL = Side.BUY ∧ price > a1.best_bid => by cases hx.1)]
        split_ifs <;> omega
  · unfold aRest at hrest
    rw [if_neg hq] at hrest
    simp only [Option.some.injEq] at hrest
    subst hrest
    omega

/-- `CancelOrder` keeps the cached bests uncrossed. -/
theorem CancelOrder_not_crossed {b : OrderBookV6} (hreach : Reachable b)
    (ih : b.best_bid_ < b.best_ask_) (id : Nat) :
    (b.CancelOrder id).best_bid_ < (b.CancelOrder id).best_ask_ := by
  obtain ⟨hr, hinv⟩ := hreach.good
  by_cases hlive : id ≥ MAX_ORDER_ID ∨ b.order_map_ id = none
  · rw [CancelOrder_absent b id hlive]; exact ih
  · have hlt : id < MAX_ORDER_ID := by
      by_contra hh; exact hlive (Or.inl (by omega))
    rcases hm : b.order_map_ id with _ | s
    · exact absurd (Or.inr hm) hlive
    · obtain ⟨side, p, o, ho, _, _, _, _, _, hrc⟩ := CancelOrder_sim hr hinv.wf hlt hm
      have hinv' := aCancel_Inv hinv ho
      have hmono : ∀ sd y, b.view.lv sd y = [] → (aCancel b.view side p o).lv sd y = [] := by
        intro sd y hy
        rw [aCancel_lv]
        split
        · rename_i hc
          rw [hc.1, hc.2] at hy
          rw [hy]; rfl
        · exact hy
      obtain ⟨m1, m2⟩ := best_mono hinv hinv' hmono
      have ih' : b.view.best_bid < b.view.best_ask := by
        rw [← hr.best_bid, ← hr.best_ask]; exact ih
      rw [hrc.best_bid, hrc.best_ask]
      omega

/-- C24. No crossed book for interior prices: in every book reached from the
empty book by `CancelOrder` calls and valid `AddOrder` calls whose prices satisfy
`0 < p < MAX_PRICE`, `best_bid_ < best_ask_`, and every record linked in a bid
level carries a price below the price of every record linked in an ask level
(the `price` field of a linked record is the price of its level). -/
theorem C24_not_crossed_interior (b : OrderBookV6) (h : ReachableInterior b) :
    b.best_bid_ < b.best_ask_ ∧
    (∀ pb pa, (b.bids_ pb).head ≠ none → (b.asks_ pa).head ≠ none → pb < pa) ∧
    ∀ pb pa sb sa, sb ∈ b.levelSlots Side.BUY pb → sa ∈ b.levelSlots Side.SELL pa →
      (b.pool sb).price = pb ∧ (b.pool sa).price = pa ∧ (b.pool sb).price < (b.pool sa).price := by
  have hcross : b.best_bid_ < b.best_ask_ := by
    induction h with
    | new => show 0 < MAX_PRICE; decide
    | @add b b' fuel id side price q hb hv h0 hmax he ih =>
      exact AddOrder_not_crossed hb.isReachable ih hv (fun _ => hmax) (fun _ => h0) he
    | @cancel b id hb ih => exact CancelOrder_not_crossed hb.isReachable ih id
  obtain ⟨hr, hinv⟩ := h.isReachable.good
  have hlevels : ∀ pb pa, b.view.lv Side.BUY pb ≠ [] → b.view.lv Side.SELL pa ≠ [] →
      pb < pa := by
    intro pb pa hb ha
    have h1 := hinv.best.bid_ub pb hb
    have h2 := hinv.best.ask_lb pa ha
    have e1 : b.view.best_bid = b.best_bid_ := rfl
    have e2 : b.view.best_ask = b.best_ask_ := rfl
    omega
  refine ⟨hcross, ?_, ?_⟩
  · intro pb pa hb ha
    refine hlevels pb pa ?_ ?_
    · exact fun e => hb ((head_eq_none_iff hr.core Side.BUY pb).2 e)
    · exact fun e => ha ((head_eq_none_iff hr.core Side.SELL pa).2 e)
  · intro pb pa sb sa hsb hsa
    obtain ⟨ob, hob, rfl⟩ := mem_levelSlots.1 hsb
    obtain ⟨oa, hoa, rfl⟩ := mem_levelSlots.1 hsa
    have rb := RepSeg_mem (hr.core.segs Side.BUY pb) hob
    have ra := RepSeg_mem (hr.core.segs Side.SELL pa) hoa
    have hlt := hlevels pb pa (List.ne_nil_of_mem hob) (List.ne_nil_of_mem hoa)
    refine ⟨rb.2.2.1, ra.2.2.1, ?_⟩
    rw [rb.2.2.1, ra.2.2.1]
    exact hlt

theorem exInterior2 : ReachableInterior exBook2 :=
  ReachableInterior.add 7 2 Side.SELL 200 5
    (ReachableInterior.add 12 1 Side.BUY 100 10 ReachableInterior.new exValid1
      (by decide) (by decide) exBook1_run)
    exValid2 (by decide) (by decide) exBook2_run

/-- C24 on the book with a bid at 100 and an ask at 200. -/
theorem C24_not_crossed_interior_witness :
    ReachableInterior exBook2 ∧ exBook2.best_bid_ = 100 ∧ exBook2.best_ask_ = 200 ∧
    exBook2.best_bid_ < exBook2.best_ask_ :=
  ⟨exInterior2, rfl, rfl, (C24_not_crossed_interior exBook2 exInterior2).1⟩

/-- C22 on the book with a bid at 100 and an ask at 200, before `Add(3, BUY, 200, 8)`. -/
theorem C22_no_arena_exhaustion_witness :
    Reachable exBook2 ∧ ValidAdd exBook2 3 200 8 ∧
    exBook2.inUseCount = exBook2.liveCount ∧
    exBook2.order_pool_.free_list_ ≠ [] ∧
    exBook2.AddOrder 1 3 Side.BUY 200 8 ≠ .error Error.ObjectPoolExhausted :=
  ⟨exReach2, exValid3, (C22_no_arena_exhaustion exBook2 exReach2).1,
    ((C22_no_arena_exhaustion exBook2 exReach2).2.2 3 Side.BUY 200 8 exValid3).2.1,
    ((C22_no_arena_exhaustion exBook2 exReach2).2.2 3 Side.BUY 200 8 exValid3).2.2.2.1 1⟩

/-- The matching loop is its guard and its body, iterated. -/
theorem matchLoop_succ (side : Side) (price fuel : Nat) (b : OrderBookV6) (q : Nat) :
    OrderBookV6.matchLoop side price (fuel + 1) b q =
      if b.loopGuard side price q then
        match OrderBookV6.matchRound side fuel b q with
        | .error e => .error e
        | .ok (b', q') => OrderBookV6.matchLoop side price fuel b' q'
      else .ok (b, q) := by
  cases side with
  | BUY =>
    show matchBuy price (fuel + 1) b q = _
    unfold OrderBookV6.loopGuard OrderBookV6.matchRound
    simp only [OrderBookV6.matchLoop]
    rw [matchBuy]
    by_cases hg : q > 0 ∧ price ≥ b.best_ask_ ∧ b.best_ask_ < MAX_PRICE
    · rw [if_pos hg, if_pos hg]
      simp only []
      by_cases hs : (b.asks_ b.best_ask_).head = none
      · rw [if_pos hs, if_pos hs]
      · rw [if_neg hs, if_neg hs]
        rcases matchLevel Side.SELL b.best_ask_ fuel b (b.asks_ b.best_ask_).head q with
          e | ⟨b1, q1⟩
        · rfl
        · simp only []
          by_cases h1 : (b1.asks_ b.best_ask_).head = none
          · rw [if_pos h1, if_pos h1]
          · rw [if_neg h1, if_neg h1]
    · rw [if_neg hg, if_neg hg]
  | SELL =>
    show matchSell price (fuel + 1) b q = _
    unfold OrderBookV6.loopGuard OrderBookV6.matchRound
    simp only [OrderBookV6.matchLoop]
    rw [matchSell]
    by_cases hg : q > 0 ∧ price ≤ b.best_bid_ ∧ b.best_bid_ > 0
    · rw [if_pos hg, if_pos hg]
      simp only []
      by_cases hs : (b.bids_ b.best_bid_).head = none
      · rw [if_pos hs, if_pos hs]
      · rw [if_neg hs, if_neg hs]
        rcases matchLevel Side.BUY b.best_bid_ fuel b (b.bids_ b.best_bid_).head q with
          e | ⟨b1, q1⟩
        · rfl
        · simp only []
          by_cases h1 : (b1.bids_ b.best_bid_).head = none
          · rw [if_pos h1, if_pos h1]
          · rw [if_neg h1, if_neg h1]
    · rw [if_neg hg, if_neg hg]

/-- The guard of the loop on a represented book is the guard on the list view. -/
theorem loopGuard_iff {b : OrderBookV6} {a : ABook} (hr : Rep b a) (side : Side)
    (price q : Nat) : b.loopGuard side price q ↔ (q > 0 ∧ a.crosses side price) := by
  cases side with
  | BUY =>
    show (q > 0 ∧ price ≥ b.best_ask_ ∧ b.best_ask_ < MAX_PRICE) ↔ _
    rw [hr.best_ask]; rfl
  | SELL =>
    show (q > 0 ∧ price ≤ b.best_bid_ ∧ b.best_bid_ > 0) ↔ _
    rw [hr.best_bid]; rfl

/-- The inner loop of a BUY round on a represented book, and the book the
round leaves. -/
theorem buyRound_sim {b : OrderBookV6} {a : ABook} (hr : Rep b a) (hinv : a.Inv)
    {price q : Nat} (hq : q < 2 ^ 32) (hc : a.crosses Side.BUY price) (fuel : Nat) :
    (b.asks_ b.best_ask_).head ≠ none ∧
    (aMatchLevel Side.SELL a.best_ask fuel a q = none →
      matchLevel Side.SELL b.best_ask_ fuel b (b.asks_ b.best_ask_).head q =
        .error Error.OutOfFuel) ∧
    (∀ a1 q1, aMatchLevel Side.SELL a.best_ask fuel a q = some (a1, q1) →
      ∃ b1, matchLevel Side.SELL b.best_ask_ fuel b (b.asks_ b.best_ask_).head q = .ok (b1, q1) ∧
        RepCore b1 a1 ∧ SameQuotes b b1 ∧
        ((b1.asks_ b.best_ask_).head = none ↔ a1.lv Side.SELL a.best_ask = []) ∧
        (a1.lv Side.SELL a.best_ask = [] →
          Rep ({ b1 with asks_bitmap_ := clear_bit b1.best_ask_ b1.asks_bitmap_ } : OrderBookV6)
            a1) ∧
        (a1.lv Side.SELL a.best_ask ≠ [] → Rep b1 a1)) := by
  have hwf := hinv.wf
  have hba := hr.best_ask
  have hhead := head_eq_none_iff hr.core Side.SELL a.best_ask
  have hlev : b.asks_ a.best_ask = b.level Side.SELL a.best_ask := rfl
  have hne0 : a.lv Side.SELL a.best_ask ≠ [] := hinv.level_ne_nil hc
  rw [hba]
  have hsim := matchLevel_sim Side.SELL a.best_ask fuel b a q hr.core hwf.struct
    hwf.qty_lt hq
  have hhd : (b.asks_ a.best_ask).head = headSlot (a.lv Side.SELL a.best_ask) none := by
    rw [hlev, hr.core.levels]
  refine ⟨?_, ?_, ?_⟩
  · rw [hlev]; exact fun e => hne0 (hhead.1 e)
  · intro hml
    rw [hhd]; exact hsim.1 hml
  · intro a1 q1 hml
    obtain ⟨b1, e1, hr1, hsq⟩ := hsim.2 a1 q1 hml
    obtain ⟨f1, f2, f3, f4, f5, f6⟩ := aMatchLevel_frame hml
    have hhead1 := head_eq_none_iff hr1 Side.SELL a.best_ask
    have hbid1 : Bits b1.bids_bitmap_ (a1.lv Side.BUY) := by
      rw [hsq.2.2.1]
      refine hr.bidBits.same ?_
      intro x
      rw [f3 Side.BUY x (by simp)]
    refine ⟨b1, by rw [hhd]; exact e1, hr1, hsq, hhead1, ?_, ?_⟩
    · intro hl1
      refine ⟨hr1.transfer (fun s p => by cases s <;> rfl) (fun _ => rfl) rfl rfl rfl rfl,
        hbid1, ?_, ?_, ?_⟩
      · show Bits (clear_bit b1.best_ask_ b1.asks_bitmap_) _
        rw [hsq.2.1, hsq.2.2.2, hba]
        refine hr.askBits.clear a.best_ask hl1 ?_
        intro x hx
        exact f3 Side.SELL x (by simp [hx])
      · show b1.best_bid_ = _
        rw [hsq.1, hr.best_bid, f1]
      · show b1.best_ask_ = _
        rw [hsq.2.1, hba, f2]
    · intro hl1
      refine ⟨hr1, hbid1, ?_, ?_, ?_⟩
      · rw [hsq.2.2.2]
        refine hr.askBits.same ?_
        intro x
        by_cases hx : x = a.best_ask
        · subst hx; simp [hl1, hne0]
        · rw [f3 Side.SELL x (by simp [hx])]
      · rw [hsq.1, hr.best_bid, f1]
      · rw [hsq.2.1, hba, f2]

/-- The inner loop of a SELL round on a represented book, and the book the
round leaves. -/
theorem sellRound_sim {b : OrderBookV6} {a : ABook} (hr : Rep b a) (hinv : a.Inv)
    {price q : Nat} (hq : q < 2 ^ 32) (hc : a.crosses Side.SELL price) (fuel : Nat) :
    (b.bids_ b.best_bid_).head ≠ none ∧
    (aMatchLevel Side.BUY a.best_bid fuel a q = none →
      matchLevel Side.BUY b.best_bid_ fuel b (b.bids_ b.best_bid_).head q =
        .error Error.OutOfFuel) ∧
    (∀ a1 q1, aMatchLevel Side.BUY a.best_bid fuel a q = some (a1, q1) →
      ∃ b1, matchLevel Side.BUY b.best_bid_ fuel b (b.bids_ b.best_bid_).head q = .ok (b1, q1) ∧
        RepCore b1 a1 ∧ SameQuotes b b1 ∧
        ((b1.bids_ b.best_bid_).head = none ↔ a1.lv Side.BUY a.best_bid = []) ∧
        (a1.lv Side.BUY a.best_bid = [] →
          Rep ({ b1 with bids_bitmap_ := clear_bit b1.best_bid_ b1.bids_bitmap_ } : OrderBookV6)
            a1) ∧
        (a1.lv Side.BUY a.best_bid ≠ [] → Rep b1 a1)) := by
  have hwf := hinv.wf
  have hba := hr.best_bid
  have hhead := head_eq_none_iff hr.core Side.BUY a.best_bid
  have hlev : b.bids_ a.best_bid = b.level Side.BUY a.best_bid := rfl
  have hne0 : a.lv Side.BUY a.best_bid ≠ [] := hinv.level_ne_nil hc
  rw [hba]
  have hsim := matchLevel_sim Side.BUY a.best_bid fuel b a q hr.core hwf.struct
    hwf.qty_lt hq
  have hhd : (b.bids_ a.best_bid).head = headSlot (a.lv Side.BUY a.best_bid) none := by
    rw [hlev, hr.core.levels]
  refine ⟨?_, ?_, ?_⟩
  · rw [hlev]; exact fun e => hne0 (hhead.1 e)
  · intro hml
    rw [hhd]; exact hsim.1 hml
  · intro a1 q1 hml
    obtain ⟨b1, e1, hr1, hsq⟩ := hsim.2 a1 q1 hml
    obtain ⟨f1, f2, f3, f4, f5, f6⟩ := aMatchLevel_frame hml
    have hhead1 := head_eq_none_iff hr1 Side.BUY a.best_bid
    have hask1 : Bits b1.asks_bitmap_ (a1.lv Side.SELL) := by
      rw [hsq.2.2.2]
      refine hr.askBits.same ?_
      intro x
      rw [f3 Side.SELL x (by simp)]
    refine ⟨b1, by rw [hhd]; exact e1, hr1, hsq, hhead1, ?_, ?_⟩
    · intro hl1
      refine ⟨hr1.transfer (fun s p => by cases s <;> rfl) (fun _ => rfl) rfl rfl rfl rfl,
        ?_, hask1, ?_, ?_⟩
      · show Bits (clear_bit b1.best_bid_ b1.bids_bitmap_) _
        rw [hsq.1, hsq.2.2.1, hba]
        refine hr.bidBits.clear a.best_bid hl1 ?_
        intro x hx
        exact f3 Side.BUY x (by simp [hx])
      · show b1.best_bid_ = _
        rw [hsq.1, hba, f1]
      · show b1.best_ask_ = _
        rw [hsq.2.1, hr.best_ask, f2]
    · intro hl1
      refine ⟨hr1, ?_, hask1, ?_, ?_⟩
      · rw [hsq.2.2.1]
        refine hr.bidBits.same ?_
        intro x
        by_cases hx : x = a.best_bid
        · subst hx; simp [hl1, hne0]
        · rw [f3 Side.BUY x (by simp [hx])]
      · rw [hsq.1, hba, f1]
      · rw [hsq.2.1, hr.best_ask, f2]

/-! ## C23: the matching loops terminate -/

/-- One round of the matching loop on a represented book whose view satisfies
the invariant: the stale-cache branch is not taken, and the round does what the
inner loop followed by `afterLevel` does on the list view. -/
theorem matchRound_sim {b : OrderBookV6} {a : ABook} (hr : Rep b a) (hinv : a.Inv)
    {side : Side} {price q : Nat} (hq : q < 2 ^ 32) (hc : a.crosses side price) (fuel : Nat) :
    ¬ b.stale side ∧
    (aMatchLevel side.opp (a.oppBest side) fuel a q = none →
      OrderBookV6.matchRound side fuel b q = .error Error.OutOfFuel) ∧
    (∀ a1 q1, aMatchLevel side.opp (a.oppBest side) fuel a q = some (a1, q1) →
      ∃ b', OrderBookV6.matchRound side fuel b q = .ok (b', q1) ∧
        Rep b' (a1.afterLevel side (a.oppBest side))) := by
  cases side with
  | BUY =>
    obtain ⟨h1, h2, h3⟩ := buyRound_sim hr hinv hq hc fuel
    refine ⟨h1, ?_, ?_⟩
    · intro hml
      unfold OrderBookV6.matchRound
      simp only []
      rw [if_neg h1, h2 hml]
    · intro a1 q1 hml
      obtain ⟨b1, e1, hr1, hsq, hiff, g1, g2⟩ := h3 a1 q1 hml
      have hwf1 := aMatchLevel_WF _ _ _ _ _ _ _ hml hinv.wf
      unfold OrderBookV6.matchRound
      simp only []
      rw [if_neg h1, e1]
      simp only []
      have hob : a.oppBest Side.BUY = a.best_ask := rfl
      have hopp : Side.BUY.opp = Side.SELL := rfl
      unfold ABook.afterLevel
      rw [hob, hopp]
      rcases hl1 : a1.lv Side.SELL a.best_ask with _ | ⟨o1, t1⟩
      · rw [if_pos (hiff.2 hl1)]
        exact ⟨_, rfl, (g1 hl1).updateBestAsk (hwf1.price_le Side.SELL)⟩
      · have hne : a1.lv Side.SELL a.best_ask ≠ [] := by rw [hl1]; simp
        rw [if_neg (fun e => hne (hiff.1 e))]
        exact ⟨_, rfl, g2 hne⟩
  | SELL =>
    obtain ⟨h1, h2, h3⟩ := sellRound_sim hr hinv hq hc fuel
    refine ⟨h1, ?_, ?_⟩
    · intro hml
      unfold OrderBookV6.matchRound
      simp only []
      rw [if_neg h1, h2 hml]
    · intro a1 q1 hml
      obtain ⟨b1, e1, hr1, hsq, hiff, g1, g2⟩ := h3 a1 q1 hml
      unfold OrderBookV6.matchRound
      simp only []
      rw [if_neg h1, e1]
      simp only []
      have hob : a.oppBest Side.SELL = a.best_bid := rfl
      have hopp : Side.SELL.opp = Side.BUY := rfl
      unfold ABook.afterLevel
      rw [hob, hopp]
      rcases hl1 : a1.lv Side.BUY a.best_bid with _ | ⟨o1, t1⟩
      · rw [if_pos (hiff.2 hl1)]
        exact ⟨_, rfl, (g1 hl1).updateBestBid⟩
      · have hne : a1.lv Side.BUY a.best_bid ≠ [] := by rw [hl1]; simp
        rw [if_neg (fun e => hne (hiff.1 e))]
        exact ⟨_, rfl, g2 hne⟩

/-- Every state at the top of the matching loop is a represented book whose
view satisfies the invariant, and the incoming quantity has not grown. -/
theorem LoopState.represented {side : Side} {price : Nat} {b0 b : OrderBookV6} {q0 q : Nat}
    (h : LoopState side price b0 q0 b q) {a0 : ABook} (hr0 : Rep b0 a0) (hinv0 : a0.Inv)
    (hq0 : q0 < 2 ^ 32) : ∃ a, Rep b a ∧ a.Inv ∧ q ≤ q0 := by
  induction h with
  | entry => exact ⟨a0, hr0, hinv0, Nat.le_refl _⟩
  | @next b b' q q' fuel _ hg hround ih =>
    obtain ⟨a, hr, hinv, hle⟩ := ih
    have hc := ((loopGuard_iff hr side price q).1 hg).2
    obtain ⟨_, s2, s3⟩ := @matchRound_sim b a hr hinv side price q (by omega) hc fuel
    rcases hml : aMatchLevel side.opp (a.oppBest side) fuel a q with _ | ⟨a1, q1⟩
    · rw [s2 hml] at hround; cases hround
    · obtain ⟨b'', e, hr'⟩ := s3 a1 q1 hml
      rw [e] at hround
      cases hround
      obtain ⟨_, _, _, _, f5, _⟩ := aMatchLevel_frame hml
      have := fillList_le (a.lv side.opp (a.oppBest side)) q
      exact ⟨_, hr', hinv.afterLevel hc hml, by omega⟩

/-- Matching against a list either uses the incoming quantity up or fills
every order of the list. -/
theorem fillList_all (l : List AOrder) (q : Nat) :
    (fillList l q).2.2 = 0 ∨ ((fillList l q).1 = [] ∧ (fillList l q).2.1 = l) := by
  induction l generalizing q with
  | nil => right; simp [fillList]
  | cons o t ih =>
    unfold fillList
    split
    · left; rfl
    · split
      · rcases ih (q - o.qty) with h | h
        · left; exact h
        · right; exact ⟨h.1, by rw [h.2]⟩
      · left; rfl

/-- The matching loop of a valid `AddOrder` on a reachable book returns, with
any fuel from `quantity + 2` on, a result that does not depend on the fuel. -/
theorem matchLoop_run {b : OrderBookV6} (h : Reachable b) (side : Side) (price : Nat) {q : Nat}
    (hq : q < 2 ^ 32) :
    ∃ b1 q1, ∀ fuel, q + 2 ≤ fuel → OrderBookV6.matchLoop side price fuel b q = .ok (b1, q1) := by
  obtain ⟨hr, hinv⟩ := h.good
  obtain ⟨⟨a1, q1⟩, hm⟩ := aMatch_isSome side price (q + 2) b.view q hinv (Nat.le_refl _)
  have hsim : ∀ fuel, ∀ a' q', aMatch side price fuel b.view q = some (a', q') →
      ∃ b', OrderBookV6.matchLoop side price fuel b q = .ok (b', q') ∧ Rep b' a' := by
    intro fuel
    cases side with
    | BUY => exact (matchBuy_sim price fuel b _ q hr hinv.wf hq).2
    | SELL => exact (matchSell_sim price fuel b _ q hr hinv.wf hq).2
  obtain ⟨b1, _, hr1⟩ := hsim _ a1 q1 hm
  refine ⟨b1, q1, ?_⟩
  intro fuel hf
  obtain ⟨r, hm'⟩ := aMatch_isSome side price fuel b.view q hinv hf
  have := aMatch_det side price _ _ _ _ _ _ hinv hm hm'
  subst this
  obtain ⟨b2, e2, hr2⟩ := hsim fuel a1 q1 hm'
  rw [e2, hr2.unique hr1]

/-- C23. `AddOrder` terminates: for every reachable book and every valid
`AddOrder` call, the matching loop and the call return with any fuel from
`quantity + 2` on, a result that does not depend on the fuel. The loop is its
guard and its body iterated, and at every state at the top of the loop at which
the guard holds the stale-cache test fails (the level at the cached best is not
empty), the body returns with any fuel above the incoming quantity, the incoming
quantity goes down, and either it is 0 afterwards or at least one resting order
was removed: the free list is longer and fewer ids are live. -/
theorem C23_AddOrder_terminates (b : OrderBookV6) (h : Reachable b) (id : Nat) (side : Side)
    (price q : Nat) (hv : ValidAdd b id price q) :
    (∃ b1 q1 b', (∀ fuel, q + 2 ≤ fuel →
        OrderBookV6.matchLoop side price fuel b q = .ok (b1, q1)) ∧
      (∀ fuel, q + 2 ≤ fuel → b.AddOrder fuel id side price q = .ok b')) ∧
    (∀ fuel bi qi, OrderBookV6.matchLoop side price (fuel + 1) bi qi =
      if bi.loopGuard side price qi then
        match OrderBookV6.matchRound side fuel bi qi with
        | .error e => .error e
        | .ok (b', q') => OrderBookV6.matchLoop side price fuel b' q'
      else .ok (bi, qi)) ∧
    ∀ bi qi, LoopState side price b q bi qi → bi.loopGuard side price qi →
      ¬ bi.stale side ∧
      ∃ b' q', (∀ fuel, qi + 1 ≤ fuel →
          OrderBookV6.matchRound side fuel bi qi = .ok (b', q')) ∧
        q' < qi ∧
        (q' = 0 ∨
          (bi.order_pool_.free_list_.length < b'.order_pool_.free_list_.length ∧
            b'.liveCount < bi.liveCount)) := by
  obtain ⟨hr0, hinv0⟩ := h.good
  refine ⟨?_, fun fuel bi qi => matchLoop_succ side price fuel bi qi, ?_⟩
  · obtain ⟨b1, q1, hloop⟩ := matchLoop_run h side price hv.qty_lt
    obtain ⟨_, _, _, b', _, _, hrun, _⟩ := @AddOrder_run b h id side price q hv
    exact ⟨b1, q1, b', hloop, hrun⟩
  · intro bi qi hst hg
    obtain ⟨a, hr, hinv, hle⟩ := hst.represented hr0 hinv0 hv.qty_lt
    have hqi : qi < 2 ^ 32 := by have := hv.qty_lt; omega
    obtain ⟨hpos, hc⟩ := (loopGuard_iff hr side price qi).1 hg
    refine ⟨(@matchRound_sim bi a hr hinv side price qi hqi hc 0).1, ?_⟩
    obtain ⟨⟨a1, q1⟩, hml⟩ := aMatchLevel_isSome side.opp (a.oppBest side) (qi + 1) a qi
      (fun o ho => hinv.wf.qty_pos _ _ o ho) (Nat.le_refl _)
    obtain ⟨b', e', hr'⟩ := (@matchRound_sim bi a hr hinv side price qi hqi hc (qi + 1)).2.2
      a1 q1 hml
    obtain ⟨g1, g2⟩ := aMatchLevel_eq _ _ _ _ _ _ _ hml
    refine ⟨b', q1, ?_, ?_, ?_⟩
    · intro fuel hf
      obtain ⟨⟨a2, q2⟩, hml2⟩ := aMatchLevel_isSome side.opp (a.oppBest side) fuel a qi
        (fun o ho => hinv.wf.qty_pos _ _ o ho) hf
      obtain ⟨g1', g2'⟩ := aMatchLevel_eq _ _ _ _ _ _ _ hml2
      rw [← g1] at g1'
      rw [← g2] at g2'
      subst g1' g2'
      obtain ⟨b2, e2, hr2⟩ := (@matchRound_sim bi a hr hinv side price qi hqi hc fuel).2.2
        a2 q2 hml2
      rw [e2, hr2.unique hr']
    · rw [g2]
      exact fillList_lt _ qi (hinv.level_ne_nil hc)
        (fun o ho => hinv.wf.qty_pos _ _ o ho) hpos
    · rcases fillList_all (a.lv side.opp (a.oppBest side)) qi with hz | ⟨_, hall⟩
      · left; rw [g2]; exact hz
      · right
        have hinv' := hinv.afterLevel hc hml
        have hfree : b'.order_pool_.free_list_.length =
            (a.lv side.opp (a.oppBest side)).length + bi.order_pool_.free_list_.length := by
          rw [hr'.core.free, ABook.afterLevel_free, g1, hr.core.free]
          show (((fillList (a.lv side.opp (a.oppBest side)) qi).2.1.map AOrder.slot).reverse ++
            a.free).length = _
          rw [hall]
          simp
        have hlen : 0 < (a.lv side.opp (a.oppBest side)).length :=
          List.length_pos.2 (hinv.level_ne_nil hc)
        have c1 := inUseCount_add_free hr hinv.wf
        have c2 := inUseCount_add_free hr' hinv'.wf
        have c3 := inUseCount_eq_liveCount hr hinv.wf
        have c4 := inUseCount_eq_liveCount hr' hinv'.wf
        constructor
        · omega
        · omega

/-- C23 on the book with a bid at 100 and an ask at 200, for `Add(3, BUY, 200, 8)`:
the loop is entered, the level at the cached best ask is not empty. -/
theorem C23_AddOrder_terminates_witness :
    Reachable exBook2 ∧ ValidAdd exBook2 3 200 8 ∧
    exBook2.loopGuard Side.BUY 200 8 ∧ ¬ exBook2.stale Side.BUY :=
  ⟨exReach2, exValid3, by
      show 8 > 0 ∧ 200 ≥ exBook2.best_ask_ ∧ exBook2.best_ask_ < MAX_PRICE
      have : exBook2.best_ask_ = 200 := rfl
      rw [this]; decide,
    ((C23_AddOrder_terminates exBook2 exReach2 3 Side.BUY 200 8 exValid3).2.2 exBook2 8
      LoopState.entry (by
        show 8 > 0 ∧ 200 ≥ exBook2.best_ask_ ∧ exBook2.best_ask_ < MAX_PRICE
        have : exBook2.best_ask_ = 200 := rfl
        rw [this]; decide)).1⟩

/-! ## The bitmap book without its bitmaps runs as the linear-scan book -/

@[simp] theorem toV4_pool (b : OrderBookV6) (s : Nat) : b.toV4.pool s = b.pool s := rfl

@[simp] theorem toV4_level (b : OrderBookV6) (side : Side) (p : Nat) :
    b.toV4.level side p = b.level side p := by
  cases side <;> rfl

theorem toV4_setOrder (b : OrderBookV6) (s : Nat) (r : HP_Order_V6) :
    b.toV4.setOrder s r = (b.setOrder s r).toV4 := rfl

theorem toV4_setLevel (b : OrderBookV6) (side : Side) (p : Nat) (l : PriceLevel_V6) :
    b.toV4.setLevel side p l = (b.setLevel side p l).toV4 := by
  cases side <;> rfl

theorem toV4_AddToList (b : OrderBookV6) (price order : Nat) :
    b.toV4.AddToList price order =
      match b.AddToList price order with
      | .error e => .error e
      | .ok b' => .ok b'.toV4 := by
  unfold OrderBookV4.AddToList OrderBookV6.AddToList
  simp only [toV4_pool, toV4_level]
  rcases (b.level (b.pool order).side price).head with _ | h
  · simp only [toV4_setLevel, toV4_level, toV4_pool]
  · simp only []
    rcases (b.level (b.pool order).side price).tail with _ | t
    · rfl
    · simp only [toV4_setLevel, toV4_setOrder, toV4_level, toV4_pool]

theorem toV4_RemoveFromList (b : OrderBookV6) (order : Nat) :
    b.toV4.RemoveFromList order = (b.RemoveFromList order).toV4 := by
  unfold OrderBookV4.RemoveFromList OrderBookV6.RemoveFromList
  simp only [toV4_pool, toV4_level]
  rcases (b.pool order).prev with _ | pv
  · simp only [toV4_pool, toV4_level, toV4_setOrder]
    rcases (b.pool order).next with _ | nx
    · simp only [toV4_pool, toV4_level, toV4_setOrder, toV4_setLevel,
        ← apply_ite OrderBookV6.toV4]
    · simp only [toV4_pool, toV4_level, toV4_setOrder, toV4_setLevel,
        ← apply_ite OrderBookV6.toV4]
  · simp only [toV4_pool, toV4_level, toV4_setOrder]
    rcases ((b.setOrder pv { b.pool pv with next := (b.pool order).next }).pool order).next
      with _ | nx
    · simp only [toV4_pool, toV4_level, toV4_setOrder, toV4_setLevel,
        ← apply_ite OrderBookV6.toV4]
    · simp only [toV4_pool, toV4_level, toV4_setOrder, toV4_setLevel,
        ← apply_ite OrderBookV6.toV4]

theorem toV4_trade (lside : Side) (lprice : Nat) (b : OrderBookV6) (cur q : Nat) :
    OrderBookV4.trade lside lprice b.toV4 cur q = (trade lside lprice b cur q).toV4 := by
  unfold OrderBookV4.trade OrderBookV6.trade
  simp only [toV4_pool, toV4_level, toV4_setOrder, toV4_setLevel]

theorem toV4_release (b : OrderBookV6) (cur : Nat) :
    b.toV4.release cur = (b.release cur).toV4 := by
  unfold OrderBookV4.release OrderBookV6.release
  simp only [toV4_pool]
  have h := toV4_RemoveFromList
    ({ b with order_map_ := Function.update b.order_map_ (b.pool cur).order_id none }) cur
  have e : ({ b.toV4 with
      order_map_ := Function.update b.toV4.order_map_ (b.pool cur).order_id none } : OrderBookV4) =
      ({ b with order_map_ := Function.update b.order_map_ (b.pool cur).order_id none } :
        OrderBookV6).toV4 := rfl
  rw [e, h]
  rfl

theorem toV4_matchLevel (lside : Side) (lprice : Nat) :
    ∀ (fuel : Nat) (b : OrderBookV6) (cur : Option Nat) (q : Nat),
      OrderBookV4.matchLevel lside lprice fuel b.toV4 cur q =
        match matchLevel lside lprice fuel b cur q with
        | .error e => .error e
        | .ok (b', q') => .ok (b'.toV4, q') := by
  intro fuel
  induction fuel with
  | zero => intro b cur q; rfl
  | succ fuel ih =>
    intro b cur q
    rcases cur with _ | cur
    · rfl
    · rw [matchLevel_succ]
      show (if q > 0 then _ else _) = _
      by_cases hq : q > 0
      · rw [if_pos hq, if_pos hq]
        simp only [toV4_trade, toV4_pool, toV4_release]
        by_cases hz : ((trade lside lprice b cur q).pool cur).quantity = 0
        · rw [if_pos hz, if_pos hz]
          exact ih _ _ _
        · rw [if_neg hz, if_neg hz]
          exact ih _ _ _
      · rw [if_neg hq, if_neg hq]

theorem toV4_restBuy (b : OrderBookV6) (id price q : Nat) :
    b.toV4.restBuy id price q =
      match b.restBuy id price q with
      | .error e => .error e
      | .ok b' => .ok b'.toV4 := by
  unfold OrderBookV4.restBuy OrderBookV6.restBuy
  by_cases hq : q > 0
  · rw [if_pos hq, if_pos hq]
    have e0 : b.toV4.order_pool_ = b.order_pool_ := rfl
    rw [e0]
    unfold ObjectPool.NewOrder
    rcases b.order_pool_.free_list_ with _ | ⟨s, rest⟩
    · rfl
    · simp only []
      have e1 : ({ b.toV4 with
          order_pool_ := { pool_ := b.order_pool_.pool_, free_list_ := rest } } : OrderBookV4) =
          ({ b with order_pool_ := { pool_ := b.order_pool_.pool_, free_list_ := rest } } :
            OrderBookV6).toV4 := rfl
      rw [e1]
      simp only [toV4_pool, toV4_setOrder, toV4_AddToList]
      rcases OrderBookV6.AddToList _ price s with e | b3
      · rfl
      · simp only []
        split_ifs <;> first | rfl | (exfalso; simp only [OrderBookV6.toV4] at *; omega)
  · rw [if_neg hq, if_neg hq]

theorem toV4_restSell (b : OrderBookV6) (id price q : Nat) :
    b.toV4.restSell id price q =
      match b.restSell id price q with
      | .error e => .error e
      | .ok b' => .ok b'.toV4 := by
  unfold OrderBookV4.restSell OrderBookV6.restSell
  by_cases hq : q > 0
  · rw [if_pos hq, if_pos hq]
    have e0 : b.toV4.order_pool_ = b.order_pool_ := rfl
    rw [e0]
    unfold ObjectPool.NewOrder
    rcases b.order_pool_.free_list_ with _ | ⟨s, rest⟩
    · rfl
    · simp only []
      have e1 : ({ b.toV4 with
          order_pool_ := { pool_ := b.order_pool_.pool_, free_list_ := rest } } : OrderBookV4) =
          ({ b with order_pool_ := { pool_ := b.order_pool_.pool_, free_list_ := rest } } :
            OrderBookV6).toV4 := rfl
      rw [e1]
      simp only [toV4_pool, toV4_setOrder, toV4_AddToList]
      rcases OrderBookV6.AddToList _ price s with e | b3
      · rfl
      · simp only []
        split_ifs <;> first | rfl | (exfalso; simp only [OrderBookV6.toV4] at *; omega)
  · rw [if_neg hq, if_neg hq]

/-! ## The two ways to recompute a best price agree -/

/-- The linear scan of `OrderBookV4::UpdateBestBid` finds the highest non-empty
level at or below its start. -/
theorem scanBid_eq (bids : Nat → PriceLevel_V6) (f : Nat → List AOrder)
    (hh : ∀ p, (bids p).head = none ↔ f p = []) :
    ∀ p, OrderBookV4.scanBid bids p = lastFrom f p := by
  intro p
  induction p with
  | zero => rfl
  | succ p ih =>
    unfold OrderBookV4.scanBid lastFrom
    rcases hf : f (p + 1) with _ | ⟨o, t⟩
    · rw [if_pos ((hh _).2 hf)]
      exact ih
    · rw [if_neg (fun e => by rw [(hh _).1 e] at hf; cases hf)]

/-- The linear scan of `OrderBookV4::UpdateBestAsk` finds the lowest non-empty
level at or above its start, or `MAX_PRICE`. -/
theorem scanAsk_eq (asks : Nat → PriceLevel_V6) (f : Nat → List AOrder)
    (hh : ∀ p, (asks p).head = none ↔ f p = []) :
    ∀ n p, p + n = MAX_PRICE → OrderBookV4.scanAsk asks n p = firstFrom f (n + 1) p := by
  intro n
  induction n with
  | zero =>
    intro p hp
    have hp' : p = MAX_PRICE := by omega
    unfold OrderBookV4.scanAsk firstFrom
    rcases f p with _ | ⟨o, t⟩
    · simp only [firstFrom]; exact hp'
    · rfl
  | succ n ih =>
    intro p hp
    unfold OrderBookV4.scanAsk
    rw [firstFrom]
    rcases hf : f p with _ | ⟨o, t⟩
    · rw [if_pos ⟨by omega, (hh _).2 hf⟩]
      exact ih (p + 1) (by omega)
    · rw [if_neg (fun e => by rw [(hh _).1 e.2] at hf; cases hf)]

theorem toV4_UpdateBestBid {b : OrderBookV6} {a : ABook} (hr : Rep b a) :
    b.toV4.UpdateBestBid = b.UpdateBestBid.toV4 := by
  have h1 := UpdateBestBid_eq b _ hr.bidBits
  have h2 := scanBid_eq b.bids_ (a.lv Side.BUY)
    (fun p => head_eq_none_iff hr.core Side.BUY p) b.best_bid_
  have e : b.UpdateBestBid.toV4 = { b.toV4 with best_bid_ := b.UpdateBestBid.best_bid_ } := rfl
  rw [e, h1, ← h2]
  rfl

theorem toV4_UpdateBestAsk {b : OrderBookV6} {a : ABook} (hr : Rep b a)
    (hp : ∀ x, a.lv Side.SELL x ≠ [] → x ≤ MAX_PRICE) (hba : a.best_ask ≤ MAX_PRICE) :
    b.toV4.UpdateBestAsk = b.UpdateBestAsk.toV4 := by
  have hle : b.best_ask_ ≤ MAX_PRICE := by rw [hr.best_ask]; exact hba
  have h1 := UpdateBestAsk_eq b _ hr.askBits hp
  have h2 := scanAsk_eq b.asks_ (a.lv Side.SELL)
    (fun p => head_eq_none_iff hr.core Side.SELL p) (MAX_PRICE - b.best_ask_) b.best_ask_
    (by omega)
  have e : b.UpdateBestAsk.toV4 = { b.toV4 with best_ask_ := b.UpdateBestAsk.best_ask_ } := rfl
  have e3 : MAX_PRICE + 1 - b.best_ask_ = MAX_PRICE - b.best_ask_ + 1 := by omega
  rw [e, h1, e3, ← h2]
  rfl

/-! ## The matching loops in lockstep -/

theorem toV4_matchBuy (price : Nat) :
    ∀ (fuel : Nat) (b : OrderBookV6) (a : ABook) (q : Nat), Rep b a → a.Inv → q < 2 ^ 32 →
      OrderBookV4.matchBuy price fuel b.toV4 q =
        match matchBuy price fuel b q with
        | .error e => .error e
        | .ok (b', q') => .ok (b'.toV4, q') := by
  intro fuel
  induction fuel with
  | zero => intro b a q _ _ _; rfl
  | succ fuel ih =>
    intro b a q hr hinv hq
    rw [OrderBookV4.matchBuy, matchBuy]
    have eb : b.toV4.best_ask_ = b.best_ask_ := rfl
    have ea : b.toV4.asks_ = b.asks_ := rfl
    simp only [eb, ea]
    by_cases hg : q > 0 ∧ price ≥ b.best_ask_ ∧ b.best_ask_ < MAX_PRICE
    · rw [if_pos hg, if_pos hg]
      have hc : a.crosses Side.BUY price := by
        have := hg.2; rw [hr.best_ask] at this; exact this
      obtain ⟨h1, h2, h3⟩ := buyRound_sim hr hinv hq hc fuel
      rw [if_neg h1, if_neg h1, toV4_matchLevel]
      rcases hml : aMatchLevel Side.SELL a.best_ask fuel a q with _ | ⟨a1, q1⟩
      · rw [h2 hml]
      · obtain ⟨b1, e1, hr1, hsq, hiff, g1, g2⟩ := h3 a1 q1 hml
        rw [e1]
        simp only []
        have hinv1 := hinv.afterLevel hc hml
        have hob : a.oppBest Side.BUY = a.best_ask := rfl
        have hopp : Side.BUY.opp = Side.SELL := rfl
        unfold ABook.afterLevel at hinv1
        rw [hob, hopp] at hinv1
        obtain ⟨f1, f2, _, _, f5, _⟩ := aMatchLevel_frame hml
        have hwf1 := aMatchLevel_WF _ _ _ _ _ _ _ hml hinv.wf
        have hq1 : q1 < 2 ^ 32 := by
          have := fillList_le (a.lv Side.SELL a.best_ask) q
          omega
        have ea1 : b1.toV4.asks_ = b1.asks_ := rfl
        rw [ea1]
        rcases hl1 : a1.lv Side.SELL a.best_ask with _ | ⟨o1, t1⟩
        · rw [hl1] at hinv1
          rw [if_pos (hiff.2 hl1), if_pos (hiff.2 hl1)]
          have hrc := g1 hl1
          have hu := toV4_UpdateBestAsk hrc (hwf1.price_le Side.SELL)
            (by rw [f2]; exact hinv.best_ask_le)
          have e4 : b1.toV4.UpdateBestAsk =
              ({ b1 with asks_bitmap_ := clear_bit b1.best_ask_ b1.asks_bitmap_ } :
                OrderBookV6).toV4.UpdateBestAsk := rfl
          rw [e4, hu]
          exact ih _ _ q1 (hrc.updateBestAsk (hwf1.price_le Side.SELL)) hinv1 hq1
        · rw [hl1] at hinv1
          have hne : a1.lv Side.SELL a.best_ask ≠ [] := by rw [hl1]; simp
          have hnh : ¬ (b1.asks_ b.best_ask_).head = none := fun e => hne (hiff.1 e)
          rw [if_neg hnh, if_neg hnh]
          exact ih b1 a1 q1 (g2 hne) hinv1 hq1
    · rw [if_neg hg, if_neg hg]

theorem toV4_matchSell (price : Nat) :
    ∀ (fuel : Nat) (b : OrderBookV6) (a : ABook) (q : Nat), Rep b a → a.Inv → q < 2 ^ 32 →
      OrderBookV4.matchSell price fuel b.toV4 q =
        match matchSell price fuel b q with
        | .error e => .error e
        | .ok (b', q') => .ok (b'.toV4, q') := by
  intro fuel
  induction fuel with
  | zero => intro b a q _ _ _; rfl
  | succ fuel ih =>
    intro b a q hr hinv hq
    rw [OrderBookV4.matchSell, matchSell]
    have eb : b.toV4.best_bid_ = b.best_bid_ := rfl
    have ea : b.toV4.bids_ = b.bids_ := rfl
    simp only [eb, ea]
    by_cases hg : q > 0 ∧ price ≤ b.best_bid_ ∧ b.best_bid_ > 0
    · rw [if_pos hg, if_pos hg]
      have hc : a.crosses Side.SELL price := by
        have := hg.2; rw [hr.best_bid] at this; exact this
      obtain ⟨h1, h2, h3⟩ := sellRound_sim hr hinv hq hc fuel
      rw [if_neg h1, if_neg h1, toV4_matchLevel]
      rcases hml : aMatchLevel Side.BUY a.best_bid fuel a q with _ | ⟨a1, q1⟩
      · rw [h2 hml]
      · obtain ⟨b1, e1, hr1, hsq, hiff, g1, g2⟩ := h3 a1 q1 hml
        rw [e1]
        simp only []
        have hinv1 := hinv.afterLevel hc hml
        have hob : a.oppBest Side.SELL = a.best_bid := rfl
        have hopp : Side.SELL.opp = Side.BUY := rfl
        unfold ABook.afterLevel at hinv1
        rw [hob, hopp] at hinv1
        obtain ⟨f1, f2, _, _, f5, _⟩ := aMatchLevel_frame hml
        have hq1 : q1 < 2 ^ 32 := by
          have := fillList_le (a.lv Side.BUY a.best_bid) q
          omega
        have ea1 : b1.toV4.bids_ = b1.bids_ := rfl
        rw [ea1]
        rcases hl1 : a1.lv Side.BUY a.best_bid with _ | ⟨o1, t1⟩
        · rw [hl1] at hinv1
          rw [if_pos (hiff.2 hl1), if_pos (hiff.2 hl1)]
          have hrc := g1 hl1
          have hu := toV4_UpdateBestBid hrc
          have e4 : b1.toV4.UpdateBestBid =
              ({ b1 with bids_bitmap_ := clear_bit b1.best_bid_ b1.bids_bitmap_ } :
                OrderBookV6).toV4.UpdateBestBid := rfl
          rw [e4, hu]
          exact ih _ _ q1 hrc.updateBestBid hinv1 hq1
        · rw [hl1] at hinv1
          have hne : a1.lv Side.BUY a.best_bid ≠ [] := by rw [hl1]; simp
          have hnh : ¬ (b1.bids_ b.best_bid_).head = none := fun e => hne (hiff.1 e)
          rw [if_neg hnh, if_neg hnh]
          exact ih b1 a1 q1 (g2 hne) hinv1 hq1
    · rw [if_neg hg, if_neg hg]

/-- `AddOrder` on the bitmap book without its bitmaps is `OrderBookV4::AddOrder`:
with the same fuel the two return together, and the same book up to the bitmaps. -/
theorem toV4_AddOrder {b : OrderBookV6} {a : ABook} (hr : Rep b a) (hinv : a.Inv)
    (fuel id : Nat) (side : Side) (price : Nat) {q : Nat} (hq : q < 2 ^ 32) :
    b.toV4.AddOrder fuel id side price q =
      match b.AddOrder fuel id side price q with
      | .error e => .error e
      | .ok b' => .ok b'.toV4 := by
  unfold OrderBookV4.AddOrder OrderBookV6.AddOrder
  cases side with
  | BUY =>
    simp only []
    rw [toV4_matchBuy price fuel b a q hr hinv hq]
    rcases matchBuy price fuel b q with e | ⟨b1, q1⟩
    · rfl
    · exact toV4_restBuy b1 id price q1
  | SELL =>
    simp only []
    rw [toV4_matchSell price fuel b a q hr hinv hq]
    rcases matchSell price fuel b q with e | ⟨b1, q1⟩
    · rfl
    · exact toV4_restSell b1 id price q1

/-! ## `CancelOrder` in lockstep -/

/-- `OrderBookV4::CancelOrder` of a live order, step by step. -/
theorem CancelOrderV4_live (b : OrderBookV6) (id s : Nat) (hlt : id < MAX_ORDER_ID)
    (hm : b.order_map_ id = some s) (hid : (b.pool s).order_id = id) :
    b.toV4.CancelOrder id =
      if (b.pool s).side = Side.BUY ∧ ((b.unlink s).bids_ (b.pool s).price).head = none ∧
          (b.pool s).price = (b.unlink s).best_bid_ then
        (b.unlink s).toV4.UpdateBestBid
      else if (b.pool s).side = Side.SELL ∧ ((b.unlink s).asks_ (b.pool s).price).head = none ∧
          (b.pool s).price = (b.unlink s).best_ask_ then
        (b.unlink s).toV4.UpdateBestAsk
      else (b.unlink s).toV4 := by
  subst hid
  unfold OrderBookV4.CancelOrder
  rw [if_neg (by omega)]
  have hm' : b.toV4.order_map_ (b.pool s).order_id = some s := hm
  simp only [hm', toV4_pool, toV4_RemoveFromList]
  rfl

/-- The book after the three removal steps of `CancelOrder` holds the list view
without the cancelled order; once the bit of an emptied level is cleared, the
bitmaps agree with it too. -/
theorem unlink_rep {b : OrderBookV6} {a a1 : ABook} (hr : Rep b a) (hwf : a.WF)
    {side : Side} {p : Nat} {o : AOrder} (ho : o ∈ a.lv side p)
    (ha1 : a1 = { a.setLv side p ((a.lv side p).erase o) with free := o.slot :: a.free }) :
    RepCore (b.unlink o.slot) a1 ∧ SameQuotes b (b.unlink o.slot) ∧ a1.WF ∧
    a1.best_bid = a.best_bid ∧ a1.best_ask = a.best_ask ∧
    (a1.lv side p = [] → side = Side.BUY →
      Rep ({ b.unlink o.slot with
        bids_bitmap_ := clear_bit p (b.unlink o.slot).bids_bitmap_ } : OrderBookV6) a1) ∧
    (a1.lv side p = [] → side = Side.SELL →
      Rep ({ b.unlink o.slot with
        asks_bitmap_ := clear_bit p (b.unlink o.slot).asks_bitmap_ } : OrderBookV6) a1) := by
  obtain ⟨l1, l2, hl⟩ := List.append_of_mem ho
  have hnd := hwf.struct.nodup side p
  rw [hl] at hnd
  have hno1 : o ∉ l1 := fun e =>
    (List.nodup_append.1 hnd).2.2 e (List.mem_cons_self _ _)
  have her : (a.lv side p).erase o = l1 ++ l2 := by rw [hl]; exact erase_mid hno1
  have hrc := RepCore_unlink hr.core hwf.struct hl
  have hsq := SameQuotes_unlink b o.slot
  have hwf1 := hwf.remove hl
  rw [her] at ha1
  rw [← ha1] at hrc hwf1
  have hlvo : ∀ sd x, ¬ (sd = side ∧ x = p) → a1.lv sd x = a.lv sd x := by
    intro sd x hc; rw [ha1]; show (a.setLv side p _).lv sd x = _
    rw [ABook.setLv_lv, if_neg hc]
  have hbb1 : a1.best_bid = a.best_bid := by rw [ha1]; rfl
  have hba1 : a1.best_ask = a.best_ask := by rw [ha1]; rfl
  refine ⟨hrc, hsq, hwf1, hbb1, hba1, ?_, ?_⟩
  · intro hl1 hside
    subst hside
    refine ⟨hrc.transfer (fun s p => by cases s <;> rfl) (fun _ => rfl) rfl rfl rfl rfl,
      ?_, ?_, ?_, ?_⟩
    · show Bits (clear_bit p (b.unlink o.slot).bids_bitmap_) _
      rw [hsq.2.2.1]
      exact hr.bidBits.clear p hl1 (fun x hx => hlvo _ _ (by simp [hx]))
    · show Bits (b.unlink o.slot).asks_bitmap_ _
      rw [hsq.2.2.2]
      refine hr.askBits.same ?_
      intro x; rw [hlvo _ _ (by simp)]
    · show (b.unlink o.slot).best_bid_ = _
      rw [hsq.1, hr.best_bid, hbb1]
    · show (b.unlink o.slot).best_ask_ = _
      rw [hsq.2.1, hr.best_ask, hba1]
  · intro hl1 hside
    subst hside
    refine ⟨hrc.transfer (fun s p => by cases s <;> rfl) (fun _ => rfl) rfl rfl rfl rfl,
      ?_, ?_, ?_, ?_⟩
    · show Bits (b.unlink o.slot).bids_bitmap_ _
      rw [hsq.2.2.1]
      refine hr.bidBits.same ?_
      intro x; rw [hlvo _ _ (by simp)]
    · show Bits (clear_bit p (b.unlink o.slot).asks_bitmap_) _
      rw [hsq.2.2.2]
      exact hr.askBits.clear p hl1 (fun x hx => hlvo _ _ (by simp [hx]))
    · show (b.unlink o.slot).best_bid_ = _
      rw [hsq.1, hr.best_bid, hbb1]
    · show (b.unlink o.slot).best_ask_ = _
      rw [hsq.2.1, hr.best_ask, hba1]

/-- `CancelOrder` on the bitmap book without its bitmaps is
`OrderBookV4::CancelOrder`. -/
theorem toV4_CancelOrder {b : OrderBookV6} {a : ABook} (hr : Rep b a) (hinv : a.Inv)
    (id : Nat) : b.toV4.CancelOrder id = (b.CancelOrder id).toV4 := by
  by_cases hge : id ≥ MAX_ORDER_ID
  · unfold OrderBookV4.CancelOrder OrderBookV6.CancelOrder
    rw [if_pos hge, if_pos hge]
  · have hlt : id < MAX_ORDER_ID := by omega
    rcases hm : b.order_map_ id with _ | s
    · rw [CancelOrder_absent b id (Or.inr hm)]
      unfold OrderBookV4.CancelOrder
      rw [if_neg hge]
      have hm' : b.toV4.order_map_ id = none := hm
      simp only [hm']
    · obtain ⟨side, p, o, ho, hoid, hos⟩ := (hr.core.omap id s).1 hm
      subst hos
      have hrec := RepSeg_mem (hr.core.segs side p) ho
      have hid : (b.pool o.slot).order_id = id := hrec.1.trans hoid
      rw [CancelOrderV4_live b id o.slot hlt hm hid, CancelOrder_live b id o.slot hlt hm hid,
        hrec.2.2.2, hrec.2.2.1]
      obtain ⟨hrc, hsq, hwf1, hbb1, hba1, gB, gS⟩ := unlink_rep hr hinv.wf ho rfl
      generalize ha1 : ({ a.setLv side p ((a.lv side p).erase o) with
        free := o.slot :: a.free } : ABook) = a1 at hrc hwf1 hbb1 hba1 gB gS
      generalize hb3 : b.unlink o.slot = b3 at hrc hsq gB gS
      have hhead := head_eq_none_iff hrc side p
      unfold cancelTail
      cases side with
      | BUY =>
        have n1 : ¬ (Side.BUY = Side.SELL ∧ (b3.asks_ p).head = none ∧ p = b3.best_ask_) :=
          fun h => by cases h.1
        have n2 : ¬ (Side.BUY = Side.SELL ∧ (b3.asks_ p).head = none) :=
          fun h => by cases h.1
        by_cases hh : (b3.bids_ p).head = none
        · have hl1 : a1.lv Side.BUY p = [] := hhead.1 hh
          have hrep4 := gB hl1 rfl
          by_cases hpb : p = b3.best_bid_
          · rw [if_pos (show Side.BUY = Side.BUY ∧ (b3.bids_ p).head = none ∧ p = b3.best_bid_
                from ⟨rfl, hh, hpb⟩),
              if_pos (show Side.BUY = Side.BUY ∧ (b3.bids_ p).head = none from ⟨rfl, hh⟩),
              if_pos hpb]
            exact toV4_UpdateBestBid hrep4
          · rw [if_neg (show ¬ (Side.BUY = Side.BUY ∧ (b3.bids_ p).head = none ∧
                p = b3.best_bid_) from fun h => hpb h.2.2), if_neg n1,
              if_pos (show Side.BUY = Side.BUY ∧ (b3.bids_ p).head = none from ⟨rfl, hh⟩),
              if_neg hpb]
            rfl
        · rw [if_neg (show ¬ (Side.BUY = Side.BUY ∧ (b3.bids_ p).head = none ∧
              p = b3.best_bid_) from fun h => hh h.2.1), if_neg n1,
            if_neg (show ¬ (Side.BUY = Side.BUY ∧ (b3.bids_ p).head = none)
              from fun h => hh h.2), if_neg n2]
      | SELL =>
        have n1 : ¬ (Side.SELL = Side.BUY ∧ (b3.bids_ p).head = none ∧ p = b3.best_bid_) :=
          fun h => by cases h.1
        have n2 : ¬ (Side.SELL = Side.BUY ∧ (b3.bids_ p).head = none) :=
          fun h => by cases h.1
        rw [if_neg n1, if_neg n2]
        by_cases hh : (b3.asks_ p).head = none
        · have hl1 : a1.lv Side.SELL p = [] := hhead.1 hh
          have hrep4 := gS hl1 rfl
          by_cases hpb : p = b3.best_ask_
          · rw [if_pos (show Side.SELL = Side.SELL ∧ (b3.asks_ p).head = none ∧ p = b3.best_ask_
                from ⟨rfl, hh, hpb⟩),
              if_pos (show Side.SELL = Side.SELL ∧ (b3.asks_ p).head = none from ⟨rfl, hh⟩),
              if_pos hpb]
            exact toV4_UpdateBestAsk hrep4 (hwf1.price_le Side.SELL)
              (by rw [hba1]; exact hinv.best_ask_le)
          · rw [if_neg (show ¬ (Side.SELL = Side.SELL ∧ (b3.asks_ p).head = none ∧
                p = b3.best_ask_) from fun h => hpb h.2.2),
              if_pos (show Side.SELL = Side.SELL ∧ (b3.asks_ p).head = none from ⟨rfl, hh⟩),
              if_neg hpb]
            rfl
        · rw [if_neg (show ¬ (Side.SELL = Side.SELL ∧ (b3.asks_ p).head = none ∧
              p = b3.best_ask_) from fun h => hh h.2.1),
            if_neg (show ¬ (Side.SELL = Side.SELL ∧ (b3.asks_ p).head = none)
              from fun h => hh h.2)]

/-! ## C25: the bitmap book refines the linear-scan book -/

theorem toV4_levelRecords (b : OrderBookV6) (side : Side) (p : Nat) :
    b.toV4.levelRecords side p = b.levelRecords side p := by
  cases side <;> rfl

/-- Along a run of valid calls `OrderBookV4` stays the bitmap book without its
bitmaps. -/
theorem Run.runV4 {cs : List Call} {b : OrderBookV6} (h : Run cs b) :
    OrderBookV4.run cs = .ok b.toV4 := by
  induction h with
  | new => rfl
  | @add cs b b' fuel id side price q hrun hv he ih =>
    obtain ⟨hr, hinv⟩ := hrun.reachable.good
    unfold OrderBookV4.run
    rw [ih]
    simp only []
    rw [toV4_AddOrder hr hinv fuel id side price hv.qty_lt, he]
  | @cancel cs b id hrun ih =>
    obtain ⟨hr, hinv⟩ := hrun.reachable.good
    unfold OrderBookV4.run
    rw [ih]
    simp only []
    rw [toV4_CancelOrder hr hinv id]

/-- C25. The bitmap book refines the linear-scan book: for every sequence of
`AddOrder`/`CancelOrder` calls whose Adds satisfy the preconditions (and return
on `OrderBookV6` with the fuel they are given), `OrderBookV4` run on the same
calls with the same fuel returns too, and ends in the same observable state as
`OrderBookV6`: the same `best_bid_` and `best_ask_`, for every side and price the
same sequence of `(order_id, quantity)` records and the same `total_quantity`,
and the same live ids. The two books then agree on every field they share. -/
theorem C25_bitmap_refines_linear_scan (cs : List Call) (b : OrderBookV6) (h : Run cs b) :
    ∃ b4 : OrderBookV4, OrderBookV4.run cs = .ok b4 ∧
      b4.best_bid_ = b.best_bid_ ∧ b4.best_ask_ = b.best_ask_ ∧
      (∀ side p, b4.levelRecords side p = b.levelRecords side p ∧
        (b4.level side p).total_quantity = (b.level side p).total_quantity) ∧
      (∀ id, b4.order_map_ id ≠ none ↔ b.order_map_ id ≠ none) ∧
      b4 = b.toV4 := by
  refine ⟨b.toV4, h.runV4, rfl, rfl, ?_, fun id => Iff.rfl, rfl⟩
  intro side p
  refine ⟨toV4_levelRecords b side p, ?_⟩
  rw [toV4_level]

/-- C25 on the two calls `Add(1, SELL, 100, 5)`, `Add(2, SELL, 100, 5)`. -/
theorem C25_bitmap_refines_linear_scan_witness :
    Run [Call.add 7 2 Side.SELL 100 5, Call.add 7 1 Side.SELL 100 5] exFifo2 ∧
    ∃ b4 : OrderBookV4,
      OrderBookV4.run [Call.add 7 2 Side.SELL 100 5, Call.add 7 1 Side.SELL 100 5] = .ok b4 ∧
      b4.best_bid_ = exFifo2.best_bid_ ∧ b4.best_ask_ = exFifo2.best_ask_ ∧
      (∀ side p, b4.levelRecords side p = exFifo2.levelRecords side p ∧
        (b4.level side p).total_quantity = (exFifo2.level side p).total_quantity) ∧
      (∀ id, b4.order_map_ id ≠ none ↔ exFifo2.order_map_ id ≠ none) ∧
      b4 = exFifo2.toV4 :=
  ⟨exRunFifo2, C25_bitmap_refines_linear_scan _ exFifo2 exRunFifo2⟩

theorem Side.before_irrefl (side : Side) (x : Nat) : side.before x x = false := by
  cases side <;> simp [Side.before]

theorem Side.before_trans (side : Side) {x y z : Nat} (h1 : side.before x y = true)
    (h2 : side.before y z = true) : side.before x z = true := by
  cases side <;> simp [Side.before] at * <;> omega

theorem Side.before_total (side : Side) {x y : Nat} (h : x ≠ y) :
    side.before x y = true ∨ side.before y x = true := by
  cases side <;> simp [Side.before] <;> omega

theorem PriceMap.find_insert (before : Nat → Nat → Bool) (m : PriceMap) (k : Nat)
    (v : OrderList) (k' : Nat) :
    PriceMap.find (PriceMap.insert before m k v) k' =
      if k' = k then some v else PriceMap.find m k' := by
  induction m with
  | nil =>
    simp only [PriceMap.insert, PriceMap.find]
    by_cases h : k = k'
    · rw [if_pos h, if_pos h.symm]
    · rw [if_neg h, if_neg (fun e => h e.symm)]
  | cons e rest ih =>
    obtain ⟨k0, v0⟩ := e
    simp only [PriceMap.insert]
    by_cases hk : k' = k
    · subst hk
      rw [if_pos rfl]
      by_cases h0 : k0 = k'
      · rw [if_pos h0]
        simp only [PriceMap.find, if_true]
      · rw [if_neg h0]
        by_cases hb : before k' k0 = true
        · rw [if_pos hb]
          simp only [PriceMap.find, if_true]
        · rw [if_neg hb]
          simp only [PriceMap.find]
          rw [if_neg h0, ih, if_pos rfl]
    · rw [if_neg hk]
      have hk' : ¬ k = k' := fun e => hk e.symm
      by_cases h0 : k0 = k
      · rw [if_pos h0]
        have h0' : ¬ k0 = k' := fun e => hk' (h0.symm.trans e)
        simp only [PriceMap.find]
        rw [if_neg hk', if_neg h0']
      · rw [if_neg h0]
        by_cases hb : before k k0 = true
        · rw [if_pos hb]
          simp only [PriceMap.find]
          rw [if_neg hk']
        · rw [if_neg hb]
          simp only [PriceMap.find]
          rw [ih, if_neg hk]

theorem PriceMap.mem_insert (before : Nat → Nat → Bool) (m : PriceMap) (k : Nat)
    (v : OrderList) (e : Nat × OrderList) (he : e ∈ PriceMap.insert before m k v) :
    e = (k, v) ∨ e ∈ m := by
  induction m with
  | nil =>
    simp only [PriceMap.insert, List.mem_singleton] at he
    exact Or.inl he
  | cons e0 rest ih =>
    obtain ⟨k0, v0⟩ := e0
    simp only [PriceMap.insert] at he
    by_cases h0 : k0 = k
    · rw [if_pos h0] at he
      rcases List.mem_cons.1 he with h | h
      · exact Or.inl h
      · exact Or.inr (List.mem_cons_of_mem _ h)
    · rw [if_neg h0] at he
      by_cases hb : before k k0 = true
      · rw [if_pos hb] at he
        rcases List.mem_cons.1 he with h | h
        · exact Or.inl h
        · exact Or.inr h
      · rw [if_neg hb] at he
        rcases List.mem_cons.1 he with h | h
        · exact Or.inr (by rw [h]; exact List.mem_cons_self _ _)
        · rcases ih h with h | h
          · exact Or.inl h
          · exact Or.inr (List.mem_cons_of_mem _ h)

theorem PriceMap.Sorted.insert {side : Side} {m : PriceMap} (h : PriceMap.Sorted side m)
    (k : Nat) (v : OrderList) : PriceMap.Sorted side (PriceMap.insert side.before m k v) := by
  induction m with
  | nil => simp [PriceMap.insert, PriceMap.Sorted]
  | cons e0 rest ih =>
    obtain ⟨k0, v0⟩ := e0
    unfold PriceMap.Sorted at h ih ⊢
    rw [List.map_cons, List.pairwise_cons] at h
    simp only [PriceMap.insert]
    by_cases h0 : k0 = k
    · rw [if_pos h0]
      rw [List.map_cons, List.pairwise_cons]
      subst h0
      exact h
    · rw [if_neg h0]
      by_cases hb : side.before k k0 = true
      · rw [if_pos hb]
        rw [List.map_cons, List.pairwise_cons, List.map_cons, List.pairwise_cons]
        refine ⟨?_, h⟩
        intro x hx
        rcases List.mem_cons.1 hx with e | e
        · rw [e]; exact hb
        · exact side.before_trans hb (h.1 x e)
      · rw [if_neg hb]
        rw [List.map_cons, List.pairwise_cons]
        refine ⟨?_, ih h.2⟩
        intro x hx
        obtain ⟨e, he, rfl⟩ := List.mem_map.1 hx
        rcases PriceMap.mem_insert _ _ _ _ _ he with e1 | e1
        · rw [e1]
          rcases side.before_total h0 with g | g
          · exact g
          · exact absurd g hb
        · exact h.1 _ (List.mem_map_of_mem _ e1)

theorem PriceMap.mem_erase (m : PriceMap) (k : Nat) (e : Nat × OrderList)
    (he : e ∈ PriceMap.erase m k) : e ∈ m := by
  induction m with
  | nil => simp [PriceMap.erase] at he
  | cons e0 rest ih =>
    obtain ⟨k0, v0⟩ := e0
    simp only [PriceMap.erase] at he
    by_cases h0 : k0 = k
    · rw [if_pos h0] at he
      exact List.mem_cons_of_mem _ he
    · rw [if_neg h0] at he
      rcases List.mem_cons.1 he with h | h
      · rw [h]; exact List.mem_cons_self _ _
      · exact List.mem_cons_of_mem _ (ih h)

theorem PriceMap.Sorted.tail {side : Side} {e : Nat × OrderList} {m : PriceMap}
    (h : PriceMap.Sorted side (e :: m)) : PriceMap.Sorted side m := by
  unfold PriceMap.Sorted at h ⊢
  rw [List.map_cons, List.pairwise_cons] at h
  exact h.2

theorem PriceMap.Sorted.erase {side : Side} {m : PriceMap} (h : PriceMap.Sorted side m)
    (k : Nat) : PriceMap.Sorted side (PriceMap.erase m k) := by
  induction m with
  | nil => exact h
  | cons e0 rest ih =>
    obtain ⟨k0, v0⟩ := e0
    simp only [PriceMap.erase]
    by_cases h0 : k0 = k
    · rw [if_pos h0]; exact h.tail
    · rw [if_neg h0]
      have ht := ih h.tail
      unfold PriceMap.Sorted at h ht ⊢
      rw [List.map_cons, List.pairwise_cons] at h ⊢
      refine ⟨?_, ht⟩
      intro x hx
      obtain ⟨e, he, rfl⟩ := List.mem_map.1 hx
      exact h.1 _ (List.mem_map_of_mem _ (PriceMap.mem_erase _ _ _ he))

/-- A key found in the map is one of its entries. -/
theorem PriceMap.find_mem {m : PriceMap} {k : Nat} {v : OrderList}
    (h : PriceMap.find m k = some v) : (k, v) ∈ m := by
  induction m with
  | nil => simp [PriceMap.find] at h
  | cons e0 rest ih =>
    obtain ⟨k0, v0⟩ := e0
    simp only [PriceMap.find] at h
    by_cases h0 : k0 = k
    · rw [if_pos h0] at h
      cases h
      rw [h0]; exact List.mem_cons_self _ _
    · rw [if_neg h0] at h
      exact List.mem_cons_of_mem _ (ih h)

/-- In a sorted map the first entry's key is not a key of the rest, and comes
before every other key. -/
theorem PriceMap.Sorted.head {side : Side} {k : Nat} {v : OrderList} {m : PriceMap}
    (h : PriceMap.Sorted side ((k, v) :: m)) :
    PriceMap.find m k = none ∧
    ∀ k' v', PriceMap.find m k' = some v' → side.before k k' = true := by
  unfold PriceMap.Sorted at h
  rw [List.map_cons, List.pairwise_cons] at h
  have hb : ∀ k' v', PriceMap.find m k' = some v' → side.before k k' = true := by
    intro k' v' hf
    exact h.1 k' (List.mem_map.2 ⟨(k', v'), PriceMap.find_mem hf, rfl⟩)
  refine ⟨?_, hb⟩
  cases hf : PriceMap.find m k with
  | none => rfl
  | some v' =>
    have := hb k v' hf
    rw [side.before_irrefl] at this
    cases this

theorem PriceMap.find_erase {side : Side} {m : PriceMap} (h : PriceMap.Sorted side m)
    (k k' : Nat) :
    PriceMap.find (PriceMap.erase m k) k' = if k' = k then none else PriceMap.find m k' := by
  induction m with
  | nil =>
    simp only [PriceMap.erase, PriceMap.find]
    split <;> rfl
  | cons e0 rest ih =>
    obtain ⟨k0, v0⟩ := e0
    simp only [PriceMap.erase]
    by_cases h0 : k0 = k
    · rw [if_pos h0]
      subst h0
      by_cases hk : k' = k0
      · rw [if_pos hk, hk]
        exact h.head.1
      · rw [if_neg hk]
        simp only [PriceMap.find]
        rw [if_neg (fun e => hk e.symm)]
    · rw [if_neg h0]
      simp only [PriceMap.find]
      by_cases hk : k0 = k'
      · have hk2 : ¬ k' = k := fun e => h0 (hk.trans e)
        simp only [if_pos hk, if_neg hk2]
      · simp only [if_neg hk, ih h.tail]

theorem sub64_of_le (v t : Nat) (h : t ≤ v) (hv : v < 2 ^ 64) : sub64 v t = v - t := by
  unfold sub64
  rw [Nat.mod_eq_of_lt (by omega : t < 2 ^ 64)]
  have : v + 2 ^ 64 - t = (v - t) + 2 ^ 64 := by omega
  rw [this, Nat.add_mod_right, Nat.mod_eq_of_lt (by omega)]

theorem matchLevelV1_nil (fuel : Nat) (m : Nat → Option OrderLocation) (q : Nat) :
    OrderBookV1.matchLevel (fuel + 1) [] m q = .ok ([], m, q) := rfl

theorem matchLevelV1_cons (fuel : Nat) (n : ListNode) (r : OrderList)
    (m : Nat → Option OrderLocation) (q : Nat) :
    OrderBookV1.matchLevel (fuel + 1) (n :: r) m q =
      if q > 0 then
        if sub64 n.val.quantity (min q n.val.quantity) = 0 then
          OrderBookV1.matchLevel fuel r (Function.update m n.val.order_id none)
            (sub64 q (min q n.val.quantity))
        else
          OrderBookV1.matchLevel fuel
            ({ n with val := { n.val with
                quantity := sub64 n.val.quantity (min q n.val.quantity) } } :: r) m
            (sub64 q (min q n.val.quantity))
      else .ok (n :: r, m, q) := rfl

/-- The shape of what the inner loop of `OrderBookV1::AddOrder` leaves: the
first `k` nodes are gone, with their `order_map_` entries, and the other nodes
keep their identity and their order id. -/
theorem matchLevelV1_shape :
    ∀ (fuel : Nat) (l : OrderList) (m : Nat → Option OrderLocation) (q : Nat)
      (l' : OrderList) (m' : Nat → Option OrderLocation) (q' : Nat),
      OrderBookV1.matchLevel fuel l m q = .ok (l', m', q') →
      ∃ k, l'.map ListNode.key = (l.drop k).map ListNode.key ∧
        ∀ id, m' id =
          if id ∈ (l.take k).map (fun n => n.val.order_id) then none else m id := by
  intro fuel
  induction fuel with
  | zero => intro l m q l' m' q' h; cases h
  | succ fuel ih =>
    intro l m q l' m' q' h
    rcases l with _ | ⟨n, r⟩
    · rw [matchLevelV1_nil] at h
      simp only [Except.ok.injEq, Prod.mk.injEq] at h
      obtain ⟨rfl, rfl, rfl⟩ := h
      exact ⟨0, rfl, fun id => by simp⟩
    · rw [matchLevelV1_cons] at h
      by_cases hq : q > 0
      · rw [if_pos hq] at h
        by_cases hz : sub64 n.val.quantity (min q n.val.quantity) = 0
        · rw [if_pos hz] at h
          obtain ⟨k, h1, h2⟩ := ih _ _ _ _ _ _ h
          refine ⟨k + 1, h1, ?_⟩
          intro id
          rw [h2 id]
          simp only [List.take_succ_cons, List.map_cons, List.mem_cons]
          by_cases e : id = n.val.order_id
          · subst e
            simp
          · simp [e, Function.update_noteq e]
        · rw [if_neg hz] at h
          obtain ⟨k, h1, h2⟩ := ih _ _ _ _ _ _ h
          refine ⟨k, ?_, ?_⟩
          · rw [h1]
            cases k <;> rfl
          · intro id
            rw [h2 id]
            cases k <;> rfl
      · rw [if_neg hq] at h
        simp only [Except.ok.injEq, Prod.mk.injEq] at h
        obtain ⟨rfl, rfl, rfl⟩ := h
        exact ⟨0, rfl, fun id => by simp⟩

/-- The inner loop of `OrderBookV1::AddOrder` does what `aMatchLevel` does on
the list view, with the same fuel. -/
theorem matchLevelV1_sim (side : Side) (p : Nat) :
    ∀ (fuel : Nat) (a : ABook) (l : OrderList) (m : Nat → Option OrderLocation) (q : Nat)
      (a' : ABook) (q' : Nat),
      aMatchLevel side p fuel a q = some (a', q') →
      l.map ListNode.idq = (a.lv side p).map AOrder.idq →
      (∀ o ∈ a.lv side p, o.qty < 2 ^ 64) → q < 2 ^ 64 →
      ∃ l' m', OrderBookV1.matchLevel fuel l m q = .ok (l', m', q') ∧
        l'.map ListNode.idq = (a'.lv side p).map AOrder.idq := by
  intro fuel
  induction fuel with
  | zero => intro a l m q a' q' h; simp [aMatchLevel] at h
  | succ fuel ih =>
    intro a l m q a' q' h hl hlt hq
    rw [aMatchLevel] at h
    rcases hla : a.lv side p with _ | ⟨o, t⟩
    · rw [hla] at h hl
      simp only [Option.some.injEq, Prod.mk.injEq] at h
      obtain ⟨rfl, rfl⟩ := h
      have : l = [] := by simpa using hl
      subst this
      exact ⟨[], m, matchLevelV1_nil _ _ _, by rw [hla]; rfl⟩
    · rw [hla] at h hl
      simp only [] at h
      rcases l with _ | ⟨n, r⟩
      · simp at hl
      · rw [List.map_cons, List.map_cons, List.cons.injEq] at hl
        obtain ⟨hn, hr⟩ := hl
        have hid : n.val.order_id = o.id := congrArg Prod.fst hn
        have hqty : n.val.quantity = o.qty := congrArg Prod.snd hn
        have hoq : o.qty < 2 ^ 64 := hlt o (by rw [hla]; exact List.mem_cons_self _ _)
        rw [matchLevelV1_cons]
        by_cases hq0 : q > 0
        · rw [if_pos hq0] at h ⊢
          by_cases hfull : o.qty ≤ q
          · rw [if_pos hfull] at h
            have e1 : min q n.val.quantity = o.qty := by rw [hqty]; omega
            have e2 : sub64 n.val.quantity (min q n.val.quantity) = 0 := by
              rw [e1, hqty, sub64_of_le _ _ (Nat.le_refl _) hoq]; omega
            have e3 : sub64 q (min q n.val.quantity) = q - o.qty := by
              rw [e1, sub64_of_le _ _ hfull hq]
            rw [if_pos e2, e3]
            refine ih _ r _ _ a' q' h ?_ ?_ (by omega)
            · show _ = ((a.setLv side p t).lv side p).map AOrder.idq
              rw [ABook.setLv_lv, if_pos ⟨rfl, rfl⟩]
              exact hr
            · intro u hu
              have hu' : u ∈ (a.setLv side p t).lv side p := hu
              rw [ABook.setLv_lv, if_pos ⟨rfl, rfl⟩] at hu'
              exact hlt u (by rw [hla]; exact List.mem_cons_of_mem _ hu')
          · rw [if_neg hfull] at h
            have e1 : min q n.val.quantity = q := by rw [hqty]; omega
            have e2 : sub64 n.val.quantity (min q n.val.quantity) = o.qty - q := by
              rw [e1, hqty, sub64_of_le _ _ (by omega) hoq]
            have e3 : sub64 q (min q n.val.quantity) = 0 := by
              rw [e1, sub64_of_le _ _ (Nat.le_refl _) hq]; omega
            rw [if_neg (by rw [e2]; omega), e3]
            refine ih _ _ _ _ a' q' h ?_ ?_ (by omega)
            · rw [ABook.setLv_lv, if_pos ⟨rfl, rfl⟩, List.map_cons, List.map_cons, hr]
              congr 1
              show (n.val.order_id, sub64 n.val.quantity (min q n.val.quantity)) = (o.id, o.qty - q)
              rw [e2, hid]
            · intro u hu
              rw [ABook.setLv_lv, if_pos ⟨rfl, rfl⟩] at hu
              rcases List.mem_cons.1 hu with e | e
              · rw [e]; show o.qty - q < _; omega
              · exact hlt u (by rw [hla]; exact List.mem_cons_of_mem _ e)
        · rw [if_neg hq0] at h ⊢
          simp only [Option.some.injEq, Prod.mk.injEq] at h
          obtain ⟨rfl, rfl⟩ := h
          refine ⟨_, _, rfl, ?_⟩
          rw [hla, List.map_cons, List.map_cons, hn, hr]

theorem matchSide_buy (price : Nat) :
    ∀ (fuel : Nat) (b : OrderBookV1) (q : Nat),
      OrderBookV1.matchSide Side.BUY price fuel b q = OrderBookV1.matchBuy price fuel b q := by
  intro fuel
  induction fuel with
  | zero => intro b q; rfl
  | succ fuel ih =>
    intro b q
    rw [OrderBookV1.matchSide, OrderBookV1.matchBuy]
    have hb : b.book Side.BUY.opp = b.asks_ := rfl
    rw [hb]
    rcases b.asks_ with _ | ⟨⟨k, l⟩, rest⟩
    · rfl
    · simp only []
      have ht : Side.BUY.takes price k ↔ price ≥ k := Iff.rfl
      simp only [ht]
      by_cases hg : q > 0 ∧ price ≥ k
      · rw [if_pos hg, if_pos hg]
        rcases OrderBookV1.matchLevel fuel l b.order_map_ q with e | ⟨l1, m1, q1⟩
        · rfl
        · simp only []
          rw [ih]
          unfold OrderBookV1.afterRound
          by_cases he : l1.isEmpty = true
          · rw [if_pos he, if_pos he]; rfl
          · rw [if_neg he, if_neg he]; rfl
      · rw [if_neg hg, if_neg hg]

theorem matchSide_sell (price : Nat) :
    ∀ (fuel : Nat) (b : OrderBookV1) (q : Nat),
      OrderBookV1.matchSide Side.SELL price fuel b q = OrderBookV1.matchSell price fuel b q := by
  intro fuel
  induction fuel with
  | zero => intro b q; rfl
  | succ fuel ih =>
    intro b q
    rw [OrderBookV1.matchSide, OrderBookV1.matchSell]
    have hb : b.book Side.SELL.opp = b.bids_ := rfl
    rw [hb]
    rcases b.bids_ with _ | ⟨⟨k, l⟩, rest⟩
    · rfl
    · simp only []
      have ht : Side.SELL.takes price k ↔ price ≤ k := Iff.rfl
      simp only [ht]
      by_cases hg : q > 0 ∧ price ≤ k
      · rw [if_pos hg, if_pos hg]
        rcases OrderBookV1.matchLevel fuel l b.order_map_ q with e | ⟨l1, m1, q1⟩
        · rfl
        · simp only []
          rw [ih]
          unfold OrderBookV1.afterRound
          by_cases he : l1.isEmpty = true
          · rw [if_pos he, if_pos he]; rfl
          · rw [if_neg he, if_neg he]; rfl
      · rw [if_neg hg, if_neg hg]

theorem AddOrderV1_eq (fuel : Nat) (b : OrderBookV1) (id : Nat) (side : Side) (price q : Nat) :
    b.AddOrder fuel id side price q =
      match OrderBookV1.matchSide side price fuel b q with
      | .error e => .error e
      | .ok (b1, q1) => .ok (b1.restSide side id price q1) := by
  cases side with
  | BUY => rw [matchSide_buy]; rfl
  | SELL => rw [matchSide_sell]; rfl

/-! ## Reading the maps -/

theorem book_setBook (b : OrderBookV1) (sd s : Side) (m : PriceMap) :
    (b.setBook sd m).book s = if s = sd then m else b.book s := by
  cases sd <;> cases s <;> rfl

theorem ids_of_idq {l : OrderList} {la : List AOrder}
    (h : l.map ListNode.idq = la.map AOrder.idq) :
    l.map (fun n => n.val.order_id) = la.map AOrder.id := by
  have := congrArg (List.map Prod.fst) h
  rw [List.map_map, List.map_map] at this
  exact this

theorem ids_of_key (l : OrderList) :
    (l.map ListNode.key).map Prod.snd = l.map (fun n => n.val.order_id) := by
  rw [List.map_map]; rfl

theorem its_of_key (l : OrderList) : (l.map ListNode.key).map Prod.fst = l.map ListNode.it := by
  rw [List.map_map]; rfl

theorem ABook.Struct.ids_nodup {a : ABook} (hs : a.Struct) (side : Side) (p : Nat) :
    ((a.lv side p).map AOrder.id).Nodup := by
  refine List.Nodup.map_on ?_ (hs.nodup side p)
  intro x hx y hy hxy
  exact (hs.id_inj hx hy hxy).2.2

theorem Rep1.level_nil_iff {v : OrderBookV1} {a : ABook} (hr : Rep1 v a) (side : Side) (p : Nat) :
    v.levelOf side p = [] ↔ a.lv side p = [] := by
  have h := hr.levels side p
  constructor
  · intro e
    rw [e] at h
    exact List.map_eq_nil_iff.1 h.symm
  · intro e
    rw [e] at h
    exact List.map_eq_nil_iff.1 h

/-- A price is a key of the map of a side iff the list view has resting orders
at this price on this side. -/
theorem Rep1.isKey_iff {v : OrderBookV1} {a : ABook} (hr : Rep1 v a) (side : Side) (p : Nat) :
    v.isKey side p ↔ a.lv side p ≠ [] := by
  refine Iff.trans ?_ (not_congr (hr.level_nil_iff side p))
  unfold OrderBookV1.isKey OrderBookV1.levelOf
  cases hf : PriceMap.find (v.book side) p with
  | none => simp
  | some l =>
    have := hr.nonempty side _ (PriceMap.find_mem hf)
    simp [this]

/-- With an empty map on the other side the incoming order does not cross. -/
theorem Rep1.best_nil {v : OrderBookV1} {a : ABook} (hr : Rep1 v a) (hinv : a.Inv)
    {side : Side} (price : Nat) (hb : v.book side.opp = []) : ¬ a.crosses side price := by
  have hall : ∀ x, a.lv side.opp x = [] := by
    intro x
    refine (hr.level_nil_iff side.opp x).1 ?_
    unfold OrderBookV1.levelOf
    rw [hb]; rfl
  cases side with
  | BUY =>
    rintro ⟨_, h2⟩
    rcases hinv.best.ask_at with h | h
    · exact h (hall _)
    · omega
  | SELL =>
    rintro ⟨_, h2⟩
    rcases hinv.best.bid_at with h | h
    · exact h (hall _)
    · omega

/-- The first key of the map of the other side is the cached best price of the
list view, and the incoming order crosses iff its price reaches this key. -/
theorem Rep1.best_cons {v : OrderBookV1} {a : ABook} (hr : Rep1 v a) (hinv : a.Inv)
    (hint : a.Interior) {side : Side} (price : Nat) {k : Nat} {l : OrderList} {rest : PriceMap}
    (hb : v.book side.opp = (k, l) :: rest) :
    k = a.oppBest side ∧ v.levelOf side.opp k = l ∧
    (a.crosses side price ↔ side.takes price k) := by
  have hlev : v.levelOf side.opp k = l := by
    unfold OrderBookV1.levelOf
    rw [hb]
    simp [PriceMap.find]
  have hne : l ≠ [] := hr.nonempty side.opp (k, l) (by rw [hb]; exact List.mem_cons_self _ _)
  have hka : a.lv side.opp k ≠ [] := by
    intro e
    exact hne (by rw [← hlev]; exact (hr.level_nil_iff side.opp k).2 e)
  have hsorted := hr.sorted side.opp
  rw [hb] at hsorted
  have hkey : ∀ x, a.lv side.opp x ≠ [] → x = k ∨ side.opp.before k x = true := by
    intro x hx
    have hx' : v.levelOf side.opp x ≠ [] := fun e => hx ((hr.level_nil_iff side.opp x).1 e)
    unfold OrderBookV1.levelOf at hx'
    rw [hb] at hx'
    simp only [PriceMap.find] at hx'
    by_cases hkx : k = x
    · exact Or.inl hkx.symm
    · rw [if_neg hkx] at hx'
      right
      cases hf : PriceMap.find rest x with
      | none => rw [hf] at hx'; exact absurd rfl hx'
      | some l' => exact hsorted.head.2 x l' hf
  have hi := hint side.opp k hka
  cases side with
  | BUY =>
    have h1 : a.best_ask ≤ k := hinv.best.ask_lb k hka
    have h2 : a.lv Side.SELL a.best_ask ≠ [] := by
      rcases hinv.best.ask_at with h | h
      · exact h
      · omega
    have h3 : k = a.best_ask := by
      rcases hkey _ h2 with e | e
      · exact e.symm
      · have : k < a.best_ask := by simpa [Side.before, Side.opp] using e
        omega
    refine ⟨h3, hlev, ?_⟩
    show (price ≥ a.best_ask ∧ a.best_ask < MAX_PRICE) ↔ price ≥ k
    rw [← h3]
    constructor
    · exact fun h => h.1
    · exact fun h => ⟨h, hi.2⟩
  | SELL =>
    have h1 : k ≤ a.best_bid := hinv.best.bid_ub k hka
    have h2 : a.lv Side.BUY a.best_bid ≠ [] := by
      rcases hinv.best.bid_at with h | h
      · exact h
      · omega
    have h3 : k = a.best_bid := by
      rcases hkey _ h2 with e | e
      · exact e.symm
      · have : k > a.best_bid := by simpa [Side.before, Side.opp] using e
        omega
    refine ⟨h3, hlev, ?_⟩
    show (price ≤ a.best_bid ∧ a.best_bid > 0) ↔ price ≤ k
    rw [← h3]
    constructor
    · exact fun h => h.1
    · exact fun h => ⟨h, hi.1⟩

/-! ## One round of the matching loop of the map-based book -/

/-- The lists of the book after a round: the list of the matched level is what
the inner loop left, every other list is as before. -/
theorem levelOf_afterRound {v : OrderBookV1} {sd : Side} {k : Nat} {l : OrderList}
    {rest : PriceMap} (hs : PriceMap.Sorted sd ((k, l) :: rest))
    (hb : v.book sd = (k, l) :: rest) (l' : OrderList) (m' : Nat → Option OrderLocation)
    (s : Side) (x : Nat) :
    (v.afterRound sd k rest l' m').levelOf s x =
      if s = sd ∧ x = k then l' else v.levelOf s x := by
  by_cases hsd : s = sd
  · subst hsd
    have e0 : (v.afterRound s k rest l' m').book s =
        if l'.isEmpty then rest else (k, l') :: rest := by
      unfold OrderBookV1.afterRound
      rw [book_setBook, if_pos rfl]
    have e1 : PriceMap.find ((v.afterRound s k rest l' m').book s) x =
        if x = k then (if l'.isEmpty then none else some l') else PriceMap.find rest x := by
      rw [e0]
      rcases l' with _ | ⟨n, t⟩
      · show PriceMap.find rest x = if x = k then none else PriceMap.find rest x
        by_cases hx : x = k
        · rw [if_pos hx, hx]; exact hs.head.1
        · rw [if_neg hx]
      · show PriceMap.find ((k, n :: t) :: rest) x =
          if x = k then some (n :: t) else PriceMap.find rest x
        simp only [PriceMap.find]
        by_cases hx : x = k
        · rw [if_pos hx, if_pos hx.symm]
        · rw [if_neg hx, if_neg (fun e => hx e.symm)]
    have e2 : PriceMap.find (v.book s) x = if x = k then some l else PriceMap.find rest x := by
      rw [hb]
      simp only [PriceMap.find]
      by_cases hx : x = k
      · rw [if_pos hx, if_pos hx.symm]
      · rw [if_neg hx, if_neg (fun e => hx e.symm)]
    unfold OrderBookV1.levelOf
    rw [e1, e2]
    by_cases hx : x = k
    · simp only [if_pos hx, true_and, if_true]
      rcases l' with _ | ⟨n, t⟩ <;> rfl
    · simp only [if_neg hx]
      rw [if_neg (fun h : True ∧ x = k => hx h.2)]
  · have e1 : (v.afterRound sd k rest l' m').book s = v.book s := by
      unfold OrderBookV1.afterRound
      rw [book_setBook, if_neg hsd]
      cases s <;> rfl
    unfold OrderBookV1.levelOf
    rw [e1, if_neg (fun h => hsd h.1)]

/-- One round of the matching loop keeps the map-based book in step with the
list view. -/
theorem Rep1.round {v : OrderBookV1} {a a1 : ABook} (hr : Rep1 v a) (hwf : a.WF)
    {sd : Side} {k fuel q q1 : Nat} {l l' : OrderList} {rest : PriceMap}
    {m' : Nat → Option OrderLocation}
    (hb : v.book sd = (k, l) :: rest)
    (hml : aMatchLevel sd k fuel a q = some (a1, q1))
    (hv : OrderBookV1.matchLevel fuel l v.order_map_ q = .ok (l', m', q1))
    (hl' : l'.map ListNode.idq = (a1.lv sd k).map AOrder.idq) :
    Rep1 (v.afterRound sd k rest l' m') a1 := by
  have hsorted := hr.sorted sd
  rw [hb] at hsorted
  have hlo := levelOf_afterRound hsorted hb l' m'
  have hlev : v.levelOf sd k = l := by
    unfold OrderBookV1.levelOf
    rw [hb]
    simp [PriceMap.find]
  obtain ⟨f1, f2, f3, f4, f5, f6⟩ := aMatchLevel_frame hml
  obtain ⟨j, hkey, hmap⟩ := matchLevelV1_shape _ _ _ _ _ _ _ hv
  have hids : l.map (fun n => n.val.order_id) = (a.lv sd k).map AOrder.id := by
    rw [← hlev]; exact ids_of_idq (hr.levels sd k)
  have hids' : l'.map (fun n => n.val.order_id) = (a1.lv sd k).map AOrder.id := ids_of_idq hl'
  have hdrop : l'.map (fun n => n.val.order_id) = (l.drop j).map (fun n => n.val.order_id) := by
    rw [← ids_of_key, ← ids_of_key, hkey]
  have hits : l'.map ListNode.it = (l.drop j).map ListNode.it := by
    rw [← its_of_key, ← its_of_key, hkey]
  have hnd : (l.map (fun n => n.val.order_id)).Nodup := by
    rw [hids]; exact hwf.struct.ids_nodup sd k
  have hsplit : (l.take j).map (fun n => n.val.order_id) ++
      (l.drop j).map (fun n => n.val.order_id) = l.map (fun n => n.val.order_id) := by
    rw [← List.map_append, List.take_append_drop]
  have hdisj : ∀ id, id ∈ (l.take j).map (fun n => n.val.order_id) →
      id ∈ (l.drop j).map (fun n => n.val.order_id) → False := by
    intro id h1 h2
    rw [← hsplit] at hnd
    exact (List.nodup_append.1 hnd).2.2 h1 h2
  have hbk : ∀ s, s ≠ sd → (v.afterRound sd k rest l' m').book s = v.book s := by
    intro s hs
    unfold OrderBookV1.afterRound
    rw [book_setBook, if_neg hs]
    cases s <;> rfl
  have hbk' : (v.afterRound sd k rest l' m').book sd =
      if l'.isEmpty then rest else (k, l') :: rest := by
    unfold OrderBookV1.afterRound
    rw [book_setBook, if_pos rfl]
  have hom : (v.afterRound sd k rest l' m').order_map_ = m' := by
    unfold OrderBookV1.afterRound
    cases sd <;> rfl
  have hnx : (v.afterRound sd k rest l' m').next_it_ = v.next_it_ := by
    unfold OrderBookV1.afterRound
    cases sd <;> rfl
  constructor
  · -- sorted
    intro s
    by_cases hs : s = sd
    · subst hs
      rw [hbk']
      split
      · exact hsorted.tail
      · exact hsorted
    · rw [hbk s hs]; exact hr.sorted s
  · -- nonempty
    intro s e he
    by_cases hs : s = sd
    · subst hs
      rw [hbk'] at he
      have hold : ∀ e ∈ rest, e.2 ≠ [] := fun e he =>
        hr.nonempty s e (by rw [hb]; exact List.mem_cons_of_mem _ he)
      rcases l' with _ | ⟨n, t⟩
      · simp only [List.isEmpty_nil, if_true] at he
        exact hold e he
      · simp only [List.isEmpty_cons, Bool.false_eq_true, if_false] at he
        rcases List.mem_cons.1 he with h | h
        · rw [h]; simp
        · exact hold e h
    · rw [hbk s hs] at he; exact hr.nonempty s e he
  · -- levels
    intro s x
    rw [hlo]
    by_cases hc : s = sd ∧ x = k
    · rw [if_pos hc, hc.1, hc.2]; exact hl'
    · rw [if_neg hc, f3 s x hc]; exact hr.levels s x
  · -- its
    intro s x
    rw [hlo]
    by_cases hc : s = sd ∧ x = k
    · rw [if_pos hc, hits]
      have := hr.its sd k
      rw [hlev] at this
      exact this.sublist ((List.drop_sublist j l).map _)
    · rw [if_neg hc]; exact hr.its s x
  · -- fresh
    intro s x n hn
    rw [hlo] at hn
    rw [hnx]
    by_cases hc : s = sd ∧ x = k
    · rw [if_pos hc] at hn
      have h1 : n.it ∈ l'.map ListNode.it := List.mem_map_of_mem _ hn
      rw [hits] at h1
      obtain ⟨n0, hn0, e⟩ := List.mem_map.1 h1
      rw [← e]
      exact hr.fresh sd k n0 (by rw [hlev]; exact List.mem_of_mem_drop hn0)
    · rw [if_neg hc] at hn; exact hr.fresh s x n hn
  · -- omap
    intro id loc hm
    rw [hom, hmap id] at hm
    by_cases hin : id ∈ (l.take j).map (fun n => n.val.order_id)
    · rw [if_pos hin] at hm; cases hm
    · rw [if_neg hin] at hm
      obtain ⟨n, hn, e1, e2⟩ := hr.omap id loc hm
      rw [hlo]
      by_cases hc : loc.side = sd ∧ loc.price = k
      · rw [if_pos hc]
        rw [hc.1, hc.2, hlev] at hn
        rw [← List.take_append_drop j l] at hn
        rcases List.mem_append.1 hn with h | h
        · exact absurd (List.mem_map.2 ⟨n, h, e2⟩) hin
        · have hk : n.key ∈ l'.map ListNode.key := by
            rw [hkey]; exact List.mem_map_of_mem _ h
          obtain ⟨n', hn', e'⟩ := List.mem_map.1 hk
          refine ⟨n', hn', ?_, ?_⟩
          · rw [← e1]; exact congrArg Prod.fst e'
          · rw [← e2]; exact congrArg Prod.snd e'
      · rw [if_neg hc]
        exact ⟨n, hn, e1, e2⟩
  · -- live
    intro id
    rw [hom, hmap id]
    constructor
    · intro hne
      by_cases hin : id ∈ (l.take j).map (fun n => n.val.order_id)
      · rw [if_pos hin] at hne; exact absurd rfl hne
      · rw [if_neg hin] at hne
        obtain ⟨s, x, o, ho, hoid⟩ := (hr.live id).1 hne
        by_cases hc : s = sd ∧ x = k
        · rw [hc.1, hc.2] at ho
          have h1 : id ∈ (a.lv sd k).map AOrder.id := List.mem_map.2 ⟨o, ho, hoid⟩
          rw [← hids, ← hsplit] at h1
          rcases List.mem_append.1 h1 with h | h
          · exact absurd h hin
          · rw [← hdrop, hids'] at h
            obtain ⟨o', ho', e'⟩ := List.mem_map.1 h
            exact ⟨sd, k, o', ho', e'⟩
        · exact ⟨s, x, o, by rw [f3 s x hc]; exact ho, hoid⟩
    · rintro ⟨s, x, o', ho', hoid⟩
      by_cases hc : s = sd ∧ x = k
      · rw [hc.1, hc.2] at ho'
        have h1 : id ∈ (a1.lv sd k).map AOrder.id := List.mem_map.2 ⟨o', ho', hoid⟩
        rw [← hids', hdrop] at h1
        have hnin : ¬ id ∈ (l.take j).map (fun n => n.val.order_id) := fun h => hdisj id h h1
        rw [if_neg hnin]
        have h2 : id ∈ l.map (fun n => n.val.order_id) := by
          rw [← hsplit]; exact List.mem_append_right _ h1
        rw [hids] at h2
        obtain ⟨o, ho, e⟩ := List.mem_map.1 h2
        exact (hr.live id).2 ⟨sd, k, o, ho, e⟩
      · rw [f3 s x hc] at ho'
        have hnin : ¬ id ∈ (l.take j).map (fun n => n.val.order_id) := by
          intro h
          have h2 : id ∈ l.map (fun n => n.val.order_id) := by
            rw [← hsplit]; exact List.mem_append_left _ h
          rw [hids] at h2
          obtain ⟨o, ho, e⟩ := List.mem_map.1 h2
          have := hwf.struct.id_inj ho' ho (hoid.trans e.symm)
          exact hc ⟨this.1, this.2.1⟩
        rw [if_neg hnin]
        exact (hr.live id).2 ⟨s, x, o', ho', hoid⟩

/-! ## The matching loop of the map-based book against the list view -/

theorem matchSide_succ (side : Side) (price fuel : Nat) (b : OrderBookV1) (q : Nat) :
    OrderBookV1.matchSide side price (fuel + 1) b q =
      match b.book side.opp with
      | [] => .ok (b, q)
      | (best_price, best_level) :: rest =>
        if q > 0 ∧ side.takes price best_price then
          match OrderBookV1.matchLevel fuel best_level b.order_map_ q with
          | .error e => .error e
          | .ok (level1, order_map1, quantity1) =>
            OrderBookV1.matchSide side price fuel
              (b.afterRound side.opp best_price rest level1 order_map1) quantity1
        else .ok (b, q) := rfl

/-- Only the lists of the view matter for what a map-based book holds. -/
theorem Rep1.congr_lv {v : OrderBookV1} {a a' : ABook} (hr : Rep1 v a) (h : a'.lv = a.lv) :
    Rep1 v a' :=
  ⟨hr.sorted, hr.nonempty, fun s p => by rw [h]; exact hr.levels s p, hr.its, hr.fresh,
    hr.omap, fun id => by rw [h]; exact hr.live id⟩

theorem fillList_ne_nil {l : List AOrder} {q : Nat} (h : (fillList l q).1 ≠ []) : l ≠ [] := by
  intro e
  rw [e] at h
  exact h rfl

/-- The inner loop of the list view keeps the prices of the resting orders
strictly inside the domain. -/
theorem aMatchLevel_Interior {side : Side} {p fuel : Nat} {a a' : ABook} {q q' : Nat}
    (h : aMatchLevel side p fuel a q = some (a', q')) (hint : a.Interior) : a'.Interior := by
  obtain ⟨_, _, f3, f4, _, _⟩ := aMatchLevel_frame h
  intro s x hx
  by_cases hc : s = side ∧ x = p
  · rw [hc.1, hc.2, f4] at hx
    rw [hc.2]
    exact hint side p (fillList_ne_nil hx)
  · rw [f3 s x hc] at hx
    exact hint s x hx

/-- The matching loop of `OrderBookV1::AddOrder` does what `aMatch` does on the
list view, with the same fuel. -/
theorem matchSide_sim (side : Side) (price : Nat) :
    ∀ (fuel : Nat) (v : OrderBookV1) (a : ABook) (q : Nat) (a' : ABook) (q' : Nat),
      Rep1 v a → a.Inv → a.Interior → q < 2 ^ 32 →
      aMatch side price fuel a q = some (a', q') →
      ∃ v', OrderBookV1.matchSide side price fuel v q = .ok (v', q') ∧ Rep1 v' a' ∧
        a'.Interior := by
  intro fuel
  induction fuel with
  | zero => intro v a q a' q' _ _ _ _ h; simp [aMatch] at h
  | succ fuel ih =>
    intro v a q a' q' hr hinv hint hq h
    rw [matchSide_succ]
    by_cases hc : q > 0 ∧ a.crosses side price
    · rw [aMatch_succ hinv fuel q hc.1 hc.2] at h
      rcases hml : aMatchLevel side.opp (a.oppBest side) fuel a q with _ | ⟨a1, q1⟩
      · rw [hml] at h; cases h
      · rw [hml] at h
        simp only [] at h
        rcases hb : v.book side.opp with _ | ⟨⟨k, l⟩, rest⟩
        · exact absurd hc.2 (hr.best_nil hinv price hb)
        · obtain ⟨hk, hlev, hiff⟩ := hr.best_cons hinv hint price hb
          simp only []
          rw [if_pos ⟨hc.1, hiff.1 hc.2⟩]
          rw [← hk] at hml h
          have hlv : l.map ListNode.idq = (a.lv side.opp k).map AOrder.idq := by
            rw [← hlev]; exact hr.levels side.opp k
          obtain ⟨l', m', hv, hl'⟩ := matchLevelV1_sim side.opp k fuel a l v.order_map_ q a1 q1
            hml hlv
            (fun o ho => Nat.lt_of_lt_of_le (hinv.wf.qty_lt _ _ o ho)
              (Nat.pow_le_pow_right (by decide) (by decide)))
            (Nat.lt_of_lt_of_le hq (Nat.pow_le_pow_right (by decide) (by decide)))
          rw [hv]
          simp only []
          have hr1 : Rep1 (v.afterRound side.opp k rest l' m') a1 :=
            hr.round hinv.wf hb hml hv hl'
          have hinv1 : (a1.afterLevel side k).Inv := by
            have := hinv.afterLevel hc.2 (by rw [← hk]; exact hml)
            rw [← hk] at this
            exact this
          have hint1 : (a1.afterLevel side k).Interior := by
            intro s x hx
            rw [ABook.afterLevel_lv] at hx
            exact aMatchLevel_Interior hml hint s x hx
          obtain ⟨_, _, _, _, f5, _⟩ := aMatchLevel_frame hml
          have hq1 : q1 < 2 ^ 32 := by
            have := fillList_le (a.lv side.opp k) q
            omega
          exact ih _ _ q1 a' q' (hr1.congr_lv (ABook.afterLevel_lv _ _ _)) hinv1 hint1 hq1 h
    · rw [aMatch, if_neg hc] at h
      simp only [Option.some.injEq, Prod.mk.injEq] at h
      obtain ⟨rfl, rfl⟩ := h
      rcases hb : v.book side.opp with _ | ⟨⟨k, l⟩, rest⟩
      · exact ⟨v, rfl, hr, hint⟩
      · obtain ⟨hk, hlev, hiff⟩ := hr.best_cons hinv hint price hb
        simp only []
        rw [if_neg (fun hg => hc ⟨hg.1, hiff.2 hg.2⟩)]
        exact ⟨v, rfl, hr, hint⟩

/-! ## The resting phase of the map-based book -/

theorem restSide_eq (v : OrderBookV1) (side : Side) (id price q : Nat) :
    v.restSide side id price q =
      if q > 0 then
        ({ v with
          order_map_ := Function.update v.order_map_ id
            (some { price := price, side := side, it := v.next_it_ }),
          next_it_ := v.next_it_ + 1 } : OrderBookV1).setBook side
          (PriceMap.insert side.before (v.book side) price
            (v.levelOf side price ++
              [{ it := v.next_it_,
                 val := { order_id := id, price := price, quantity := q, side := side } }]))
      else v := by
  cases side with
  | BUY =>
    unfold OrderBookV1.restSide OrderBookV1.restBuy
    simp only []
    split <;> rfl
  | SELL =>
    unfold OrderBookV1.restSide OrderBookV1.restSell
    simp only []
    split <;> rfl

theorem book_with (v : OrderBookV1) (m : Nat → Option OrderLocation) (n : Nat) (s : Side) :
    ({ v with order_map_ := m, next_it_ := n } : OrderBookV1).book s = v.book s := by
  cases s <;> rfl

theorem order_map_setBook (v : OrderBookV1) (sd : Side) (m : PriceMap) :
    (v.setBook sd m).order_map_ = v.order_map_ := by
  cases sd <;> rfl

theorem next_it_setBook (v : OrderBookV1) (sd : Side) (m : PriceMap) :
    (v.setBook sd m).next_it_ = v.next_it_ := by
  cases sd <;> rfl

/-- The lists of a book whose map of `side` got `lvl` stored under `price`. -/
theorem levelOf_insert (v w : OrderBookV1) (side : Side) (price : Nat) (lvl : OrderList)
    (hw : ∀ s, w.book s = v.book s) (s : Side) (x : Nat) :
    (w.setBook side (PriceMap.insert side.before (v.book side) price lvl)).levelOf s x =
      if s = side ∧ x = price then lvl else v.levelOf s x := by
  unfold OrderBookV1.levelOf
  rw [book_setBook]
  by_cases hs : s = side
  · subst hs
    rw [if_pos rfl, PriceMap.find_insert]
    by_cases hx : x = price
    · rw [if_pos hx, if_pos ⟨rfl, hx⟩]; rfl
    · rw [if_neg hx, if_neg (fun h => hx h.2)]
  · rw [if_neg hs, if_neg (fun h => hs h.1), hw]

/-- The resting phase of `OrderBookV1::AddOrder` does what `aRest` does on the
list view. -/
theorem restSide_sim {v : OrderBookV1} {a a' : ABook} (hr : Rep1 v a) {id : Nat} {side : Side}
    {price q : Nat} (h : aRest a id side price q = some a') :
    Rep1 (v.restSide side id price q) a' := by
  rw [restSide_eq]
  unfold aRest at h
  by_cases hq : q > 0
  · rw [if_pos hq] at h ⊢
    rcases hf : a.free with _ | ⟨s0, rest0⟩
    · rw [hf] at h; cases h
    · rw [hf] at h
      simp only [Option.some.injEq] at h
      subst h
      generalize hnode : ({
        it := v.next_it_,
        val := { order_id := id, price := price, quantity := q, side := side } } : ListNode) = node
      generalize hw : ({ v with
        order_map_ := Function.update v.order_map_ id
          (some { price := price, side := side, it := v.next_it_ }),
        next_it_ := v.next_it_ + 1 } : OrderBookV1) = w
      have hwb : ∀ s, w.book s = v.book s := by
        intro s; rw [← hw]; exact book_with _ _ _ s
      have hlo := levelOf_insert v w side price (v.levelOf side price ++ [node]) hwb
      have hnit : node.it = v.next_it_ := by rw [← hnode]
      have hnid : node.val.order_id = id := by rw [← hnode]
      have hnq : node.idq = (id, q) := by rw [← hnode]; rfl
      have hom : (w.setBook side (PriceMap.insert side.before (v.book side) price
          (v.levelOf side price ++ [node]))).order_map_ =
          Function.update v.order_map_ id
            (some { price := price, side := side, it := v.next_it_ }) := by
        rw [order_map_setBook, ← hw]
      have hnx : (w.setBook side (PriceMap.insert side.before (v.book side) price
          (v.levelOf side price ++ [node]))).next_it_ = v.next_it_ + 1 := by
        rw [next_it_setBook, ← hw]
      have hlv : ∀ s x, (a.setLv side price (a.lv side price ++ [⟨s0, id, q⟩])).lv s x =
          if s = side ∧ x = price then a.lv side price ++ [⟨s0, id, q⟩] else a.lv s x :=
        fun s x => rfl
      constructor
      · intro s
        rw [book_setBook]
        by_cases hs : s = side
        · subst hs
          rw [if_pos rfl]
          exact (hr.sorted s).insert price _
        · rw [if_neg hs, hwb]; exact hr.sorted s
      · intro s e he
        rw [book_setBook] at he
        by_cases hs : s = side
        · subst hs
          rw [if_pos rfl] at he
          rcases PriceMap.mem_insert _ _ _ _ _ he with h1 | h1
          · rw [h1]; simp
          · exact hr.nonempty s e h1
        · rw [if_neg hs, hwb] at he; exact hr.nonempty s e he
      · intro s x
        rw [hlo]
        show _ = ((a.setLv side price (a.lv side price ++ [⟨s0, id, q⟩])).lv s x).map AOrder.idq
        rw [hlv]
        by_cases hc : s = side ∧ x = price
        · rw [if_pos hc, if_pos hc, List.map_append, List.map_append, hr.levels]
          rw [List.map_singleton, List.map_singleton, hnq]
          rfl
        · rw [if_neg hc, if_neg hc]; exact hr.levels s x
      · intro s x
        rw [hlo]
        by_cases hc : s = side ∧ x = price
        · rw [if_pos hc, List.map_append, List.map_singleton]
          refine List.nodup_append.2 ⟨hr.its side price, List.nodup_singleton _, ?_⟩
          intro i hi hi'
          rw [List.mem_singleton] at hi'
          obtain ⟨n, hn, e⟩ := List.mem_map.1 hi
          have := hr.fresh side price n hn
          rw [e, hi', hnit] at this
          omega
        · rw [if_neg hc]; exact hr.its s x
      · intro s x n hn
        rw [hlo] at hn
        rw [hnx]
        by_cases hc : s = side ∧ x = price
        · rw [if_pos hc] at hn
          rcases List.mem_append.1 hn with h1 | h1
          · have := hr.fresh side price n h1; omega
          · rw [List.mem_singleton] at h1
            rw [h1, hnit]; omega
        · rw [if_neg hc] at hn
          have := hr.fresh s x n hn; omega
      · intro id' loc hm
        rw [hom] at hm
        by_cases hid : id' = id
        · subst hid
          rw [Function.update_same] at hm
          cases hm
          rw [hlo]
          simp only [and_self, if_true]
          exact ⟨node, List.mem_append_right _ (List.mem_singleton.2 rfl), hnit, hnid⟩
        · rw [Function.update_noteq hid] at hm
          obtain ⟨n, hn, e1, e2⟩ := hr.omap id' loc hm
          rw [hlo]
          by_cases hc : loc.side = side ∧ loc.price = price
          · rw [if_pos hc]
            rw [hc.1, hc.2] at hn
            exact ⟨n, List.mem_append_left _ hn, e1, e2⟩
          · rw [if_neg hc]
            exact ⟨n, hn, e1, e2⟩
      · intro id'
        rw [hom]
        show _ ↔ ∃ sd x, ∃ o ∈ (a.setLv side price (a.lv side price ++ [⟨s0, id, q⟩])).lv sd x,
          o.id = id'
        by_cases hid : id' = id
        · subst hid
          rw [Function.update_same]
          constructor
          · intro _
            refine ⟨side, price, ⟨s0, id', q⟩, ?_, rfl⟩
            rw [hlv, if_pos ⟨rfl, rfl⟩]
            exact List.mem_append_right _ (List.mem_singleton.2 rfl)
          · intro _ hcon; cases hcon
        · rw [Function.update_noteq hid, hr.live id']
          constructor
          · rintro ⟨sd, x, o, ho, e⟩
            refine ⟨sd, x, o, ?_, e⟩
            rw [hlv]
            by_cases hc : sd = side ∧ x = price
            · rw [if_pos hc, ← hc.1, ← hc.2]
              exact List.mem_append_left _ ho
            · rw [if_neg hc]; exact ho
          · rintro ⟨sd, x, o, ho, e⟩
            rw [hlv] at ho
            by_cases hc : sd = side ∧ x = price
            · rw [if_pos hc] at ho
              rcases List.mem_append.1 ho with h1 | h1
              · exact ⟨side, price, o, h1, e⟩
              · rw [List.mem_singleton] at h1
                rw [h1] at e
                exact absurd e.symm hid
            · rw [if_neg hc] at ho
              exact ⟨sd, x, o, ho, e⟩
  · rw [if_neg hq] at h ⊢
    simp only [Option.some.injEq] at h
    subst h
    exact hr

/-! ## `CancelOrder` of the map-based book -/

theorem CancelOrderV1_eq (v : OrderBookV1) (id : Nat) :
    v.CancelOrder id =
      match v.order_map_ id with
      | none => .ok v
      | some loc =>
        match PriceMap.find (v.book loc.side) loc.price with
        | none => .error ErrorV1.OutOfRange
        | some level =>
          .ok (({ v with order_map_ := Function.update v.order_map_ id none } :
              OrderBookV1).setBook loc.side
            (if (level.eraseP (fun n => decide (n.it = loc.it))).isEmpty then
              PriceMap.erase (v.book loc.side) loc.price
            else
              PriceMap.insert loc.side.before (v.book loc.side) loc.price
                (level.eraseP (fun n => decide (n.it = loc.it))))) := by
  unfold OrderBookV1.CancelOrder
  rcases v.order_map_ id with _ | ⟨lp, ls, li⟩
  · rfl
  · cases ls with
    | BUY =>
      simp only []
      show (match PriceMap.find v.bids_ lp with | none => _ | some level => _) = _
      have hb : v.book Side.BUY = v.bids_ := rfl
      rw [hb]
      rcases PriceMap.find v.bids_ lp with _ | level <;> rfl
    | SELL =>
      simp only []
      show (match PriceMap.find v.asks_ lp with | none => _ | some level => _) = _
      have hb : v.book Side.SELL = v.asks_ := rfl
      rw [hb]
      rcases PriceMap.find v.asks_ lp with _ | level <;> rfl

/-- Taking the node with the identity `i` out of a list of nodes is taking the
order with its id out of the list of the view. -/
theorem eraseP_idq {n : ListNode} {o : AOrder} {i id : Nat} :
    ∀ (l : OrderList) (la : List AOrder), l.map ListNode.idq = la.map AOrder.idq →
      (l.map ListNode.it).Nodup → (la.map AOrder.id).Nodup →
      n ∈ l → n.it = i → n.val.order_id = id → o ∈ la → o.id = id →
      (l.eraseP (fun n => decide (n.it = i))).map ListNode.idq =
        (la.erase o).map AOrder.idq := by
  intro l
  induction l with
  | nil => intro la _ _ _ hn; cases hn
  | cons n0 r ih =>
    intro la hmap hit hid hn hni hnid ho hoid
    rcases la with _ | ⟨o0, t⟩
    · cases ho
    · rw [List.map_cons, List.map_cons, List.cons.injEq] at hmap
      obtain ⟨h0, hr⟩ := hmap
      have h0id : n0.val.order_id = o0.id := congrArg Prod.fst h0
      rw [List.map_cons, List.nodup_cons] at hit hid
      have hrid : r.map (fun n => n.val.order_id) = t.map AOrder.id := ids_of_idq hr
      by_cases hi : n0.it = i
      · have hnn : n = n0 := by
          rcases List.mem_cons.1 hn with e | e
          · exact e
          · exfalso
            apply hit.1
            rw [hi, ← hni]
            exact List.mem_map_of_mem _ e
        have hoo : o = o0 := by
          rcases List.mem_cons.1 ho with e | e
          · exact e
          · exfalso
            apply hid.1
            rw [← h0id, ← hnn, hnid, ← hoid]
            exact List.mem_map_of_mem _ e
        rw [List.eraseP_cons_of_pos (by simpa using hi), hoo, List.erase_cons_head]
        exact hr
      · have hnr : n ∈ r := by
          rcases List.mem_cons.1 hn with e | e
          · rw [e] at hni; exact absurd hni hi
          · exact e
        have hne : o0 ≠ o := by
          intro e
          apply hid.1
          rw [e, hoid, ← hnid, ← hrid]
          exact List.mem_map_of_mem (fun n => n.val.order_id) hnr
        have hot : o ∈ t := by
          rcases List.mem_cons.1 ho with e | e
          · exact absurd e.symm hne
          · exact e
        rw [List.eraseP_cons_of_neg (by simpa using hi),
          List.erase_cons_tail (by simpa using hne), List.map_cons, List.map_cons, h0,
          ih t hr hit.2 hid.2 hnr hni hnid hot hoid]

/-- The lists of a book after `CancelOrder` took a node out of the list under
`p` of the map of `side`. -/
theorem levelOf_cancel (v w : OrderBookV1) (side : Side) (p : Nat) (lvl : OrderList)
    (hs : PriceMap.Sorted side (v.book side)) (hw : ∀ s, w.book s = v.book s)
    (s : Side) (x : Nat) :
    (w.setBook side
      (if lvl.isEmpty then PriceMap.erase (v.book side) p
       else PriceMap.insert side.before (v.book side) p lvl)).levelOf s x =
      if s = side ∧ x = p then lvl else v.levelOf s x := by
  rcases lvl with _ | ⟨n, t⟩
  · show (w.setBook side (PriceMap.erase (v.book side) p)).levelOf s x = _
    unfold OrderBookV1.levelOf
    rw [book_setBook]
    by_cases hsd : s = side
    · subst hsd
      rw [if_pos rfl, PriceMap.find_erase hs]
      by_cases hx : x = p
      · rw [if_pos hx, if_pos ⟨rfl, hx⟩]; rfl
      · rw [if_neg hx, if_neg (fun h => hx h.2)]
    · rw [if_neg hsd, if_neg (fun h => hsd h.1), hw]
  · exact levelOf_insert v w side p (n :: t) hw s x

/-- `OrderBookV1::CancelOrder` of an id that no resting order carries returns
the book as it is. -/
theorem CancelOrderV1_absent {v : OrderBookV1} {a : ABook} (hr : Rep1 v a) {id : Nat}
    (hno : ∀ sd x, ∀ u ∈ a.lv sd x, u.id ≠ id) : v.CancelOrder id = .ok v := by
  have hm : v.order_map_ id = none := by
    by_contra hne
    obtain ⟨sd, x, o, ho, e⟩ := (hr.live id).1 hne
    exact hno sd x o ho e
  rw [CancelOrderV1_eq]
  simp only [hm]

/-- `OrderBookV1::CancelOrder` of a live order does what `aCancel` does on the
list view. -/
theorem CancelOrderV1_sim {v : OrderBookV1} {a : ABook} (hr : Rep1 v a) (hwf : a.WF)
    {id : Nat} {side : Side} {p : Nat} {o : AOrder} (ho : o ∈ a.lv side p) (hoid : o.id = id) :
    ∃ v', v.CancelOrder id = .ok v' ∧ Rep1 v' (aCancel a side p o) := by
  have hlive : v.order_map_ id ≠ none := (hr.live id).2 ⟨side, p, o, ho, hoid⟩
  rcases hm : v.order_map_ id with _ | loc
  · exact absurd hm hlive
  · obtain ⟨n, hn, hnit, hnid⟩ := hr.omap id loc hm
    -- the location is the level of `o`
    have hloc : loc.side = side ∧ loc.price = p := by
      have h1 : id ∈ (v.levelOf loc.side loc.price).map (fun n => n.val.order_id) :=
        List.mem_map.2 ⟨n, hn, hnid⟩
      rw [ids_of_idq (hr.levels loc.side loc.price)] at h1
      obtain ⟨o2, ho2, e2⟩ := List.mem_map.1 h1
      have := hwf.struct.id_inj ho2 ho (e2.trans hoid.symm)
      exact ⟨this.1, this.2.1⟩
    obtain ⟨lp, ls, li⟩ := loc
    simp only at hloc hn hnit
    obtain ⟨rfl, rfl⟩ := hloc
    have hfind : PriceMap.find (v.book ls) lp = some (v.levelOf ls lp) := by
      unfold OrderBookV1.levelOf at hn ⊢
      cases hf : PriceMap.find (v.book ls) lp with
      | none => rw [hf] at hn; cases hn
      | some l0 => rfl
    rw [CancelOrderV1_eq]
    simp only [hm, hfind]
    refine ⟨_, rfl, ?_⟩
    generalize hl1 : (v.levelOf ls lp).eraseP (fun n => decide (n.it = li)) = level1
    generalize hw : ({ v with order_map_ := Function.update v.order_map_ id none } :
      OrderBookV1) = w
    have hwb : ∀ s, w.book s = v.book s := by
      intro s; rw [← hw]; cases s <;> rfl
    have hlo := levelOf_cancel v w ls lp level1 (hr.sorted ls) hwb
    have hsub : level1.Sublist (v.levelOf ls lp) := by
      rw [← hl1]; exact List.eraseP_sublist _
    have hidq : level1.map ListNode.idq = ((a.lv ls lp).erase o).map AOrder.idq := by
      rw [← hl1]
      exact eraseP_idq _ _ (hr.levels ls lp) (hr.its ls lp) (hwf.struct.ids_nodup ls lp)
        hn hnit hnid ho hoid
    have hom : ∀ m, (w.setBook ls m).order_map_ = Function.update v.order_map_ id none := by
      intro m; rw [order_map_setBook, ← hw]
    have hnx : ∀ m, (w.setBook ls m).next_it_ = v.next_it_ := by
      intro m; rw [next_it_setBook, ← hw]
    constructor
    · intro s
      rw [book_setBook]
      by_cases hs : s = ls
      · subst hs
        rw [if_pos rfl]
        split
        · exact (hr.sorted s).erase lp
        · exact (hr.sorted s).insert lp _
      · rw [if_neg hs, hwb]; exact hr.sorted s
    · intro s e he
      rw [book_setBook] at he
      by_cases hs : s = ls
      · subst hs
        rw [if_pos rfl] at he
        rcases level1 with _ | ⟨n1, t1⟩
        · exact hr.nonempty s e (PriceMap.mem_erase _ _ _ he)
        · rcases PriceMap.mem_insert _ _ _ _ _ he with h1 | h1
          · rw [h1]; simp
          · exact hr.nonempty s e h1
      · rw [if_neg hs, hwb] at he; exact hr.nonempty s e he
    · intro s x
      rw [hlo, aCancel_lv]
      by_cases hc : s = ls ∧ x = lp
      · rw [if_pos hc, if_pos hc]; exact hidq
      · rw [if_neg hc, if_neg hc]; exact hr.levels s x
    · intro s x
      rw [hlo]
      by_cases hc : s = ls ∧ x = lp
      · rw [if_pos hc]
        exact (hr.its ls lp).sublist (hsub.map _)
      · rw [if_neg hc]; exact hr.its s x
    · intro s x n' hn'
      rw [hlo] at hn'
      rw [hnx]
      by_cases hc : s = ls ∧ x = lp
      · rw [if_pos hc] at hn'
        exact hr.fresh ls lp n' (hsub.subset hn')
      · rw [if_neg hc] at hn'
        exact hr.fresh s x n' hn'
    · intro id' loc' hm'
      rw [hom] at hm'
      by_cases hid : id' = id
      · subst hid
        rw [Function.update_same] at hm'; cases hm'
      · rw [Function.update_noteq hid] at hm'
        obtain ⟨n', hn', e1, e2⟩ := hr.omap id' loc' hm'
        rw [hlo]
        by_cases hc : loc'.side = ls ∧ loc'.price = lp
        · rw [if_pos hc]
          rw [hc.1, hc.2] at hn'
          refine ⟨n', ?_, e1, e2⟩
          rw [← hl1]
          refine (List.mem_eraseP_of_neg ?_).2 hn'
          intro hp
          have hp' : n'.it = li := by simpa using hp
          have : n' = n := by
            have hinj := List.inj_on_of_nodup_map (hr.its ls lp)
            exact hinj hn' hn (hp'.trans hnit.symm)
          rw [this, hnid] at e2
          exact hid e2.symm
        · rw [if_neg hc]
          exact ⟨n', hn', e1, e2⟩
    · intro id'
      rw [hom]
      by_cases hid : id' = id
      · subst hid
        rw [Function.update_same]
        constructor
        · intro hcon; exact absurd rfl hcon
        · rintro ⟨sd, x, u, hu, e⟩
          exfalso
          rw [aCancel_lv] at hu
          by_cases hc : sd = ls ∧ x = lp
          · rw [if_pos hc] at hu
            have hnd := hwf.struct.nodup ls lp
            have hu' := (hnd.mem_erase_iff).1 hu
            have := (hwf.struct.id_inj hu'.2 ho (e.trans hoid.symm)).2.2
            exact hu'.1 this
          · rw [if_neg hc] at hu
            have := hwf.struct.id_inj hu ho (e.trans hoid.symm)
            exact hc ⟨this.1, this.2.1⟩
      · rw [Function.update_noteq hid, hr.live id']
        constructor
        · rintro ⟨sd, x, u, hu, e⟩
          refine ⟨sd, x, u, ?_, e⟩
          rw [aCancel_lv]
          by_cases hc : sd = ls ∧ x = lp
          · rw [if_pos hc]
            rw [hc.1, hc.2] at hu
            refine (List.mem_erase_of_ne ?_).2 hu
            intro e'
            rw [e', hoid] at e
            exact hid e.symm
          · rw [if_neg hc]; exact hu
        · rintro ⟨sd, x, u, hu, e⟩
          rw [aCancel_lv] at hu
          by_cases hc : sd = ls ∧ x = lp
          · rw [if_pos hc] at hu
            exact ⟨ls, lp, u, List.mem_of_mem_erase hu, e⟩
          · rw [if_neg hc] at hu
            exact ⟨sd, x, u, hu, e⟩

/-! ## C26: the array book refines the map-based baseline -/

theorem Rep1_new : Rep1 OrderBookV1.new ABook.empty := by
  have hl : ∀ s p, OrderBookV1.new.levelOf s p = [] := by
    intro s p; cases s <;> rfl
  have hb : ∀ s, OrderBookV1.new.book s = [] := by
    intro s; cases s <;> rfl
  constructor
  · intro s; rw [hb]; exact List.Pairwise.nil
  · intro s e he; rw [hb] at he; cases he
  · intro s p; rw [hl]; rfl
  · intro s p; rw [hl]; exact List.nodup_nil
  · intro s p n hn; rw [hl] at hn; cases hn
  · intro id loc h; cases h
  · intro id
    constructor
    · intro h; exact absurd rfl h
    · rintro ⟨sd, x, o, ho, _⟩; cases ho

theorem Interior_empty : ABook.empty.Interior := by
  intro s x h
  exact absurd rfl h

/-- The resting phase at a price strictly inside the domain keeps the prices of
the resting orders strictly inside the domain. -/
theorem aRest_Interior {a a' : ABook} {id : Nat} {side : Side} {price q : Nat}
    (h : aRest a id side price q = some a') (hint : a.Interior)
    (hp : 0 < price ∧ price < MAX_PRICE) : a'.Interior := by
  intro s x hx
  obtain ⟨u, hu⟩ := List.exists_mem_of_ne_nil _ hx
  rcases aRest_mem h hu with h1 | ⟨_, _, h3, _⟩
  · exact hint s x (List.ne_nil_of_mem h1)
  · rw [h3]; exact hp

theorem aCancel_Interior {a : ABook} (hint : a.Interior) (side : Side) (p : Nat) (o : AOrder) :
    (aCancel a side p o).Interior := by
  intro s x hx
  rw [aCancel_lv] at hx
  by_cases hc : s = side ∧ x = p
  · rw [if_pos hc] at hx
    obtain ⟨u, hu⟩ := List.exists_mem_of_ne_nil _ hx
    rw [hc.2]
    exact hint side p (List.ne_nil_of_mem (List.mem_of_mem_erase hu))
  · rw [if_neg hc] at hx
    exact hint s x hx

/-- Along a run of valid calls with prices strictly inside the domain the
map-based book returns and holds the resting orders of the array book. -/
theorem Run.runV1 {cs : List Call} {b : OrderBookV6} (h : Run cs b)
    (hint : ∀ c ∈ cs, c.interior) :
    ∃ v, OrderBookV1.run cs = .ok v ∧ Rep1 v b.view ∧ b.view.Interior := by
  induction h with
  | new =>
    have hv : OrderBookV6.new.view = ABook.empty := Rep_new.view_eq Inv_empty.wf
    rw [hv]
    exact ⟨OrderBookV1.new, rfl, Rep1_new, Interior_empty⟩
  | @add cs b b' fuel id side price q hrun hv he ih =>
    obtain ⟨v, hrunv, hr1, hi⟩ := ih (fun c hc => hint c (List.mem_cons_of_mem _ hc))
    have hp : 0 < price ∧ price < MAX_PRICE :=
      hint (Call.add fuel id side price q) (List.mem_cons_self _ _)
    obtain ⟨hr, hinv⟩ := hrun.reachable.good
    have hid := (hr.not_live_iff id).1 hv.not_live
    have hsim := AddOrder_sim hr hinv fuel id side price q hv.qty_lt hid
    rcases ha : aAdd fuel b.view id side price q with _ | a'
    · obtain ⟨e, he'⟩ := hsim.1 ha
      rw [he'] at he; cases he
    · obtain ⟨b'', he', hr'⟩ := hsim.2 a' ha
      rw [he'] at he
      cases he
      unfold aAdd at ha
      rcases hm : aMatch side price fuel b.view q with _ | ⟨a1, q1⟩
      · rw [hm] at ha; cases ha
      · rw [hm] at ha
        simp only [] at ha
        have hinv1 := aMatch_Inv side price fuel _ q a1 q1 hinv hm
        have hid1 : ∀ sd x, ∀ u ∈ a1.lv sd x, u.id ≠ id := by
          intro sd x u hu
          obtain ⟨w, hw, _, e, _⟩ := aMatch_sub side price fuel _ q a1 q1 hinv hm sd x u hu
          rw [← e]; exact hid sd x w hw
        have hq1 : q1 < 2 ^ 32 := by
          have := aMatch_le side price fuel _ q a1 q1 hinv hm
          have := hv.qty_lt
          omega
        have hinv' := aRest_Inv hinv1 hid1 hv.id_lt hv.price_le hq1 ha
        obtain ⟨v1, hms, hrv1, hi1⟩ := matchSide_sim side price fuel v _ q a1 q1 hr1 hinv hi
          hv.qty_lt hm
        have hview : b'.view = a' := hr'.view_eq hinv'.wf
        rw [hview]
        refine ⟨v1.restSide side id price q1, ?_, restSide_sim hrv1 ha, aRest_Interior ha hi1 hp⟩
        unfold OrderBookV1.run
        rw [hrunv]
        simp only []
        rw [AddOrderV1_eq, hms]
  | @cancel cs b id hrun ih =>
    obtain ⟨v, hrunv, hr1, hi⟩ := ih (fun c hc => hint c (List.mem_cons_of_mem _ hc))
    obtain ⟨hr, hinv⟩ := hrun.reachable.good
    by_cases hlive : id ≥ MAX_ORDER_ID ∨ b.order_map_ id = none
    · rw [CancelOrder_absent b id hlive]
      refine ⟨v, ?_, hr1, hi⟩
      unfold OrderBookV1.run
      rw [hrunv]
      simp only []
      refine CancelOrderV1_absent hr1 ?_
      rcases hlive with h | h
      · intro sd x u hu e
        have := hinv.wf.id_lt sd x u hu
        omega
      · exact (hr.not_live_iff id).1 h
    · have hlt : id < MAX_ORDER_ID := by
        by_contra hh; exact hlive (Or.inl (by omega))
      rcases hm : b.order_map_ id with _ | s
      · exact absurd (Or.inr hm) hlive
      · obtain ⟨side, p, o, ho, hoid, _, _, _, _, hrc⟩ := CancelOrder_sim hr hinv.wf hlt hm
        have hinv' := aCancel_Inv hinv ho
        obtain ⟨v', hcv, hrv'⟩ := CancelOrderV1_sim hr1 hinv.wf ho hoid
        have hview : (b.CancelOrder id).view = aCancel b.view side p o := hrc.view_eq hinv'.wf
        rw [hview]
        refine ⟨v', ?_, hrv', aCancel_Interior hi side p o⟩
        unfold OrderBookV1.run
        rw [hrunv]
        exact hcv

theorem levelRecords_eq_view (b : OrderBookV6) (side : Side) (p : Nat) :
    b.levelRecords side p = (b.view.lv side p).map AOrder.idq := by
  show _ = (b.levelOrders side p).map AOrder.idq
  unfold OrderBookV6.levelRecords OrderBookV6.levelOrders
  rw [List.map_map]
  rfl

/-- C26. The array book refines the map-based baseline: for every sequence of
`AddOrder`/`CancelOrder` calls whose Adds satisfy the preconditions (and return on
`OrderBookV6` with the fuel they are given) and carry prices `p` with
`0 < p < MAX_PRICE`, `OrderBookV1` run on the same calls with the same fuel
returns too, and holds the same resting orders as `OrderBookV6`: for every side
and price the sequence of `(order_id, quantity)` records of V1's list under the
price is that of V6's level list, the price is a key of V1's map iff V6's level is
not empty, and the same ids are live. -/
theorem C26_array_refines_map_baseline (cs : List Call) (b : OrderBookV6) (h : Run cs b)
    (hint : ∀ c ∈ cs, c.interior) :
    ∃ v : OrderBookV1, OrderBookV1.run cs = .ok v ∧
      (∀ side p, v.levelRecords side p = b.levelRecords side p) ∧
      (∀ side p, v.isKey side p ↔ (b.level side p).head ≠ none) ∧
      (∀ id, v.order_map_ id ≠ none ↔ b.order_map_ id ≠ none) := by
  obtain ⟨v, hrun, hr1, _⟩ := h.runV1 hint
  obtain ⟨hr, hinv⟩ := h.reachable.good
  refine ⟨v, hrun, ?_, ?_, ?_⟩
  · intro side p
    rw [levelRecords_eq_view]
    exact hr1.levels side p
  · intro side p
    rw [hr1.isKey_iff side p]
    exact not_congr (head_eq_none_iff hr.core side p).symm
  · intro id
    rw [hr1.live id]
    constructor
    · rintro ⟨sd, x, o, ho, e⟩ hn
      exact (hr.not_live_iff id).1 hn sd x o ho e
    · intro hn
      by_contra hcon
      apply hn
      refine (hr.not_live_iff id).2 ?_
      intro sd x u hu e
      exact hcon ⟨sd, x, u, hu, e⟩

theorem exFifoInterior :
    ∀ c ∈ [Call.add 7 2 Side.SELL 100 5, Call.add 7 1 Side.SELL 100 5], c.interior := by
  intro c hc
  simp only [List.mem_cons, List.mem_singleton, List.not_mem_nil, or_false] at hc
  rcases hc with rfl | rfl
  · exact ⟨by decide, by decide⟩
  · exact ⟨by decide, by decide⟩

/-- C26 on the two calls `Add(1, SELL, 100, 5)`, `Add(2, SELL, 100, 5)`. -/
theorem C26_array_refines_map_baseline_witness :
    Run [Call.add 7 2 Side.SELL 100 5, Call.add 7 1 Side.SELL 100 5] exFifo2 ∧
    (∀ c ∈ [Call.add 7 2 Side.SELL 100 5, Call.add 7 1 Side.SELL 100 5], c.interior) ∧
    ∃ v : OrderBookV1,
      OrderBookV1.run [Call.add 7 2 Side.SELL 100 5, Call.add 7 1 Side.SELL 100 5] = .ok v ∧
      (∀ side p, v.levelRecords side p = exFifo2.levelRecords side p) ∧
      (∀ side p, v.isKey side p ↔ (exFifo2.level side p).head ≠ none) ∧
      (∀ id, v.order_map_ id ≠ none ↔ exFifo2.order_map_ id ≠ none) :=
  ⟨exRunFifo2, exFifoInterior,
    C26_array_refines_map_baseline _ exFifo2 exRunFifo2 exFifoInterior⟩

/-- Emptying levels keeps resting bids and asks uncrossed. -/
theorem ABook.Uncrossed.mono {a a1 : ABook} (h : a.Uncrossed)
    (hl : ∀ sd y, a.lv sd y = [] → a1.lv sd y = []) : a1.Uncrossed := by
  intro pb pa hb ha
  exact h pb pa (fun e => hb (hl _ _ e)) (fun e => ha (hl _ _ e))

/-- In every reachable book a resting bid and a resting ask cross only at a
sentinel price. -/
theorem Reachable.uncrossed {b : OrderBookV6} (h : Reachable b) : b.view.Uncrossed := by
  induction h with
  | new =>
    have hv : OrderBookV6.new.view = ABook.empty := Rep_new.view_eq Inv_empty.wf
    rw [hv]
    intro pb pa hb _
    exact absurd rfl hb
  | @add b b' fuel id side price q hb hv he ih =>
    obtain ⟨a1, q1, a', b1, hm, hrest, _, h2, hr', hinv', hview, hinv1, _, _⟩ :=
      @AddOrder_run b hb id side price q hv
    have hbb := h2 fuel b' he
    subst hbb
    obtain ⟨hr, hinv⟩ := hb.good
    obtain ⟨_, _, _, _, t5⟩ := aMatch_total side price _ _ _ _ _ hinv hm
    obtain ⟨hmono, _⟩ := aMatch_priority side price _ _ _ _ _ hinv hm
    have hu1 : a1.Uncrossed := ih.mono hmono
    rw [hview]
    by_cases hq : q1 > 0
    · have hnc : ¬ a1.crosses side price := by
        rcases t5 with t5 | t5
        · omega
        · exact t5
      intro pb pa hpb hpa
      obtain ⟨ub, hub⟩ := List.exists_mem_of_ne_nil _ hpb
      obtain ⟨ua, hua⟩ := List.exists_mem_of_ne_nil _ hpa
      have hple := hv.price_le
      rcases aRest_mem hrest hub with gb | ⟨_, gb2, gb3, _⟩
      · rcases aRest_mem hrest hua with ga | ⟨_, ga2, ga3, _⟩
        · exact hu1 pb pa (List.ne_nil_of_mem gb) (List.ne_nil_of_mem ga)
        · -- a new ask at `price`, against an old bid
          subst ga2
          subst ga3
          have hnc' : ¬ (pa ≤ a1.best_bid ∧ a1.best_bid > 0) := hnc
          have h1 := hinv1.best.bid_ub pb (List.ne_nil_of_mem gb)
          by_cases h0 : a1.best_bid > 0
          · left
            by_contra hcon
            exact hnc' ⟨by omega, h0⟩
          · have hpb0 : pb = 0 := by omega
            by_cases hpa0 : pa = 0
            · exact Or.inr (Or.inr ⟨hpb0, hpa0⟩)
            · left; omega
      · subst gb2
        subst gb3
        rcases aRest_mem hrest hua with ga | ⟨_, ga2, _, _⟩
        · -- a new bid at `price`, against an old ask
          have hnc' : ¬ (pb ≥ a1.best_ask ∧ a1.best_ask < MAX_PRICE) := hnc
          have h1 := hinv1.best.ask_lb pa (List.ne_nil_of_mem ga)
          have h2' := hinv1.wf.price_le Side.SELL pa (List.ne_nil_of_mem ga)
          by_cases h0 : a1.best_ask < MAX_PRICE
          · left
            by_contra hcon
            exact hnc' ⟨by omega, h0⟩
          · have hpam : pa = MAX_PRICE := by omega
            by_cases hpbm : pb = MAX_PRICE
            · exact Or.inr (Or.inl ⟨hpbm, hpam⟩)
            · left; omega
        · cases ga2
    · unfold aRest at hrest
      rw [if_neg hq] at hrest
      simp only [Option.some.injEq] at hrest
      subst hrest
      exact hu1
  | @cancel b id hb ih =>
    obtain ⟨hr, hinv⟩ := hb.good
    by_cases hlive : id ≥ MAX_ORDER_ID ∨ b.order_map_ id = none
    · rw [CancelOrder_absent b id hlive]; exact ih
    · have hlt : id < MAX_ORDER_ID := by
        by_contra hh; exact hlive (Or.inl (by omega))
      rcases hm : b.order_map_ id with _ | s
      · exact absurd (Or.inr hm) hlive
      · obtain ⟨side, p, o, ho, _, _, _, _, _, hrc⟩ := CancelOrder_sim hr hinv.wf hlt hm
        have hinv' := aCancel_Inv hinv ho
        rw [hrc.view_eq hinv'.wf]
        refine ih.mono ?_
        intro sd y hy
        rw [aCancel_lv]
        split
        · rename_i hc
          rw [hc.1, hc.2] at hy
          rw [hy]; rfl
        · exact hy

/-- C5, as amended. In every book reached from the empty book by `CancelOrder`
calls and by `AddOrder` calls that satisfy the preconditions,
`best_bid_ < best_ask_` holds exactly when no bid rests at the price `MAX_PRICE`
and no ask rests at the price `0` (`bids_[MAX_PRICE]` and `asks_[0]` are empty):
it holds in every such book, whatever prices the calls carried, and it fails in
every reachable book with a bid resting at `MAX_PRICE` or an ask resting at `0`. -/
theorem C5_not_crossed_unless_sentinel (b : OrderBookV6) (h : Reachable b) :
    b.best_bid_ < b.best_ask_ ↔
      ((b.bids_ MAX_PRICE).head = none ∧ (b.asks_ 0).head = none) := by
  obtain ⟨hr, hinv⟩ := h.good
  have hun := h.uncrossed
  have hB : ∀ p, (b.bids_ p).head = none ↔ b.view.lv Side.BUY p = [] :=
    fun p => head_eq_none_iff hr.core Side.BUY p
  have hS : ∀ p, (b.asks_ p).head = none ↔ b.view.lv Side.SELL p = [] :=
    fun p => head_eq_none_iff hr.core Side.SELL p
  have hbb : b.view.best_bid = b.best_bid_ := rfl
  have hba : b.view.best_ask = b.best_ask_ := rfl
  have hle := hinv.best_ask_le
  rw [hba] at hle
  constructor
  · intro hlt
    constructor
    · by_contra hne
      have := hinv.best.bid_ub MAX_PRICE (fun e => hne ((hB _).2 e))
      rw [hbb] at this
      omega
    · by_contra hne
      have := hinv.best.ask_lb 0 (fun e => hne ((hS _).2 e))
      rw [hba] at this
      omega
  · rintro ⟨hnb, hna⟩
    have hnb' : b.view.lv Side.BUY MAX_PRICE = [] := (hB _).1 hnb
    have hna' : b.view.lv Side.SELL 0 = [] := (hS _).1 hna
    rcases hinv.best.bid_at with g1 | g1 <;> rcases hinv.best.ask_at with g2 | g2
    · rw [hbb] at g1
      rw [hba] at g2
      rcases hun _ _ g1 g2 with u | ⟨u, _⟩ | ⟨_, u⟩
      · exact u
      · rw [u] at g1; exact absurd hnb' g1
      · rw [u] at g2; exact absurd hna' g2
    · rw [hbb] at g1
      rw [hba] at g2
      have h1 := hinv.wf.price_le Side.BUY _ g1
      have h2 : b.best_bid_ ≠ MAX_PRICE := fun e => by rw [e] at g1; exact g1 hnb'
      omega
    · rw [hbb] at g1
      rw [hba] at g2
      have h2 : b.best_ask_ ≠ 0 := fun e => by rw [e] at g2; exact g2 hna'
      omega
    · rw [hbb] at g1
      rw [hba] at g2
      rw [g1, g2]
      decide

theorem exAsks_run : exFifo1.AddOrder 7 2 Side.SELL 200 5 = .ok exAsks := by
  rfl

theorem exValidAsks : ValidAdd exFifo1 2 200 5 :=
  ⟨by decide, by decide, by decide, by decide, by rfl⟩

theorem exSweep_run : exAsks.AddOrder 7 3 Side.BUY MAX_PRICE 5 = .ok exSweep := by
  rfl

theorem exValidSweep : ValidAdd exAsks 3 MAX_PRICE 5 :=
  ⟨by decide, by decide, by decide, by decide, by rfl⟩

theorem exSweepBid_run : exSweep.AddOrder 7 4 Side.BUY 50 5 = .ok exSweepBid := by
  rfl

theorem exValidSweepBid : ValidAdd exSweep 4 50 5 :=
  ⟨by decide, by decide, by decide, by decide, by rfl⟩

theorem exReachSweepBid : Reachable exSweepBid :=
  Reachable.add 7 4 Side.BUY 50 5
    (Reachable.add 7 3 Side.BUY MAX_PRICE 5
      (Reachable.add 7 2 Side.SELL 200 5
        (Reachable.add 7 1 Side.SELL 100 5 Reachable.new exValidFifo1 exFifo1_run)
        exValidAsks exAsks_run)
      exValidSweep exSweep_run)
    exValidSweepBid exSweepBid_run

theorem exSweepBid_bests : exSweepBid.best_bid_ = 50 ∧ exSweepBid.best_ask_ = 200 :=
  ⟨rfl, rfl⟩

/-- C5 as amended, on the book after `Add(1, SELL, 100, 5)`,
`Add(2, SELL, 200, 5)`, `Add(3, BUY, MAX_PRICE, 5)` and `Add(4, BUY, 50, 5)`: a
BUY at the sentinel price `MAX_PRICE` was made and filled, a bid rests at 50 and
an ask at 200, no bid rests at `MAX_PRICE` and no ask at `0`, and the bests are
not crossed. -/
theorem C5_not_crossed_unless_sentinel_witness :
    Reachable exSweepBid ∧
    (exSweepBid.bids_ 50).head ≠ none ∧ (exSweepBid.asks_ 200).head ≠ none ∧
    (exSweepBid.bids_ MAX_PRICE).head = none ∧ (exSweepBid.asks_ 0).head = none ∧
    exSweepBid.best_bid_ < exSweepBid.best_ask_ :=
  ⟨exReachSweepBid, by decide, by decide, rfl, rfl,
    (C5_not_crossed_unless_sentinel exSweepBid exReachSweepBid).2 ⟨rfl, rfl⟩⟩

/-! ## C4 on a book with a resting bid and a resting ask -/

/-- C4 on the book after `Add(1, BUY, 100, 10)` and `Add(2, SELL, 200, 5)`: the
bid level 100 and the ask level 200 are occupied, `best_bid_ = 100`,
`best_ask_ = 200`, and the cached bests are the exact extremes. -/
theorem C4_best_quote_exact_witness :
    Reachable exBook2 ∧ exBook2.best_bid_ = 100 ∧ exBook2.best_ask_ = 200 ∧
    (exBook2.bids_ 100).head ≠ none ∧ (exBook2.asks_ 200).head ≠ none ∧
    ((∀ p, p ≤ MAX_PRICE → (exBook2.bids_ p).head ≠ none → p ≤ exBook2.best_bid_) ∧
      ((exBook2.bids_ exBook2.best_bid_).head ≠ none ∨
        (exBook2.best_bid_ = 0 ∧ ∀ p, p ≤ MAX_PRICE → (exBook2.bids_ p).head = none)) ∧
      (∀ p, p ≤ MAX_PRICE → (exBook2.asks_ p).head ≠ none → exBook2.best_ask_ ≤ p) ∧
      ((exBook2.asks_ exBook2.best_ask_).head ≠ none ∨
        (exBook2.best_ask_ = MAX_PRICE ∧
          ∀ p, p ≤ MAX_PRICE → (exBook2.asks_ p).head = none)) ∧
      exBook2.best_bid_ ≤ MAX_PRICE ∧ exBook2.best_ask_ ≤ MAX_PRICE) :=
  ⟨exReach2, rfl, rfl, by decide, by decide, C4_best_quote_exact exBook2 exReach2⟩

end LLME
